import Mathlib

/-!
# ECM sector-stream decoder (`src/src/cdrecm.cpp`)

A shallow embedding of the ECC/EDC table engine, the sector reconstructor,
the chunk-header parser and the random-access decode driver, with the
properties stated for them.

Conventions of the embedding.
* Bytes, `uint32_t`, `size_t` and `u32` values are `Nat`; `s32`/`int` values
  are `Int`.  A reduction `% 2 ^ 32` or `% 256` is written wherever the C
  operation can leave the range of its type.
* Byte buffers and files are `List Nat`; `buf[i]` is `rd buf i`.
* A pointer into the sector buffer is the offset it points to.
-/

namespace Cdrecm

/-! ## Buffers -/

/-- Byte `i` of a buffer, `buf[i]` in the source. -/
def rd (buf : List Nat) (i : Nat) : Nat := buf.getD i 0

/-! ## LUTs used for computing ECC/EDC -/

/-- The three static tables `ecc_f_lut`, `ecc_b_lut` and `edc_lut`. -/
structure Luts where
  ecc_f_lut : List Nat
  ecc_b_lut : List Nat
  edc_lut : List Nat

/-- The tables as static storage holds them before `eccedc_init`: 256 zero
entries each. -/
def Luts.zero : Luts :=
  { ecc_f_lut := List.replicate 256 0
    ecc_b_lut := List.replicate 256 0
    edc_lut := List.replicate 256 0 }

/-- The loop `for(j = 0; j < 8; j++) edc = (edc >> 1) ^ (edc & 1 ? 0xD8018001 : 0)`
of `eccedc_init`, with the number of rounds left as first argument. -/
def edc_rounds : Nat → Nat → Nat
  | 0, edc => edc
  | n + 1, edc => edc_rounds n ((edc >>> 1) ^^^ (if edc &&& 1 ≠ 0 then 0xD8018001 else 0))

/-- One iteration of the loop of `eccedc_init`, for table index `i`. -/
def eccedc_init_step (t : Luts) (i : Nat) : Luts :=
  let j := (i <<< 1) ^^^ (if i &&& 0x80 ≠ 0 then 0x11D else 0)
  { ecc_f_lut := t.ecc_f_lut.set i (j % 256)
    ecc_b_lut := t.ecc_b_lut.set (i ^^^ j) i
    edc_lut := t.edc_lut.set i (edc_rounds 8 i) }

/-- The loop `for(i = 0; i < 256; i++)` of `eccedc_init`: `n` iterations are
left and the next index is `i`. -/
def eccedc_init_loop : Nat → Nat → Luts → Luts
  | 0, _, t => t
  | n + 1, i, t => eccedc_init_loop n (i + 1) (eccedc_init_step t i)

/-- The function `eccedc_init`, as a transformer of the three tables. -/
def eccedc_init (t : Luts) : Luts := eccedc_init_loop 256 0 t

/-- The function `edc_compute(edc, src, size)`; the list is the `size` bytes at
`src`, consumed front to back. -/
def edc_compute (t : Luts) : Nat → List Nat → Nat
  | edc, [] => edc
  | edc, b :: src => edc_compute t ((edc >>> 8) ^^^ rd t.edc_lut ((edc ^^^ b) &&& 0xFF)) src

/-- The constant `zeroaddress`. -/
def zeroaddress : List Nat := [0, 0, 0, 0]

/-- What the `address` argument of `ecc_writepq` points to: an offset into the
sector buffer, or the constant `zeroaddress`. -/
inductive AddrPtr where
  | inSector (off : Nat)
  | zeros

/-- The read `address[i]`. -/
def AddrPtr.load (sector : List Nat) : AddrPtr → Nat → Nat
  | AddrPtr.inSector off, i => rd sector (off + i)
  | AddrPtr.zeros, i => rd zeroaddress i

/-- The inner loop `for(minor = 0; minor < minor_count; minor++)` of
`ecc_writepq`: `n` iterations are left; returns `(ecc_a, ecc_b)`.  `data` is
the offset of the data pointer in the sector buffer. -/
def ecc_minor_loop (t : Luts) (sector : List Nat) (address : AddrPtr) (data size minor_inc : Nat) :
    Nat → Nat → Nat → Nat → Nat × Nat
  | 0, _, ecc_a, ecc_b => (ecc_a, ecc_b)
  | n + 1, index, ecc_a, ecc_b =>
    let temp := if index < 4 then address.load sector index else rd sector (data + (index - 4))
    let index1 := index + minor_inc
    let index2 := if index1 ≥ size then index1 - size else index1
    ecc_minor_loop t sector address data size minor_inc n index2
      (rd t.ecc_f_lut (ecc_a ^^^ temp)) (ecc_b ^^^ temp)

/-- The two bytes `ecc_writepq` computes for one value of `major`: the one it
stores at `ecc[major]` and the one it stores at `ecc[major + major_count]`. -/
def ecc_pair (t : Luts) (sector : List Nat) (address : AddrPtr) (data : Nat)
    (major_count minor_count major_mult minor_inc major : Nat) : Nat × Nat :=
  let size := major_count * minor_count
  let index := (major >>> 1) * major_mult + (major &&& 1)
  let r := ecc_minor_loop t sector address data size minor_inc minor_count index 0 0
  let ecc_a := rd t.ecc_b_lut (rd t.ecc_f_lut r.1 ^^^ r.2)
  (ecc_a, ecc_a ^^^ r.2)

/-- The outer loop `for(major = 0; major < major_count; major++)` of
`ecc_writepq`: `n` iterations are left and the next one is `major`.  `ecc` is
the offset of the output pointer in the sector buffer. -/
def ecc_major_loop (t : Luts) (address : AddrPtr) (data : Nat)
    (major_count minor_count major_mult minor_inc ecc : Nat) :
    Nat → Nat → List Nat → List Nat
  | 0, _, sector => sector
  | n + 1, major, sector =>
    let p := ecc_pair t sector address data major_count minor_count major_mult minor_inc major
    ecc_major_loop t address data major_count minor_count major_mult minor_inc ecc n (major + 1)
      ((sector.set (ecc + major) p.1).set (ecc + major + major_count) p.2)

/-- The function `ecc_writepq`, on the sector buffer that `data` and `ecc`
(and `address`, unless it is `zeroaddress`) point into. -/
def ecc_writepq (t : Luts) (address : AddrPtr) (data : Nat)
    (major_count minor_count major_mult minor_inc ecc : Nat) (sector : List Nat) : List Nat :=
  ecc_major_loop t address data major_count minor_count major_mult minor_inc ecc major_count 0 sector

/-- The function `ecc_writesector`: the P codes, then the Q codes at `ecc + 0xAC`. -/
def ecc_writesector (t : Luts) (address : AddrPtr) (data ecc : Nat) (sector : List Nat) : List Nat :=
  ecc_writepq t address data 52 43 86 88 (ecc + 0xAC)
    (ecc_writepq t address data 86 24 2 86 ecc sector)

/-- The function `put32lsb(dest, value)`, with `dest` an offset into the buffer. -/
def put32lsb (buf : List Nat) (dest value : Nat) : List Nat :=
  (((buf.set dest (value % 256)).set (dest + 1) ((value >>> 8) % 256)).set (dest + 2)
    ((value >>> 16) % 256)).set (dest + 3) ((value >>> 24) % 256)

/-- The sync writes `sector[0x000] = 0x00; sector[0x001] = 0xFF; ...; sector[0x00B] = 0x00`. -/
def write_sync (sector : List Nat) : List Nat :=
  (((((((((((sector.set 0x000 0x00).set 0x001 0xFF).set 0x002 0xFF).set 0x003 0xFF).set 0x004
    0xFF).set 0x005 0xFF).set 0x006 0xFF).set 0x007 0xFF).set 0x008 0xFF).set 0x009 0xFF).set
    0x00A 0xFF).set 0x00B 0x00

/-- The first `switch(type)` of `reconstruct_sector`: mode byte, then the
reserved field (type 1) or the copy of the flags (types 2 and 3). -/
def write_mode (sector : List Nat) (type : Int) : List Nat :=
  if type = 1 then
    ((((((((sector.set 0x00F 0x01).set 0x814 0x00).set 0x815 0x00).set 0x816 0x00).set 0x817
      0x00).set 0x818 0x00).set 0x819 0x00).set 0x81A 0x00).set 0x81B 0x00
  else if type = 2 ∨ type = 3 then
    let s0 := sector.set 0x00F 0x02
    let s1 := s0.set 0x010 (rd s0 0x014)
    let s2 := s1.set 0x011 (rd s1 0x015)
    let s3 := s2.set 0x012 (rd s2 0x016)
    s3.set 0x013 (rd s3 0x017)
  else sector

/-- The second `switch(type)` of `reconstruct_sector`: compute and store the EDC. -/
def write_edc (t : Luts) (sector : List Nat) (type : Int) : List Nat :=
  if type = 1 then put32lsb sector 0x810 (edc_compute t 0 (sector.take 0x810))
  else if type = 2 then put32lsb sector 0x818 (edc_compute t 0 ((sector.drop 0x10).take 0x808))
  else if type = 3 then put32lsb sector 0x92C (edc_compute t 0 ((sector.drop 0x10).take 0x91C))
  else sector

/-- The third `switch(type)` of `reconstruct_sector`: compute and store the ECC. -/
def write_ecc (t : Luts) (sector : List Nat) (type : Int) : List Nat :=
  if type = 1 then ecc_writesector t (AddrPtr.inSector 0xC) 0x10 0x81C sector
  else if type = 2 then ecc_writesector t AddrPtr.zeros 0x10 0x81C sector
  else sector

/-- The function `reconstruct_sector(sector, type)` on a 2352-byte buffer. -/
def reconstruct_sector (t : Luts) (sector : List Nat) (type : Int) : List Nat :=
  write_ecc t (write_edc t (write_mode (write_sync sector) type) type) type

/-- The conditions under which `ecc_writepq` reads only below its output
range: the indices stay below `major_count * minor_count`, the address and
data bytes lie below `ecc`, and the output range lies in the buffer. -/
structure EccOk (address : AddrPtr) (data mc nc mm mi ecc len : Nat) : Prop where
  inc_le : mi ≤ mc * nc
  init_lt : ∀ major, major < mc → (major >>> 1) * mm + (major &&& 1) < mc * nc
  data_below : data + (mc * nc - 4) ≤ ecc
  addr_below : ∀ off, address = AddrPtr.inSector off → off + 4 ≤ ecc
  in_bounds : ecc + 2 * mc ≤ len

/-! ## Layout predicates for reconstructed sectors -/

/-- The four bytes of `r` at offset `off` are `value` in little-endian order. -/
def StoredLsb (r : List Nat) (off value : Nat) : Prop :=
  rd r off = value % 256 ∧ rd r (off + 1) = (value >>> 8) % 256 ∧
  rd r (off + 2) = (value >>> 16) % 256 ∧ rd r (off + 3) = (value >>> 24) % 256

/-- The 276 bytes of `r` at `0x81C` are the 172 P bytes followed by the 104 Q
bytes that `ecc_writepq` computes from the four bytes at `address` and the
region of `r` that starts at `0x010`. -/
def HasParity (t : Luts) (address : AddrPtr) (r : List Nat) : Prop :=
  (∀ m, m < 86 →
    rd r (0x81C + m) = (ecc_pair t r address 0x10 86 24 2 86 m).1 ∧
    rd r (0x81C + 86 + m) = (ecc_pair t r address 0x10 86 24 2 86 m).2) ∧
  (∀ m, m < 52 →
    rd r (0x8C8 + m) = (ecc_pair t r address 0x10 52 43 86 88 m).1 ∧
    rd r (0x8C8 + 52 + m) = (ecc_pair t r address 0x10 52 43 86 88 m).2)

/-- The byte ranges of a sector buffer that the stream stores for a unit of
type 1, 2 or 3 (the destinations of the `fread` calls of the decoder). -/
def storedRange (type : Int) (i : Nat) : Prop :=
  if type = 1 then (0x00C ≤ i ∧ i ≤ 0x00E) ∨ (0x010 ≤ i ∧ i ≤ 0x80F)
  else if type = 2 then 0x014 ≤ i ∧ i ≤ 0x817
  else if type = 3 then 0x014 ≤ i ∧ i ≤ 0x92B
  else False

/-! ## The decoder `cdread_ecm_decode`

The embedding is that of the build without `ENABLE_ECM_FULL` (the macro is
defined nowhere in the sources): `decoded_ecm_sectors` is the constant 0, so
`processsectors` starts as `FALSE`, no decoded copy is kept and the value
returned on success is `CD_FRAMESIZE_RAW`.  The call is the one on the ECM
handle (`f == GetCdFileHandle()`); the other branch forwards to the reader of
the disc-image layer.  A `FILE` is the list of its bytes and a position; file
positions are `long` and are not reduced. -/

/-- Modelled from the spec: the constant `CD_FRAMESIZE_RAW` of `cdrom.h` (a
header that is not among the sources), the 2352 bytes of a raw sector. -/
def CD_FRAMESIZE_RAW : Nat := 2352

/-- The constant `ECM_HEADER_SIZE`. -/
def ECM_HEADER_SIZE : Nat := 4

/-- The table `ECM_SECTOR_SIZE`. -/
def ECM_SECTOR_SIZE : List Nat := [1, 2352, 2336, 2336]

/-- The conversion of an `int` to `u32`. -/
def toU32 (x : Int) : Nat := (x % 2 ^ 32).toNat

/-- The labels the decoder jumps to on failure (all three return -1), and
`fuel` for a loop of the embedding that was given too few iterations. -/
inductive Err where
  | error_in
  | error
  | error_out
  | fuel
  deriving DecidableEq, Repr

/-- The loop `while(c & 0x80)` of the header parse.  `rest` is what `fgetc`
has still to deliver, `c` the last byte read and `k` the number of bytes read
so far; returns `num` and the number of bytes read. -/
def header_loop : List Nat → Nat → Nat → Nat → Nat → Except Err (Nat × Nat)
  | rest, c, num, bits, k =>
    if c &&& 0x80 = 0 then Except.ok (num, k)
    else
      match rest with
      | [] => Except.error Err.error_in
      | c1 :: rest1 =>
        if bits > 31 ∨ (c1 &&& 0x7F) ≥ (0x80000000 >>> (bits - 1)) then Except.error Err.error
        else header_loop rest1 c1 (num ||| (((c1 &&& 0x7F) <<< bits) % 2 ^ 32)) (bits + 7) (k + 1)

/-- The header parse at the top of the decode loop (`int c = fgetc(f); int
bits = 5; ...`): returns `type`, `num` (before `num++`) and the number of bytes
read. -/
def read_header : List Nat → Except Err (Nat × Nat × Nat)
  | [] => Except.error Err.error_in
  | c :: rest =>
    match header_loop rest c ((c >>> 2) &&& 0x1F) 5 1 with
    | Except.error e => Except.error e
    | Except.ok (num, k) => Except.ok (c &&& 3, num, k)

/-- An entry `ECMFILELUT` of the seek table. -/
structure ECMFILELUT where
  sector : Int
  filepos : Int
  deriving DecidableEq, Repr

/-- The session state: `ecm_savetable`, `len_ecm_savetable`,
`len_decoded_ecm_buffer` and `prevsector`.  The table is a total function of
the index; the array of the source has the `75*80*60` entries that `handleecm`
reserves and is indexed without a test, so the function is the array only for
calls whose indices stay below that number (`InBounds`). -/
structure Session where
  ecm_savetable : Nat → ECMFILELUT
  len_ecm_savetable : Nat
  len_decoded_ecm_buffer : Nat
  prevsector : Nat

/-- The assignment `ecm_savetable[i] = e`. -/
def setEntry (tbl : Nat → ECMFILELUT) (i : Nat) (e : ECMFILELUT) : Nat → ECMFILELUT :=
  fun k => if k = i then e else tbl k

/-- The loop `for (sectorcount = sector; sectorcount > 0 && sector - sectorcount
<= 50000; sectorcount--)` that probes the table; the argument is
`sectorcount`, the value is the index of the entry `pos` points to afterwards
(0 when the loop ends without a `break`). -/
def lut_search (tbl : Nat → ECMFILELUT) (sector : Nat) : Nat → Nat
  | 0 => 0
  | sectorcount + 1 =>
    if sector - (sectorcount + 1) ≤ 50000 then
      if (tbl (sectorcount + 1)).filepos ≥ 4 then sectorcount + 1
      else lut_search tbl sector sectorcount
    else 0

/-- The choice of the entry `pos` to resume from (the `if (sector <=
len_ecm_savetable)` block): the index of the entry. -/
def select_pos (s : Session) (sector : Int) : Nat :=
  if toU32 sector ≤ s.len_ecm_savetable then
    let p := lut_search s.ecm_savetable sector.toNat sector.toNat
    if (s.ecm_savetable p).filepos ≤ 4 ∧ toU32 sector > s.prevsector then s.prevsector else p
  else 0

/-- The locals of `cdread_ecm_decode` that the loops change, with the
position of `f`. -/
structure Locals where
  num : Nat
  processsectors : Bool
  sectorcount : Int
  writebytecount : Nat
  fpos : Nat
  sector_buffer : List Nat

/-- The call `fread(buf, 1, n, f)` at position `fpos`, compared with `n`: the
bytes read when there are `n` of them, `none` for a short read. -/
def fread (f : List Nat) (fpos n : Nat) : Option (List Nat) :=
  if ((f.drop fpos).take n).length = n then some ((f.drop fpos).take n) else none

/-- The bytes `bytes` stored into `buf` from offset `off` on. -/
def store (buf : List Nat) (off : Nat) (bytes : List Nat) : List Nat :=
  buf.take off ++ bytes ++ buf.drop (off + bytes.length)

/-- The `switch(type)` of the unit loop: one unit of the run.  Returns the
locals after it and `b`. -/
def decode_unit (t : Luts) (f : List Nat) (type : Nat) (st : Locals) : Except Err (Locals × Nat) :=
  if type = 0 then
    let b := if st.num > 2352 then 2352 else st.num
    let w := (st.writebytecount + b) % 2 ^ 32
    if st.processsectors = false then
      Except.ok ({ st with writebytecount := w, fpos := st.fpos + b }, b)
    else
      match fread f st.fpos b with
      | none => Except.error Err.error_in
      | some bytes =>
        Except.ok ({ st with writebytecount := w, fpos := st.fpos + b,
                             sector_buffer := store st.sector_buffer 0 bytes }, b)
  else if type = 1 then
    let w := (st.writebytecount + rd ECM_SECTOR_SIZE type) % 2 ^ 32
    match fread f st.fpos 0x003 with
    | none => Except.error Err.error_in
    | some addr =>
      match fread f (st.fpos + 0x003) 0x800 with
      | none => Except.error Err.error_in
      | some data =>
        let buf := store (store st.sector_buffer 0x00C addr) 0x010 data
        if st.processsectors = false then
          Except.ok ({ st with writebytecount := w, fpos := st.fpos + 0x003 + 0x800,
                               sector_buffer := buf }, 1)
        else
          Except.ok ({ st with writebytecount := w, fpos := st.fpos + 0x003 + 0x800,
                               sector_buffer := reconstruct_sector t buf 1 }, 1)
  else if type = 2 then
    let w := (st.writebytecount + rd ECM_SECTOR_SIZE type) % 2 ^ 32
    if st.processsectors = false then
      Except.ok ({ st with writebytecount := w, fpos := st.fpos + 0x804 }, 1)
    else
      match fread f st.fpos 0x804 with
      | none => Except.error Err.error_in
      | some bytes =>
        Except.ok ({ st with writebytecount := w, fpos := st.fpos + 0x804,
                             sector_buffer :=
                               reconstruct_sector t (store st.sector_buffer 0x014 bytes) 2 }, 1)
  else
    let w := (st.writebytecount + rd ECM_SECTOR_SIZE type) % 2 ^ 32
    if st.processsectors = false then
      Except.ok ({ st with writebytecount := w, fpos := st.fpos + 0x918 }, 1)
    else
      match fread f st.fpos 0x918 with
      | none => Except.error Err.error_in
      | some bytes =>
        Except.ok ({ st with writebytecount := w, fpos := st.fpos + 0x918,
                             sector_buffer :=
                               reconstruct_sector t (store st.sector_buffer 0x014 bytes) 3 }, 1)

/-- The unit of the run and the two assignments after the `switch`:
`sectorcount = writebytecount / CD_FRAMESIZE_RAW; num -= b;`. -/
def unit_step (t : Luts) (f : List Nat) (type : Nat) (st : Locals) : Except Err Locals :=
  match decode_unit t f type st with
  | Except.error e => Except.error e
  | Except.ok (st1, b) =>
    Except.ok { st1 with sectorcount := ((st1.writebytecount / CD_FRAMESIZE_RAW : Nat) : Int),
                         num := st1.num - b }

/-- The loop `while(num)` over the units of a run; the first argument bounds
the number of iterations. -/
def inner_loop (t : Luts) (f : List Nat) (sector : Int) (type : Nat) :
    Nat → Locals → Except Err Locals
  | 0, st => if st.num = 0 then Except.ok st else Except.error Err.fuel
  | fuel + 1, st =>
    if st.num = 0 then Except.ok st
    else if st.processsectors = false ∧ st.sectorcount ≥ sector - 1 then
      match unit_step t f type { st with processsectors := true } with
      | Except.error e => Except.error e
      | Except.ok st1 => inner_loop t f sector type fuel st1
    else if st.processsectors = true ∧ st.sectorcount > sector then Except.ok st
    else
      match unit_step t f type st with
      | Except.error e => Except.error e
      | Except.ok st1 => inner_loop t f sector type fuel st1

/-- The checkpoint written after a run: `if (type && sectorcount > 0 &&
ecm_savetable[sectorcount].filepos <= ECM_HEADER_SIZE) { ... }`.  The field
`filepos` is an `s32`; the value of `ftell` is stored as it is, which is what
the source stores for offsets below `2^31` (`InBounds`). -/
def record (tbl : Nat → ECMFILELUT) (type : Nat) (st : Locals) : Nat → ECMFILELUT :=
  if type ≠ 0 ∧ st.sectorcount > 0 ∧ (tbl st.sectorcount.toNat).filepos ≤ ECM_HEADER_SIZE then
    setEntry tbl st.sectorcount.toNat { sector := st.sectorcount, filepos := st.fpos }
  else tbl

/-- The loop `while(sector >= sectorcount)` over the chunks; the first argument
bounds the number of iterations.  The session is returned in every case: what
the loop has stored in it stays stored when the call fails. -/
def outer_loop (t : Luts) (f : List Nat) (sector : Int) :
    Nat → Session → Locals → Session × Except Err Locals
  | 0, s, st => if sector ≥ st.sectorcount then (s, Except.error Err.fuel) else (s, Except.ok st)
  | fuel + 1, s, st =>
    if sector ≥ st.sectorcount then
      match read_header (f.drop st.fpos) with
      | Except.error e => (s, Except.error e)
      | Except.ok (type, num, k) =>
        if num = 0xFFFFFFFF then
          ({ s with len_decoded_ecm_buffer := st.writebytecount,
                    len_ecm_savetable := st.writebytecount / CD_FRAMESIZE_RAW },
            Except.ok { st with fpos := st.fpos + k, num := num })
        else
          match inner_loop t f sector type ((num + 1) % 2 ^ 32)
              { st with fpos := st.fpos + k, num := (num + 1) % 2 ^ 32 } with
          | Except.error e => (s, Except.error e)
          | Except.ok st1 =>
            outer_loop t f sector fuel { s with ecm_savetable := record s.ecm_savetable type st1 }
              st1
    else (s, Except.ok st)

/-- What a call of `cdread_ecm_decode` leaves: the session, the 2352 bytes
copied to `dest` (`none` when the call fails and writes none), and the value
returned. -/
structure Result where
  session : Session
  dest : Option (List Nat)
  ret : Int

/-- The function `cdread_ecm_decode(f, base, dest, sector)` on the ECM handle.
`stack` is the content of the uninitialised local `sector_buffer`.  The value
is `none` only if a loop of the embedding runs out of iterations. -/
def cdread_ecm_decode (t : Luts) (s : Session) (f : List Nat) (stack : List Nat) (sector : Int) :
    Option Result :=
  let pos := s.ecm_savetable (select_pos s sector)
  let st : Locals :=
    { num := 0
      processsectors := false
      sectorcount := pos.sector
      writebytecount := toU32 (pos.sector * CD_FRAMESIZE_RAW)
      fpos := pos.filepos.toNat
      sector_buffer := stack }
  match outer_loop t f sector (f.length + 1) s st with
  | (s1, Except.ok st1) =>
    some { session := { s1 with prevsector := toU32 st1.sectorcount }
           dest := some (st1.sector_buffer.take CD_FRAMESIZE_RAW)
           ret := CD_FRAMESIZE_RAW }
  | (_, Except.error Err.fuel) => none
  | (s1, Except.error _) => some { session := s1, dest := none, ret := -1 }

/-- The session `handleecm` sets up before any scan: a zeroed table whose
entry 0 holds `filepos = ECM_HEADER_SIZE`, `len_ecm_savetable = 75*80*60` and
`prevsector = 0`. -/
def freshSession : Session :=
  { ecm_savetable := setEntry (fun _ => { sector := 0, filepos := 0 }) 0
      { sector := 0, filepos := ECM_HEADER_SIZE }
    len_ecm_savetable := 75 * 80 * 60
    len_decoded_ecm_buffer := 0
    prevsector := 0 }

/-! ## The stream format, from the writer's side -/

/-- Modelled from the spec: the continuation bytes of a chunk header, 7 bits
of the remaining run length each (`rest % 128`) with the top bit (128) as
continuation flag (the repository holds only the decoder of the format).  The
first argument bounds the number of bytes. -/
def encode_rest : Nat → Nat → List Nat
  | 0, _ => []
  | n + 1, rest =>
    if rest < 128 then [rest] else (128 + rest % 128) :: encode_rest n (rest / 128)

/-- Modelled from the spec: the chunk header of the raw run length `raw`
(`count - 1`) and `type`: low 2 bits the type, next 5 bits the low bits of
`raw`, top bit (128) the continuation flag, then the continuation bytes. -/
def encode_raw (type raw : Nat) : List Nat :=
  if raw < 32 then [raw * 4 + type]
  else (128 + (raw % 32) * 4 + type) :: encode_rest 4 (raw / 32)

/-- Modelled from the spec: the chunk header for `count` units of `type`. -/
def encode_header (type count : Nat) : List Nat := encode_raw type (count - 1)

/-- Modelled from the spec: the end-of-stream indicator, the header of the raw
run length `0xFFFFFFFF`. -/
def sentinel : List Nat := encode_raw 0 0xFFFFFFFF

/-! ## Statements about chunk headers -/

/-- The run-length bits that the continuation bytes `cs` contribute when the
first of them is shifted by `bits`: the sum of `(c & 0x7F) * 2^bits`,
`(c' & 0x7F) * 2^(bits+7)`, ... -/
def group_sum : Nat → List Nat → Nat
  | _, [] => 0
  | bits, c :: cs => (c &&& 0x7F) * 2 ^ bits + group_sum (bits + 7) cs

/-- The byte `c` followed by the bytes `cs` is a complete continuation chain:
every byte but the last has bit 7 set and the last has bit 7 clear. -/
def ContinuationChain : Nat → List Nat → Prop
  | c, [] => c &&& 0x80 = 0
  | c, c1 :: cs => c &&& 0x80 ≠ 0 ∧ ContinuationChain c1 cs

/-! ## Well-formed Mode 1 streams -/

/-- A stored unit of type 1: its 3 address bytes and its 0x800 data bytes. -/
structure Mode1Unit where
  addr : List Nat
  data : List Nat

/-- The stored bytes of a run of type 1 units. -/
def unitsBytes : List Mode1Unit → List Nat
  | [] => []
  | u :: us => u.addr ++ u.data ++ unitsBytes us

/-- The bytes of a sequence of type 1 chunks: for each chunk its header (type
1, count the number of its units) and its units. -/
def chunksBytes : List (List Mode1Unit) → List Nat
  | [] => []
  | c :: cs => encode_header 1 c.length ++ unitsBytes c ++ chunksBytes cs

/-- The stream `'E','C','M',0` + chunks + end indicator. -/
def mode1Stream (chunks : List (List Mode1Unit)) : List Nat :=
  [0x45, 0x43, 0x4D, 0x00] ++ chunksBytes chunks ++ sentinel

/-- Every chunk has at least one unit and every unit has 3 address bytes and
0x800 data bytes. -/
def WellFormedChunks (chunks : List (List Mode1Unit)) : Prop :=
  ∀ c, c ∈ chunks → c ≠ [] ∧ ∀ u, u ∈ c → u.addr.length = 3 ∧ u.data.length = 0x800

/-- The 2352-byte buffer `buf` holds the stored unit `u`: its address bytes at
`0x00C..0x00E` and its data bytes at `0x010..0x80F`. -/
def Holds (buf : List Nat) (u : Mode1Unit) : Prop :=
  buf.length = 2352 ∧ (∀ k, k < 3 → rd buf (0x00C + k) = rd u.addr k) ∧
  (∀ k, k < 0x800 → rd buf (0x010 + k) = rd u.data k)

/-- A freshly initialised session: only checkpoint entry 0 is populated, with
offset 4, and the cursor `prevsector` is 0. -/
def IsFresh (s : Session) : Prop :=
  s.ecm_savetable 0 = { sector := 0, filepos := 4 } ∧
  (∀ k, 0 < k → s.ecm_savetable k = { sector := 0, filepos := 0 }) ∧
  s.prevsector = 0

/-- The state of the locals between two units of a decode from sector 0 for
the target `n`, when `x` sectors have been decoded. -/
def LoopInv (n x : Nat) (st : Locals) : Prop :=
  st.sectorcount = (x : Int) ∧ st.writebytecount = 2352 * x ∧
  (st.processsectors = true ↔ (0 < x ∧ n ≤ x)) ∧ st.sector_buffer.length = 2352

/-- The units of a sequence of chunks in stream order: unit `n` of this list
is the stored unit of sector `n`. -/
def allUnits : List (List Mode1Unit) → List Mode1Unit
  | [] => []
  | c :: cs => c ++ allUnits cs

/-! ## An example stream -/

/-- A stored type 1 unit of zero bytes. -/
def unitZero : Mode1Unit := { addr := [0, 0, 0], data := List.replicate 0x800 0 }

/-- A stored type 1 unit whose first five bytes are `0xFF`. -/
def unitFF : Mode1Unit :=
  { addr := [0xFF, 0xFF, 0xFF], data := 0xFF :: 0xFF :: List.replicate 0x7FE 0 }

/-- The stream `'E','C','M',0`, header `0x05` (type 1, count 2), `unitZero`,
`unitFF`, end indicator: two Mode 1 sectors in one run. -/
def twoUnitStream : List Nat := mode1Stream [[unitZero, unitFF]]

/-! ## One unit of a run, by type -/

/-- The value of `b` for one unit of a run of `type` with `num` left: for type
0 up to 2352 literal bytes, for the other types one unit. -/
def unit_b (type num : Nat) : Nat :=
  if type = 0 then (if num > 2352 then 2352 else num) else 1

/-- The number of stream bytes one unit takes: `b` literal bytes for type 0,
`0x803`, `0x804` and `0x918` stored bytes for the types 1, 2 and 3. -/
def unit_stored (type num : Nat) : Nat :=
  if type = 0 then (if num > 2352 then 2352 else num)
  else if type = 1 then 0x803 else if type = 2 then 0x804 else 0x918

/-- The number of decoded bytes one unit adds to `writebytecount`: `b` for
type 0 and `ECM_SECTOR_SIZE[type]` for the other types. -/
def unit_decoded (type num : Nat) : Nat :=
  if type = 0 then (if num > 2352 then 2352 else num) else rd ECM_SECTOR_SIZE type

/-! ## The checkpoint table -/

/-- The test of the lookup loop for a usable entry:
`ecm_savetable[sectorcount].filepos >= ECM_HEADER_SIZE`. -/
def Populated (e : ECMFILELUT) : Prop := e.filepos ≥ ECM_HEADER_SIZE

/-- The shape of the table in the states of a session: entry 0 is (sector 0,
offset 4), and every other entry is either zero as `calloc` left it or holds
its own index as sector and an offset beyond the magic header. -/
def TableInv (tbl : Nat → ECMFILELUT) : Prop :=
  tbl 0 = { sector := 0, filepos := 4 } ∧
  ∀ k, 0 < k → tbl k = { sector := 0, filepos := 0 } ∨
    ((tbl k).sector = (k : Int) ∧ 4 < (tbl k).filepos)

/-! ## Detection: `handleecm` -/

/-- The constant `INT_MAX` of a 32-bit `int`. -/
def INT_MAX : Int := 2147483647

/-- The statics of `cdrecm.cpp` that `handleecm` reads and writes: the session,
the ECC/EDC tables, the flag `ecm_file_detected` and the pointer
`cdimg_read_func_normal` (`true` once it points to `cdread_normal`). -/
structure EcmState where
  session : Session
  luts : Luts
  ecm_file_detected : Bool
  cdimg_read_func_normal : Bool

/-- What a call of `handleecm` leaves: the statics, the value stored through
`accurate_length` (`none` when nothing is stored) and the value returned. -/
structure Detection where
  state : EcmState
  accurate_length : Option Int
  ret : Int

/-- The operand `strncmp(isoname + strlen(isoname) - 5, ".ecm", 4)` of the
condition of `handleecm`, as the truth value C gives it: `true` when `strncmp`
returns a non-zero value, that is when the four characters of the name from
position `strlen - 5` on are not `'.','e','c','m'`.  `isoname` lists the
characters of the name.  For a name of fewer than 5 characters the pointer of
the source lies before the name; the comparison here then starts at the first
character. -/
def strncmp_ecm (isoname : List Nat) : Bool :=
  decide ((isoname.drop (isoname.length - 5)).take 4 ≠ [0x2E, 0x65, 0x63, 0x6D])

/-- The function `handleecm(isoname, cdh, accurate_length)`.  The argument
`accurate_length` tells whether the pointer is non-null; `stack` is the content
of the uninitialised `sector_buffer` of the scan it may start
(`decoded_ecm_sectors` is 0).  The value is `none` only if the scan runs out of
iterations. -/
def handleecm (st : EcmState) (isoname cdh : List Nat) (accurate_length : Bool)
    (stack : List Nat) : Option Detection :=
  if cdh[0]? = some 0x45 ∧ cdh[1]? = some 0x43 ∧ cdh[2]? = some 0x4D ∧ cdh[3]? = some 0x00 ∧
      strncmp_ecm isoname = true then
    if st.ecm_file_detected = true then
      some { state := { st with cdimg_read_func_normal := true,
                                session := { st.session with prevsector := 0 } }
             accurate_length :=
               if accurate_length = true then some (st.session.len_ecm_savetable : Int) else none
             ret := 0 }
    else
      let luts := eccedc_init st.luts
      let s0 : Session :=
        { ecm_savetable := setEntry (fun _ => { sector := 0, filepos := 0 }) 0
            { sector := 0, filepos := ECM_HEADER_SIZE }
          len_ecm_savetable := 75 * 80 * 60
          len_decoded_ecm_buffer := st.session.len_decoded_ecm_buffer
          prevsector := 0 }
      if accurate_length = true then
        match cdread_ecm_decode luts { s0 with len_ecm_savetable := 0 } cdh stack INT_MAX with
        | none => none
        | some r =>
          some { state := { session := r.session, luts := luts, ecm_file_detected := true,
                            cdimg_read_func_normal := true }
                 accurate_length := some (r.session.len_ecm_savetable : Int)
                 ret := 0 }
      else
        some { state := { session := s0, luts := luts, ecm_file_detected := true,
                          cdimg_read_func_normal := true }
               accurate_length := none
               ret := 0 }
  else some { state := st, accurate_length := none, ret := -1 }

/-- One call on the image `f` in a session: a decode call for any sector, or a
further call of `handleecm`. -/
inductive Step (f : List Nat) : EcmState → EcmState → Prop where
  | decode (st : EcmState) (stack : List Nat) (sector : Int) (r : Result) :
      cdread_ecm_decode st.luts st.session f stack sector = some r →
      Step f st { st with session := r.session }
  | detect (st : EcmState) (isoname : List Nat) (al : Bool) (stack : List Nat) (r : Detection) :
      handleecm st isoname f al stack = some r → Step f st r.state

/-- The states of a session on the image `f`: those a successful `handleecm`
leaves when it detects the image, and those any sequence of calls leads to
from there. -/
inductive Reachable (f : List Nat) : EcmState → Prop where
  | detected (st0 : EcmState) (isoname : List Nat) (al : Bool) (stack : List Nat)
      (r : Detection) :
      st0.ecm_file_detected = false → handleecm st0 isoname f al stack = some r → r.ret = 0 →
      Reachable f r.state
  | step (st st1 : EcmState) : Reachable f st → Step f st st1 → Reachable f st1

/-- The table `tbl1` comes from `tbl` by checkpoint writes: every entry is
either the same or was not beyond the magic header (`filepos <= 4`), has an
index above 0, and now holds that index as sector and an offset beyond the
magic header. -/
def Extends (tbl tbl1 : Nat → ECMFILELUT) : Prop :=
  ∀ k, tbl1 k = tbl k ∨
    (0 < k ∧ (tbl k).filepos ≤ 4 ∧ (tbl1 k).sector = (k : Int) ∧ 4 < (tbl1 k).filepos)

/-- The statics before detection: no table, flag and pointer not set. -/
def initialState : EcmState :=
  { session :=
      { ecm_savetable := fun _ => { sector := 0, filepos := 0 }
        len_ecm_savetable := 0
        len_decoded_ecm_buffer := 0
        prevsector := 0 }
    luts := Luts.zero
    ecm_file_detected := false
    cdimg_read_func_normal := false }

/-- The name `a.ecm`. -/
def nameEcm : List Nat := [0x61, 0x2E, 0x65, 0x63, 0x6D]

/-- The name `a.bin`. -/
def nameBin : List Nat := [0x61, 0x2E, 0x62, 0x69, 0x6E]

/-- The stream of an image without sectors: `'E','C','M',0` and the end
indicator. -/
def emptyStream : List Nat := [0x45, 0x43, 0x4D, 0x00] ++ sentinel

/-- The statics after `handleecm` has detected an image without a scan. -/
def detectedState : EcmState :=
  { session := freshSession
    luts := eccedc_init Luts.zero
    ecm_file_detected := true
    cdimg_read_func_normal := true }

/-- The statics after a read of sector 0 of `emptyStream` from `detectedState`:
the read meets the end indicator at once and sets both lengths to 0. -/
def afterEmptyRead : EcmState :=
  { detectedState with
    session := { freshSession with len_ecm_savetable := 0, len_decoded_ecm_buffer := 0 } }

/-- A stream of one run of type 0: 9408 literal zero bytes, four sectors of
2352 bytes. -/
def metaStream : List Nat :=
  [0x45, 0x43, 0x4D, 0x00] ++ encode_header 0 9408 ++ List.replicate 9408 0 ++ sentinel

/-! ## Headers that do not fit, and the headers a call reads -/

/-- A chunk header whose run length does not fit in 32 bits: four bytes with
the continuation bit set (5 + 3 * 7 = 26 bits), then either a fifth byte whose
7-bit group is 64 or more (a bit at position 32 or above), or a fifth byte with
the continuation bit set and a sixth byte (33 bits before it). -/
def Overlong (l : List Nat) : Prop :=
  ∃ c0 c1 c2 c3 c4 rest, l = c0 :: c1 :: c2 :: c3 :: c4 :: rest ∧
    c0 &&& 0x80 ≠ 0 ∧ c1 &&& 0x80 ≠ 0 ∧ c2 &&& 0x80 ≠ 0 ∧ c3 &&& 0x80 ≠ 0 ∧
    (64 ≤ c4 &&& 0x7F ∨ (c4 &&& 0x80 ≠ 0 ∧ rest ≠ []))

/-- The chunk loop of a call for `sector`, when it is in the state `(s, st)`
at the top of an iteration, reads a chunk header at offset `p` of the stream:
in this iteration, or in a later one after the run of this one has ended
without error. -/
inductive ReadsHeaderAt (t : Luts) (f : List Nat) (sector : Int) :
    Session → Locals → Nat → Prop where
  | here (s : Session) (st : Locals) :
      sector ≥ st.sectorcount → ReadsHeaderAt t f sector s st st.fpos
  | later (s : Session) (st : Locals) (type num k : Nat) (st1 : Locals) (p : Nat) :
      sector ≥ st.sectorcount →
      read_header (f.drop st.fpos) = Except.ok (type, num, k) → num ≠ 0xFFFFFFFF →
      inner_loop t f sector type ((num + 1) % 2 ^ 32)
        { st with fpos := st.fpos + k, num := (num + 1) % 2 ^ 32 } = Except.ok st1 →
      ReadsHeaderAt t f sector { s with ecm_savetable := record s.ecm_savetable type st1 } st1 p →
      ReadsHeaderAt t f sector s st p

/-- A stream whose first chunk header is `81 80 80 80 20`: type 1, raw run
length `2^31`, which takes 32 bits; one stored unit of zero bytes follows. -/
def wideStream : List Nat :=
  [0x45, 0x43, 0x4D, 0x00] ++ [0x81, 0x80, 0x80, 0x80, 0x20] ++ List.replicate 0x803 0 ++ []

/-- A stream whose first chunk header is five bytes `FF`. -/
def corruptStream : List Nat := [0x45, 0x43, 0x4D, 0x00, 0xFF, 0xFF, 0xFF, 0xFF, 0xFF]

/-- The locals of `cdread_ecm_decode` when it enters its chunk loop: `num` and
`processsectors` as initialised, `sectorcount`, `writebytecount` and the
position of `f` as taken from the entry `pos`. -/
def entryLocals (s : Session) (sector : Int) (stack : List Nat) : Locals :=
  { num := 0
    processsectors := false
    sectorcount := (s.ecm_savetable (select_pos s sector)).sector
    writebytecount := toU32 ((s.ecm_savetable (select_pos s sector)).sector * CD_FRAMESIZE_RAW)
    fpos := (s.ecm_savetable (select_pos s sector)).filepos.toNat
    sector_buffer := stack }

/-! ## Streams of chunks of every type -/

/-- Modelled from the spec: a chunk of a stream, with its type, its count
(units; bytes for type 0) and its stored bytes. -/
structure Chunk where
  type : Nat
  count : Nat
  payload : List Nat

/-- Modelled from the spec: the stored bytes per unit of a chunk: one literal
byte for type 0, `0x803`, `0x804` and `0x918` bytes for the types 1, 2, 3. -/
def stored_unit (type : Nat) : Nat :=
  if type = 0 then 1 else if type = 1 then 0x803 else if type = 2 then 0x804 else 0x918

/-- Modelled from the spec: a chunk has a type in 0..3, a count in `1 ..
2^32 - 1` and as many stored bytes as its count asks for. -/
def Chunk.WellFormed (c : Chunk) : Prop :=
  c.type < 4 ∧ 1 ≤ c.count ∧ c.count ≤ 2 ^ 32 - 1 ∧
  c.payload.length = c.count * stored_unit c.type

/-- Modelled from the spec: the bytes of a sequence of chunks, each its header
followed by its stored bytes. -/
def chunkBytes : List Chunk → List Nat
  | [] => []
  | c :: cs => encode_header c.type c.count ++ c.payload ++ chunkBytes cs

/-- Modelled from the spec: the stream `'E','C','M',0` + chunks + the header of
raw run length `0xFFFFFFFF` with type bits `ty` + whatever follows. -/
def ecmStream (cs : List Chunk) (ty : Nat) (tail : List Nat) : List Nat :=
  [0x45, 0x43, 0x4D, 0x00] ++ chunkBytes cs ++ encode_raw ty 0xFFFFFFFF ++ tail

/-- The decoded length of a sequence of chunks: the sum of count times unit
size `ECM_SECTOR_SIZE[type]` (1, 2352, 2336, 2336). -/
def decodedLength : List Chunk → Nat
  | [] => 0
  | c :: cs => c.count * rd ECM_SECTOR_SIZE c.type + decodedLength cs

/-- Two chunks: three literal bytes, then one stored type 1 unit of zero
bytes. -/
def sampleChunks : List Chunk :=
  [{ type := 0, count := 3, payload := [7, 8, 9] },
   { type := 1, count := 1, payload := List.replicate 0x803 0 }]

/-- One run of four type 1 units.  The stored bytes are zero except `B8 49`
at the start of the second unit and `01` at byte 302 of the third unit. -/
def crossChunk : Chunk :=
  { type := 1
    count := 4
    payload := List.replicate 2051 0
      ++ ([0xB8, 0x49] ++ List.replicate 2351 0 ++ ([0x01] ++ List.replicate 3799 0)) }

/-- The stream of the one run `crossChunk`: chunk header at offset 4, units at
the offsets 5, 2056, 4107 and 6158, end indicator at offset 8209. -/
def crossStream : List Nat := ecmStream [crossChunk] 0 []

/-- A stored type 2 unit whose bytes all have the value `v`. -/
def form1Chunk (v : Nat) : Chunk :=
  { type := 2, count := 1, payload := List.replicate 0x804 v }

/-- A stream of four chunks of one type 2 unit each (2336 decoded bytes per
unit), with the byte values 1, 2, 3 and 4. -/
def form1Stream : List Nat :=
  ecmStream [form1Chunk 1, form1Chunk 2, form1Chunk 3, form1Chunk 4] 0 []

/-! ### Tables after `eccedc_init` -/

/-- The three tables have the declared size: 256 entries each
(`ecc_f_lut[256]`, `ecc_b_lut[256]`, `edc_lut[256]`). -/
def Luts.Sized (t : Luts) : Prop :=
  t.ecc_f_lut.length = 256 ∧ t.ecc_b_lut.length = 256 ∧ t.edc_lut.length = 256

/-- The value `j` that `eccedc_init` computes for index `i` before it is
narrowed to a byte: `(i << 1) ^ (i & 0x80 ? 0x11D : 0)`. -/
def init_j (i : Nat) : Nat := (i <<< 1) ^^^ (if i &&& 0x80 ≠ 0 then 0x11D else 0)

/-- The index `i ^ j` at which `eccedc_init` stores `i` in the back table. -/
def init_slot (i : Nat) : Nat := i ^^^ init_j i

/-- Doubling in GF(2^8) modulo 0x11D, on a byte. -/
def mul2 (i : Nat) : Nat := init_j i % 256

/-- Division by 3 in GF(2^8) modulo 0x11D: multiplication by 0xF4, the
inverse of 3, written with doublings (0xF4 has bits 7, 6, 5, 4 and 2). -/
def div3 (k : Nat) : Nat :=
  mul2^[7] k ^^^ mul2^[6] k ^^^ mul2^[5] k ^^^ mul2^[4] k ^^^ mul2^[2] k

/-- One round of the EDC table recurrence, in the words of the format
description: shift right, and fold in 0xD8018001 when the value was odd. -/
def edc_round (e : Nat) : Nat := (e >>> 1) ^^^ (if e % 2 = 1 then 0xD8018001 else 0)

/-! ### The inputs of one parity pair -/

/-- The update of the read index in the minor loop of `ecc_writepq`:
`index += minor_inc; if(index >= size) index -= size`. -/
def ecc_next (size minor_inc index : Nat) : Nat :=
  let index1 := index + minor_inc
  if index1 ≥ size then index1 - size else index1

/-- The start index of the minor loop for `major`:
`(major >> 1) * major_mult + (major & 1)`. -/
def ecc_start (major_mult major : Nat) : Nat := (major >>> 1) * major_mult + (major &&& 1)

/-- The indices at which the minor loop reads, in order: `n` reads from
`index` on. -/
def ecc_indices (size minor_inc : Nat) : Nat → Nat → List Nat
  | 0, _ => []
  | n + 1, index => index :: ecc_indices size minor_inc n (ecc_next size minor_inc index)

/-- The byte `temp` that the minor loop reads at `index`: `address[index]`
below 4, `data[index - 4]` from 4 on. -/
def ecc_temp (sector : List Nat) (address : AddrPtr) (data index : Nat) : Nat :=
  if index < 4 then address.load sector index else rd sector (data + (index - 4))

/-- The input bytes that the minor loop visits for `major`, in order. -/
def ecc_inputs (sector : List Nat) (address : AddrPtr)
    (data major_count minor_count major_mult minor_inc major : Nat) : List Nat :=
  (ecc_indices (major_count * minor_count) minor_inc minor_count
    (ecc_start major_mult major)).map (ecc_temp sector address data)

/-- Exclusive or of a list of bytes. -/
def xorAll (ds : List Nat) : Nat := ds.foldl (fun b x => b ^^^ x) 0

/-- The weighted sum of the second Reed-Solomon check: for inputs
`d_0 .. d_(n-1)` the value `F^(n+1)(d_0) xor F^n(d_1) xor ... xor F^2(d_(n-1))`,
with `F` the doubling map. -/
def rs_weighted (F : Nat → Nat) : List Nat → Nat
  | [] => 0
  | d :: ds => F^[ds.length + 2] d ^^^ rs_weighted F ds

/-- Every entry of the buffer is a byte. -/
def Bytes (s : List Nat) : Prop := ∀ i, rd s i < 256

/-! ### Table indices a call reads -/

/-- The table indices that the probe loop of the lookup reads, in order: the
loop of `lut_search`, listing `sectorcount` at every test of
`ecm_savetable[sectorcount].filepos`. -/
def lut_probes (tbl : Nat → ECMFILELUT) (sector : Nat) : Nat → List Nat
  | 0 => []
  | sectorcount + 1 =>
    if sector - (sectorcount + 1) ≤ 50000 then
      (sectorcount + 1) ::
        (if (tbl (sectorcount + 1)).filepos ≥ 4 then [] else lut_probes tbl sector sectorcount)
    else []

/-- The table indices that the block `if (sector <= len_ecm_savetable)` reads:
the probes of the loop, then the index `prevsector` when the fallback to the
cursor is taken. -/
def lookup_reads (s : Session) (sector : Int) : List Nat :=
  if toU32 sector ≤ s.len_ecm_savetable then
    lut_probes s.ecm_savetable sector.toNat sector.toNat ++
      (if (s.ecm_savetable (lut_search s.ecm_savetable sector.toNat sector.toNat)).filepos ≤ 4
          ∧ toU32 sector > s.prevsector then [s.prevsector] else [])
  else []

/-- The decoded sector count at the end of chunk `i` of `cs`: the decoded
bytes of the chunks `0 .. i`, divided by 2352. -/
def endCount (cs : List Chunk) (i : Nat) : Nat := decodedLength (cs.take (i + 1)) / 2352

/-- The source offset of the byte that follows the last stored byte of chunk
`i` of `cs` (where the next chunk header starts), in a stream that starts
with the 4-byte magic header. -/
def endOffset (cs : List Chunk) (i : Nat) : Nat := 4 + (chunkBytes (cs.take (i + 1))).length

/-- The checkpoint test and write after a run, `record`, for a run of type
`type` that ends with sector count `k` at source offset `pos`. -/
def scan_record (tbl : Nat → ECMFILELUT) (type k pos : Nat) : Nat → ECMFILELUT :=
  if type ≠ 0 ∧ 0 < k ∧ (tbl k).filepos ≤ 4 then
    setEntry tbl k { sector := (k : Int), filepos := (pos : Int) }
  else tbl

/-- The table after the chunk loop has decoded every run of `cs` to its end,
starting at source offset `pos` with `wbc` decoded bytes. -/
def scanTable : (Nat → ECMFILELUT) → Nat → Nat → List Chunk → Nat → ECMFILELUT
  | tbl, _, _, [] => tbl
  | tbl, pos, wbc, c :: cs =>
    scanTable
      (scan_record tbl c.type ((wbc + c.count * rd ECM_SECTOR_SIZE c.type) / 2352)
        (pos + (encode_header c.type c.count).length + c.payload.length))
      (pos + (encode_header c.type c.count).length + c.payload.length)
      (wbc + c.count * rd ECM_SECTOR_SIZE c.type) cs

/-- The table `handleecm` starts from: zero entries, entry 0 at offset 4. -/
def freshTable : Nat → ECMFILELUT :=
  setEntry (fun _ => { sector := 0, filepos := 0 }) 0 { sector := 0, filepos := ECM_HEADER_SIZE }

/-- A stream without end indicator that breaks off inside a unit: four chunks
of one type 2 unit each (byte values 1, 2, 3, 4), then the header of a fifth
such chunk and the first four of its 0x804 stored bytes. -/
def truncStream : List Nat :=
  [0x45, 0x43, 0x4D, 0x00] ++ chunkBytes [form1Chunk 1, form1Chunk 2, form1Chunk 3, form1Chunk 4]
    ++ encode_header 2 1 ++ [5, 5, 5, 5]

/-! ## Table accesses of a call

The array `ecm_savetable` of the source has the `75*80*60` entries that
`handleecm` reserves, and its entries hold `s32` values.  The definitions below
list the indices a call uses, so that a statement about a call can require them
to lie inside the array. -/

/-- The index and the value of `ftell(f)` that the checkpoint statement after a
run uses: `if (type && sectorcount > 0 && ecm_savetable[sectorcount].filepos <=
ECM_HEADER_SIZE)` reads entry `sectorcount` as soon as `type` is not 0 and
`sectorcount > 0`, and writes that entry when the test holds. -/
def record_access (type : Nat) (st : Locals) : List (Nat × Nat) :=
  if type ≠ 0 ∧ st.sectorcount > 0 then [(st.sectorcount.toNat, st.fpos)] else []

/-- The accesses of the checkpoint statement during the loop
`while(sector >= sectorcount)`, in order: the loop of `outer_loop`, with the
pair of `record_access` noted after every run in place of the table. -/
def outer_loop_accesses (t : Luts) (f : List Nat) (sector : Int) :
    Nat → Locals → List (Nat × Nat)
  | 0, _ => []
  | fuel + 1, st =>
    if sector ≥ st.sectorcount then
      match read_header (f.drop st.fpos) with
      | Except.error _ => []
      | Except.ok (type, num, k) =>
        if num = 0xFFFFFFFF then []
        else
          match inner_loop t f sector type ((num + 1) % 2 ^ 32)
              { st with fpos := st.fpos + k, num := (num + 1) % 2 ^ 32 } with
          | Except.error _ => []
          | Except.ok st1 => record_access type st1 ++ outer_loop_accesses t f sector fuel st1
    else []

/-- The accesses of the checkpoint statement during the call
`cdread_ecm_decode(f, base, dest, sector)` in the session `s`. -/
def call_accesses (t : Luts) (s : Session) (f : List Nat) (stack : List Nat) (sector : Int) :
    List (Nat × Nat) :=
  let pos := s.ecm_savetable (select_pos s sector)
  outer_loop_accesses t f sector (f.length + 1)
    { num := 0
      processsectors := false
      sectorcount := pos.sector
      writebytecount := toU32 (pos.sector * CD_FRAMESIZE_RAW)
      fpos := pos.filepos.toNat
      sector_buffer := stack }

/-- The call stays inside the array: every entry the lookup reads and every
entry the checkpoint statement uses has an index below `75*80*60`, and every
offset the checkpoint statement takes from `ftell` fits the `s32` field. -/
def InBounds (t : Luts) (s : Session) (f : List Nat) (stack : List Nat) (sector : Int) : Prop :=
  (∀ k, k ∈ lookup_reads s sector → k < 75 * 80 * 60) ∧
  ∀ p, p ∈ call_accesses t s f stack sector → p.1 < 75 * 80 * 60 ∧ p.2 < 2 ^ 31

/-- The session in which `handleecm` runs its scan: the zeroed table with entry
0 at `ECM_HEADER_SIZE`, and `len_ecm_savetable = 0`. -/
def scanSession (st : EcmState) : Session :=
  { ecm_savetable := setEntry (fun _ => { sector := 0, filepos := 0 }) 0
      { sector := 0, filepos := ECM_HEADER_SIZE }
    len_ecm_savetable := 0
    len_decoded_ecm_buffer := st.session.len_decoded_ecm_buffer
    prevsector := 0 }

/-- The call `handleecm(isoname, cdh, accurate_length)` stays inside the array:
the scan it runs, when it runs one, does. -/
def DetectInBounds (st : EcmState) (isoname cdh : List Nat) (accurate_length : Bool)
    (stack : List Nat) : Prop :=
  (cdh[0]? = some 0x45 ∧ cdh[1]? = some 0x43 ∧ cdh[2]? = some 0x4D ∧ cdh[3]? = some 0x00 ∧
      strncmp_ecm isoname = true) →
    st.ecm_file_detected = false → accurate_length = true →
    InBounds (eccedc_init st.luts) (scanSession st) cdh stack INT_MAX

/-- One call on the image `f` that stays inside the array: a decode call for
any sector, or a further call of `handleecm`. -/
inductive SafeStep (f : List Nat) : EcmState → EcmState → Prop where
  | decode (st : EcmState) (stack : List Nat) (sector : Int) (r : Result) :
      InBounds st.luts st.session f stack sector →
      cdread_ecm_decode st.luts st.session f stack sector = some r →
      SafeStep f st { st with session := r.session }
  | detect (st : EcmState) (isoname : List Nat) (al : Bool) (stack : List Nat) (r : Detection) :
      DetectInBounds st isoname f al stack →
      handleecm st isoname f al stack = some r → SafeStep f st r.state

/-- The states of a session on the image `f` in which every call so far stayed
inside the array: those a successful `handleecm` leaves when it detects the
image, and those a sequence of such calls leads to from there. -/
inductive SafeReachable (f : List Nat) : EcmState → Prop where
  | detected (st0 : EcmState) (isoname : List Nat) (al : Bool) (stack : List Nat)
      (r : Detection) :
      st0.ecm_file_detected = false → DetectInBounds st0 isoname f al stack →
      handleecm st0 isoname f al stack = some r → r.ret = 0 →
      SafeReachable f r.state
  | step (st st1 : EcmState) : SafeReachable f st → SafeStep f st st1 → SafeReachable f st1

/-! ## Properties -/

/-! ### Buffers -/

theorem rd_set (l : List Nat) (i j v : Nat) :
    rd (l.set i v) j = if i = j ∧ i < l.length then v else rd l j := by
  unfold rd
  by_cases h : i = j
  · subst h
    by_cases hl : i < l.length
    · simp [hl, List.getD_eq_getElem?_getD]
    · simp [hl, List.getD_eq_getElem?_getD]
      rw [List.set_eq_of_length_le (by omega)]
  · simp [h, List.getD_eq_getElem?_getD, List.getElem?_set_ne h]

theorem rd_set_ne (l : List Nat) (i j v : Nat) (h : i ≠ j) : rd (l.set i v) j = rd l j := by
  simp [rd_set, h]

theorem rd_replicate (n v i : Nat) : rd (List.replicate n v) i = if i < n then v else 0 := by
  unfold rd
  by_cases h : i < n
  · simp [h, List.getD_eq_getElem?_getD, List.getElem?_replicate]
  · simp [h, List.getD_eq_getElem?_getD, List.getElem?_replicate]

theorem rd_of_le (l : List Nat) (i : Nat) (h : l.length ≤ i) : rd l i = 0 := by
  simp [rd, List.getD_eq_getElem?_getD, List.getElem?_eq_none h]

theorem rd_take (l : List Nat) (n i : Nat) : rd (l.take n) i = if i < n then rd l i else 0 := by
  unfold rd
  by_cases h : i < n
  · simp [h, List.getD_eq_getElem?_getD, List.getElem?_take_of_lt h]
  · have : (List.take n l)[i]? = none := by
      apply List.getElem?_eq_none
      simp only [List.length_take]; omega
    simp [h, List.getD_eq_getElem?_getD, this]

theorem rd_drop (l : List Nat) (n i : Nat) : rd (l.drop n) i = rd l (n + i) := by
  simp [rd, List.getD_eq_getElem?_getD, List.getElem?_drop]

theorem rd_append (a b : List Nat) (i : Nat) :
    rd (a ++ b) i = if i < a.length then rd a i else rd b (i - a.length) := by
  unfold rd
  by_cases h : i < a.length
  · simp [h, List.getD_eq_getElem?_getD, List.getElem?_append_left h]
  · simp [h, List.getD_eq_getElem?_getD, List.getElem?_append_right (Nat.le_of_not_lt h)]

theorem ext_rd {a b : List Nat} (hl : a.length = b.length)
    (h : ∀ i, i < a.length → rd a i = rd b i) : a = b := by
  apply List.ext_getElem hl
  intro i h1 h2
  have := h i h1
  simpa [rd, List.getD_eq_getElem?_getD, List.getElem?_eq_getElem h1, List.getElem?_eq_getElem h2] using this

/-! ### EDC -/

theorem edc_compute_append (t : Luts) (s : Nat) (a b : List Nat) :
    edc_compute t s (a ++ b) = edc_compute t (edc_compute t s a) b := by
  induction a generalizing s with
  | nil => rfl
  | cons x xs ih => simp [edc_compute, ih]

theorem edc_compute_eq_foldl (t : Luts) (s : Nat) (bs : List Nat) :
    edc_compute t s bs
      = bs.foldl (fun acc byte => (acc >>> 8) ^^^ rd t.edc_lut ((acc ^^^ byte) &&& 0xFF)) s := by
  induction bs generalizing s with
  | nil => rfl
  | cons x xs ih => simp [edc_compute, ih]

set_option maxRecDepth 100000 in
theorem edc_order_example :
    edc_compute (eccedc_init Luts.zero) 0 [0, 1] ≠ edc_compute (eccedc_init Luts.zero) 0 [1, 0] := by
  decide

/-! ### ECC -/

theorem ecc_minor_loop_congr (t : Luts) (s1 s2 : List Nat) (address : AddrPtr)
    (data size minor_inc : Nat) (hinc : minor_inc ≤ size)
    (haddr : ∀ i, i < 4 → address.load s1 i = address.load s2 i)
    (hdata : ∀ i, 4 ≤ i → i < size → rd s1 (data + (i - 4)) = rd s2 (data + (i - 4))) :
    ∀ (n index a b : Nat), index < size →
      ecc_minor_loop t s1 address data size minor_inc n index a b
        = ecc_minor_loop t s2 address data size minor_inc n index a b := by
  intro n
  induction n with
  | zero => intro index a b _; rfl
  | succ n ih =>
    intro index a b hidx
    have htemp : (if index < 4 then address.load s1 index else rd s1 (data + (index - 4)))
        = (if index < 4 then address.load s2 index else rd s2 (data + (index - 4))) := by
      by_cases h4 : index < 4
      · simp [h4, haddr index h4]
      · simp [h4, hdata index (by omega) hidx]
    simp only [ecc_minor_loop, htemp]
    apply ih
    split_ifs <;> omega

theorem ecc_pair_congr (t : Luts) (s1 s2 : List Nat) (address : AddrPtr)
    (data mc nc mm mi major : Nat) (hinc : mi ≤ mc * nc)
    (hinit : (major >>> 1) * mm + (major &&& 1) < mc * nc)
    (haddr : ∀ i, i < 4 → address.load s1 i = address.load s2 i)
    (hdata : ∀ i, 4 ≤ i → i < mc * nc → rd s1 (data + (i - 4)) = rd s2 (data + (i - 4))) :
    ecc_pair t s1 address data mc nc mm mi major = ecc_pair t s2 address data mc nc mm mi major := by
  simp only [ecc_pair]
  rw [ecc_minor_loop_congr t s1 s2 address data (mc * nc) mi hinc haddr hdata nc _ 0 0 hinit]

theorem AddrPtr.load_congr (address : AddrPtr) (s1 s2 : List Nat) (ecc : Nat)
    (haddr : ∀ off, address = AddrPtr.inSector off → off + 4 ≤ ecc)
    (h : ∀ i, i < ecc → rd s1 i = rd s2 i) :
    ∀ i, i < 4 → address.load s1 i = address.load s2 i := by
  intro i hi
  cases address with
  | inSector off =>
    have := haddr off rfl
    simp only [AddrPtr.load]
    exact h _ (by omega)
  | zeros => rfl

theorem ecc_pair_congr_below {address : AddrPtr} {data mc nc mm mi ecc len : Nat}
    (t : Luts) (hok : EccOk address data mc nc mm mi ecc len) (s1 s2 : List Nat)
    (h : ∀ i, i < ecc → rd s1 i = rd s2 i) (major : Nat) (hm : major < mc) :
    ecc_pair t s1 address data mc nc mm mi major = ecc_pair t s2 address data mc nc mm mi major := by
  apply ecc_pair_congr t s1 s2 address data mc nc mm mi major hok.inc_le (hok.init_lt major hm)
  · exact AddrPtr.load_congr address s1 s2 ecc hok.addr_below h
  · intro i h4 hi
    apply h
    have := hok.data_below
    omega

theorem ecc_major_loop_spec {address : AddrPtr} {data mc nc mm mi ecc len : Nat}
    (t : Luts) (hok : EccOk address data mc nc mm mi ecc len) :
    ∀ (n major : Nat) (sector : List Nat), major + n = mc → sector.length = len →
      (ecc_major_loop t address data mc nc mm mi ecc n major sector).length = len ∧
      (∀ i, (i < ecc + major ∨ (ecc + mc ≤ i ∧ i < ecc + mc + major) ∨ ecc + 2 * mc ≤ i) →
        rd (ecc_major_loop t address data mc nc mm mi ecc n major sector) i = rd sector i) ∧
      (∀ m, major ≤ m → m < mc →
        rd (ecc_major_loop t address data mc nc mm mi ecc n major sector) (ecc + m)
          = (ecc_pair t sector address data mc nc mm mi m).1 ∧
        rd (ecc_major_loop t address data mc nc mm mi ecc n major sector) (ecc + m + mc)
          = (ecc_pair t sector address data mc nc mm mi m).2) := by
  intro n
  induction n with
  | zero =>
    intro major sector hmn hlen
    refine ⟨hlen, fun i _ => rfl, ?_⟩
    intro m h1 h2; omega
  | succ n ih =>
    intro major sector hmn hlen
    have hb := hok.in_bounds
    simp only [ecc_major_loop]
    generalize hp : ecc_pair t sector address data mc nc mm mi major = p
    have hlen' : ((sector.set (ecc + major) p.1).set (ecc + major + mc) p.2).length = len := by
      simp [hlen]
    have hrd' : ∀ i, rd ((sector.set (ecc + major) p.1).set (ecc + major + mc) p.2) i
        = if i = ecc + major + mc then p.2 else if i = ecc + major then p.1 else rd sector i := by
      intro i
      simp only [rd_set, List.length_set, hlen]
      by_cases h1 : i = ecc + major + mc
      · subst h1
        have : ecc + major + mc < len := by omega
        simp [this]
      · by_cases h2 : i = ecc + major
        · subst h2
          have hlt : ecc + major < len := by omega
          have e1 : ¬ (ecc + major + mc = ecc + major) := by omega
          have e2 : ¬ (ecc + major = ecc + major + mc) := by omega
          simp [hlt, e1, e2]
        · have e1 : ¬ (ecc + major + mc = i) := fun h => h1 h.symm
          have e2 : ¬ (ecc + major = i) := fun h => h2 h.symm
          simp [h1, h2, e1, e2]
    obtain ⟨h1, h2, h3⟩ := ih (major + 1)
      ((sector.set (ecc + major) p.1).set (ecc + major + mc) p.2) (by omega) hlen'
    refine ⟨h1, ?_, ?_⟩
    · intro i hi
      rw [h2 i (by omega), hrd']
      have e1 : i ≠ ecc + major + mc := by omega
      have e2 : i ≠ ecc + major := by omega
      simp [e1, e2]
    · intro m hm1 hm2
      have hbelow : ∀ i, i < ecc →
          rd ((sector.set (ecc + major) p.1).set (ecc + major + mc) p.2) i = rd sector i := by
        intro i hi
        rw [hrd']
        have e1 : i ≠ ecc + major + mc := by omega
        have e2 : i ≠ ecc + major := by omega
        simp [e1, e2]
      by_cases hmm : m = major
      · subst hmm
        rw [h2 (ecc + m) (by omega), h2 (ecc + m + mc) (by omega), hrd', hrd', hp]
        have e1 : ecc + m ≠ ecc + m + mc := by omega
        simp [e1]
      · have := h3 m (by omega) hm2
        rw [ecc_pair_congr_below t hok _ sector hbelow m hm2] at this
        exact this

theorem ecc_writepq_spec {address : AddrPtr} {data mc nc mm mi ecc len : Nat}
    (t : Luts) (hok : EccOk address data mc nc mm mi ecc len) (sector : List Nat)
    (hlen : sector.length = len) :
    (ecc_writepq t address data mc nc mm mi ecc sector).length = len ∧
    (∀ i, (i < ecc ∨ ecc + 2 * mc ≤ i) →
      rd (ecc_writepq t address data mc nc mm mi ecc sector) i = rd sector i) ∧
    (∀ m, m < mc →
      rd (ecc_writepq t address data mc nc mm mi ecc sector) (ecc + m)
        = (ecc_pair t sector address data mc nc mm mi m).1 ∧
      rd (ecc_writepq t address data mc nc mm mi ecc sector) (ecc + m + mc)
        = (ecc_pair t sector address data mc nc mm mi m).2) := by
  obtain ⟨h1, h2, h3⟩ := ecc_major_loop_spec t hok mc 0 sector (by omega) hlen
  refine ⟨h1, ?_, ?_⟩
  · intro i hi
    exact h2 i (by omega)
  · intro m hm
    exact h3 m (Nat.zero_le m) hm

theorem eccOk_P (address : AddrPtr) (haddr : ∀ off, address = AddrPtr.inSector off → off + 4 ≤ 0x81C) :
    EccOk address 0x10 86 24 2 86 0x81C 2352 :=
  { inc_le := by decide
    init_lt := by decide
    data_below := by decide
    addr_below := haddr
    in_bounds := by decide }

theorem eccOk_Q (address : AddrPtr) (haddr : ∀ off, address = AddrPtr.inSector off → off + 4 ≤ 0x81C) :
    EccOk address 0x10 52 43 86 88 0x8C8 2352 :=
  { inc_le := by decide
    init_lt := by decide
    data_below := by decide
    addr_below := fun off h => by have := haddr off h; omega
    in_bounds := by decide }

theorem ecc_writepq_congr {address : AddrPtr} {data mc nc mm mi ecc len : Nat}
    (t : Luts) (hok : EccOk address data mc nc mm mi ecc len) (s1 s2 : List Nat)
    (h1 : s1.length = len) (h2 : s2.length = len) (h : ∀ i, i < ecc → rd s1 i = rd s2 i) :
    ∀ i, i < ecc + 2 * mc →
      rd (ecc_writepq t address data mc nc mm mi ecc s1) i
        = rd (ecc_writepq t address data mc nc mm mi ecc s2) i := by
  intro i hi
  obtain ⟨_, f1, v1⟩ := ecc_writepq_spec t hok s1 h1
  obtain ⟨_, f2, v2⟩ := ecc_writepq_spec t hok s2 h2
  by_cases hlt : i < ecc
  · rw [f1 i (Or.inl hlt), f2 i (Or.inl hlt), h i hlt]
  · by_cases hm : i < ecc + mc
    · obtain ⟨m, rfl⟩ : ∃ m, i = ecc + m := ⟨i - ecc, by omega⟩
      have hmc : m < mc := by omega
      rw [(v1 m hmc).1, (v2 m hmc).1, ecc_pair_congr_below t hok s1 s2 h m hmc]
    · obtain ⟨m, rfl⟩ : ∃ m, i = ecc + m + mc := ⟨i - ecc - mc, by omega⟩
      have hmc : m < mc := by omega
      rw [(v1 m hmc).2, (v2 m hmc).2, ecc_pair_congr_below t hok s1 s2 h m hmc]

theorem ecc_writesector_eq (t : Luts) (address : AddrPtr) (s : List Nat) :
    ecc_writesector t address 0x10 0x81C s
      = ecc_writepq t address 0x10 52 43 86 88 0x8C8
          (ecc_writepq t address 0x10 86 24 2 86 0x81C s) := rfl

theorem ecc_pair_congr_from {address : AddrPtr} {data mc nc mm mi ecc len : Nat}
    (t : Luts) (hok : EccOk address data mc nc mm mi ecc len) (lo : Nat) (hlo : lo ≤ data)
    (hloaddr : ∀ off, address = AddrPtr.inSector off → lo ≤ off) (s1 s2 : List Nat)
    (h : ∀ i, lo ≤ i → i < ecc → rd s1 i = rd s2 i) (major : Nat) (hm : major < mc) :
    ecc_pair t s1 address data mc nc mm mi major = ecc_pair t s2 address data mc nc mm mi major := by
  apply ecc_pair_congr t s1 s2 address data mc nc mm mi major hok.inc_le (hok.init_lt major hm)
  · intro i hi
    cases address with
    | inSector off =>
      have h1 := hok.addr_below off rfl
      have h2 := hloaddr off rfl
      simp only [AddrPtr.load]
      exact h _ (by omega) (by omega)
    | zeros => rfl
  · intro i h4 hi
    apply h
    · omega
    · have := hok.data_below
      omega

theorem ecc_writepq_congr_from {address : AddrPtr} {data mc nc mm mi ecc len : Nat}
    (t : Luts) (hok : EccOk address data mc nc mm mi ecc len) (lo : Nat) (hlo : lo ≤ data)
    (hloaddr : ∀ off, address = AddrPtr.inSector off → lo ≤ off) (s1 s2 : List Nat)
    (h1 : s1.length = len) (h2 : s2.length = len)
    (h : ∀ i, lo ≤ i → i < ecc → rd s1 i = rd s2 i) :
    ∀ i, lo ≤ i → i < ecc + 2 * mc →
      rd (ecc_writepq t address data mc nc mm mi ecc s1) i
        = rd (ecc_writepq t address data mc nc mm mi ecc s2) i := by
  intro i hlow hi
  obtain ⟨_, f1, v1⟩ := ecc_writepq_spec t hok s1 h1
  obtain ⟨_, f2, v2⟩ := ecc_writepq_spec t hok s2 h2
  by_cases hlt : i < ecc
  · rw [f1 i (Or.inl hlt), f2 i (Or.inl hlt), h i hlow hlt]
  · by_cases hm : i < ecc + mc
    · obtain ⟨m, rfl⟩ : ∃ m, i = ecc + m := ⟨i - ecc, by omega⟩
      have hmc : m < mc := by omega
      rw [(v1 m hmc).1, (v2 m hmc).1, ecc_pair_congr_from t hok lo hlo hloaddr s1 s2 h m hmc]
    · obtain ⟨m, rfl⟩ : ∃ m, i = ecc + m + mc := ⟨i - ecc - mc, by omega⟩
      have hmc : m < mc := by omega
      rw [(v1 m hmc).2, (v2 m hmc).2, ecc_pair_congr_from t hok lo hlo hloaddr s1 s2 h m hmc]

/-- Two 2352-byte buffers that agree on `[lo, 0x81C)`, with the address and
data bytes at or above `lo`, get the same bytes on `[lo, 0x930)` from
`ecc_writesector`. -/
theorem ecc_writesector_congr_from (t : Luts) (address : AddrPtr)
    (haddr : ∀ off, address = AddrPtr.inSector off → off + 4 ≤ 0x81C) (lo : Nat) (hlo : lo ≤ 0x10)
    (hloaddr : ∀ off, address = AddrPtr.inSector off → lo ≤ off) (s1 s2 : List Nat)
    (h1 : s1.length = 2352) (h2 : s2.length = 2352)
    (h : ∀ i, lo ≤ i → i < 0x81C → rd s1 i = rd s2 i) :
    ∀ i, lo ≤ i → i < 0x930 →
      rd (ecc_writesector t address 0x10 0x81C s1) i
        = rd (ecc_writesector t address 0x10 0x81C s2) i := by
  have hP := ecc_writepq_congr_from t (eccOk_P address haddr) lo hlo hloaddr s1 s2 h1 h2 h
  have l1 := (ecc_writepq_spec t (eccOk_P address haddr) s1 h1).1
  have l2 := (ecc_writepq_spec t (eccOk_P address haddr) s2 h2).1
  have hQ := ecc_writepq_congr_from t (eccOk_Q address haddr) lo hlo hloaddr _ _ l1 l2
    (fun i hi hi' => hP i hi (by omega))
  intro i hi hi'
  rw [ecc_writesector_eq, ecc_writesector_eq]
  exact hQ i hi (by omega)

theorem ecc_writesector_length (t : Luts) (address : AddrPtr)
    (haddr : ∀ off, address = AddrPtr.inSector off → off + 4 ≤ 0x81C) (s : List Nat)
    (hlen : s.length = 2352) : (ecc_writesector t address 0x10 0x81C s).length = 2352 := by
  rw [ecc_writesector_eq]
  exact (ecc_writepq_spec t (eccOk_Q address haddr) _
    (ecc_writepq_spec t (eccOk_P address haddr) s hlen).1).1

theorem ecc_writesector_below (t : Luts) (address : AddrPtr)
    (haddr : ∀ off, address = AddrPtr.inSector off → off + 4 ≤ 0x81C) (s : List Nat)
    (hlen : s.length = 2352) (i : Nat) (hi : i < 0x81C) :
    rd (ecc_writesector t address 0x10 0x81C s) i = rd s i := by
  rw [ecc_writesector_eq]
  obtain ⟨l1, f1, _⟩ := ecc_writepq_spec t (eccOk_P address haddr) s hlen
  obtain ⟨_, f2, _⟩ := ecc_writepq_spec t (eccOk_Q address haddr) _ l1
  rw [f2 i (Or.inl (by omega)), f1 i (Or.inl hi)]

theorem ecc_writesector_congr (t : Luts) (address : AddrPtr)
    (haddr : ∀ off, address = AddrPtr.inSector off → off + 4 ≤ 0x81C) (s1 s2 : List Nat)
    (h1 : s1.length = 2352) (h2 : s2.length = 2352) (h : ∀ i, i < 0x81C → rd s1 i = rd s2 i) :
    ecc_writesector t address 0x10 0x81C s1 = ecc_writesector t address 0x10 0x81C s2 := by
  have hP := ecc_writepq_congr t (eccOk_P address haddr) s1 s2 h1 h2 h
  have l1 := (ecc_writepq_spec t (eccOk_P address haddr) s1 h1).1
  have l2 := (ecc_writepq_spec t (eccOk_P address haddr) s2 h2).1
  have hQ := ecc_writepq_congr t (eccOk_Q address haddr) _ _ l1 l2
    (fun i hi => hP i (by omega))
  have m1 := (ecc_writepq_spec t (eccOk_Q address haddr) _ l1).1
  have m2 := (ecc_writepq_spec t (eccOk_Q address haddr) _ l2).1
  rw [ecc_writesector_eq, ecc_writesector_eq]
  apply ext_rd (by rw [m1, m2])
  intro i hi
  rw [m1] at hi
  exact hQ i (by omega)

/-- The parity bytes of a sector that `ecc_writesector` has completed are the
P and Q codes of that sector itself. -/
theorem ecc_writesector_parity (t : Luts) (address : AddrPtr)
    (haddr : ∀ off, address = AddrPtr.inSector off → off + 4 ≤ 0x81C) (s : List Nat)
    (hlen : s.length = 2352) :
    (∀ m, m < 86 →
      rd (ecc_writesector t address 0x10 0x81C s) (0x81C + m)
        = (ecc_pair t (ecc_writesector t address 0x10 0x81C s) address 0x10 86 24 2 86 m).1 ∧
      rd (ecc_writesector t address 0x10 0x81C s) (0x81C + 86 + m)
        = (ecc_pair t (ecc_writesector t address 0x10 0x81C s) address 0x10 86 24 2 86 m).2) ∧
    (∀ m, m < 52 →
      rd (ecc_writesector t address 0x10 0x81C s) (0x8C8 + m)
        = (ecc_pair t (ecc_writesector t address 0x10 0x81C s) address 0x10 52 43 86 88 m).1 ∧
      rd (ecc_writesector t address 0x10 0x81C s) (0x8C8 + 52 + m)
        = (ecc_pair t (ecc_writesector t address 0x10 0x81C s) address 0x10 52 43 86 88 m).2) := by
  obtain ⟨l1, f1, v1⟩ := ecc_writepq_spec t (eccOk_P address haddr) s hlen
  obtain ⟨l2, f2, v2⟩ := ecc_writepq_spec t (eccOk_Q address haddr) _ l1
  rw [ecc_writesector_eq]
  constructor
  · intro m hm
    have e : ecc_pair t (ecc_writepq t address 0x10 52 43 86 88 0x8C8
          (ecc_writepq t address 0x10 86 24 2 86 0x81C s)) address 0x10 86 24 2 86 m
        = ecc_pair t s address 0x10 86 24 2 86 m := by
      apply ecc_pair_congr_below t (eccOk_P address haddr) _ _ _ m hm
      intro i hi
      rw [f2 i (Or.inl (by omega)), f1 i (Or.inl hi)]
    rw [e, f2 _ (Or.inl (by omega)), f2 _ (Or.inl (by omega))]
    have := v1 m hm
    constructor
    · exact this.1
    · rw [show 0x81C + 86 + m = 0x81C + m + 86 by omega]; exact this.2
  · intro m hm
    have e : ecc_pair t (ecc_writepq t address 0x10 52 43 86 88 0x8C8
          (ecc_writepq t address 0x10 86 24 2 86 0x81C s)) address 0x10 52 43 86 88 m
        = ecc_pair t (ecc_writepq t address 0x10 86 24 2 86 0x81C s) address 0x10 52 43 86 88 m := by
      apply ecc_pair_congr_below t (eccOk_Q address haddr) _ _ _ m hm
      intro i hi
      rw [f2 i (Or.inl hi)]
    rw [e]
    have := v2 m hm
    constructor
    · exact this.1
    · rw [show 0x8C8 + 52 + m = 0x8C8 + m + 52 by omega]; exact this.2

/-! ### The stages of `reconstruct_sector` -/

theorem length_write_sync (s : List Nat) : (write_sync s).length = s.length := by
  simp [write_sync]

theorem length_write_mode (s : List Nat) (type : Int) : (write_mode s type).length = s.length := by
  unfold write_mode
  split_ifs <;> simp

theorem length_put32lsb (s : List Nat) (d v : Nat) : (put32lsb s d v).length = s.length := by
  simp [put32lsb]

theorem length_write_edc (t : Luts) (s : List Nat) (type : Int) :
    (write_edc t s type).length = s.length := by
  unfold write_edc
  split_ifs <;> simp [length_put32lsb]

theorem rd_write_sync (s : List Nat) (hlen : s.length = 2352) (i : Nat) :
    rd (write_sync s) i
      = if i = 0 then 0 else if i < 11 then 0xFF else if i = 11 then 0 else rd s i := by
  by_cases hi : i < 12
  · interval_cases i <;> simp [write_sync, rd_set, hlen]
  · have h0 : i ≠ 0 := by omega
    have h1 : ¬ i < 11 := by omega
    have h2 : i ≠ 11 := by omega
    simp only [h0, h1, h2, if_false, write_sync]
    simp (disch := omega) only [rd_set_ne]

theorem rd_write_mode1 (s : List Nat) (hlen : s.length = 2352) (i : Nat) :
    rd (write_mode s 1) i
      = if i = 0xF then 1 else if 0x814 ≤ i ∧ i ≤ 0x81B then 0 else rd s i := by
  simp only [write_mode, if_true]
  by_cases hi : i = 0xF ∨ (0x814 ≤ i ∧ i ≤ 0x81B)
  · rcases hi with hi | ⟨ha, hb⟩
    · subst hi; simp [rd_set, hlen]
    · interval_cases i <;> simp [rd_set, hlen]
  · have h0 : i ≠ 0xF := by omega
    have h2 : ¬ (0x814 ≤ i ∧ i ≤ 0x81B) := by omega
    simp only [h0, h2, if_false]
    simp (disch := omega) only [rd_set_ne]

theorem rd_write_mode23 (s : List Nat) (hlen : s.length = 2352) (type : Int)
    (ht : type = 2 ∨ type = 3) (i : Nat) :
    rd (write_mode s type) i
      = if i = 0xF then 2 else if 0x10 ≤ i ∧ i ≤ 0x13 then rd s (i + 4) else rd s i := by
  have h1 : ¬ type = 1 := by omega
  simp only [write_mode, h1, ht, if_true, if_false]
  by_cases hi : 0xF ≤ i ∧ i ≤ 0x13
  · obtain ⟨ha, hb⟩ := hi
    interval_cases i <;> simp [rd_set, hlen]
  · have h0 : i ≠ 0xF := by omega
    have h2 : ¬ (0x10 ≤ i ∧ i ≤ 0x13) := by omega
    simp only [h0, h2, if_false]
    simp (disch := omega) only [rd_set_ne]

theorem rd_put32lsb (s : List Nat) (d v : Nat) (hd : d + 3 < s.length) (i : Nat) :
    rd (put32lsb s d v) i
      = if i = d then v % 256 else if i = d + 1 then (v >>> 8) % 256
        else if i = d + 2 then (v >>> 16) % 256 else if i = d + 3 then (v >>> 24) % 256
        else rd s i := by
  simp only [put32lsb, rd_set, List.length_set]
  split_ifs <;> first | (exfalso; omega) | rfl

theorem take_eq_of_rd {a b : List Nat} (n : Nat) (hl : a.length = b.length)
    (h : ∀ i, i < n → rd a i = rd b i) : a.take n = b.take n := by
  apply ext_rd (by simp [hl])
  intro i hi
  rw [rd_take, rd_take]
  by_cases hn : i < n
  · simp [hn, h i hn]
  · simp [hn]

theorem drop_take_eq_of_rd {a b : List Nat} (k n : Nat) (hl : a.length = b.length)
    (h : ∀ i, k ≤ i → i < k + n → rd a i = rd b i) : (a.drop k).take n = (b.drop k).take n := by
  apply take_eq_of_rd n (by simp [hl])
  intro i hi
  rw [rd_drop, rd_drop]
  exact h _ (by omega) (by omega)

theorem addr_sector_below : ∀ off, AddrPtr.inSector 0xC = AddrPtr.inSector off → off + 4 ≤ 0x81C := by
  intro off h
  cases h
  decide

theorem addr_zeros_below : ∀ off, AddrPtr.zeros = AddrPtr.inSector off → off + 4 ≤ 0x81C := by
  intro off h
  cases h

theorem reconstruct_sector_one (t : Luts) (s : List Nat) :
    reconstruct_sector t s 1
      = ecc_writesector t (AddrPtr.inSector 0xC) 0x10 0x81C
          (put32lsb (write_mode (write_sync s) 1) 0x810
            (edc_compute t 0 ((write_mode (write_sync s) 1).take 0x810))) := by
  simp [reconstruct_sector, write_ecc, write_edc]

theorem reconstruct_sector_two (t : Luts) (s : List Nat) :
    reconstruct_sector t s 2
      = ecc_writesector t AddrPtr.zeros 0x10 0x81C
          (put32lsb (write_mode (write_sync s) 2) 0x818
            (edc_compute t 0 (((write_mode (write_sync s) 2).drop 0x10).take 0x808))) := by
  simp [reconstruct_sector, write_ecc, write_edc]

theorem reconstruct_sector_three (t : Luts) (s : List Nat) :
    reconstruct_sector t s 3
      = put32lsb (write_mode (write_sync s) 3) 0x92C
          (edc_compute t 0 (((write_mode (write_sync s) 3).drop 0x10).take 0x91C)) := by
  simp [reconstruct_sector, write_ecc, write_edc]

theorem reconstruct_sector_length (t : Luts) (s : List Nat) (type : Int) (hlen : s.length = 2352) :
    (reconstruct_sector t s type).length = 2352 := by
  have h3 : (write_edc t (write_mode (write_sync s) type) type).length = 2352 := by
    rw [length_write_edc, length_write_mode, length_write_sync, hlen]
  unfold reconstruct_sector write_ecc
  split_ifs
  · exact ecc_writesector_length t _ addr_sector_below _ h3
  · exact ecc_writesector_length t _ addr_zeros_below _ h3
  · exact h3

theorem rd_put32lsb_ne (s : List Nat) (d v : Nat) (i : Nat) (hi : i < d ∨ d + 4 ≤ i) :
    rd (put32lsb s d v) i = rd s i := by
  unfold put32lsb
  simp (disch := omega) only [rd_set_ne]

/-- Bytes of a reconstructed Mode 1 sector outside the EDC and parity fields. -/
theorem rd_reconstruct_one (t : Luts) (s : List Nat) (hlen : s.length = 2352) (i : Nat)
    (hi : i < 0x810 ∨ (0x814 ≤ i ∧ i < 0x81C)) :
    rd (reconstruct_sector t s 1) i = rd (write_mode (write_sync s) 1) i := by
  have l1 : (write_sync s).length = 2352 := by rw [length_write_sync, hlen]
  have l2 : (write_mode (write_sync s) 1).length = 2352 := by rw [length_write_mode, l1]
  rw [reconstruct_sector_one,
    ecc_writesector_below t _ addr_sector_below _ (by rw [length_put32lsb, l2]) i (by omega),
    rd_put32lsb_ne _ _ _ _ (by omega)]

theorem storedLsb_put32lsb (s : List Nat) (d v : Nat) (hd : d + 3 < s.length) :
    StoredLsb (put32lsb s d v) d v := by
  unfold StoredLsb
  rw [rd_put32lsb _ _ _ hd, rd_put32lsb _ _ _ hd, rd_put32lsb _ _ _ hd, rd_put32lsb _ _ _ hd]
  simp

theorem storedLsb_congr (r r' : List Nat) (d v v' : Nat) (hv : v = v')
    (h : ∀ i, d ≤ i → i < d + 4 → rd r' i = rd r i) (hs : StoredLsb r d v) :
    StoredLsb r' d v' := by
  subst hv
  unfold StoredLsb at *
  rw [h d (by omega) (by omega), h (d + 1) (by omega) (by omega),
    h (d + 2) (by omega) (by omega), h (d + 3) (by omega) (by omega)]
  exact hs

/-- A reconstructed Mode 1 sector up to the parity field is the buffer after
the EDC stage. -/
theorem rd_reconstruct_one_below (t : Luts) (s : List Nat) (hlen : s.length = 2352) (i : Nat)
    (hi : i < 0x81C) :
    rd (reconstruct_sector t s 1) i
      = rd (put32lsb (write_mode (write_sync s) 1) 0x810
          (edc_compute t 0 ((write_mode (write_sync s) 1).take 0x810))) i := by
  have l1 : (write_sync s).length = 2352 := by rw [length_write_sync, hlen]
  have l2 : (write_mode (write_sync s) 1).length = 2352 := by rw [length_write_mode, l1]
  rw [reconstruct_sector_one,
    ecc_writesector_below t _ addr_sector_below _ (by rw [length_put32lsb, l2]) i hi]

theorem rd_reconstruct_two_below (t : Luts) (s : List Nat) (hlen : s.length = 2352) (i : Nat)
    (hi : i < 0x81C) :
    rd (reconstruct_sector t s 2) i
      = rd (put32lsb (write_mode (write_sync s) 2) 0x818
          (edc_compute t 0 (((write_mode (write_sync s) 2).drop 0x10).take 0x808))) i := by
  have l1 : (write_sync s).length = 2352 := by rw [length_write_sync, hlen]
  have l2 : (write_mode (write_sync s) 2).length = 2352 := by rw [length_write_mode, l1]
  rw [reconstruct_sector_two,
    ecc_writesector_below t _ addr_zeros_below _ (by rw [length_put32lsb, l2]) i hi]

theorem rd_reconstruct_two (t : Luts) (s : List Nat) (hlen : s.length = 2352) (i : Nat)
    (hi : i < 0x818) :
    rd (reconstruct_sector t s 2) i = rd (write_mode (write_sync s) 2) i := by
  rw [rd_reconstruct_two_below t s hlen i (by omega), rd_put32lsb_ne _ _ _ _ (by omega)]

theorem rd_reconstruct_three (t : Luts) (s : List Nat) (i : Nat)
    (hi : i < 0x92C ∨ 0x930 ≤ i) :
    rd (reconstruct_sector t s 3) i = rd (write_mode (write_sync s) 3) i := by
  rw [reconstruct_sector_three, rd_put32lsb_ne _ _ _ _ (by omega)]

/-- Bytes of `write_mode (write_sync s) 1` that come from the input buffer. -/
theorem rd_mode1_stored (s : List Nat) (hlen : s.length = 2352) (i : Nat)
    (hi : (0xC ≤ i ∧ i < 0xF) ∨ (0x10 ≤ i ∧ i < 0x814)) :
    rd (write_mode (write_sync s) 1) i = rd s i := by
  have l1 : (write_sync s).length = 2352 := by rw [length_write_sync, hlen]
  rw [rd_write_mode1 _ l1, rd_write_sync _ hlen]
  have h1 : i ≠ 0xF := by omega
  have h2 : ¬ (0x814 ≤ i ∧ i ≤ 0x81B) := by omega
  have h3 : i ≠ 0 := by omega
  have h4 : ¬ i < 11 := by omega
  have h5 : i ≠ 11 := by omega
  simp only [h1, h2, h3, h4, h5, if_false]

/-- Bytes of `write_mode (write_sync s) 1` that the two stages write. -/
theorem rd_mode1_written (a b : List Nat) (ha : a.length = 2352) (hb : b.length = 2352) (i : Nat)
    (hi : i < 0xC ∨ i = 0xF ∨ (0x814 ≤ i ∧ i ≤ 0x81B)) :
    rd (write_mode (write_sync a) 1) i = rd (write_mode (write_sync b) 1) i := by
  have l1 : (write_sync a).length = 2352 := by rw [length_write_sync, ha]
  have l2 : (write_sync b).length = 2352 := by rw [length_write_sync, hb]
  rw [rd_write_mode1 _ l1, rd_write_sync _ ha, rd_write_mode1 _ l2, rd_write_sync _ hb]
  by_cases h1 : i = 0xF
  · simp only [h1, if_true]
  · by_cases h2 : 0x814 ≤ i ∧ i ≤ 0x81B
    · simp only [h1, h2, and_self, if_true, if_false]
    · have h3 : i < 0xC := by omega
      by_cases h4 : i = 0
      · simp only [h1, h2, h4, if_true, if_false]
      · by_cases h5 : i < 11
        · simp only [h1, h2, h4, h5, if_true, if_false]
        · have h6 : i = 11 := by omega
          simp only [h1, h2, h4, h5, h6, if_true, if_false]

/-- Bytes of `write_mode (write_sync s) type`, `type` 2 or 3, from offset
`0x00C` on: the mode byte, the copied flags, and otherwise the input. -/
theorem rd_mode23 (s : List Nat) (hlen : s.length = 2352) (type : Int)
    (ht : type = 2 ∨ type = 3) (i : Nat) (hi : 0xC ≤ i) :
    rd (write_mode (write_sync s) type) i
      = if i = 0xF then 2 else if 0x10 ≤ i ∧ i ≤ 0x13 then rd s (i + 4) else rd s i := by
  have l1 : (write_sync s).length = 2352 := by rw [length_write_sync, hlen]
  rw [rd_write_mode23 _ l1 type ht, rd_write_sync _ hlen, rd_write_sync _ hlen]
  have h3 : i ≠ 0 := by omega
  have h4 : ¬ i < 11 := by omega
  have h5 : i ≠ 11 := by omega
  have h6 : i + 4 ≠ 0 := by omega
  have h7 : ¬ i + 4 < 11 := by omega
  have h8 : i + 4 ≠ 11 := by omega
  simp only [h3, h4, h5, h6, h7, h8, if_false]

/-- Bytes of `write_mode (write_sync s) type`, `type` 2 or 3, below `0x00C`: the sync pattern. -/
theorem rd_mode23_sync (a b : List Nat) (ha : a.length = 2352) (hb : b.length = 2352) (type : Int)
    (ht : type = 2 ∨ type = 3) (i : Nat) (hi : i < 0xC) :
    rd (write_mode (write_sync a) type) i = rd (write_mode (write_sync b) type) i := by
  have l1 : (write_sync a).length = 2352 := by rw [length_write_sync, ha]
  have l2 : (write_sync b).length = 2352 := by rw [length_write_sync, hb]
  simp only [rd_write_mode23 _ l1 type ht, rd_write_mode23 _ l2 type ht, rd_write_sync _ ha,
    rd_write_sync _ hb]
  have h1 : i ≠ 0xF := by omega
  have h2 : ¬ (0x10 ≤ i ∧ i ≤ 0x13) := by omega
  simp only [h1, h2, if_false]
  by_cases h4 : i = 0
  · simp only [h4, if_true]
  · by_cases h5 : i < 11
    · simp only [h4, h5, if_true, if_false]
    · have h6 : i = 11 := by omega
      simp only [h4, h5, h6, if_true, if_false]

/-! ### Reconstructed sectors -/

/-- C3: for every 2352-byte buffer, `reconstruct_sector` with type 1 yields a
sector with mode byte `0x01` at `0x00F`, zeros at `0x814..0x81B`, the
little-endian EDC of its bytes `[0x000, 0x810)` at `0x810..0x813`, and at
`0x81C..0x92F` the 172 P bytes followed by the 104 Q bytes that `ecc_writepq`
computes from the address field at `0x00C` and the region starting at `0x010`. -/
theorem reconstruct_sector_mode1 (t : Luts) (sector : List Nat) (hlen : sector.length = 2352) :
    rd (reconstruct_sector t sector 1) 0x00F = 0x01 ∧
    (∀ i, 0x814 ≤ i → i ≤ 0x81B → rd (reconstruct_sector t sector 1) i = 0x00) ∧
    StoredLsb (reconstruct_sector t sector 1) 0x810
      (edc_compute t 0 ((reconstruct_sector t sector 1).take 0x810)) ∧
    HasParity t (AddrPtr.inSector 0xC) (reconstruct_sector t sector 1) := by
  have l1 : (write_sync sector).length = 2352 := by rw [length_write_sync, hlen]
  have l2 : (write_mode (write_sync sector) 1).length = 2352 := by rw [length_write_mode, l1]
  refine ⟨?_, ?_, ?_, ?_⟩
  · rw [rd_reconstruct_one t sector hlen _ (by decide), rd_write_mode1 _ l1]
    simp
  · intro i h1 h2
    rw [rd_reconstruct_one t sector hlen _ (by omega), rd_write_mode1 _ l1]
    have e1 : i ≠ 0xF := by omega
    simp only [e1, h1, h2, and_self, if_true, if_false]
  · have htake : (reconstruct_sector t sector 1).take 0x810
        = (write_mode (write_sync sector) 1).take 0x810 := by
      apply take_eq_of_rd
      · rw [reconstruct_sector_length t sector 1 hlen, l2]
      · intro i hi
        exact rd_reconstruct_one t sector hlen i (Or.inl hi)
    rw [htake]
    apply storedLsb_congr _ _ _ _ _ rfl _ (storedLsb_put32lsb _ 0x810 _ (by rw [l2]; decide))
    intro i h1 h2
    exact rd_reconstruct_one_below t sector hlen i (by omega)
  · rw [reconstruct_sector_one]
    exact ecc_writesector_parity t _ addr_sector_below _ (by rw [length_put32lsb, l2])

theorem reconstruct_sector_mode1_witness :
    (List.replicate 2352 0).length = 2352 ∧
    rd (reconstruct_sector (eccedc_init Luts.zero) (List.replicate 2352 0) 1) 0x00F = 0x01 ∧
    (∀ i, 0x814 ≤ i → i ≤ 0x81B →
      rd (reconstruct_sector (eccedc_init Luts.zero) (List.replicate 2352 0) 1) i = 0x00) ∧
    StoredLsb (reconstruct_sector (eccedc_init Luts.zero) (List.replicate 2352 0) 1) 0x810
      (edc_compute (eccedc_init Luts.zero) 0 ((reconstruct_sector (eccedc_init Luts.zero) (List.replicate 2352 0) 1).take 0x810)) ∧
    HasParity (eccedc_init Luts.zero) (AddrPtr.inSector 0xC)
      (reconstruct_sector (eccedc_init Luts.zero) (List.replicate 2352 0) 1) :=
  ⟨List.length_replicate _ _,
    reconstruct_sector_mode1 (eccedc_init Luts.zero) (List.replicate 2352 0) (List.length_replicate _ _)⟩

/-- Two buffers that agree from `0x010` on give, for type 2, buffers that
agree from `0x010` below the parity field after the EDC stage. -/
theorem edc_stage_two_congr (t : Luts) (a b : List Nat) (ha : a.length = 2352)
    (hb : b.length = 2352) (h : ∀ i, 0x14 ≤ i → i < 0x818 → rd a i = rd b i) (i : Nat)
    (hi : i < 0xC ∨ (0xF ≤ i ∧ i < 0x81C)) :
    rd (put32lsb (write_mode (write_sync a) 2) 0x818
        (edc_compute t 0 (((write_mode (write_sync a) 2).drop 0x10).take 0x808))) i
      = rd (put32lsb (write_mode (write_sync b) 2) 0x818
        (edc_compute t 0 (((write_mode (write_sync b) 2).drop 0x10).take 0x808))) i := by
  have l1 : (write_mode (write_sync a) 2).length = 2352 := by
    rw [length_write_mode, length_write_sync, ha]
  have l2 : (write_mode (write_sync b) 2).length = 2352 := by
    rw [length_write_mode, length_write_sync, hb]
  have hm : ∀ j, (j < 0xC ∨ (0xF ≤ j ∧ j < 0x818)) →
      rd (write_mode (write_sync a) 2) j = rd (write_mode (write_sync b) 2) j := by
    intro j hj
    by_cases hj' : j < 0xC
    · exact rd_mode23_sync a b ha hb 2 (Or.inl rfl) j hj'
    · rw [rd_mode23 a ha 2 (Or.inl rfl) j (by omega), rd_mode23 b hb 2 (Or.inl rfl) j (by omega)]
      by_cases e1 : j = 0xF
      · simp only [e1, if_true]
      · by_cases e2 : 0x10 ≤ j ∧ j ≤ 0x13
        · simp only [e1, e2, and_self, if_true, if_false]
          exact h _ (by omega) (by omega)
        · simp only [e1, e2, if_false]
          exact h _ (by omega) (by omega)
  have he : ((write_mode (write_sync a) 2).drop 0x10).take 0x808
      = ((write_mode (write_sync b) 2).drop 0x10).take 0x808 := by
    apply drop_take_eq_of_rd _ _ (by rw [l1, l2])
    intro j h1 h2
    exact hm j (by omega)
  rw [he, rd_put32lsb _ _ _ (by rw [l1]; decide), rd_put32lsb _ _ _ (by rw [l2]; decide)]
  by_cases c0 : i = 0x818
  · simp only [c0, if_true]
  · by_cases c1 : i = 0x818 + 1
    · simp only [c0, c1, if_true, if_false]
    · by_cases c2 : i = 0x818 + 2
      · simp only [c0, c1, c2, if_true, if_false]
      · by_cases c3 : i = 0x818 + 3
        · simp only [c0, c1, c2, c3, if_true, if_false]
        · simp only [c0, c1, c2, c3, if_false]
          exact hm i (by omega)

/-- C4: for every 2352-byte buffer, `reconstruct_sector` with type 2 yields a
sector with mode byte `0x02` at `0x00F`, the input bytes `0x014..0x017` copied
to `0x010..0x013`, the little-endian EDC of its bytes `[0x010, 0x818)` at
`0x818..0x81B`, and at `0x81C..0x92F` the parity that `ecc_writesector`
computes with the all-zero address over the region starting at `0x010`; the
input bytes at `0x00C..0x00F` do not influence the parity. -/
theorem reconstruct_sector_mode2_form1 (t : Luts) (sector : List Nat)
    (hlen : sector.length = 2352) :
    rd (reconstruct_sector t sector 2) 0x00F = 0x02 ∧
    (∀ k, k < 4 → rd (reconstruct_sector t sector 2) (0x010 + k) = rd sector (0x014 + k)) ∧
    StoredLsb (reconstruct_sector t sector 2) 0x818
      (edc_compute t 0 (((reconstruct_sector t sector 2).drop 0x10).take 0x808)) ∧
    HasParity t AddrPtr.zeros (reconstruct_sector t sector 2) ∧
    (∀ other : List Nat, other.length = 2352 →
      (∀ i, (i < 0x00C ∨ 0x010 ≤ i) → rd other i = rd sector i) →
      ∀ i, 0x81C ≤ i → i ≤ 0x92F →
        rd (reconstruct_sector t other 2) i = rd (reconstruct_sector t sector 2) i) := by
  have l1 : (write_sync sector).length = 2352 := by rw [length_write_sync, hlen]
  have l2 : (write_mode (write_sync sector) 2).length = 2352 := by rw [length_write_mode, l1]
  refine ⟨?_, ?_, ?_, ?_, ?_⟩
  · rw [rd_reconstruct_two t sector hlen _ (by decide),
      rd_mode23 sector hlen 2 (Or.inl rfl) _ (by decide)]
    simp
  · intro k hk
    rw [rd_reconstruct_two t sector hlen _ (by omega),
      rd_mode23 sector hlen 2 (Or.inl rfl) _ (by omega)]
    have e1 : 0x010 + k ≠ 0xF := by omega
    have e2 : 0x10 ≤ 0x010 + k ∧ 0x010 + k ≤ 0x13 := by omega
    simp only [e1, e2, and_self, if_true, if_false]
    rw [show 0x010 + k + 4 = 0x014 + k by omega]
  · have htake : ((reconstruct_sector t sector 2).drop 0x10).take 0x808
        = ((write_mode (write_sync sector) 2).drop 0x10).take 0x808 := by
      apply drop_take_eq_of_rd
      · rw [reconstruct_sector_length t sector 2 hlen, l2]
      · intro i h1 h2
        exact rd_reconstruct_two t sector hlen i (by omega)
    rw [htake]
    apply storedLsb_congr _ _ _ _ _ rfl _ (storedLsb_put32lsb _ 0x818 _ (by rw [l2]; decide))
    intro i h1 h2
    exact rd_reconstruct_two_below t sector hlen i (by omega)
  · rw [reconstruct_sector_two]
    exact ecc_writesector_parity t _ addr_zeros_below _ (by rw [length_put32lsb, l2])
  · intro other hother hagree i h1 h2
    have l3 : (write_mode (write_sync other) 2).length = 2352 := by
      rw [length_write_mode, length_write_sync, hother]
    rw [reconstruct_sector_two, reconstruct_sector_two]
    exact ecc_writesector_congr_from t AddrPtr.zeros addr_zeros_below 0x10 (by decide)
      (fun off h => by cases h) _ _ (by rw [length_put32lsb, l3]) (by rw [length_put32lsb, l2])
      (fun j hj hj' => edc_stage_two_congr t other sector hother hlen
        (fun k _ _ => hagree k (by omega)) j (by omega)) i (by omega) (by omega)

theorem reconstruct_sector_mode2_form1_witness :
    (List.replicate 2352 0).length = 2352 ∧
    rd (reconstruct_sector (eccedc_init Luts.zero) (List.replicate 2352 0) 2) 0x00F = 0x02 ∧
    (∀ k, k < 4 →
      rd (reconstruct_sector (eccedc_init Luts.zero) (List.replicate 2352 0) 2) (0x010 + k)
        = rd (List.replicate 2352 0) (0x014 + k)) ∧
    StoredLsb (reconstruct_sector (eccedc_init Luts.zero) (List.replicate 2352 0) 2) 0x818
      (edc_compute (eccedc_init Luts.zero) 0
        (((reconstruct_sector (eccedc_init Luts.zero) (List.replicate 2352 0) 2).drop 0x10).take
          0x808)) ∧
    HasParity (eccedc_init Luts.zero) AddrPtr.zeros
      (reconstruct_sector (eccedc_init Luts.zero) (List.replicate 2352 0) 2) ∧
    (∀ other : List Nat, other.length = 2352 →
      (∀ i, (i < 0x00C ∨ 0x010 ≤ i) → rd other i = rd (List.replicate 2352 0) i) →
      ∀ i, 0x81C ≤ i → i ≤ 0x92F →
        rd (reconstruct_sector (eccedc_init Luts.zero) other 2) i
          = rd (reconstruct_sector (eccedc_init Luts.zero) (List.replicate 2352 0) 2) i) :=
  ⟨List.length_replicate _ _,
    reconstruct_sector_mode2_form1 (eccedc_init Luts.zero) (List.replicate 2352 0)
      (List.length_replicate _ _)⟩

/-- C5: for every 2352-byte buffer, `reconstruct_sector` with type 3 yields a
sector with mode byte `0x02` at `0x00F`, the input bytes `0x014..0x017` copied
to `0x010..0x013`, the little-endian EDC of its bytes `[0x010, 0x92C)` at
`0x92C..0x92F`, and no ECC: every byte in `0x014..0x92B` equals the input. -/
theorem reconstruct_sector_mode2_form2 (t : Luts) (sector : List Nat)
    (hlen : sector.length = 2352) :
    rd (reconstruct_sector t sector 3) 0x00F = 0x02 ∧
    (∀ k, k < 4 → rd (reconstruct_sector t sector 3) (0x010 + k) = rd sector (0x014 + k)) ∧
    StoredLsb (reconstruct_sector t sector 3) 0x92C
      (edc_compute t 0 (((reconstruct_sector t sector 3).drop 0x10).take 0x91C)) ∧
    (∀ i, 0x014 ≤ i → i ≤ 0x92B → rd (reconstruct_sector t sector 3) i = rd sector i) := by
  have l1 : (write_sync sector).length = 2352 := by rw [length_write_sync, hlen]
  have l2 : (write_mode (write_sync sector) 3).length = 2352 := by rw [length_write_mode, l1]
  refine ⟨?_, ?_, ?_, ?_⟩
  · rw [rd_reconstruct_three t sector _ (by decide),
      rd_mode23 sector hlen 3 (Or.inr rfl) _ (by decide)]
    simp
  · intro k hk
    rw [rd_reconstruct_three t sector _ (by omega),
      rd_mode23 sector hlen 3 (Or.inr rfl) _ (by omega)]
    have e1 : 0x010 + k ≠ 0xF := by omega
    have e2 : 0x10 ≤ 0x010 + k ∧ 0x010 + k ≤ 0x13 := by omega
    simp only [e1, e2, and_self, if_true, if_false]
    rw [show 0x010 + k + 4 = 0x014 + k by omega]
  · have htake : ((reconstruct_sector t sector 3).drop 0x10).take 0x91C
        = ((write_mode (write_sync sector) 3).drop 0x10).take 0x91C := by
      apply drop_take_eq_of_rd
      · rw [reconstruct_sector_length t sector 3 hlen, l2]
      · intro i h1 h2
        exact rd_reconstruct_three t sector i (by omega)
    rw [htake, reconstruct_sector_three]
    exact storedLsb_put32lsb _ 0x92C _ (by rw [l2]; decide)
  · intro i h1 h2
    rw [rd_reconstruct_three t sector _ (by omega),
      rd_mode23 sector hlen 3 (Or.inr rfl) _ (by omega)]
    have e1 : i ≠ 0xF := by omega
    have e2 : ¬ (0x10 ≤ i ∧ i ≤ 0x13) := by omega
    simp only [e1, e2, if_false]

theorem reconstruct_sector_mode2_form2_witness :
    (List.replicate 2352 0).length = 2352 ∧
    rd (reconstruct_sector (eccedc_init Luts.zero) (List.replicate 2352 0) 3) 0x00F = 0x02 ∧
    (∀ k, k < 4 →
      rd (reconstruct_sector (eccedc_init Luts.zero) (List.replicate 2352 0) 3) (0x010 + k)
        = rd (List.replicate 2352 0) (0x014 + k)) ∧
    StoredLsb (reconstruct_sector (eccedc_init Luts.zero) (List.replicate 2352 0) 3) 0x92C
      (edc_compute (eccedc_init Luts.zero) 0
        (((reconstruct_sector (eccedc_init Luts.zero) (List.replicate 2352 0) 3).drop 0x10).take
          0x91C)) ∧
    (∀ i, 0x014 ≤ i → i ≤ 0x92B →
      rd (reconstruct_sector (eccedc_init Luts.zero) (List.replicate 2352 0) 3) i
        = rd (List.replicate 2352 0) i) :=
  ⟨List.length_replicate _ _,
    reconstruct_sector_mode2_form2 (eccedc_init Luts.zero) (List.replicate 2352 0)
      (List.length_replicate _ _)⟩

/-- Two buffers that agree on the stored ranges of type 1 agree below the
parity field after the EDC stage. -/
theorem edc_stage_one_congr (t : Luts) (a b : List Nat) (ha : a.length = 2352)
    (hb : b.length = 2352) (h : ∀ i, storedRange 1 i → rd a i = rd b i) (i : Nat)
    (hi : i < 0x81C) :
    rd (put32lsb (write_mode (write_sync a) 1) 0x810
        (edc_compute t 0 ((write_mode (write_sync a) 1).take 0x810))) i
      = rd (put32lsb (write_mode (write_sync b) 1) 0x810
        (edc_compute t 0 ((write_mode (write_sync b) 1).take 0x810))) i := by
  have l1 : (write_mode (write_sync a) 1).length = 2352 := by
    rw [length_write_mode, length_write_sync, ha]
  have l2 : (write_mode (write_sync b) 1).length = 2352 := by
    rw [length_write_mode, length_write_sync, hb]
  have hm : ∀ j, (j < 0x810 ∨ (0x814 ≤ j ∧ j < 0x81C)) →
      rd (write_mode (write_sync a) 1) j = rd (write_mode (write_sync b) 1) j := by
    intro j hj
    by_cases hw : j < 0xC ∨ j = 0xF ∨ (0x814 ≤ j ∧ j ≤ 0x81B)
    · exact rd_mode1_written a b ha hb j hw
    · rw [rd_mode1_stored a ha j (by omega), rd_mode1_stored b hb j (by omega)]
      apply h
      simp only [storedRange, if_true]
      omega
  have he : (write_mode (write_sync a) 1).take 0x810 = (write_mode (write_sync b) 1).take 0x810 :=
    take_eq_of_rd _ (by rw [l1, l2]) (fun j hj => hm j (Or.inl hj))
  rw [he, rd_put32lsb _ _ _ (by rw [l1]; decide), rd_put32lsb _ _ _ (by rw [l2]; decide)]
  by_cases c0 : i = 0x810
  · simp only [c0, if_true]
  · by_cases c1 : i = 0x810 + 1
    · simp only [c0, c1, if_true, if_false]
    · by_cases c2 : i = 0x810 + 2
      · simp only [c0, c1, c2, if_true, if_false]
      · by_cases c3 : i = 0x810 + 3
        · simp only [c0, c1, c2, c3, if_true, if_false]
        · simp only [c0, c1, c2, c3, if_false]
          exact hm i (by omega)

/-- Two buffers that agree on the stored range of type 3 agree, after the EDC
stage, everywhere but at the address bytes `0x00C..0x00E`. -/
theorem edc_stage_three_congr (t : Luts) (a b : List Nat) (ha : a.length = 2352)
    (hb : b.length = 2352) (h : ∀ i, storedRange 3 i → rd a i = rd b i) (i : Nat)
    (hi : i < 0xC ∨ 0xF ≤ i) :
    rd (put32lsb (write_mode (write_sync a) 3) 0x92C
        (edc_compute t 0 (((write_mode (write_sync a) 3).drop 0x10).take 0x91C))) i
      = rd (put32lsb (write_mode (write_sync b) 3) 0x92C
        (edc_compute t 0 (((write_mode (write_sync b) 3).drop 0x10).take 0x91C))) i := by
  have l1 : (write_mode (write_sync a) 3).length = 2352 := by
    rw [length_write_mode, length_write_sync, ha]
  have l2 : (write_mode (write_sync b) 3).length = 2352 := by
    rw [length_write_mode, length_write_sync, hb]
  have hs : ∀ j, 0x14 ≤ j → j < 0x92C → rd a j = rd b j := by
    intro j h1 h2
    apply h
    simp only [storedRange]
    norm_num
    omega
  have hm : ∀ j, (j < 0xC ∨ (0xF ≤ j ∧ j < 0x92C)) →
      rd (write_mode (write_sync a) 3) j = rd (write_mode (write_sync b) 3) j := by
    intro j hj
    by_cases hj' : j < 0xC
    · exact rd_mode23_sync a b ha hb 3 (Or.inr rfl) j hj'
    · rw [rd_mode23 a ha 3 (Or.inr rfl) j (by omega), rd_mode23 b hb 3 (Or.inr rfl) j (by omega)]
      by_cases e1 : j = 0xF
      · simp only [e1, if_true]
      · by_cases e2 : 0x10 ≤ j ∧ j ≤ 0x13
        · simp only [e1, e2, and_self, if_true, if_false]
          exact hs _ (by omega) (by omega)
        · simp only [e1, e2, if_false]
          exact hs _ (by omega) (by omega)
  have he : ((write_mode (write_sync a) 3).drop 0x10).take 0x91C
      = ((write_mode (write_sync b) 3).drop 0x10).take 0x91C := by
    apply drop_take_eq_of_rd _ _ (by rw [l1, l2])
    intro j h1 h2
    exact hm j (by omega)
  by_cases hbig : 0x930 ≤ i
  · rw [rd_of_le _ _ (by rw [length_put32lsb, l1]; exact hbig),
      rd_of_le _ _ (by rw [length_put32lsb, l2]; exact hbig)]
  · rw [he, rd_put32lsb _ _ _ (by rw [l1]; decide), rd_put32lsb _ _ _ (by rw [l2]; decide)]
    by_cases c0 : i = 0x92C
    · simp only [c0, if_true]
    · by_cases c1 : i = 0x92C + 1
      · simp only [c0, c1, if_true, if_false]
      · by_cases c2 : i = 0x92C + 2
        · simp only [c0, c1, c2, if_true, if_false]
        · by_cases c3 : i = 0x92C + 3
          · simp only [c0, c1, c2, c3, if_true, if_false]
          · simp only [c0, c1, c2, c3, if_false]
            exact hm i (by omega)

/-- The address bytes `0x00C..0x00E` of a sector reconstructed with type 2 or
3 are those of the input buffer. -/
theorem rd_reconstruct_address (t : Luts) (s : List Nat) (hlen : s.length = 2352) (type : Int)
    (ht : type = 2 ∨ type = 3) (i : Nat) (h1 : 0x00C ≤ i) (h2 : i ≤ 0x00E) :
    rd (reconstruct_sector t s type) i = rd s i := by
  have e1 : i ≠ 0xF := by omega
  have e2 : ¬ (0x10 ≤ i ∧ i ≤ 0x13) := by omega
  rcases ht with ht | ht
  · subst ht
    rw [rd_reconstruct_two t s hlen i (by omega), rd_mode23 s hlen 2 (Or.inl rfl) i h1]
    simp only [e1, e2, if_false]
  · subst ht
    rw [rd_reconstruct_three t s i (by omega), rd_mode23 s hlen 3 (Or.inr rfl) i h1]
    simp only [e1, e2, if_false]

theorem length_replicate_set (n i v w : Nat) : ((List.replicate n v).set i w).length = n := by
  rw [List.length_set, List.length_replicate]

/-- A zero buffer and the same buffer with byte `0x00C` set to 1 agree on the
stored range of type 2. -/
theorem agree_stored_two_example :
    ∀ i, storedRange 2 i →
      rd (List.replicate 2352 0) i = rd ((List.replicate 2352 0).set 0x00C 1) i := by
  intro i hi
  have hi' : 0x014 ≤ i ∧ i ≤ 0x817 := by
    simpa [storedRange] using hi
  rw [rd_set_ne _ _ _ _ (by omega)]

/-- C6 as stated fails for type 2: two buffers that agree on the stored range
`0x014..0x817` and differ at the address byte `0x00C` are reconstructed to
different sectors. -/
theorem reconstruct_sector_stored_only_counterexample :
    (List.replicate 2352 0).length = 2352 ∧
    ((List.replicate 2352 0).set 0x00C 1).length = 2352 ∧
    (∀ i, storedRange 2 i →
      rd (List.replicate 2352 0) i = rd ((List.replicate 2352 0).set 0x00C 1) i) ∧
    reconstruct_sector (eccedc_init Luts.zero) (List.replicate 2352 0) 2
      ≠ reconstruct_sector (eccedc_init Luts.zero) ((List.replicate 2352 0).set 0x00C 1) 2 := by
  have la : (List.replicate 2352 0).length = 2352 := List.length_replicate _ _
  have lb : ((List.replicate 2352 0).set 0x00C 1).length = 2352 := length_replicate_set _ _ _ _
  refine ⟨la, lb, agree_stored_two_example, ?_⟩
  intro heq
  have h := congrArg (fun r => rd r 0x00C) heq
  simp only at h
  rw [rd_reconstruct_address _ _ la 2 (Or.inl rfl) _ (by decide) (by decide),
    rd_reconstruct_address _ _ lb 2 (Or.inl rfl) _ (by decide) (by decide),
    rd_set, la, rd_replicate] at h
  simp at h

/-- C6 (amended): for each type in 1, 2, 3, two 2352-byte buffers that agree
on the stored byte ranges of the type are reconstructed to sectors that agree
at every offset other than `0x00C..0x00E`; for type 1 (whose stored ranges
include the address) the sectors are identical; for types 2 and 3 the bytes
`0x00C..0x00E` of the result are the input's, so the sectors are identical as
soon as the inputs also agree there. -/
theorem reconstruct_sector_stored_only (t : Luts) (type : Int)
    (ht : type = 1 ∨ type = 2 ∨ type = 3) (a b : List Nat) (ha : a.length = 2352)
    (hb : b.length = 2352) (h : ∀ i, storedRange type i → rd a i = rd b i) :
    (∀ i, (i < 0x00C ∨ 0x00F ≤ i) →
      rd (reconstruct_sector t a type) i = rd (reconstruct_sector t b type) i) ∧
    (type = 1 → reconstruct_sector t a type = reconstruct_sector t b type) ∧
    (type ≠ 1 → ∀ i, 0x00C ≤ i → i ≤ 0x00E → rd (reconstruct_sector t a type) i = rd a i) ∧
    ((∀ i, 0x00C ≤ i → i ≤ 0x00E → rd a i = rd b i) →
      reconstruct_sector t a type = reconstruct_sector t b type) := by
  have la1 : ∀ ty : Int, (write_mode (write_sync a) ty).length = 2352 := by
    intro ty; rw [length_write_mode, length_write_sync, ha]
  have lb1 : ∀ ty : Int, (write_mode (write_sync b) ty).length = 2352 := by
    intro ty; rw [length_write_mode, length_write_sync, hb]
  have hone : type = 1 → reconstruct_sector t a type = reconstruct_sector t b type := by
    intro h1
    subst h1
    rw [reconstruct_sector_one, reconstruct_sector_one]
    exact ecc_writesector_congr t _ addr_sector_below _ _ (by rw [length_put32lsb, la1])
      (by rw [length_put32lsb, lb1]) (fun i hi => edc_stage_one_congr t a b ha hb h i hi)
  have hmost : ∀ i, (i < 0x00C ∨ 0x00F ≤ i) →
      rd (reconstruct_sector t a type) i = rd (reconstruct_sector t b type) i := by
    intro i hi
    rcases ht with ht | ht | ht
    · rw [hone ht]
    · subst ht
      have hs : ∀ k, 0x14 ≤ k → k < 0x818 → rd a k = rd b k := by
        intro k h1 h2
        apply h
        simp only [storedRange]
        norm_num
        omega
      by_cases hbig : 0x930 ≤ i
      · rw [rd_of_le _ _ (by rw [reconstruct_sector_length t a 2 ha]; exact hbig),
          rd_of_le _ _ (by rw [reconstruct_sector_length t b 2 hb]; exact hbig)]
      · by_cases hlow : i < 0x10
        · rw [rd_reconstruct_two_below t a ha i (by omega),
            rd_reconstruct_two_below t b hb i (by omega)]
          exact edc_stage_two_congr t a b ha hb hs i (by omega)
        · rw [reconstruct_sector_two, reconstruct_sector_two]
          exact ecc_writesector_congr_from t AddrPtr.zeros addr_zeros_below 0x10 (by decide)
            (fun off h => by cases h) _ _ (by rw [length_put32lsb, la1])
            (by rw [length_put32lsb, lb1])
            (fun j hj hj' => edc_stage_two_congr t a b ha hb hs j (by omega)) i (by omega)
            (by omega)
    · subst ht
      rw [reconstruct_sector_three, reconstruct_sector_three]
      exact edc_stage_three_congr t a b ha hb h i hi
  have haddr : type ≠ 1 → ∀ i, 0x00C ≤ i → i ≤ 0x00E →
      rd (reconstruct_sector t a type) i = rd a i := by
    intro hne i h1 h2
    exact rd_reconstruct_address t a ha type (by omega) i h1 h2
  refine ⟨hmost, hone, haddr, ?_⟩
  intro hab
  by_cases h1 : type = 1
  · exact hone h1
  · apply ext_rd
    · rw [reconstruct_sector_length t a type ha, reconstruct_sector_length t b type hb]
    · intro i _
      by_cases hi : i < 0x00C ∨ 0x00F ≤ i
      · exact hmost i hi
      · rw [rd_reconstruct_address t a ha type (by omega) i (by omega) (by omega),
          rd_reconstruct_address t b hb type (by omega) i (by omega) (by omega)]
        exact hab i (by omega) (by omega)

theorem reconstruct_sector_stored_only_witness :
    ((2 : Int) = 1 ∨ (2 : Int) = 2 ∨ (2 : Int) = 3) ∧
    (List.replicate 2352 0).length = 2352 ∧
    ((List.replicate 2352 0).set 0x00C 1).length = 2352 ∧
    (∀ i, storedRange 2 i →
      rd (List.replicate 2352 0) i = rd ((List.replicate 2352 0).set 0x00C 1) i) ∧
    ((∀ i, (i < 0x00C ∨ 0x00F ≤ i) →
      rd (reconstruct_sector (eccedc_init Luts.zero) (List.replicate 2352 0) 2) i
        = rd (reconstruct_sector (eccedc_init Luts.zero)
            ((List.replicate 2352 0).set 0x00C 1) 2) i) ∧
    ((2 : Int) = 1 →
      reconstruct_sector (eccedc_init Luts.zero) (List.replicate 2352 0) 2
        = reconstruct_sector (eccedc_init Luts.zero) ((List.replicate 2352 0).set 0x00C 1) 2) ∧
    ((2 : Int) ≠ 1 → ∀ i, 0x00C ≤ i → i ≤ 0x00E →
      rd (reconstruct_sector (eccedc_init Luts.zero) (List.replicate 2352 0) 2) i
        = rd (List.replicate 2352 0) i) ∧
    ((∀ i, 0x00C ≤ i → i ≤ 0x00E →
        rd (List.replicate 2352 0) i = rd ((List.replicate 2352 0).set 0x00C 1) i) →
      reconstruct_sector (eccedc_init Luts.zero) (List.replicate 2352 0) 2
        = reconstruct_sector (eccedc_init Luts.zero) ((List.replicate 2352 0).set 0x00C 1) 2)) :=
  ⟨by decide, List.length_replicate _ _, length_replicate_set _ _ _ _, agree_stored_two_example,
    reconstruct_sector_stored_only (eccedc_init Luts.zero) 2 (by decide) (List.replicate 2352 0)
      ((List.replicate 2352 0).set 0x00C 1) (List.length_replicate _ _)
      (length_replicate_set _ _ _ _) agree_stored_two_example⟩

/-! ### EDC: the claims -/

/-- C7: for every seed `s` and all byte sequences `a` and `b`, computing the
EDC of `a` and then of `b` with the running value as seed equals computing it
over `a ++ b` in one call. -/
theorem edc_compute_sequential (t : Luts) (s : Nat) (a b : List Nat) :
    edc_compute t (edc_compute t s a) b = edc_compute t s (a ++ b) :=
  (edc_compute_append t s a b).symm

/-- C8: `edc_compute` is the left fold of the step
`acc -> (acc >> 8) xor edc_lut[(acc xor byte) & 0xFF]` over the bytes in
stream order, starting from the seed; it returns the seed for the empty
sequence; and with the tables of `eccedc_init` the sequences `[0, 1]` and
`[1, 0]`, permutations of each other, have different EDC values. -/
theorem edc_compute_fold :
    (∀ (t : Luts) (seed : Nat) (bytes : List Nat),
      edc_compute t seed bytes
        = bytes.foldl (fun acc byte => (acc >>> 8) ^^^ rd t.edc_lut ((acc ^^^ byte) &&& 0xFF))
            seed) ∧
    (∀ (t : Luts) (seed : Nat), edc_compute t seed [] = seed) ∧
    (∃ a b : List Nat, a.Perm b ∧
      edc_compute (eccedc_init Luts.zero) 0 a ≠ edc_compute (eccedc_init Luts.zero) 0 b) := by
  refine ⟨edc_compute_eq_foldl, fun _ _ => rfl, [0, 1], [1, 0], ?_, edc_order_example⟩
  exact List.Perm.swap 1 0 []

/-! ### Chunk headers -/

theorem and_7F (c : Nat) : c &&& 0x7F = c % 128 := by
  have := Nat.and_pow_two_sub_one_eq_mod c 7
  simpa using this

theorem and_3 (c : Nat) : c &&& 3 = c % 4 := by
  have := Nat.and_pow_two_sub_one_eq_mod c 2
  simpa using this

theorem shr2_and_1F (c : Nat) : (c >>> 2) &&& 0x1F = c / 4 % 32 := by
  have := Nat.and_pow_two_sub_one_eq_mod (c >>> 2) 5
  rw [Nat.shiftRight_eq_div_pow c 2] at this
  rw [Nat.shiftRight_eq_div_pow c 2]
  simpa using this

set_option maxRecDepth 100000 in
theorem and_80_low : ∀ y, y < 256 → ((y &&& 0x80 = 0) ↔ y < 128) := by
  decide

theorem and_80 (c : Nat) : (c &&& 0x80 = 0) ↔ c % 256 < 128 := by
  have h1 : c &&& 0x80 = (c % 256) &&& 0x80 := by
    have := Nat.and_pow_two_sub_one_eq_mod c 8
    have e : (2 : Nat) ^ 8 - 1 = 255 := by norm_num
    rw [e] at this
    rw [← this, Nat.and_assoc]
    rfl
  rw [h1]
  exact and_80_low _ (Nat.mod_lt _ (by norm_num))

theorem or_shift (num v bits : Nat) (h : num < 2 ^ bits) :
    num ||| (v <<< bits) = num + v * 2 ^ bits := by
  rw [Nat.shiftLeft_eq, Nat.or_comm, Nat.mul_comm v, ← Nat.mul_add_lt_is_or h, Nat.add_comm]

theorem shr_pow (bits : Nat) (h1 : 1 ≤ bits) (h2 : bits ≤ 32) :
    0x80000000 >>> (bits - 1) = 2 ^ (32 - bits) := by
  rw [Nat.shiftRight_eq_div_pow]
  have : (0x80000000 : Nat) = 2 ^ 31 := by norm_num
  rw [this, Nat.pow_div (by omega) (by norm_num)]
  congr 1
  omega

/-- One accepted continuation byte: the run length grows by the byte's 7 bits
shifted by `bits`, without loss. -/
theorem header_step (num c1 bits : Nat) (hb1 : 1 ≤ bits) (hnum : num < 2 ^ bits)
    (hchk : ¬ (bits > 31 ∨ (c1 &&& 0x7F) ≥ (0x80000000 >>> (bits - 1)))) :
    (num ||| (((c1 &&& 0x7F) <<< bits) % 2 ^ 32)) = num + (c1 &&& 0x7F) * 2 ^ bits ∧
    num + (c1 &&& 0x7F) * 2 ^ bits < 2 ^ (bits + 7) ∧
    num + (c1 &&& 0x7F) * 2 ^ bits < 2 ^ 32 := by
  have hb : bits ≤ 31 := by
    by_contra hc
    exact hchk (Or.inl (by omega))
  have hv : (c1 &&& 0x7F) < 2 ^ (32 - bits) := by
    by_contra hc
    apply hchk
    right
    rw [shr_pow bits hb1 (by omega)]
    omega
  have hv7 : (c1 &&& 0x7F) < 128 := by
    rw [and_7F]
    exact Nat.mod_lt _ (by norm_num)
  have hPQ : 2 ^ (32 - bits) * 2 ^ bits = 2 ^ 32 := by
    rw [← Nat.pow_add]
    congr 1
    omega
  generalize hP : 2 ^ bits = P at *
  generalize hQ : 2 ^ (32 - bits) = Q at *
  generalize hV : (c1 &&& 0x7F) = v at *
  have hP7 : 2 ^ (bits + 7) = P * 128 := by
    rw [Nat.pow_add, hP]
  have h1 : (v + 1) * P ≤ Q * P := Nat.mul_le_mul_right P (by omega)
  have h2 : (v + 1) * P ≤ 128 * P := Nat.mul_le_mul_right P (by omega)
  have h3 : (v + 1) * P = v * P + P := by ring
  have hlt : v * P < 2 ^ 32 := by omega
  refine ⟨?_, ?_, ?_⟩
  · rw [Nat.shiftLeft_eq, hP, Nat.mod_eq_of_lt hlt]
    have := or_shift num v bits (by rw [hP]; exact hnum)
    rw [Nat.shiftLeft_eq, hP] at this
    exact this
  · rw [hP7]; omega
  · omega

/-- The loop of the header parse, when it accepts: the bytes it reads form a
complete continuation chain and the run length is the exact sum of their
groups. -/
theorem header_loop_ok : ∀ (rest : List Nat) (c num bits k n1 k1 : Nat),
    header_loop rest c num bits k = Except.ok (n1, k1) → 1 ≤ bits → num < 2 ^ bits →
    num < 2 ^ 32 →
    ∃ cs tail, rest = cs ++ tail ∧ ContinuationChain c cs ∧ n1 = num + group_sum bits cs ∧
      n1 < 2 ^ 32 ∧ k1 = k + cs.length := by
  intro rest
  induction rest with
  | nil =>
    intro c num bits k n1 k1 h hb hnum h32
    rw [header_loop] at h
    split at h
    · rename_i hc
      cases h
      exact ⟨[], [], rfl, hc, by simp [group_sum], h32, rfl⟩
    · cases h
  | cons c1 rest1 ih =>
    intro c num bits k n1 k1 h hb hnum h32
    rw [header_loop] at h
    split at h
    · rename_i hc
      cases h
      exact ⟨[], c1 :: rest1, rfl, hc, by simp [group_sum], h32, rfl⟩
    · rename_i hc
      split at h
      · cases h
      · rename_i hchk
        obtain ⟨e1, e2, e3⟩ := header_step num c1 bits hb hnum hchk
        rw [e1] at h
        obtain ⟨cs, tail, r1, r2, r3, r4, r5⟩ :=
          ih c1 _ (bits + 7) (k + 1) n1 k1 h (by omega) e2 e3
        refine ⟨c1 :: cs, tail, by rw [r1]; rfl, ⟨hc, r2⟩, ?_, r4, ?_⟩
        · rw [r3]; simp only [group_sum]; omega
        · rw [r5]; simp only [List.length_cons]; omega

/-- C9: when the parser accepts a chunk header, the bytes it has consumed are
`c0, c1, ..., ck` with bit 7 set in all but the last; the type is `c0 & 3`; the
raw run length is `((c0 >> 2) & 0x1F)` plus the sum of `(cj & 0x7F) * 2^(5 +
7*(j-1))`, below `2^32` (no bits are lost); `k + 1` bytes are consumed; and for
a raw value other than `0xFFFFFFFF` the count `num + 1` the decoder uses does
not wrap: it lies between 1 and `2^32 - 1`. -/
theorem read_header_accepts (stream : List Nat) (type num consumed : Nat)
    (h : read_header stream = Except.ok (type, num, consumed)) :
    ∃ c0 cs tail, stream = c0 :: (cs ++ tail) ∧ ContinuationChain c0 cs ∧
      type = c0 &&& 3 ∧
      num = ((c0 >>> 2) &&& 0x1F) + group_sum 5 cs ∧
      num < 2 ^ 32 ∧
      consumed = cs.length + 1 ∧
      (num ≠ 0xFFFFFFFF →
        (num + 1) % 2 ^ 32 = num + 1 ∧ 1 ≤ (num + 1) % 2 ^ 32 ∧ (num + 1) % 2 ^ 32 ≤ 2 ^ 32 - 1) := by
  cases stream with
  | nil => simp [read_header] at h
  | cons c rest =>
    simp only [read_header] at h
    split at h
    · cases h
    · rename_i n1 k1 hl
      cases h
      have h5 : (c >>> 2) &&& 0x1F < 2 ^ 5 := by
        rw [shr2_and_1F]
        exact Nat.mod_lt _ (by norm_num)
      obtain ⟨cs, tail, r1, r2, r3, r4, r5⟩ :=
        header_loop_ok rest c _ 5 1 num consumed hl (by norm_num) h5
          (by have : (2 : Nat) ^ 5 < 2 ^ 32 := by norm_num
              omega)
      refine ⟨c, cs, tail, by rw [r1], r2, rfl, r3, r4, by omega, ?_⟩
      intro hne
      have h32 : (2 : Nat) ^ 32 = 4294967296 := by norm_num
      rw [h32] at r4 ⊢
      have hlt : num + 1 < 4294967296 := by omega
      rw [Nat.mod_eq_of_lt hlt]
      omega

theorem read_header_accepts_witness :
    read_header [0x82, 0x01, 0xAA] = Except.ok (2, 32, 2) ∧
    ∃ c0 cs tail, [0x82, 0x01, 0xAA] = c0 :: (cs ++ tail) ∧ ContinuationChain c0 cs ∧
      2 = c0 &&& 3 ∧
      32 = ((c0 >>> 2) &&& 0x1F) + group_sum 5 cs ∧
      32 < 2 ^ 32 ∧
      2 = cs.length + 1 ∧
      (32 ≠ 0xFFFFFFFF →
        (32 + 1) % 2 ^ 32 = 32 + 1 ∧ 1 ≤ (32 + 1) % 2 ^ 32 ∧ (32 + 1) % 2 ^ 32 ≤ 2 ^ 32 - 1) :=
  ⟨rfl, read_header_accepts [0x82, 0x01, 0xAA] 2 32 2 rfl⟩

theorem check_passes (bits v : Nat) (hb1 : 1 ≤ bits) (hb : bits ≤ 31)
    (hv : v * 2 ^ bits < 2 ^ 32) :
    ¬ (bits > 31 ∨ v ≥ (0x80000000 >>> (bits - 1))) := by
  rw [shr_pow bits hb1 (by omega)]
  have hPQ : 2 ^ (32 - bits) * 2 ^ bits = 2 ^ 32 := by
    rw [← Nat.pow_add]
    congr 1
    omega
  rw [← hPQ] at hv
  have := Nat.lt_of_mul_lt_mul_right hv
  omega

theorem bits_le_of_lt (bits v : Nat) (hv1 : 1 ≤ v) (hv : v * 2 ^ bits < 2 ^ 32) : bits ≤ 31 := by
  have h1 : 2 ^ bits ≤ v * 2 ^ bits := Nat.le_mul_of_pos_left _ hv1
  have h2 : 2 ^ bits < 2 ^ 32 := by omega
  have := (Nat.pow_lt_pow_iff_right (by norm_num : 1 < 2)).mp h2
  omega

theorem header_loop_done (rest : List Nat) (c num bits k : Nat) (h : c &&& 0x80 = 0) :
    header_loop rest c num bits k = Except.ok (num, k) := by
  cases rest <;> rw [header_loop] <;> simp [h]

/-- The loop of the header parse reads back the continuation bytes that
`encode_rest` writes for `v`. -/
theorem header_loop_encode_rest : ∀ (n v : Nat) (tail : List Nat) (c num bits k : Nat),
    v < 128 ^ n → 1 ≤ v → c &&& 0x80 ≠ 0 → 1 ≤ bits → num < 2 ^ bits →
    num + v * 2 ^ bits < 2 ^ 32 →
    header_loop (encode_rest n v ++ tail) c num bits k
      = Except.ok (num + v * 2 ^ bits, k + (encode_rest n v).length) := by
  intro n
  induction n with
  | zero =>
    intro v tail c num bits k hv hv1
    simp at hv
    omega
  | succ n ih =>
    intro v tail c num bits k hv hv1 hc hb1 hnum hsum
    have hb : bits ≤ 31 := bits_le_of_lt bits v hv1 (by omega)
    by_cases hsmall : v < 128
    · have e7 : v &&& 0x7F = v := by rw [and_7F]; omega
      have hchk := check_passes bits (v &&& 0x7F) hb1 hb (by rw [e7]; omega)
      obtain ⟨e1, _, _⟩ := header_step num v bits hb1 hnum hchk
      have hv80 : v &&& 0x80 = 0 := (and_80 v).mpr (by omega)
      simp only [encode_rest, hsmall, if_true, List.singleton_append, List.length_singleton]
      rw [header_loop]
      simp only [hc, if_false, hchk, e1]
      rw [header_loop_done _ _ _ _ _ hv80, e7]
    · have hdm := Nat.div_add_mod v 128
      have hml := Nat.mod_lt v (by norm_num : 128 > 0)
      have e7 : (128 + v % 128) &&& 0x7F = v % 128 := by rw [and_7F]; omega
      have hc1 : (128 + v % 128) &&& 0x80 ≠ 0 := by
        intro h0
        have := (and_80 _).mp h0
        omega
      have hP7 : 2 ^ (bits + 7) = 2 ^ bits * 128 := by rw [Nat.pow_add]
      have hsplit : v * 2 ^ bits = v % 128 * 2 ^ bits + v / 128 * (2 ^ bits * 128) := by
        conv_lhs => rw [← hdm]
        ring
      have hchk := check_passes bits ((128 + v % 128) &&& 0x7F) hb1 hb (by
        rw [e7]
        have : 0 ≤ v / 128 * (2 ^ bits * 128) := Nat.zero_le _
        omega)
      obtain ⟨e1, e2, _⟩ := header_step num (128 + v % 128) bits hb1 hnum hchk
      rw [e7] at e2
      have hdiv : v / 128 < 128 ^ n := by
        rw [Nat.pow_succ] at hv
        exact Nat.div_lt_of_lt_mul (by rw [Nat.mul_comm]; exact hv)
      have hrec := ih (v / 128) tail (128 + v % 128) (num + v % 128 * 2 ^ bits) (bits + 7) (k + 1)
        hdiv (by omega) hc1 (by omega) e2 (by rw [hP7]; omega)
      simp only [encode_rest, hsmall, if_false, List.cons_append, List.length_cons]
      rw [header_loop]
      simp only [hc, if_false, hchk, e1]
      rw [e7, hrec, hP7]
      congr 2
      · omega
      · omega

/-- The header parse reads back the header that `encode_raw` writes, whatever
follows it in the stream. -/
theorem read_header_encode_raw (type raw : Nat) (rest : List Nat) (ht : type < 4)
    (hraw : raw < 2 ^ 32) :
    read_header (encode_raw type raw ++ rest)
      = Except.ok (type, raw, (encode_raw type raw).length) := by
  have h32 : (2 : Nat) ^ 32 = 4294967296 := by norm_num
  rw [h32] at hraw
  by_cases hsmall : raw < 32
  · have hc : (raw * 4 + type) &&& 0x80 = 0 := (and_80 _).mpr (by omega)
    have e1 : (raw * 4 + type) &&& 3 = type := by rw [and_3]; omega
    have e2 : ((raw * 4 + type) >>> 2) &&& 0x1F = raw := by rw [shr2_and_1F]; omega
    simp only [encode_raw, hsmall, if_true, List.singleton_append, List.length_singleton,
      read_header]
    rw [header_loop_done _ _ _ _ _ hc, e1, e2]
  · have hml := Nat.mod_lt raw (by norm_num : 32 > 0)
    have hdm := Nat.div_add_mod raw 32
    have hc : (128 + raw % 32 * 4 + type) &&& 0x80 ≠ 0 := by
      intro h0
      have := (and_80 _).mp h0
      omega
    have e1 : (128 + raw % 32 * 4 + type) &&& 3 = type := by rw [and_3]; omega
    have e2 : ((128 + raw % 32 * 4 + type) >>> 2) &&& 0x1F = raw % 32 := by
      rw [shr2_and_1F]; omega
    have hloop := header_loop_encode_rest 4 (raw / 32) rest (128 + raw % 32 * 4 + type) (raw % 32)
      5 1 (by norm_num; omega) (by omega) hc (by norm_num) (by norm_num; omega)
      (by norm_num; omega)
    simp only [encode_raw, hsmall, if_false, List.cons_append, List.length_cons, read_header]
    rw [e2, hloop, e1]
    have e3 : raw % 32 + raw / 32 * 2 ^ 5 = raw := by norm_num; omega
    rw [e3, Nat.add_comm 1]

/-- The header of `count` units parses back, and the decoder's count
`raw + 1` is `count`. -/
theorem read_header_encode_header (type count : Nat) (rest : List Nat) (ht : type < 4)
    (h1 : 1 ≤ count) (h2 : count ≤ 2 ^ 32 - 1) :
    read_header (encode_header type count ++ rest)
      = Except.ok (type, count - 1, (encode_header type count).length) ∧
    count - 1 ≠ 0xFFFFFFFF ∧
    (count - 1 + 1) % 2 ^ 32 = count := by
  have h32 : (2 : Nat) ^ 32 = 4294967296 := by norm_num
  rw [h32] at h2 ⊢
  refine ⟨read_header_encode_raw type (count - 1) rest ht (by rw [h32]; omega), by omega, ?_⟩
  rw [Nat.sub_add_cancel h1]
  exact Nat.mod_eq_of_lt (by omega)

/-- C10: chunk header round trip.  For every type in 0..3 and every count
with `1 <= count <= 2^32 - 1`, parsing the base-128 encoding of `(type,
count)`, whatever bytes follow it, yields the type, the raw value `count - 1`
and the length of the encoding; the raw value is not the end indicator and the
count `raw + 1` the decoder uses is `count`. -/
theorem read_header_round_trip (type count : Nat) (rest : List Nat) (ht : type < 4)
    (h1 : 1 ≤ count) (h2 : count ≤ 2 ^ 32 - 1) :
    read_header (encode_header type count ++ rest)
      = Except.ok (type, count - 1, (encode_header type count).length) ∧
    count - 1 ≠ 0xFFFFFFFF ∧
    (count - 1 + 1) % 2 ^ 32 = count := by
  have h32 : (2 : Nat) ^ 32 = 4294967296 := by norm_num
  rw [h32] at h2 ⊢
  refine ⟨read_header_encode_raw type (count - 1) rest ht (by rw [h32]; omega), by omega, ?_⟩
  rw [Nat.sub_add_cancel h1]
  exact Nat.mod_eq_of_lt (by omega)

theorem read_header_round_trip_witness :
    (1 < 4) ∧ (1 ≤ 4096) ∧ (4096 ≤ 2 ^ 32 - 1) ∧
    read_header (encode_header 1 4096 ++ [7, 7])
      = Except.ok (1, 4096 - 1, (encode_header 1 4096).length) ∧
    4096 - 1 ≠ 0xFFFFFFFF ∧
    (4096 - 1 + 1) % 2 ^ 32 = 4096 :=
  ⟨by decide, by decide, by decide,
    read_header_round_trip 1 4096 [7, 7] (by decide) (by decide) (by decide)⟩

/-- The sample counts of the format's round-trip test, for every type. -/
theorem read_header_round_trip_samples :
    ∀ type, type < 4 → ∀ count, count ∈ [1, 31, 32, 4096, 2 ^ 20, 2 ^ 30] →
      read_header (encode_header type count)
        = Except.ok (type, count - 1, (encode_header type count).length) := by
  intro type ht count hc
  have h := read_header_encode_raw type (count - 1) [] ht (by
    simp only [List.mem_cons, List.mem_singleton, List.not_mem_nil, or_false] at hc
    rcases hc with h | h | h | h | h | h <;> subst h <;> norm_num)
  rw [List.append_nil] at h
  exact h

/-! ### The decode driver on Mode 1 streams -/

theorem fread_append (f : List Nat) (p : Nat) (a r : List Nat) (h : f.drop p = a ++ r) :
    fread f p a.length = some a := by
  simp [fread, h]

theorem drop_append_of_drop (f : List Nat) (p : Nat) (a r : List Nat) (h : f.drop p = a ++ r) :
    f.drop (p + a.length) = r := by
  have : (f.drop p).drop a.length = r := by rw [h, List.drop_left]
  rw [List.drop_drop] at this
  rw [← this]

theorem length_store (buf : List Nat) (off : Nat) (bytes : List Nat)
    (h : off + bytes.length ≤ buf.length) : (store buf off bytes).length = buf.length := by
  simp only [store, List.length_append, List.length_take, List.length_drop]
  omega

theorem rd_store (buf : List Nat) (off : Nat) (bytes : List Nat)
    (h : off + bytes.length ≤ buf.length) (i : Nat) :
    rd (store buf off bytes) i
      = if off ≤ i ∧ i < off + bytes.length then rd bytes (i - off) else rd buf i := by
  have hto : (buf.take off).length = off := by rw [List.length_take]; omega
  unfold store
  rw [rd_append, List.length_append, hto, rd_append, hto, rd_take, rd_drop]
  by_cases h1 : i < off
  · have e : ¬ (off ≤ i ∧ i < off + bytes.length) := by omega
    have e2 : i < off + bytes.length := by omega
    rw [if_pos e2, if_pos h1, if_pos h1, if_neg e]
  · by_cases h2 : i < off + bytes.length
    · have e : off ≤ i ∧ i < off + bytes.length := by omega
      rw [if_pos h2, if_neg h1, if_pos e]
    · have e : ¬ (off ≤ i ∧ i < off + bytes.length) := by omega
      rw [if_neg h2, if_neg e]
      congr 1
      omega

/-- The buffer after the two `fread` calls of a type 1 unit holds the unit. -/
theorem holds_store (buf : List Nat) (u : Mode1Unit) (hlen : buf.length = 2352)
    (ha : u.addr.length = 3) (hd : u.data.length = 0x800) :
    Holds (store (store buf 0x00C u.addr) 0x010 u.data) u := by
  have l1 : (store buf 0x00C u.addr).length = 2352 := by
    rw [length_store _ _ _ (by rw [ha, hlen]; decide), hlen]
  have l2 : (store (store buf 0x00C u.addr) 0x010 u.data).length = 2352 := by
    rw [length_store _ _ _ (by rw [hd, l1]; decide), l1]
  refine ⟨l2, ?_, ?_⟩
  · intro k hk
    rw [rd_store _ _ _ (by rw [hd, l1]; decide), rd_store _ _ _ (by rw [ha, hlen]; decide)]
    have e1 : ¬ (0x010 ≤ 0x00C + k ∧ 0x00C + k < 0x010 + u.data.length) := by omega
    have e2 : 0x00C ≤ 0x00C + k ∧ 0x00C + k < 0x00C + u.addr.length := by omega
    simp only [e1, e2, and_self, if_true, if_false]
    congr 1
    omega
  · intro k hk
    rw [rd_store _ _ _ (by rw [hd, l1]; decide)]
    have e1 : 0x010 ≤ 0x010 + k ∧ 0x010 + k < 0x010 + u.data.length := by omega
    simp only [e1, and_self, if_true]
    congr 1
    omega

/-- Two buffers that hold the same unit are reconstructed to the same sector. -/
theorem reconstruct_of_holds (t : Luts) (a b : List Nat) (u : Mode1Unit) (ha : Holds a u)
    (hb : Holds b u) : reconstruct_sector t a 1 = reconstruct_sector t b 1 := by
  have hone : reconstruct_sector t a 1 = reconstruct_sector t b 1 := by
    rw [reconstruct_sector_one, reconstruct_sector_one]
    have la : (write_mode (write_sync a) 1).length = 2352 := by
      rw [length_write_mode, length_write_sync, ha.1]
    have lb : (write_mode (write_sync b) 1).length = 2352 := by
      rw [length_write_mode, length_write_sync, hb.1]
    apply ecc_writesector_congr t _ addr_sector_below _ _ (by rw [length_put32lsb, la])
      (by rw [length_put32lsb, lb])
    intro i hi
    apply edc_stage_one_congr t a b ha.1 hb.1 _ i hi
    intro j hj
    have hj' : (0x00C ≤ j ∧ j ≤ 0x00E) ∨ (0x010 ≤ j ∧ j ≤ 0x80F) := by
      simpa [storedRange] using hj
    rcases hj' with h | h
    · obtain ⟨k, rfl⟩ : ∃ k, j = 0x00C + k := ⟨j - 0x00C, by omega⟩
      rw [ha.2.1 k (by omega), hb.2.1 k (by omega)]
    · obtain ⟨k, rfl⟩ : ∃ k, j = 0x010 + k := ⟨j - 0x010, by omega⟩
      rw [ha.2.2 k (by omega), hb.2.2 k (by omega)]
  exact hone

/-- One type 1 unit: what `unit_step` leaves when the source holds the unit
at the position of `f`. -/
theorem unit_step_mode1 (t : Luts) (f : List Nat) (x : Nat) (q : Locals) (u : Mode1Unit)
    (rest : List Nat) (hw : q.writebytecount = 2352 * x)
    (hdrop : f.drop q.fpos = u.addr ++ u.data ++ rest) (ha : u.addr.length = 3)
    (hd : u.data.length = 0x800) (hcap : 2352 * (x + 1) < 2 ^ 32) :
    ∃ q1, unit_step t f 1 q = Except.ok q1 ∧ q1.num = q.num - 1 ∧
      q1.processsectors = q.processsectors ∧ q1.sectorcount = ((x + 1 : Nat) : Int) ∧
      q1.writebytecount = 2352 * (x + 1) ∧ q1.fpos = q.fpos + 0x003 + 0x800 ∧
      (q.processsectors = false →
        q1.sector_buffer = store (store q.sector_buffer 0x00C u.addr) 0x010 u.data) ∧
      (q.processsectors = true →
        q1.sector_buffer
          = reconstruct_sector t (store (store q.sector_buffer 0x00C u.addr) 0x010 u.data) 1) := by
  have h1 : fread f q.fpos 0x003 = some u.addr := by
    have := fread_append f q.fpos u.addr (u.data ++ rest) (by rw [hdrop, List.append_assoc])
    rw [ha] at this
    exact this
  have h2 : fread f (q.fpos + 0x003) 0x800 = some u.data := by
    have hdr := drop_append_of_drop f q.fpos u.addr (u.data ++ rest)
      (by rw [hdrop, List.append_assoc])
    rw [ha] at hdr
    have := fread_append f (q.fpos + 3) u.data rest hdr
    rw [hd] at this
    exact this
  have hs : rd ECM_SECTOR_SIZE 1 = 2352 := rfl
  have hwb : (q.writebytecount + 2352) % 2 ^ 32 = 2352 * (x + 1) := by
    rw [hw]
    have : 2352 * x + 2352 = 2352 * (x + 1) := by ring
    rw [this]
    exact Nat.mod_eq_of_lt hcap
  have hdiv : 2352 * (x + 1) / CD_FRAMESIZE_RAW = x + 1 := by
    unfold CD_FRAMESIZE_RAW
    exact Nat.mul_div_cancel_left _ (by norm_num)
  have e10 : ¬ ((1 : Nat) = 0) := by decide
  unfold unit_step decode_unit
  simp only [h1, h2, hs, hwb, e10, if_true, if_false]
  cases hps : q.processsectors
  · simp only [eq_self_iff_true, if_true]
    refine ⟨_, rfl, rfl, rfl, ?_, rfl, rfl, ?_, ?_⟩
    · simp only [hdiv]
    · intro _; rfl
    · intro h; cases h
  · simp only [Bool.true_eq_false, if_false]
    generalize reconstruct_sector t (store (store q.sector_buffer 0x00C u.addr) 0x010 u.data) 1 = r
    refine ⟨_, rfl, rfl, rfl, ?_, rfl, rfl, ?_, ?_⟩
    · simp only [hdiv]
    · intro h; cases h
    · intro _; rfl

/-- One iteration of the unit loop on a type 1 run, before the target has
been passed: one unit is consumed, and it is reconstructed when it is the
target. -/
theorem mode1_iter (t : Luts) (f : List Nat) (n x : Nat) (st : Locals) (u : Mode1Unit)
    (rest : List Nat) (hinv : LoopInv n x st) (hx : x ≤ n) (hnum : 1 ≤ st.num)
    (hdrop : f.drop st.fpos = u.addr ++ u.data ++ rest) (ha : u.addr.length = 3)
    (hd : u.data.length = 0x800) (hcap : 2352 * (x + 1) < 2 ^ 32) (fuel : Nat) :
    ∃ st1, inner_loop t f (n : Int) 1 (fuel + 1) st = inner_loop t f (n : Int) 1 fuel st1 ∧
      LoopInv n (x + 1) st1 ∧ st1.num = st.num - 1 ∧ f.drop st1.fpos = rest ∧
      (x = n → ∃ b, Holds b u ∧ st1.sector_buffer = reconstruct_sector t b 1) ∧
      st1.fpos = st.fpos + 0x003 + 0x800 := by
  obtain ⟨hsc, hw, hps, hlen⟩ := hinv
  have hnum0 : ¬ st.num = 0 := by omega
  have hrest : f.drop (st.fpos + 0x003 + 0x800) = rest := by
    have h1 := drop_append_of_drop f st.fpos (u.addr ++ u.data) rest hdrop
    rw [List.length_append, ha, hd] at h1
    rw [Nat.add_assoc]
    exact h1
  have hholds := holds_store st.sector_buffer u hlen ha hd
  have hl1 : (store (store st.sector_buffer 0x00C u.addr) 0x010 u.data).length = 2352 := hholds.1
  have hl2 : (reconstruct_sector t (store (store st.sector_buffer 0x00C u.addr) 0x010 u.data)
      1).length = 2352 := reconstruct_sector_length t _ 1 hl1
  rw [inner_loop]
  simp only [hnum0, if_false]
  by_cases hp : st.processsectors = true
  · -- already processing: the unit is the target
    have hxn : x = n := by have := hps.mp hp; omega
    have c1 : ¬ (st.processsectors = false ∧ st.sectorcount ≥ (n : Int) - 1) := by
      rw [hp]; simp
    have c2 : ¬ (st.processsectors = true ∧ st.sectorcount > (n : Int)) := by
      rw [hsc]; omega
    simp only [c1, c2, if_false]
    obtain ⟨q1, hq, q_num, q_ps, q_sc, q_w, q_pos, _, q_buf⟩ :=
      unit_step_mode1 t f x st u rest hw hdrop ha hd hcap
    rw [hq]
    refine ⟨q1, rfl, ⟨q_sc, q_w, ?_, ?_⟩, q_num, by rw [q_pos]; exact hrest, ?_, q_pos⟩
    · rw [q_ps, hp]; constructor
      · intro _; omega
      · intro _; trivial
    · rw [q_buf hp]; exact hl2
    · intro _
      exact ⟨_, hholds, q_buf hp⟩
  · have hpf : st.processsectors = false := by
      cases h : st.processsectors
      · rfl
      · exact absurd h hp
    have hnot : ¬ (0 < x ∧ n ≤ x) := fun h => hp (hps.mpr h)
    by_cases hnear : n ≤ x + 1
    · -- the flag is raised for this unit
      have c1 : st.processsectors = false ∧ st.sectorcount ≥ (n : Int) - 1 := by
        refine ⟨hpf, ?_⟩
        rw [hsc]; omega
      simp only [c1, and_self, if_true]
      obtain ⟨q1, hq, q_num, q_ps, q_sc, q_w, q_pos, _, q_buf⟩ :=
        unit_step_mode1 t f x { st with processsectors := true } u rest hw hdrop ha hd hcap
      rw [hq]
      refine ⟨q1, rfl, ⟨q_sc, q_w, ?_, ?_⟩, q_num, by rw [q_pos]; exact hrest, ?_, q_pos⟩
      · rw [q_ps]; constructor
        · intro _; omega
        · intro _; rfl
      · rw [q_buf rfl]; exact hl2
      · intro _
        exact ⟨_, hholds, q_buf rfl⟩
    · -- a unit before the target window: read and dropped
      have c1 : ¬ (st.processsectors = false ∧ st.sectorcount ≥ (n : Int) - 1) := by
        rw [hsc]; omega
      have c2 : ¬ (st.processsectors = true ∧ st.sectorcount > (n : Int)) := by
        rw [hpf]; simp
      simp only [c1, c2, if_false]
      obtain ⟨q1, hq, q_num, q_ps, q_sc, q_w, q_pos, q_buf, _⟩ :=
        unit_step_mode1 t f x st u rest hw hdrop ha hd hcap
      rw [hq]
      refine ⟨q1, rfl, ⟨q_sc, q_w, ?_, ?_⟩, q_num, by rw [q_pos]; exact hrest, ?_, q_pos⟩
      · rw [q_ps, hpf]; constructor
        · intro h; cases h
        · intro h; omega
      · rw [q_buf hpf]; exact hl1
      · intro h; omega

theorem inner_loop_done (t : Luts) (f : List Nat) (sector : Int) (type fuel : Nat) (st : Locals)
    (h : st.num = 0) : inner_loop t f sector type fuel st = Except.ok st := by
  cases fuel <;> simp [inner_loop, h]

/-- The unit loop on a run of type 1 units, started with `x` sectors decoded:
it ends without error, either past the target (`n + 1` sectors decoded, the
buffer holding the reconstructed target) or at the end of the run. -/
theorem mode1_run (t : Luts) (f : List Nat) (n : Nat) (u : Mode1Unit) (buf : List Nat)
    (hbuf : Holds buf u) :
    ∀ (us : List Mode1Unit) (x : Nat) (st : Locals) (fuel : Nat) (rest : List Nat),
      LoopInv n x st → x ≤ n + 1 → st.num = us.length → us.length ≤ fuel →
      f.drop st.fpos = unitsBytes us ++ rest →
      (∀ v, v ∈ us → v.addr.length = 3 ∧ v.data.length = 0x800) →
      2352 * (x + us.length) < 2 ^ 32 →
      (∀ j v, us[j]? = some v → x + j = n → v = u) →
      (x = n + 1 → st.sector_buffer = reconstruct_sector t buf 1) →
      ∃ st1 x1, inner_loop t f (n : Int) 1 fuel st = Except.ok st1 ∧ LoopInv n x1 st1 ∧
        x1 ≤ n + 1 ∧ (x1 = n + 1 → st1.sector_buffer = reconstruct_sector t buf 1) ∧
        (x1 = n + 1 ∨ (x1 = x + us.length ∧ f.drop st1.fpos = rest)) := by
  intro us
  induction us with
  | nil =>
    intro x st fuel rest hinv hx hnum _ hdrop _ _ _ hb
    refine ⟨st, x, inner_loop_done t f _ 1 fuel st hnum, hinv, hx, hb, Or.inr ⟨rfl, ?_⟩⟩
    simpa [unitsBytes] using hdrop
  | cons v vs ih =>
    intro x st fuel rest hinv hx hnum hfuel hdrop hwf hcap htgt hb
    simp only [List.length_cons] at hnum hfuel hcap
    obtain ⟨fuel1, rfl⟩ : ∃ k, fuel = k + 1 := ⟨fuel - 1, by omega⟩
    by_cases hxn : x = n + 1
    · -- past the target: the loop is left by its `break`
      have hsc := hinv.1
      have hps := hinv.2.2.1
      have hp : st.processsectors = true := hps.mpr (by omega)
      have hnum0 : ¬ st.num = 0 := by omega
      have c1 : ¬ (st.processsectors = false ∧ st.sectorcount ≥ (n : Int) - 1) := by
        rw [hp]; simp
      have c2 : st.processsectors = true ∧ st.sectorcount > (n : Int) := by
        refine ⟨hp, ?_⟩
        rw [hsc]; omega
      refine ⟨st, x, ?_, hinv, hx, hb, Or.inl hxn⟩
      rw [inner_loop, if_neg hnum0, if_neg c1, if_pos c2]
    · have hv := hwf v (List.mem_cons_self _ _)
      have hdrop1 : f.drop st.fpos = v.addr ++ v.data ++ (unitsBytes vs ++ rest) := by
        rw [hdrop]; simp [unitsBytes, List.append_assoc]
      obtain ⟨st1, hstep, hinv1, hnum1, hdrop2, hbuf1, _⟩ :=
        mode1_iter t f n x st v (unitsBytes vs ++ rest) hinv (by omega) (by omega) hdrop1 hv.1
          hv.2 (by omega) fuel1
      have hb1 : x + 1 = n + 1 → st1.sector_buffer = reconstruct_sector t buf 1 := by
        intro hx1
        obtain ⟨b, hholds, hbeq⟩ := hbuf1 (by omega)
        have hvu : v = u := htgt 0 v (by simp) (by omega)
        rw [hbeq]
        exact reconstruct_of_holds t b buf u (hvu ▸ hholds) hbuf
      obtain ⟨st2, x2, hrun, hinv2, hx2, hb2, hend⟩ :=
        ih (x + 1) st1 fuel1 rest hinv1 (by omega) (by omega) (by omega) hdrop2
          (fun w hw => hwf w (List.mem_cons_of_mem _ hw)) (by omega)
          (fun j w hj hxj => htgt (j + 1) w (by simpa using hj) (by omega)) hb1
      refine ⟨st2, x2, by rw [hstep, hrun], hinv2, hx2, hb2, ?_⟩
      rcases hend with h | ⟨h1, h2⟩
      · exact Or.inl h
      · exact Or.inr ⟨by simp only [List.length_cons]; omega, h2⟩

theorem outer_loop_exit (t : Luts) (f : List Nat) (sector : Int) (fuel : Nat) (s : Session)
    (st : Locals) (h : ¬ sector ≥ st.sectorcount) :
    outer_loop t f sector fuel s st = (s, Except.ok st) := by
  cases fuel <;> simp only [outer_loop, h, if_false]

/-- The chunk loop on a sequence of type 1 chunks that contains the target,
started at a chunk header with `x <= n` sectors decoded: it ends without error
with the reconstructed target in the sector buffer. -/
theorem mode1_chunks (t : Luts) (f : List Nat) (n : Nat) (u : Mode1Unit) (buf : List Nat)
    (hbuf : Holds buf u) :
    ∀ (chunks : List (List Mode1Unit)) (x : Nat) (s : Session) (st : Locals) (fuel : Nat)
      (rest : List Nat),
      LoopInv n x st → x ≤ n → chunks.length < fuel →
      f.drop st.fpos = chunksBytes chunks ++ rest →
      WellFormedChunks chunks →
      n < x + (allUnits chunks).length →
      2352 * (x + (allUnits chunks).length) < 2 ^ 32 →
      (∀ j v, (allUnits chunks)[j]? = some v → x + j = n → v = u) →
      ∃ s1 st1, outer_loop t f (n : Int) fuel s st = (s1, Except.ok st1) ∧
        st1.sector_buffer = reconstruct_sector t buf 1 := by
  intro chunks
  induction chunks with
  | nil =>
    intro x s st fuel rest _ hx _ _ _ hn
    simp only [allUnits, List.length_nil] at hn
    omega
  | cons c cs ih =>
    intro x s st fuel rest hinv hx hfuel hdrop hwf hn hcap htgt
    simp only [allUnits, List.length_append, List.length_cons] at hn hcap hfuel
    obtain ⟨fuel1, rfl⟩ : ∃ k, fuel = k + 1 := ⟨fuel - 1, by omega⟩
    have hc := hwf c (List.mem_cons_self _ _)
    have hclen : 1 ≤ c.length := by
      cases c with
      | nil => exact absurd rfl hc.1
      | cons _ _ => simp
    have h32 : (2 : Nat) ^ 32 = 4294967296 := by norm_num
    have hcmax : c.length ≤ 2 ^ 32 - 1 := by rw [h32] at hcap ⊢; omega
    have hcond : (n : Int) ≥ st.sectorcount := by rw [hinv.1]; omega
    have hdrop1 : f.drop st.fpos
        = encode_header 1 c.length ++ (unitsBytes c ++ (chunksBytes cs ++ rest)) := by
      rw [hdrop]; simp [chunksBytes, List.append_assoc]
    obtain ⟨hhead, hne, hcount⟩ :=
      read_header_encode_header 1 c.length (unitsBytes c ++ (chunksBytes cs ++ rest)) (by decide)
        hclen hcmax
    have hinv0 : LoopInv n x
        { st with fpos := st.fpos + (encode_header 1 c.length).length,
                  num := (c.length - 1 + 1) % 2 ^ 32 } := hinv
    obtain ⟨st1, x1, hrun, hinv1, hx1, hb1, hend⟩ :=
      mode1_run t f n u buf hbuf c x
        { st with fpos := st.fpos + (encode_header 1 c.length).length,
                  num := (c.length - 1 + 1) % 2 ^ 32 }
        ((c.length - 1 + 1) % 2 ^ 32) (chunksBytes cs ++ rest) hinv0 (by omega) hcount
        (by rw [hcount]) (drop_append_of_drop f st.fpos _ _ hdrop1) hc.2 (by omega)
        (fun j v hj hxj => htgt j v (by
          have hlt : j < c.length := by
            by_contra hge
            rw [List.getElem?_eq_none (by omega)] at hj
            cases hj
          simp only [allUnits]
          rw [List.getElem?_append_left hlt]
          exact hj) hxj)
        (by intro h; omega)
    rw [outer_loop]
    simp only [hcond, if_true, hdrop1, hhead, hne, if_false, hrun]
    by_cases hdone : x1 = n + 1
    · refine ⟨_, st1, outer_loop_exit t f _ fuel1 _ st1 ?_, hb1 hdone⟩
      rw [hinv1.1]; omega
    · rcases hend with h | ⟨h1, h2⟩
      · exact absurd h hdone
      · exact ih x1 _ st1 fuel1 rest hinv1 (by omega) (by omega) h2
          (fun d hd => hwf d (List.mem_cons_of_mem _ hd)) (by omega) (by omega)
          (fun j v hj hxj => htgt (c.length + j) v (by
            simp only [allUnits]
            rw [List.getElem?_append_right (by omega)]
            simpa using hj) (by omega))

theorem lut_search_fresh (tbl : Nat → ECMFILELUT) (sector : Nat)
    (h : ∀ k, 0 < k → (tbl k).filepos < 4) : ∀ sc, lut_search tbl sector sc = 0 := by
  intro sc
  induction sc with
  | zero => rfl
  | succ k ih =>
    have hk : ¬ (tbl (k + 1)).filepos ≥ 4 := by
      have := h (k + 1) (by omega)
      omega
    simp only [lut_search, hk, if_false, ih, ite_self]

/-- A fresh session resumes from checkpoint entry 0, whatever the target. -/
theorem select_pos_fresh (s : Session) (sector : Int) (hs : IsFresh s) :
    s.ecm_savetable (select_pos s sector) = { sector := 0, filepos := 4 } := by
  obtain ⟨h0, hk, hp⟩ := hs
  have hsearch := lut_search_fresh s.ecm_savetable sector.toNat
    (fun k hk0 => by rw [hk k hk0]; decide) sector.toNat
  unfold select_pos
  simp only [hsearch, hp]
  split_ifs <;> exact h0

theorem encode_raw_length_pos (type raw : Nat) : 1 ≤ (encode_raw type raw).length := by
  unfold encode_raw
  split_ifs <;> simp

theorem chunksBytes_length (chunks : List (List Mode1Unit)) :
    chunks.length ≤ (chunksBytes chunks).length := by
  induction chunks with
  | nil => simp
  | cons c cs ih =>
    have := encode_raw_length_pos 1 (c.length - 1)
    simp only [chunksBytes, encode_header, List.length_cons, List.length_append]
    omega

/-- The chunk loop of a read of sector `n` of a type 1 stream, started from
checkpoint entry 0: it ends without error with the reconstruction of the
`n`-th stored unit in the sector buffer. -/
theorem mode1_fresh_loop (t : Luts) (s : Session) (chunks : List (List Mode1Unit))
    (stack : List Nat) (n : Nat) (u : Mode1Unit) (buf : List Nat)
    (hwf : WellFormedChunks chunks) (hcap : (allUnits chunks).length < 360000)
    (hstack : stack.length = 2352) (hu : (allUnits chunks)[n]? = some u) (hbuf : Holds buf u) :
    ∃ s1 st1,
      outer_loop t (mode1Stream chunks) (n : Int) ((mode1Stream chunks).length + 1) s
        { num := 0, processsectors := false, sectorcount := 0,
          writebytecount := toU32 ((0 : Int) * CD_FRAMESIZE_RAW), fpos := (4 : Int).toNat,
          sector_buffer := stack } = (s1, Except.ok st1) ∧
      st1.sector_buffer = reconstruct_sector t buf 1 := by
  have hn : n < (allUnits chunks).length := by
    by_contra hge
    rw [List.getElem?_eq_none (by omega)] at hu
    cases hu
  have hinv : LoopInv n 0
      { num := 0, processsectors := false, sectorcount := 0,
        writebytecount := toU32 ((0 : Int) * CD_FRAMESIZE_RAW), fpos := (4 : Int).toNat,
        sector_buffer := stack } := by
    refine ⟨rfl, rfl, ?_, hstack⟩
    constructor
    · intro h; cases h
    · intro h; omega
  have hdrop : (mode1Stream chunks).drop (4 : Int).toNat = chunksBytes chunks ++ sentinel := by
    simp [mode1Stream]
  have hfuel : chunks.length < (mode1Stream chunks).length + 1 := by
    have := chunksBytes_length chunks
    simp only [mode1Stream, List.length_append]
    omega
  exact mode1_chunks t (mode1Stream chunks) n u buf hbuf chunks 0 s _ _ sentinel hinv (by omega)
    hfuel hdrop hwf (by omega) (by norm_num; omega)
    (fun j v hj hxj => by
      have : j = n := by omega
      subst this
      rw [hu] at hj
      exact (Option.some.inj hj).symm)

/-- C1: in index-only mode, for every stream `'E','C','M',0` + type 1 chunks +
end indicator whose chunks are non-empty runs of units of 3 + 0x800 bytes and
whose sector count is below the 360000 entries of the session's table, for a
freshly initialised session and every target `n` below the sector count,
`cdread_ecm_decode` returns 2352 and copies to `dest` the sector that
`reconstruct_sector` with type 1 makes of any buffer that holds the `n`-th
stored unit. -/
theorem cdread_mode1_fresh (t : Luts) (s : Session) (chunks : List (List Mode1Unit))
    (stack : List Nat) (n : Nat) (u : Mode1Unit) (buf : List Nat) (hs : IsFresh s)
    (hwf : WellFormedChunks chunks) (hcap : (allUnits chunks).length < 360000)
    (hstack : stack.length = 2352) (hu : (allUnits chunks)[n]? = some u) (hbuf : Holds buf u) :
    ∃ r, cdread_ecm_decode t s (mode1Stream chunks) stack (n : Int) = some r ∧
      r.ret = 2352 ∧ r.dest = some (reconstruct_sector t buf 1) := by
  have hpos := select_pos_fresh s (n : Int) hs
  obtain ⟨s1, st1, hloop, hb⟩ := mode1_fresh_loop t s chunks stack n u buf hwf hcap hstack hu hbuf
  have hlen : (reconstruct_sector t buf 1).length = 2352 :=
    reconstruct_sector_length t buf 1 hbuf.1
  generalize mode1Stream chunks = f at hloop ⊢
  unfold cdread_ecm_decode
  simp only [hpos, hloop]
  refine ⟨_, rfl, rfl, ?_⟩
  simp only [hb]
  rw [List.take_of_length_le (by rw [hlen]; decide)]

/-! ### The example stream -/

theorem isFresh_freshSession : IsFresh freshSession := by
  refine ⟨rfl, ?_, rfl⟩
  intro k hk
  have : ¬ k = 0 := by omega
  simp [freshSession, setEntry, this]

theorem unitZero_lengths : unitZero.addr.length = 3 ∧ unitZero.data.length = 0x800 :=
  ⟨rfl, List.length_replicate _ _⟩

theorem unitFF_lengths : unitFF.addr.length = 3 ∧ unitFF.data.length = 0x800 := by
  refine ⟨rfl, ?_⟩
  show (List.replicate 0x7FE 0).length + 1 + 1 = 0x800
  rw [List.length_replicate]

theorem wellFormed_example : WellFormedChunks [[unitZero, unitFF]] := by
  intro c hc
  simp only [List.mem_singleton] at hc
  subst hc
  refine ⟨by simp, ?_⟩
  intro u hu
  simp only [List.mem_cons, List.mem_singleton, List.not_mem_nil, or_false] at hu
  rcases hu with h | h
  · subst h; exact unitZero_lengths
  · subst h; exact unitFF_lengths

theorem cdread_mode1_fresh_witness :
    IsFresh freshSession ∧ WellFormedChunks [[unitZero, unitFF]] ∧
    (allUnits [[unitZero, unitFF]]).length < 360000 ∧
    (List.replicate 2352 0).length = 2352 ∧
    (allUnits [[unitZero, unitFF]])[1]? = some unitFF ∧
    Holds (store (store (List.replicate 2352 0) 0x00C unitFF.addr) 0x010 unitFF.data) unitFF ∧
    ∃ r, cdread_ecm_decode (eccedc_init Luts.zero) freshSession (mode1Stream [[unitZero, unitFF]])
        (List.replicate 2352 0) ((1 : Nat) : Int) = some r ∧
      r.ret = 2352 ∧
      r.dest = some (reconstruct_sector (eccedc_init Luts.zero)
        (store (store (List.replicate 2352 0) 0x00C unitFF.addr) 0x010 unitFF.data) 1) :=
  ⟨isFresh_freshSession, wellFormed_example, by simp [allUnits], List.length_replicate _ _,
    rfl,
    holds_store _ unitFF (List.length_replicate _ _) unitFF_lengths.1 unitFF_lengths.2,
    cdread_mode1_fresh (eccedc_init Luts.zero) freshSession [[unitZero, unitFF]]
      (List.replicate 2352 0) 1 unitFF _ isFresh_freshSession wellFormed_example
      (by simp [allUnits]) (List.length_replicate _ _) rfl
      (holds_store _ unitFF (List.length_replicate _ _) unitFF_lengths.1 unitFF_lengths.2)⟩

theorem twoUnitStream_drop_header :
    twoUnitStream.drop 4
      = encode_header 1 2
          ++ (unitZero.addr ++ unitZero.data ++ (unitFF.addr ++ unitFF.data ++ sentinel)) := by
  simp [twoUnitStream, mode1Stream, chunksBytes, unitsBytes, List.append_assoc]

theorem twoUnitStream_drop_unit0 :
    twoUnitStream.drop 5
      = unitZero.addr ++ unitZero.data ++ (unitFF.addr ++ unitFF.data ++ sentinel) :=
  drop_append_of_drop twoUnitStream 4 (encode_header 1 2) _ twoUnitStream_drop_header

theorem twoUnitStream_drop_unit1 :
    twoUnitStream.drop 2056 = unitFF.addr ++ unitFF.data ++ sentinel := by
  have h := drop_append_of_drop twoUnitStream 5 (unitZero.addr ++ unitZero.data) _
    twoUnitStream_drop_unit0
  rw [List.length_append, unitZero_lengths.1, unitZero_lengths.2] at h
  exact h

/-- The second unit of the example stream, read as a chunk header, is
rejected: five bytes with the continuation bit set. -/
theorem read_header_unitFF (tail : List Nat) :
    read_header (unitFF.addr ++ unitFF.data ++ tail) = Except.error Err.error := by
  have h : unitFF.addr ++ unitFF.data ++ tail
      = 0xFF :: 0xFF :: 0xFF :: 0xFF :: 0xFF :: (List.replicate 0x7FE 0 ++ tail) := rfl
  rw [h]
  generalize List.replicate 0x7FE 0 ++ tail = rest
  rfl

/-- A read of sector 0 of the example stream in the fresh session succeeds and
leaves checkpoint entry 1 at offset 2056, the first byte of the second unit of
the run (not a chunk header). -/
theorem example_first_read (t : Luts) (stack : List Nat) (hstack : stack.length = 2352) :
    ∃ r0, cdread_ecm_decode t freshSession twoUnitStream stack 0 = some r0 ∧ r0.ret = 2352 ∧
      r0.session.ecm_savetable 1 = { sector := 1, filepos := 2056 } ∧
      r0.session.len_ecm_savetable = 360000 := by
  have hpos := select_pos_fresh freshSession 0 isFresh_freshSession
  have hhead : read_header (twoUnitStream.drop 4) = Except.ok (1, 1, 1) := by
    rw [twoUnitStream_drop_header]
    exact (read_header_encode_header 1 2 _ (by decide) (by decide) (by decide)).1
  have hinv : LoopInv 0 0
      { num := 2, processsectors := false, sectorcount := 0, writebytecount := 0, fpos := 5,
        sector_buffer := stack } := by
    refine ⟨rfl, rfl, ?_, hstack⟩
    constructor
    · intro h; cases h
    · intro h; omega
  obtain ⟨st1, hstep, hinv1, hnum1, _, _, hfpos⟩ :=
    mode1_iter t twoUnitStream 0 0 _ unitZero _ hinv (le_refl _) (le_of_eq_of_le rfl (by decide : 1 ≤ 2))
      twoUnitStream_drop_unit0 unitZero_lengths.1 unitZero_lengths.2 (by norm_num) 1
  have hsc1 : st1.sectorcount = 1 := hinv1.1
  have hp1 : st1.processsectors = true := hinv1.2.2.1.mpr (by omega)
  have hbreak : inner_loop t twoUnitStream 0 1 1 st1 = Except.ok st1 := by
    have hnum0 : ¬ st1.num = 0 := by
      rw [hnum1]
      show ¬ (2 - 1 = 0)
      decide
    have c1 : ¬ (st1.processsectors = false ∧ st1.sectorcount ≥ (0 : Int) - 1) := by
      rw [hp1]; simp
    have c2 : st1.processsectors = true ∧ st1.sectorcount > (0 : Int) := by
      refine ⟨hp1, ?_⟩
      rw [hsc1]; decide
    rw [inner_loop, if_neg hnum0, if_neg c1, if_pos c2]
  have hrun : inner_loop t twoUnitStream 0 1 2
      { num := 2, processsectors := false, sectorcount := 0, writebytecount := 0, fpos := 5,
        sector_buffer := stack } = Except.ok st1 := by
    have := hstep
    simp only [Nat.cast_zero] at this
    rw [this, hbreak]
  have hrec : record freshSession.ecm_savetable 1 st1
      = setEntry freshSession.ecm_savetable 1 { sector := 1, filepos := 2056 } := by
    have hfp : (st1.fpos : Int) = 2056 := by rw [hfpos]; rfl
    have hc : (1 : Nat) ≠ 0 ∧ st1.sectorcount > 0 ∧
        (freshSession.ecm_savetable st1.sectorcount.toNat).filepos ≤ (ECM_HEADER_SIZE : Int) := by
      rw [hsc1]
      refine ⟨by decide, by decide, ?_⟩
      rw [isFresh_freshSession.2.1 _ (by decide)]
      decide
    rw [record, if_pos hc, hsc1, hfp]
    rfl
  have hexit : ¬ ((0 : Int) ≥ st1.sectorcount) := by rw [hsc1]; decide
  generalize twoUnitStream = f at *
  unfold cdread_ecm_decode
  simp only [hpos]
  have hw0 : toU32 ((0 : Int) * (CD_FRAMESIZE_RAW : Int)) = 0 := rfl
  have h4 : (4 : Int).toNat = 4 := rfl
  have hcount : (1 + 1) % 2 ^ 32 = 2 := by norm_num
  have h00 : (0 : Int) ≥ 0 := le_refl _
  have hne : ¬ ((1 : Nat) = 0xFFFFFFFF) := by decide
  rw [outer_loop]
  simp only [hw0, h4, h00, if_true, hhead, hne, if_false, hcount, hrun, hrec]
  rw [outer_loop_exit t f 0 _ _ st1 hexit]
  refine ⟨_, rfl, rfl, ?_, rfl⟩
  simp [setEntry]

/-- A read of sector 1 of the example stream in a session whose checkpoint
entry 1 is at offset 2056 fails: the decoder resumes there and reads the
second unit as a chunk header. -/
theorem example_second_read (t : Luts) (s : Session) (stack : List Nat)
    (h1 : s.ecm_savetable 1 = { sector := 1, filepos := 2056 })
    (hl : 1 ≤ s.len_ecm_savetable) :
    ∃ r1, cdread_ecm_decode t s twoUnitStream stack 1 = some r1 ∧ r1.ret = -1 ∧
      r1.dest = none := by
  have hsel : select_pos s 1 = 1 := by
    have e1 : toU32 1 = 1 := rfl
    have e2 : (1 : Int).toNat = 1 := rfl
    have e3 : ¬ ((2056 : Int) ≤ 4 ∧ 1 > s.prevsector) := by
      intro h; have := h.1; omega
    have e4 : (1 : Nat) - (0 + 1) ≤ 50000 := by decide
    have e5 : (2056 : Int) ≥ 4 := by decide
    simp only [select_pos, e1, hl, if_true, e2, lut_search, h1, e3, e4, e5, if_false]
  have hhead : read_header (twoUnitStream.drop 2056) = Except.error Err.error := by
    rw [twoUnitStream_drop_unit1]
    exact read_header_unitFF sentinel
  have h2056 : (2056 : Int).toNat = 2056 := rfl
  have h11 : (1 : Int) ≥ 1 := le_refl _
  generalize twoUnitStream = f at *
  unfold cdread_ecm_decode
  simp only [hsel, h1, h2056]
  rw [outer_loop]
  simp only [h11, if_true, hhead]
  exact ⟨_, rfl, rfl, rfl⟩

/-- The end of a successful call that resumed from checkpoint entry 0: the
value returned is 2352 and `dest` receives the sector buffer. -/
theorem cdread_of_loop (t : Luts) (s : Session) (f stack : List Nat) (sector : Int)
    (s1 : Session) (st1 : Locals) (r : List Nat)
    (hpos : s.ecm_savetable (select_pos s sector) = { sector := 0, filepos := 4 })
    (hloop : outer_loop t f sector (f.length + 1) s
        { num := 0, processsectors := false, sectorcount := 0,
          writebytecount := toU32 ((0 : Int) * CD_FRAMESIZE_RAW), fpos := (4 : Int).toNat,
          sector_buffer := stack } = (s1, Except.ok st1))
    (hb : st1.sector_buffer = r) (hlen : r.length = 2352) :
    ∃ res, cdread_ecm_decode t s f stack sector = some res ∧ res.ret = 2352 ∧
      res.dest = some r := by
  unfold cdread_ecm_decode
  simp only [hpos, hloop]
  refine ⟨_, rfl, rfl, ?_⟩
  simp only [hb]
  rw [List.take_of_length_le (by rw [hlen]; decide)]

/-- A read of sector 1 of the example stream in the fresh session succeeds
and delivers the reconstruction of the second unit. -/
theorem example_fresh_read (t : Luts) (stack : List Nat) (hstack : stack.length = 2352) :
    ∃ rf, cdread_ecm_decode t freshSession twoUnitStream stack 1 = some rf ∧ rf.ret = 2352 ∧
      rf.dest = some (reconstruct_sector t
        (store (store stack 0x00C unitFF.addr) 0x010 unitFF.data) 1) := by
  have hholds := holds_store stack unitFF hstack unitFF_lengths.1 unitFF_lengths.2
  have hpos := select_pos_fresh freshSession 1 isFresh_freshSession
  obtain ⟨s1, st1, hloop, hb⟩ :=
    mode1_fresh_loop t freshSession [[unitZero, unitFF]] stack 1 unitFF _ wellFormed_example
      (by simp [allUnits]) hstack rfl hholds
  exact cdread_of_loop t freshSession twoUnitStream stack 1 s1 st1 _ hpos hloop hb
    (reconstruct_sector_length t _ 1 hholds.1)

/-- C2 on the code: on the example stream (one run of two Mode 1 sectors), a
read of sector 1 in a fresh session returns 2352 with the reconstructed
sector, while the same read after a read of sector 0 on the same session
returns -1 and writes nothing: the first read has recorded, as checkpoint
entry 1, the offset 2056 inside the run, and the second read resumes there. -/
theorem cdread_depends_on_earlier_reads :
    ∃ r0 r1 rf,
      cdread_ecm_decode (eccedc_init Luts.zero) freshSession twoUnitStream
        (List.replicate 2352 0) 0 = some r0 ∧ r0.ret = 2352 ∧
      r0.session.ecm_savetable 1 = { sector := 1, filepos := 2056 } ∧
      cdread_ecm_decode (eccedc_init Luts.zero) r0.session twoUnitStream
        (List.replicate 2352 0) 1 = some r1 ∧ r1.ret = -1 ∧ r1.dest = none ∧
      cdread_ecm_decode (eccedc_init Luts.zero) freshSession twoUnitStream
        (List.replicate 2352 0) 1 = some rf ∧ rf.ret = 2352 ∧
      rf.dest = some (reconstruct_sector (eccedc_init Luts.zero)
        (store (store (List.replicate 2352 0) 0x00C unitFF.addr) 0x010 unitFF.data) 1) := by
  obtain ⟨r0, h0, hret0, htbl, hlen⟩ :=
    example_first_read (eccedc_init Luts.zero) (List.replicate 2352 0) (List.length_replicate _ _)
  obtain ⟨r1, h1, hret1, hdest1⟩ :=
    example_second_read (eccedc_init Luts.zero) r0.session (List.replicate 2352 0) htbl
      (by rw [hlen]; decide)
  obtain ⟨rf, hf, hretf, hdestf⟩ :=
    example_fresh_read (eccedc_init Luts.zero) (List.replicate 2352 0)
      (List.length_replicate _ _)
  exact ⟨r0, r1, rf, h0, hret0, htbl, h1, hret1, hdest1, hf, hretf, hdestf⟩

/-! ### One unit of a run, every type -/

theorem fread_of_le (f : List Nat) (p n : Nat) (h : p + n ≤ f.length) :
    fread f p n = some ((f.drop p).take n) := by
  unfold fread
  rw [if_pos]
  simp only [List.length_take, List.length_drop]
  omega

theorem fread_length (f : List Nat) (p n : Nat) (bytes : List Nat)
    (h : fread f p n = some bytes) : bytes.length = n ∧ p + n ≤ f.length ∨ (n = 0 ∧ bytes = []) := by
  unfold fread at h
  by_cases hc : ((f.drop p).take n).length = n
  · rw [if_pos hc] at h
    injection h with h
    subst h
    simp only [List.length_take, List.length_drop] at hc
    by_cases hn : n = 0
    · right; subst hn; simp
    · left
      refine ⟨by simp only [List.length_take, List.length_drop]; omega, by omega⟩
  · rw [if_neg hc] at h
    cases h

/-- The fields of the locals after one unit. -/
theorem unit_step_fields (t : Luts) (f : List Nat) (type : Nat) (st st1 : Locals)
    (h : unit_step t f type st = Except.ok st1) :
    st1.fpos = st.fpos + unit_stored type st.num ∧ st1.num = st.num - unit_b type st.num ∧
    st1.writebytecount = (st.writebytecount + unit_decoded type st.num) % 2 ^ 32 ∧
    st1.processsectors = st.processsectors ∧
    st1.sectorcount = ((st1.writebytecount / 2352 : Nat) : Int) := by
  unfold unit_step decode_unit at h
  unfold unit_stored unit_b unit_decoded
  by_cases h0 : type = 0
  · simp only [h0, if_true] at h ⊢
    cases hp : st.processsectors
    · simp only [hp, if_true] at h
      injection h with h
      subst h
      exact ⟨rfl, rfl, rfl, rfl, rfl⟩
    · simp only [hp, Bool.true_eq_false, if_false] at h
      cases hf : fread f st.fpos (if st.num > 2352 then 2352 else st.num) with
      | none => simp only [hf] at h; cases h
      | some bytes =>
        simp only [hf] at h
        injection h with h
        subst h
        exact ⟨rfl, rfl, rfl, rfl, rfl⟩
  · by_cases h1 : type = 1
    · have e10 : ¬ (1 = 0) := by decide
      simp only [h1, e10, if_true, if_false] at h ⊢
      cases hf : fread f st.fpos 0x003 with
      | none => simp only [hf] at h; cases h
      | some addr =>
        simp only [hf] at h
        cases hg : fread f (st.fpos + 0x003) 0x800 with
        | none => simp only [hg] at h; cases h
        | some data =>
          simp only [hg] at h
          cases hp : st.processsectors
          · simp only [hp, if_true] at h
            injection h with h
            subst h
            exact ⟨Nat.add_assoc _ _ _, rfl, rfl, rfl, rfl⟩
          · simp only [hp, Bool.true_eq_false, if_false] at h
            injection h with h
            subst h
            exact ⟨Nat.add_assoc _ _ _, rfl, rfl, rfl, rfl⟩
    · by_cases h2 : type = 2
      · have e20 : ¬ (2 = 0) := by decide
        have e21 : ¬ (2 = 1) := by decide
        simp only [h2, e20, e21, if_true, if_false] at h ⊢
        cases hp : st.processsectors
        · simp only [hp, if_true] at h
          injection h with h
          subst h
          exact ⟨rfl, rfl, rfl, rfl, rfl⟩
        · simp only [hp, Bool.true_eq_false, if_false] at h
          cases hf : fread f st.fpos 0x804 with
          | none => simp only [hf] at h; cases h
          | some bytes =>
            simp only [hf] at h
            injection h with h
            subst h
            exact ⟨rfl, rfl, rfl, rfl, rfl⟩
      · simp only [h0, h1, h2, if_false] at h ⊢
        cases hp : st.processsectors
        · simp only [hp, if_true] at h
          injection h with h
          subst h
          exact ⟨rfl, rfl, rfl, rfl, rfl⟩
        · simp only [hp, Bool.true_eq_false, if_false] at h
          cases hf : fread f st.fpos 0x918 with
          | none => simp only [hf] at h; cases h
          | some bytes =>
            simp only [hf] at h
            injection h with h
            subst h
            exact ⟨rfl, rfl, rfl, rfl, rfl⟩

theorem unit_step_error (t : Luts) (f : List Nat) (type : Nat) (st : Locals) (e : Err)
    (h : unit_step t f type st = Except.error e) : e = Err.error_in := by
  unfold unit_step decode_unit at h
  by_cases h0 : type = 0
  · simp only [h0, if_true] at h
    cases hp : st.processsectors
    · simp only [hp, if_true] at h
      cases h
    · simp only [hp, Bool.true_eq_false, if_false] at h
      cases hf : fread f st.fpos (if st.num > 2352 then 2352 else st.num) with
      | none => simp only [hf] at h; injection h with h; exact h.symm
      | some bytes => simp only [hf] at h; cases h
  · by_cases h1 : type = 1
    · have e10 : ¬ (1 = 0) := by decide
      simp only [h1, e10, if_true, if_false] at h
      cases hf : fread f st.fpos 0x003 with
      | none => simp only [hf] at h; injection h with h; exact h.symm
      | some addr =>
        simp only [hf] at h
        cases hg : fread f (st.fpos + 0x003) 0x800 with
        | none => simp only [hg] at h; injection h with h; exact h.symm
        | some data =>
          simp only [hg] at h
          cases hp : st.processsectors
          · simp only [hp, if_true] at h
            cases h
          · simp only [hp, Bool.true_eq_false, if_false] at h
            cases h
    · by_cases h2 : type = 2
      · have e20 : ¬ (2 = 0) := by decide
        have e21 : ¬ (2 = 1) := by decide
        simp only [h2, e20, e21, if_true, if_false] at h
        cases hp : st.processsectors
        · simp only [hp, if_true] at h
          cases h
        · simp only [hp, Bool.true_eq_false, if_false] at h
          cases hf : fread f st.fpos 0x804 with
          | none => simp only [hf] at h; injection h with h; exact h.symm
          | some bytes => simp only [hf] at h; cases h
      · simp only [h0, h1, h2, if_false] at h
        cases hp : st.processsectors
        · simp only [hp, if_true] at h
          cases h
        · simp only [hp, Bool.true_eq_false, if_false] at h
          cases hf : fread f st.fpos 0x918 with
          | none => simp only [hf] at h; injection h with h; exact h.symm
          | some bytes => simp only [hf] at h; cases h

/-- A unit whose stored bytes lie inside the stream is decoded without error. -/
theorem unit_step_ok (t : Luts) (f : List Nat) (type : Nat) (st : Locals)
    (h : st.fpos + unit_stored type st.num ≤ f.length) :
    ∃ st1, unit_step t f type st = Except.ok st1 := by
  unfold unit_stored at h
  unfold unit_step decode_unit
  by_cases h0 : type = 0
  · simp only [h0, if_true] at h ⊢
    cases hp : st.processsectors
    · simp only [if_true]
      exact ⟨_, rfl⟩
    · simp only [Bool.true_eq_false, if_false]
      rw [fread_of_le f _ _ h]
      exact ⟨_, rfl⟩
  · by_cases h1 : type = 1
    · have e10 : ¬ (1 = 0) := by decide
      simp only [h1, e10, if_true, if_false] at h ⊢
      rw [fread_of_le f st.fpos 3 (by omega), fread_of_le f (st.fpos + 3) 0x800 (by omega)]
      cases hp : st.processsectors
      · simp only [if_true]
        exact ⟨_, rfl⟩
      · simp only [Bool.true_eq_false, if_false]
        exact ⟨_, rfl⟩
    · by_cases h2 : type = 2
      · have e20 : ¬ (2 = 0) := by decide
        have e21 : ¬ (2 = 1) := by decide
        simp only [h2, e20, e21, if_true, if_false] at h ⊢
        cases hp : st.processsectors
        · simp only [if_true]
          exact ⟨_, rfl⟩
        · simp only [Bool.true_eq_false, if_false]
          rw [fread_of_le f _ _ h]
          exact ⟨_, rfl⟩
      · simp only [h0, h1, h2, if_false] at h ⊢
        cases hp : st.processsectors
        · simp only [if_true]
          exact ⟨_, rfl⟩
        · simp only [Bool.true_eq_false, if_false]
          rw [fread_of_le f _ _ h]
          exact ⟨_, rfl⟩

/-- A unit keeps the length of the sector buffer. -/
theorem unit_step_buffer (t : Luts) (f : List Nat) (type : Nat) (st st1 : Locals)
    (h : unit_step t f type st = Except.ok st1) (hlen : st.sector_buffer.length = 2352) :
    st1.sector_buffer.length = 2352 := by
  unfold unit_step decode_unit at h
  by_cases h0 : type = 0
  · simp only [h0, if_true] at h
    cases hp : st.processsectors
    · simp only [hp, if_true] at h
      injection h with h
      subst h
      exact hlen
    · simp only [hp, Bool.true_eq_false, if_false] at h
      cases hf : fread f st.fpos (if st.num > 2352 then 2352 else st.num) with
      | none => simp only [hf] at h; cases h
      | some bytes =>
        simp only [hf] at h
        injection h with h
        subst h
        have hb : bytes.length ≤ 2352 := by
          rcases fread_length f _ _ _ hf with ⟨hl, _⟩ | ⟨_, hl⟩
          · rw [hl]; split_ifs <;> omega
          · rw [hl]; simp
        show (store st.sector_buffer 0 bytes).length = 2352
        rw [length_store _ _ _ (by omega), hlen]
  · by_cases h1 : type = 1
    · have e10 : ¬ (1 = 0) := by decide
      simp only [h1, e10, if_true, if_false] at h
      cases hf : fread f st.fpos 0x003 with
      | none => simp only [hf] at h; cases h
      | some addr =>
        simp only [hf] at h
        cases hg : fread f (st.fpos + 0x003) 0x800 with
        | none => simp only [hg] at h; cases h
        | some data =>
          simp only [hg] at h
          have ha : addr.length = 3 := by
            rcases fread_length f _ _ _ hf with ⟨hl, _⟩ | ⟨hl, _⟩
            · exact hl
            · exact absurd hl (by decide)
          have hd : data.length = 0x800 := by
            rcases fread_length f _ _ _ hg with ⟨hl, _⟩ | ⟨hl, _⟩
            · exact hl
            · exact absurd hl (by decide)
          have hs : (store (store st.sector_buffer 0x00C addr) 0x010 data).length = 2352 := by
            rw [length_store _ _ _ (by rw [length_store _ _ _ (by omega)]; omega),
              length_store _ _ _ (by omega), hlen]
          cases hp : st.processsectors
          · simp only [hp, if_true] at h
            injection h with h
            subst h
            exact hs
          · simp only [hp, Bool.true_eq_false, if_false] at h
            injection h with h
            subst h
            have hr := reconstruct_sector_length t
              (store (store st.sector_buffer 0x00C addr) 0x010 data) 1 hs
            dsimp only
            exact hr
    · by_cases h2 : type = 2
      · have e20 : ¬ (2 = 0) := by decide
        have e21 : ¬ (2 = 1) := by decide
        simp only [h2, e20, e21, if_true, if_false] at h
        cases hp : st.processsectors
        · simp only [hp, if_true] at h
          injection h with h
          subst h
          exact hlen
        · simp only [hp, Bool.true_eq_false, if_false] at h
          cases hf : fread f st.fpos 0x804 with
          | none => simp only [hf] at h; cases h
          | some bytes =>
            simp only [hf] at h
            injection h with h
            subst h
            have hb : bytes.length = 0x804 := by
              rcases fread_length f _ _ _ hf with ⟨hl, _⟩ | ⟨hl, _⟩
              · exact hl
              · exact absurd hl (by decide)
            have hr := reconstruct_sector_length t (store st.sector_buffer 0x014 bytes) 2
              (by rw [length_store _ _ _ (by omega), hlen])
            dsimp only
            exact hr
      · simp only [h0, h1, h2, if_false] at h
        cases hp : st.processsectors
        · simp only [hp, if_true] at h
          injection h with h
          subst h
          exact hlen
        · simp only [hp, Bool.true_eq_false, if_false] at h
          cases hf : fread f st.fpos 0x918 with
          | none => simp only [hf] at h; cases h
          | some bytes =>
            simp only [hf] at h
            injection h with h
            subst h
            have hb : bytes.length = 0x918 := by
              rcases fread_length f _ _ _ hf with ⟨hl, _⟩ | ⟨hl, _⟩
              · exact hl
              · exact absurd hl (by decide)
            have hr := reconstruct_sector_length t (store st.sector_buffer 0x014 bytes) 3
              (by rw [length_store _ _ _ (by omega), hlen])
            dsimp only
            exact hr

/-! ### The loops end -/

theorem header_loop_error : ∀ (rest : List Nat) (c num bits k : Nat) (e : Err),
    header_loop rest c num bits k = Except.error e → e = Err.error_in ∨ e = Err.error := by
  intro rest
  induction rest with
  | nil =>
    intro c num bits k e h
    rw [header_loop] at h
    by_cases hc : c &&& 0x80 = 0
    · rw [if_pos hc] at h; cases h
    · rw [if_neg hc] at h
      injection h with h
      exact Or.inl h.symm
  | cons c1 rest1 ih =>
    intro c num bits k e h
    rw [header_loop] at h
    by_cases hc : c &&& 0x80 = 0
    · rw [if_pos hc] at h; cases h
    · rw [if_neg hc] at h
      by_cases hb : bits > 31 ∨ (c1 &&& 0x7F) ≥ (0x80000000 >>> (bits - 1))
      · simp only [hb, if_true] at h
        injection h with h
        exact Or.inr h.symm
      · simp only [hb, if_false] at h
        exact ih _ _ _ _ _ h

theorem header_loop_consumed : ∀ (rest : List Nat) (c num bits k n1 k1 : Nat),
    header_loop rest c num bits k = Except.ok (n1, k1) → k ≤ k1 := by
  intro rest
  induction rest with
  | nil =>
    intro c num bits k n1 k1 h
    rw [header_loop] at h
    by_cases hc : c &&& 0x80 = 0
    · rw [if_pos hc] at h
      injection h with h
      injection h with h1 h2
      omega
    · rw [if_neg hc] at h; cases h
  | cons c1 rest1 ih =>
    intro c num bits k n1 k1 h
    rw [header_loop] at h
    by_cases hc : c &&& 0x80 = 0
    · rw [if_pos hc] at h
      injection h with h
      injection h with h1 h2
      omega
    · rw [if_neg hc] at h
      by_cases hb : bits > 31 ∨ (c1 &&& 0x7F) ≥ (0x80000000 >>> (bits - 1))
      · simp only [hb, if_true] at h
        cases h
      · simp only [hb, if_false] at h
        have := ih _ _ _ _ _ _ h
        omega

theorem read_header_error (l : List Nat) (e : Err) (h : read_header l = Except.error e) :
    e = Err.error_in ∨ e = Err.error := by
  cases l with
  | nil =>
    rw [read_header] at h
    injection h with h
    exact Or.inl h.symm
  | cons c rest =>
    rw [read_header] at h
    cases hh : header_loop rest c ((c >>> 2) &&& 0x1F) 5 1 with
    | error e1 =>
      rw [hh] at h
      injection h with h
      subst h
      exact header_loop_error _ _ _ _ _ _ hh
    | ok p =>
      rw [hh] at h
      cases h

/-- A header that parses has a type below 4, a raw run length below 2^32 and
takes at least one byte. -/
theorem read_header_bounds (l : List Nat) (type num k : Nat)
    (h : read_header l = Except.ok (type, num, k)) : type < 4 ∧ num < 2 ^ 32 ∧ 1 ≤ k := by
  cases l with
  | nil => rw [read_header] at h; cases h
  | cons c rest =>
    rw [read_header] at h
    cases hh : header_loop rest c ((c >>> 2) &&& 0x1F) 5 1 with
    | error e1 => rw [hh] at h; cases h
    | ok p =>
      obtain ⟨n1, k1⟩ := p
      rw [hh] at h
      injection h with h
      injection h with h1 h2
      injection h2 with h2 h3
      subst h1 h2 h3
      have hlt : (c >>> 2) &&& 0x1F < 32 := by
        rw [shr2_and_1F]
        exact Nat.mod_lt _ (by decide)
      obtain ⟨cs, tail, _, _, _, hn, _⟩ :=
        header_loop_ok rest c _ 5 1 _ _ hh (by decide) (by simpa using hlt)
          (lt_trans hlt (by norm_num))
      refine ⟨?_, hn, header_loop_consumed _ _ _ _ _ _ _ hh⟩
      rw [and_3]
      exact Nat.mod_lt _ (by decide)

theorem unit_b_bounds (type num : Nat) (h : 1 ≤ num) :
    1 ≤ unit_b type num ∧ unit_b type num ≤ num := by
  unfold unit_b
  split_ifs <;> omega

theorem unit_stored_pos (type num : Nat) (h : type ≠ 0) : 0x803 ≤ unit_stored type num := by
  unfold unit_stored
  split_ifs <;> omega

/-- The unit loop does not run out of iterations when it is given as many as
there are units left. -/
theorem inner_loop_no_fuel (t : Luts) (f : List Nat) (sector : Int) (type : Nat) :
    ∀ (fuel : Nat) (st : Locals), st.num ≤ fuel →
      inner_loop t f sector type fuel st ≠ Except.error Err.fuel := by
  intro fuel
  induction fuel with
  | zero =>
    intro st h
    have h0 : st.num = 0 := by omega
    rw [inner_loop_done t f sector type 0 st h0]
    intro hc; cases hc
  | succ n ih =>
    intro st h
    by_cases h0 : st.num = 0
    · rw [inner_loop_done t f sector type _ st h0]
      intro hc; cases hc
    · rw [inner_loop, if_neg h0]
      by_cases c1 : st.processsectors = false ∧ st.sectorcount ≥ sector - 1
      · rw [if_pos c1]
        cases hu : unit_step t f type { st with processsectors := true } with
        | error e =>
          have := unit_step_error t f type _ e hu
          subst this
          intro hc; cases hc
        | ok st1 =>
          have hf := (unit_step_fields t f type _ st1 hu).2.1
          have hb := unit_b_bounds type st.num (by omega)
          exact ih st1 (by rw [hf]; show st.num - unit_b type st.num ≤ n; omega)
      · rw [if_neg c1]
        by_cases c2 : st.processsectors = true ∧ st.sectorcount > sector
        · rw [if_pos c2]
          intro hc; cases hc
        · rw [if_neg c2]
          cases hu : unit_step t f type st with
          | error e =>
            have := unit_step_error t f type _ e hu
            subst this
            intro hc; cases hc
          | ok st1 =>
            have hf := (unit_step_fields t f type _ st1 hu).2.1
            have hb := unit_b_bounds type st.num (by omega)
            exact ih st1 (by rw [hf]; omega)

/-- The unit loop only moves forward in the stream and keeps the length of
the sector buffer. -/
theorem inner_loop_fields (t : Luts) (f : List Nat) (sector : Int) (type : Nat) :
    ∀ (fuel : Nat) (st st1 : Locals), inner_loop t f sector type fuel st = Except.ok st1 →
      st.fpos ≤ st1.fpos ∧ (st.sector_buffer.length = 2352 → st1.sector_buffer.length = 2352) := by
  intro fuel
  induction fuel with
  | zero =>
    intro st st1 h
    rw [inner_loop] at h
    by_cases h0 : st.num = 0
    · rw [if_pos h0] at h
      injection h with h
      subst h
      exact ⟨le_refl _, fun h => h⟩
    · rw [if_neg h0] at h; cases h
  | succ n ih =>
    intro st st1 h
    rw [inner_loop] at h
    by_cases h0 : st.num = 0
    · rw [if_pos h0] at h
      injection h with h
      subst h
      exact ⟨le_refl _, fun h => h⟩
    · rw [if_neg h0] at h
      by_cases c1 : st.processsectors = false ∧ st.sectorcount ≥ sector - 1
      · rw [if_pos c1] at h
        cases hu : unit_step t f type { st with processsectors := true } with
        | error e => rw [hu] at h; cases h
        | ok st2 =>
          rw [hu] at h
          have hf := (unit_step_fields t f type _ st2 hu).1
          have hb := unit_step_buffer t f type _ st2 hu
          obtain ⟨i1, i2⟩ := ih st2 st1 h
          refine ⟨?_, fun hl => i2 (hb hl)⟩
          have : st.fpos ≤ st2.fpos := by rw [hf]; exact Nat.le_add_right _ _
          omega
      · rw [if_neg c1] at h
        by_cases c2 : st.processsectors = true ∧ st.sectorcount > sector
        · rw [if_pos c2] at h
          injection h with h
          subst h
          exact ⟨le_refl _, fun h => h⟩
        · rw [if_neg c2] at h
          cases hu : unit_step t f type st with
          | error e => rw [hu] at h; cases h
          | ok st2 =>
            rw [hu] at h
            have hf := (unit_step_fields t f type _ st2 hu).1
            have hb := unit_step_buffer t f type _ st2 hu
            obtain ⟨i1, i2⟩ := ih st2 st1 h
            refine ⟨?_, fun hl => i2 (hb hl)⟩
            have : st.fpos ≤ st2.fpos := by rw [hf]; exact Nat.le_add_right _ _
            omega

/-- A run that is entered with units left and not past the target decodes at
least its first unit. -/
theorem inner_loop_progress (t : Luts) (f : List Nat) (sector : Int) (type fuel : Nat)
    (st st1 : Locals) (h : inner_loop t f sector type fuel st = Except.ok st1)
    (h0 : st.num ≠ 0) (hs : sector ≥ st.sectorcount) :
    st.fpos + unit_stored type st.num ≤ st1.fpos := by
  cases fuel with
  | zero =>
    rw [inner_loop, if_neg h0] at h
    cases h
  | succ n =>
    rw [inner_loop, if_neg h0] at h
    by_cases c1 : st.processsectors = false ∧ st.sectorcount ≥ sector - 1
    · rw [if_pos c1] at h
      cases hu : unit_step t f type { st with processsectors := true } with
      | error e => rw [hu] at h; cases h
      | ok st2 =>
        rw [hu] at h
        have hf := (unit_step_fields t f type _ st2 hu).1
        have := (inner_loop_fields t f sector type n st2 st1 h).1
        rw [hf] at this
        exact this
    · rw [if_neg c1] at h
      have c2 : ¬ (st.processsectors = true ∧ st.sectorcount > sector) := by
        intro hc
        have := hc.2
        omega
      rw [if_neg c2] at h
      cases hu : unit_step t f type st with
      | error e => rw [hu] at h; cases h
      | ok st2 =>
        rw [hu] at h
        have hf := (unit_step_fields t f type _ st2 hu).1
        have := (inner_loop_fields t f sector type n st2 st1 h).1
        rw [hf] at this
        exact this

/-- The chunk loop does not run out of iterations when it is given one more
than there are bytes left in the stream. -/
theorem outer_loop_no_fuel (t : Luts) (f : List Nat) (sector : Int) :
    ∀ (fuel : Nat) (s : Session) (st : Locals), f.length ≤ st.fpos + fuel →
      (outer_loop t f sector (fuel + 1) s st).2 ≠ Except.error Err.fuel := by
  intro fuel
  induction fuel with
  | zero =>
    intro s st h
    rw [outer_loop]
    by_cases hs : sector ≥ st.sectorcount
    · rw [if_pos hs, List.drop_eq_nil_of_le (by omega), read_header]
      intro hc; cases hc
    · rw [if_neg hs]
      intro hc; cases hc
  | succ n ih =>
    intro s st h
    rw [outer_loop]
    by_cases hs : sector ≥ st.sectorcount
    · rw [if_pos hs]
      cases hh : read_header (f.drop st.fpos) with
      | error e =>
        intro hc
        injection hc with hc
        subst hc
        rcases read_header_error _ _ hh with h1 | h1 <;> cases h1
      | ok p =>
        obtain ⟨type, num, k⟩ := p
        have hk := (read_header_bounds _ _ _ _ hh).2.2
        by_cases hn : num = 0xFFFFFFFF
        · simp only [hn, if_true]
          intro hc; cases hc
        · simp only [hn, if_false]
          cases hi : inner_loop t f sector type ((num + 1) % 2 ^ 32)
              { st with fpos := st.fpos + k, num := (num + 1) % 2 ^ 32 } with
          | error e =>
            intro hc
            injection hc with hc
            subst hc
            exact inner_loop_no_fuel t f sector type ((num + 1) % 2 ^ 32)
              { st with fpos := st.fpos + k, num := (num + 1) % 2 ^ 32 } (le_refl _) hi
          | ok st1 =>
            have hf := (inner_loop_fields t f sector type _ _ st1 hi).1
            exact ih _ st1 (by
              have : st.fpos + k ≤ st1.fpos := hf
              omega)
    · rw [if_neg hs]
      intro hc; cases hc

theorem extends_refl (tbl : Nat → ECMFILELUT) : Extends tbl tbl := fun _ => Or.inl rfl

theorem extends_trans (a b c : Nat → ECMFILELUT) (h1 : Extends a b) (h2 : Extends b c) :
    Extends a c := by
  intro k
  rcases h2 k with e2 | ⟨k0, hb, hs, hf⟩
  · rcases h1 k with e1 | h
    · exact Or.inl (e2.trans e1)
    · right
      rw [e2]
      exact h
  · rcases h1 k with e1 | ⟨_, _, _, hf1⟩
    · right
      rw [← e1]
      exact ⟨k0, hb, hs, hf⟩
    · omega

/-- A checkpoint write after a run that has moved beyond the magic header. -/
theorem record_extends (tbl : Nat → ECMFILELUT) (type : Nat) (st : Locals)
    (h : type ≠ 0 → 4 < st.fpos) : Extends tbl (record tbl type st) := by
  unfold record
  by_cases hc : type ≠ 0 ∧ st.sectorcount > 0 ∧
      (tbl st.sectorcount.toNat).filepos ≤ (ECM_HEADER_SIZE : Int)
  · rw [if_pos hc]
    intro k
    by_cases hk : k = st.sectorcount.toNat
    · right
      have hpos := hc.2.1
      have h4 := h hc.1
      have hle := hc.2.2
      subst hk
      simp only [setEntry, if_true]
      refine ⟨by omega, hle, by omega, by omega⟩
    · left
      simp only [setEntry, hk, if_false]
  · rw [if_neg hc]
    exact extends_refl tbl

/-- What the chunk loop does to the session and to the sector buffer: the
cursor is not touched; the table only gains checkpoints; the two lengths
change only when the loop ends without error. -/
theorem outer_loop_session (t : Luts) (f : List Nat) (sector : Int) :
    ∀ (fuel : Nat) (s : Session) (st : Locals) (s1 : Session) (res : Except Err Locals),
      outer_loop t f sector fuel s st = (s1, res) →
      s1.prevsector = s.prevsector ∧ Extends s.ecm_savetable s1.ecm_savetable ∧
      (∀ e, res = Except.error e → s1.len_ecm_savetable = s.len_ecm_savetable ∧
        s1.len_decoded_ecm_buffer = s.len_decoded_ecm_buffer) ∧
      (∀ st1, res = Except.ok st1 → st.sector_buffer.length = 2352 →
        st1.sector_buffer.length = 2352) := by
  intro fuel
  induction fuel with
  | zero =>
    intro s st s1 res h
    rw [outer_loop] at h
    by_cases hs : sector ≥ st.sectorcount
    · rw [if_pos hs] at h
      injection h with h1 h2
      subst h1 h2
      exact ⟨rfl, extends_refl _, fun _ _ => ⟨rfl, rfl⟩, fun _ hc => by cases hc⟩
    · rw [if_neg hs] at h
      injection h with h1 h2
      subst h1 h2
      refine ⟨rfl, extends_refl _, fun _ hc => (by cases hc), fun st1 hc hl => ?_⟩
      injection hc with hc
      subst hc
      exact hl
  | succ n ih =>
    intro s st s1 res h
    rw [outer_loop] at h
    by_cases hs : sector ≥ st.sectorcount
    · rw [if_pos hs] at h
      cases hh : read_header (f.drop st.fpos) with
      | error e =>
        rw [hh] at h
        injection h with h1 h2
        subst h1 h2
        exact ⟨rfl, extends_refl _, fun _ _ => ⟨rfl, rfl⟩, fun _ hc => by cases hc⟩
      | ok p =>
        obtain ⟨type, num, k⟩ := p
        rw [hh] at h
        obtain ⟨_, hnum, hk⟩ := read_header_bounds _ _ _ _ hh
        by_cases hn : num = 0xFFFFFFFF
        · simp only [hn, if_true] at h
          injection h with h1 h2
          subst h1 h2
          refine ⟨rfl, extends_refl _, fun _ hc => (by cases hc), fun st1 hc hl => ?_⟩
          injection hc with hc
          subst hc
          exact hl
        · simp only [hn, if_false] at h
          have h32 : (2 : Nat) ^ 32 = 4294967296 := by norm_num
          have hcount : (num + 1) % 2 ^ 32 ≠ 0 := by
            rw [h32] at hnum ⊢
            omega
          cases hi : inner_loop t f sector type ((num + 1) % 2 ^ 32)
              { st with fpos := st.fpos + k, num := (num + 1) % 2 ^ 32 } with
          | error e =>
            rw [hi] at h
            injection h with h1 h2
            subst h1 h2
            exact ⟨rfl, extends_refl _, fun _ _ => ⟨rfl, rfl⟩, fun _ hc => by cases hc⟩
          | ok st2 =>
            rw [hi] at h
            have hprog := inner_loop_progress t f sector type _ _ st2 hi hcount hs
            have hbuf := (inner_loop_fields t f sector type _ _ st2 hi).2
            obtain ⟨i1, i2, i3, i4⟩ := ih _ st2 s1 res h
            refine ⟨i1, extends_trans _ _ _ (record_extends _ type st2 ?_) i2, i3,
              fun st1 hc hl => i4 st1 hc (hbuf hl)⟩
            intro ht
            have := unit_stored_pos type ((num + 1) % 2 ^ 32) ht
            have hp : st.fpos + k + unit_stored type ((num + 1) % 2 ^ 32) ≤ st2.fpos := hprog
            omega
    · rw [if_neg hs] at h
      injection h with h1 h2
      subst h1 h2
      refine ⟨rfl, extends_refl _, fun _ hc => (by cases hc), fun st1 hc hl => ?_⟩
      injection hc with hc
      subst hc
      exact hl

/-! ### Calls of `cdread_ecm_decode` in general -/

/-- Every call returns: the iterations the embedding gives the chunk loop are
enough for every stream, session and sector. -/
theorem cdread_total (t : Luts) (s : Session) (f stack : List Nat) (sector : Int) :
    ∃ r, cdread_ecm_decode t s f stack sector = some r := by
  unfold cdread_ecm_decode
  dsimp only
  generalize hst : Locals.mk 0 false (s.ecm_savetable (select_pos s sector)).sector
      (toU32 ((s.ecm_savetable (select_pos s sector)).sector * CD_FRAMESIZE_RAW))
      (s.ecm_savetable (select_pos s sector)).filepos.toNat stack = st
  have hnf := outer_loop_no_fuel t f sector f.length s st (Nat.le_add_left _ _)
  cases hres : outer_loop t f sector (f.length + 1) s st with
  | mk s1 res =>
    rw [hres] at hnf
    cases res with
    | ok st1 => exact ⟨_, rfl⟩
    | error e =>
      cases e with
      | fuel => exact absurd rfl hnf
      | error_in => exact ⟨_, rfl⟩
      | error => exact ⟨_, rfl⟩
      | error_out => exact ⟨_, rfl⟩

/-- What a call leaves.  The table only gains checkpoints.  The call either
succeeds (2352 returned, `dest` written) or fails: then -1 is returned, `dest`
is not written and the cursor and the two lengths are as before. -/
theorem cdread_spec (t : Luts) (s : Session) (f stack : List Nat) (sector : Int) (r : Result)
    (h : cdread_ecm_decode t s f stack sector = some r) :
    Extends s.ecm_savetable r.session.ecm_savetable ∧
    ((r.ret = 2352 ∧ ∃ d, r.dest = some d) ∨
     (r.ret = -1 ∧ r.dest = none ∧ r.session.prevsector = s.prevsector ∧
      r.session.len_ecm_savetable = s.len_ecm_savetable ∧
      r.session.len_decoded_ecm_buffer = s.len_decoded_ecm_buffer)) := by
  unfold cdread_ecm_decode at h
  dsimp only at h
  generalize hst : Locals.mk 0 false (s.ecm_savetable (select_pos s sector)).sector
      (toU32 ((s.ecm_savetable (select_pos s sector)).sector * CD_FRAMESIZE_RAW))
      (s.ecm_savetable (select_pos s sector)).filepos.toNat stack = st at h
  cases hres : outer_loop t f sector (f.length + 1) s st with
  | mk s1 res =>
    obtain ⟨i1, i2, i3, _⟩ := outer_loop_session t f sector _ s st s1 res hres
    rw [hres] at h
    cases res with
    | ok st1 =>
      injection h with h
      subst h
      exact ⟨i2, Or.inl ⟨rfl, _, rfl⟩⟩
    | error e =>
      obtain ⟨j1, j2⟩ := i3 e rfl
      cases e with
      | fuel => cases h
      | error_in =>
        injection h with h
        subst h
        exact ⟨i2, Or.inr ⟨rfl, rfl, i1, j1, j2⟩⟩
      | error =>
        injection h with h
        subst h
        exact ⟨i2, Or.inr ⟨rfl, rfl, i1, j1, j2⟩⟩
      | error_out =>
        injection h with h
        subst h
        exact ⟨i2, Or.inr ⟨rfl, rfl, i1, j1, j2⟩⟩

theorem tableInv_extends (tbl tbl1 : Nat → ECMFILELUT) (h : TableInv tbl)
    (he : Extends tbl tbl1) : TableInv tbl1 := by
  refine ⟨?_, ?_⟩
  · rcases he 0 with e | ⟨h0, _⟩
    · rw [e]; exact h.1
    · omega
  · intro k hk
    rcases he k with e | ⟨_, _, hs, hf⟩
    · rw [e]; exact h.2 k hk
    · exact Or.inr ⟨hs, hf⟩

/-- In a table of the shape `TableInv` checkpoint writes leave the populated
entries as they are. -/
theorem populated_extends (tbl tbl1 : Nat → ECMFILELUT) (h : TableInv tbl)
    (he : Extends tbl tbl1) (k : Nat) (hp : Populated (tbl k)) : tbl1 k = tbl k := by
  rcases he k with e | ⟨hk, hle, _, _⟩
  · exact e
  · exfalso
    unfold Populated ECM_HEADER_SIZE at hp
    rcases h.2 k hk with e | ⟨_, hf⟩
    · rw [e] at hp
      simp at hp
    · omega

theorem tableInv_fresh :
    TableInv (setEntry (fun _ => { sector := 0, filepos := 0 }) 0
      { sector := 0, filepos := ECM_HEADER_SIZE }) := by
  refine ⟨rfl, fun k hk => Or.inl ?_⟩
  have : ¬ k = 0 := by omega
  simp only [setEntry, this, if_false]

/-- The states of a session have the flag `ecm_file_detected` set and a table
of the shape `TableInv`. -/
theorem reachable_inv (f : List Nat) (st : EcmState) (h : Reachable f st) :
    st.ecm_file_detected = true ∧ TableInv st.session.ecm_savetable := by
  induction h with
  | detected st0 isoname al stack r hdet hcall hret =>
    unfold handleecm at hcall
    by_cases hc : f[0]? = some 0x45 ∧ f[1]? = some 0x43 ∧ f[2]? = some 0x4D ∧
        f[3]? = some 0x00 ∧ strncmp_ecm isoname = true
    · rw [if_pos hc] at hcall
      have hd : ¬ st0.ecm_file_detected = true := by rw [hdet]; decide
      rw [if_neg hd] at hcall
      cases al with
      | false =>
        simp only [Bool.false_eq_true, if_false] at hcall
        injection hcall with hcall
        subst hcall
        exact ⟨rfl, tableInv_fresh⟩
      | true =>
        simp only [if_true] at hcall
        cases hr : cdread_ecm_decode (eccedc_init st0.luts)
            { ecm_savetable := setEntry (fun _ => { sector := 0, filepos := 0 }) 0
                { sector := 0, filepos := ECM_HEADER_SIZE }
              len_ecm_savetable := 0
              len_decoded_ecm_buffer := st0.session.len_decoded_ecm_buffer
              prevsector := 0 } f stack INT_MAX with
        | none => rw [hr] at hcall; cases hcall
        | some r1 =>
          rw [hr] at hcall
          injection hcall with hcall
          subst hcall
          exact ⟨rfl, tableInv_extends _ _ tableInv_fresh (cdread_spec _ _ _ _ _ _ hr).1⟩
    · rw [if_neg hc] at hcall
      injection hcall with hcall
      subst hcall
      cases hret
  | step st st1 _ hstep ih =>
    cases hstep with
    | decode stack sector r hr =>
      exact ⟨ih.1, tableInv_extends _ _ ih.2 (cdread_spec _ _ _ _ _ _ hr).1⟩
    | detect isoname al stack r hcall =>
      unfold handleecm at hcall
      by_cases hc : f[0]? = some 0x45 ∧ f[1]? = some 0x43 ∧ f[2]? = some 0x4D ∧
          f[3]? = some 0x00 ∧ strncmp_ecm isoname = true
      · rw [if_pos hc, if_pos ih.1] at hcall
        injection hcall with hcall
        subst hcall
        exact ⟨ih.1, ih.2⟩
      · rw [if_neg hc] at hcall
        injection hcall with hcall
        subst hcall
        exact ih

/-! ### Detection and the states of a session -/

theorem handleecm_example (f : List Nat) (stack : List Nat)
    (hf : f[0]? = some 0x45 ∧ f[1]? = some 0x43 ∧ f[2]? = some 0x4D ∧ f[3]? = some 0x00) :
    handleecm initialState nameEcm f false stack
      = some { state := detectedState, accurate_length := none, ret := 0 } := by
  have hn : strncmp_ecm nameEcm = true := by decide
  have hc : f[0]? = some 0x45 ∧ f[1]? = some 0x43 ∧ f[2]? = some 0x4D ∧ f[3]? = some 0x00 ∧
      strncmp_ecm nameEcm = true := ⟨hf.1, hf.2.1, hf.2.2.1, hf.2.2.2, hn⟩
  have hd : ¬ initialState.ecm_file_detected = true := by decide
  have hal : ¬ (false = true) := by decide
  unfold handleecm
  rw [if_pos hc, if_neg hd]
  simp only [hal, if_false]
  rfl

theorem reachable_detectedState : Reachable emptyStream detectedState :=
  Reachable.detected initialState nameEcm false [] _ rfl
    (handleecm_example emptyStream [] (by decide)) rfl

/-- A call in a session only adds checkpoints to the table. -/
theorem step_extends (f : List Nat) (st st1 : EcmState) (h : Reachable f st)
    (hstep : Step f st st1) : Extends st.session.ecm_savetable st1.session.ecm_savetable := by
  have ih := reachable_inv f st h
  cases hstep with
  | decode stack sector r hr => exact (cdread_spec _ _ _ _ _ _ hr).1
  | detect isoname al stack r hcall =>
    unfold handleecm at hcall
    by_cases hc : f[0]? = some 0x45 ∧ f[1]? = some 0x43 ∧ f[2]? = some 0x4D ∧
        f[3]? = some 0x00 ∧ strncmp_ecm isoname = true
    · rw [if_pos hc, if_pos ih.1] at hcall
      injection hcall with hcall
      subst hcall
      exact extends_refl _
    · rw [if_neg hc] at hcall
      injection hcall with hcall
      subst hcall
      exact extends_refl _

theorem reachable_of_calls (f : List Nat) (st st1 : EcmState) (h : Reachable f st)
    (hcalls : Relation.ReflTransGen (Step f) st st1) : Reachable f st1 := by
  induction hcalls with
  | refl => exact h
  | tail _ hstep ih => exact Reachable.step _ _ ih hstep

theorem populated_fresh_zero : Populated (freshSession.ecm_savetable 0) := by
  show (4 : Int) ≥ 4
  decide

/-- A read of sector 0 of `emptyStream` is a call from `detectedState` to
`afterEmptyRead`. -/
theorem step_empty_read : Step emptyStream detectedState afterEmptyRead :=
  Step.decode detectedState [] 0
    { session := { freshSession with len_ecm_savetable := 0, len_decoded_ecm_buffer := 0 }
      dest := some []
      ret := 2352 } rfl

/-! ### Failed reads, first writer, entry 0 -/

/-- In a session whose table has the shape `TableInv` (every state of a
session has it, `reachable_inv`), every call of `cdread_ecm_decode` returns,
with 2352 or with -1; a call that returns 2352 writes `dest`; a call that
fails returns -1, writes no byte of `dest`, leaves the cursor `prevsector` as
it was and leaves every checkpoint entry that was populated before the call as
it was.  Here the table is taken with every index. -/
theorem failed_read_spec (t : Luts) (s : Session) (f stack : List Nat) (sector : Int)
    (hs : TableInv s.ecm_savetable) :
    ∃ r, cdread_ecm_decode t s f stack sector = some r ∧ (r.ret = 2352 ∨ r.ret = -1) ∧
      (r.ret = 2352 → ∃ d, r.dest = some d) ∧
      (r.ret = -1 → r.dest = none ∧ r.session.prevsector = s.prevsector ∧
        ∀ k, Populated (s.ecm_savetable k) →
          r.session.ecm_savetable k = s.ecm_savetable k) := by
  obtain ⟨r, hr⟩ := cdread_total t s f stack sector
  obtain ⟨hext, hcase⟩ := cdread_spec t s f stack sector r hr
  refine ⟨r, hr, ?_, ?_, ?_⟩
  · rcases hcase with ⟨h1, _⟩ | ⟨h1, _⟩
    · exact Or.inl h1
    · exact Or.inr h1
  · intro h
    rcases hcase with ⟨_, hd⟩ | ⟨h1, _⟩
    · exact hd
    · rw [h1] at h
      exact absurd h (by decide)
  · intro h
    rcases hcase with ⟨h1, _⟩ | ⟨_, hd, hp, _⟩
    · rw [h1] at h
      exact absurd h (by decide)
    · exact ⟨hd, hp, fun k hk => populated_extends _ _ hs hext k hk⟩

/-- A read of sector 0 of a stream that ends after the magic header fails. -/
theorem truncated_read_fails (t : Luts) (stack : List Nat) :
    ∃ r, cdread_ecm_decode t freshSession [0x45, 0x43, 0x4D, 0x00] stack 0 = some r ∧
      r.ret = -1 :=
  ⟨_, rfl, rfl⟩

/-- From a state of a session (a state a successful `handleecm` leaves, or one
that calls lead to from there), whatever calls follow, successful or failed, a
checkpoint entry that is populated keeps its (sector, filepos) pair.  Here the
table is taken with every index. -/
theorem populated_kept (f : List Nat) (st st1 : EcmState) (h : Reachable f st)
    (hcalls : Relation.ReflTransGen (Step f) st st1) (k : Nat)
    (hp : Populated (st.session.ecm_savetable k)) :
    st1.session.ecm_savetable k = st.session.ecm_savetable k := by
  induction hcalls with
  | refl => rfl
  | tail hprev hstep ih =>
    rename_i b c
    have hb := reachable_of_calls f st b h hprev
    have hext := step_extends f b c hb hstep
    rw [← ih]
    exact populated_extends _ _ (reachable_inv f b hb).2 hext k (by rw [ih]; exact hp)

/-- In every state of a session (reached from a successful `handleecm` by any
sequence of calls), checkpoint entry 0 is (sector 0, offset 4), and every
decode call from there returns and leaves it so.  Here the table is taken with
every index. -/
theorem entry_zero_kept (f : List Nat) (st : EcmState) (h : Reachable f st) :
    st.session.ecm_savetable 0 = { sector := 0, filepos := 4 } ∧
    ∀ (stack : List Nat) (sector : Int),
      ∃ r, cdread_ecm_decode st.luts st.session f stack sector = some r ∧
        r.session.ecm_savetable 0 = { sector := 0, filepos := 4 } := by
  refine ⟨(reachable_inv f st h).2.1, fun stack sector => ?_⟩
  obtain ⟨r, hr⟩ := cdread_total st.luts st.session f stack sector
  have hstep : Step f st { st with session := r.session } := Step.decode st stack sector r hr
  exact ⟨r, hr, (reachable_inv f _ (Reachable.step _ _ h hstep)).2.1⟩

/-! ### Stepping the loops -/

/-- One iteration of the unit loop that decodes a unit whose stored bytes lie
inside the stream. -/
theorem inner_loop_step (t : Luts) (f : List Nat) (sector : Int) (type fuel : Nat) (st : Locals)
    (h0 : st.num ≠ 0) (hb : ¬ (st.processsectors = true ∧ st.sectorcount > sector))
    (hav : st.fpos + unit_stored type st.num ≤ f.length) :
    ∃ st1, inner_loop t f sector type (fuel + 1) st = inner_loop t f sector type fuel st1 ∧
      st1.fpos = st.fpos + unit_stored type st.num ∧
      st1.num = st.num - unit_b type st.num ∧
      st1.writebytecount = (st.writebytecount + unit_decoded type st.num) % 2 ^ 32 ∧
      st1.sectorcount = ((st1.writebytecount / 2352 : Nat) : Int) ∧
      (st1.processsectors = true ↔
        (st.processsectors = true ∨ st.sectorcount ≥ sector - 1)) ∧
      (st.sector_buffer.length = 2352 → st1.sector_buffer.length = 2352) := by
  rw [inner_loop, if_neg h0]
  by_cases c1 : st.processsectors = false ∧ st.sectorcount ≥ sector - 1
  · rw [if_pos c1]
    obtain ⟨st1, hu⟩ := unit_step_ok t f type { st with processsectors := true } hav
    obtain ⟨a1, a2, a3, a4, a5⟩ := unit_step_fields t f type _ st1 hu
    have a6 := unit_step_buffer t f type _ st1 hu
    rw [hu]
    exact ⟨st1, rfl, a1, a2, a3, a5, ⟨fun _ => Or.inr c1.2, fun _ => a4⟩, a6⟩
  · rw [if_neg c1, if_neg hb]
    obtain ⟨st1, hu⟩ := unit_step_ok t f type st hav
    obtain ⟨a1, a2, a3, a4, a5⟩ := unit_step_fields t f type _ st1 hu
    have a6 := unit_step_buffer t f type _ st1 hu
    rw [hu]
    refine ⟨st1, rfl, a1, a2, a3, a5, ⟨fun h => Or.inl (a4 ▸ h), fun h => ?_⟩, a6⟩
    rw [a4]
    rcases h with h | h
    · exact h
    · cases hp : st.processsectors
      · exact absurd ⟨hp, h⟩ c1
      · rfl

/-- The iteration of the unit loop that leaves it by `break`. -/
theorem inner_loop_break (t : Luts) (f : List Nat) (sector : Int) (type fuel : Nat) (st : Locals)
    (h0 : st.num ≠ 0) (hp : st.processsectors = true) (hs : st.sectorcount > sector) :
    inner_loop t f sector type (fuel + 1) st = Except.ok st := by
  have c1 : ¬ (st.processsectors = false ∧ st.sectorcount ≥ sector - 1) := by
    rw [hp]
    intro h
    exact absurd h.1 (by decide)
  rw [inner_loop, if_neg h0, if_neg c1, if_pos ⟨hp, hs⟩]

/-- One iteration of the chunk loop, for a chunk whose run ends without
error. -/
theorem outer_loop_step (t : Luts) (f : List Nat) (sector : Int) (fuel : Nat) (s : Session)
    (st : Locals) (type num k : Nat) (st1 : Locals) (hs : sector ≥ st.sectorcount)
    (hh : read_header (f.drop st.fpos) = Except.ok (type, num, k)) (hn : num ≠ 0xFFFFFFFF)
    (hi : inner_loop t f sector type ((num + 1) % 2 ^ 32)
        { st with fpos := st.fpos + k, num := (num + 1) % 2 ^ 32 } = Except.ok st1) :
    outer_loop t f sector (fuel + 1) s st
      = outer_loop t f sector fuel { s with ecm_savetable := record s.ecm_savetable type st1 }
          st1 := by
  rw [outer_loop, if_pos hs, hh]
  simp only [hn, if_false, hi]

/-- The iteration of the chunk loop that reads the end indicator. -/
theorem outer_loop_end (t : Luts) (f : List Nat) (sector : Int) (fuel : Nat) (s : Session)
    (st : Locals) (type k : Nat) (hs : sector ≥ st.sectorcount)
    (hh : read_header (f.drop st.fpos) = Except.ok (type, 0xFFFFFFFF, k)) :
    outer_loop t f sector (fuel + 1) s st
      = ({ s with len_decoded_ecm_buffer := st.writebytecount,
                  len_ecm_savetable := st.writebytecount / CD_FRAMESIZE_RAW },
          Except.ok { st with fpos := st.fpos + k, num := 0xFFFFFFFF }) := by
  rw [outer_loop, if_pos hs, hh]
  simp only [if_true]

/-- The end of a call whose chunk loop ends without error. -/
theorem cdread_of_outer (t : Luts) (s : Session) (f stack : List Nat) (sector : Int)
    (s1 : Session) (st1 : Locals)
    (hloop : outer_loop t f sector (f.length + 1) s
        (Locals.mk 0 false (s.ecm_savetable (select_pos s sector)).sector
          (toU32 ((s.ecm_savetable (select_pos s sector)).sector * CD_FRAMESIZE_RAW))
          (s.ecm_savetable (select_pos s sector)).filepos.toNat stack) = (s1, Except.ok st1)) :
    cdread_ecm_decode t s f stack sector
      = some { session := { s1 with prevsector := toU32 st1.sectorcount }
               dest := some (st1.sector_buffer.take CD_FRAMESIZE_RAW)
               ret := CD_FRAMESIZE_RAW } := by
  unfold cdread_ecm_decode
  dsimp only
  rw [hloop]

/-- The end of a call whose chunk loop ends with an error of the stream. -/
theorem cdread_of_outer_error (t : Luts) (s : Session) (f stack : List Nat) (sector : Int)
    (s1 : Session) (e : Err) (he : e ≠ Err.fuel)
    (hloop : outer_loop t f sector (f.length + 1) s
        (Locals.mk 0 false (s.ecm_savetable (select_pos s sector)).sector
          (toU32 ((s.ecm_savetable (select_pos s sector)).sector * CD_FRAMESIZE_RAW))
          (s.ecm_savetable (select_pos s sector)).filepos.toNat stack)
        = (s1, Except.error e)) :
    cdread_ecm_decode t s f stack sector = some { session := s1, dest := none, ret := -1 } := by
  unfold cdread_ecm_decode
  dsimp only
  rw [hloop]
  cases e with
  | fuel => exact absurd rfl he
  | error_in => rfl
  | error => rfl
  | error_out => rfl

/-! ### The lookup -/

/-- The probe loop from `m` down: it ends at the largest index in `1..m`
within 50000 of the target whose entry passes the test, or at 0 when there is
none. -/
theorem lut_search_spec (tbl : Nat → ECMFILELUT) (n : Nat) :
    ∀ m, m ≤ n →
      (lut_search tbl n m = 0 ∧
        ∀ j, 0 < j → j ≤ m → n - j ≤ 50000 → ¬ Populated (tbl j)) ∨
      (0 < lut_search tbl n m ∧ lut_search tbl n m ≤ m ∧ n - lut_search tbl n m ≤ 50000 ∧
        Populated (tbl (lut_search tbl n m)) ∧
        ∀ i, lut_search tbl n m < i → i ≤ m → ¬ Populated (tbl i)) := by
  intro m
  induction m with
  | zero =>
    intro _
    left
    exact ⟨rfl, fun j h1 h2 => by omega⟩
  | succ m ih =>
    intro hm
    rw [lut_search]
    by_cases hw : n - (m + 1) ≤ 50000
    · rw [if_pos hw]
      by_cases hp : (tbl (m + 1)).filepos ≥ 4
      · rw [if_pos hp]
        right
        exact ⟨by omega, le_refl _, hw, hp, fun i h1 h2 => by omega⟩
      · rw [if_neg hp]
        rcases ih (by omega) with ⟨e, hall⟩ | ⟨h1, h2, h3, h4, h5⟩
        · left
          refine ⟨e, fun j hj1 hj2 hj3 => ?_⟩
          by_cases hj : j = m + 1
          · subst hj; exact hp
          · exact hall j hj1 (by omega) hj3
        · right
          refine ⟨h1, by omega, h3, h4, fun i hi1 hi2 => ?_⟩
          by_cases hi : i = m + 1
          · subst hi; exact hp
          · exact h5 i hi1 (by omega)
    · rw [if_neg hw]
      left
      exact ⟨rfl, fun j hj1 hj2 hj3 => by omega⟩

/-! ### A run of literal bytes and the cursor -/

theorem stream_length (h r s : List Nat) :
    ([0x45, 0x43, 0x4D, 0x00] ++ h ++ r ++ s).length = 4 + h.length + r.length + s.length := by
  simp only [List.length_append, List.length_cons, List.length_nil]

theorem stream_drop_header (h r s : List Nat) :
    ([0x45, 0x43, 0x4D, 0x00] ++ h ++ r ++ s).drop 4 = h ++ (r ++ s) := by
  simp only [List.append_assoc, List.cons_append, List.nil_append, List.drop_succ_cons,
    List.drop_zero]

theorem sentinel_length : sentinel.length = 5 := by decide

theorem metaStream_length : metaStream.length = 9420 := by
  have h3 : (encode_header 0 9408).length = 3 := by decide
  unfold metaStream
  rw [stream_length, List.length_replicate, h3, sentinel_length]

theorem metaStream_drop_header :
    metaStream.drop 4 = encode_header 0 9408 ++ (List.replicate 9408 0 ++ sentinel) :=
  stream_drop_header _ _ _

/-- A read of sector 1 of `metaStream` in the fresh session: it succeeds,
leaves the cursor at 2 and records no checkpoint (the run is of type 0). -/
theorem meta_first_read (t : Luts) (stack : List Nat) :
    ∃ r0, cdread_ecm_decode t freshSession metaStream stack 1 = some r0 ∧ r0.ret = 2352 ∧
      r0.session.prevsector = 2 ∧ r0.session.ecm_savetable = freshSession.ecm_savetable ∧
      r0.session.len_ecm_savetable = 360000 := by
  have hlen := metaStream_length
  have hhead : read_header (metaStream.drop 4) = Except.ok (0, 9407, 3) := by
    rw [metaStream_drop_header]
    exact (read_header_encode_header 0 9408 _ (by decide) (by decide) (by decide)).1
  have hpos := select_pos_fresh freshSession 1 isFresh_freshSession
  generalize metaStream = f at *
  have us1 : unit_stored 0 9408 = 2352 := by decide
  have ub1 : unit_b 0 9408 = 2352 := by decide
  have ud1 : unit_decoded 0 9408 = 2352 := by decide
  have us2 : unit_stored 0 7056 = 2352 := by decide
  have ub2 : unit_b 0 7056 = 2352 := by decide
  have ud2 : unit_decoded 0 7056 = 2352 := by decide
  obtain ⟨st1, e1, p1, n1, w1, c1, ps1, _⟩ :=
    inner_loop_step t f 1 0 9407 (Locals.mk 9408 false 0 0 7 stack)
      (by show (9408 : Nat) ≠ 0; decide)
      (by intro h; exact absurd h.1 (by show ¬ (false = true); decide))
      (by show 7 + unit_stored 0 9408 ≤ f.length; rw [hlen, us1]; decide)
  simp only [us1, ub1, ud1] at p1 n1 w1
  have w1' : st1.writebytecount = 2352 := by rw [w1]; norm_num
  have c1' : st1.sectorcount = 1 := by rw [c1, w1']; norm_num
  have ps1' : st1.processsectors = true := ps1.mpr (Or.inr (by show (0 : Int) ≥ 1 - 1; decide))
  have n1' : st1.num = 7056 := by rw [n1]
  have p1' : st1.fpos = 2359 := by rw [p1]
  obtain ⟨st2, e2, p2, n2, w2, c2, ps2, _⟩ :=
    inner_loop_step t f 1 0 9406 st1 (by rw [n1']; decide)
      (by rw [c1']; intro h; exact absurd h.2 (by decide))
      (by rw [p1', n1', us2, hlen]; decide)
  rw [n1', w1'] at w2
  rw [n1'] at n2
  simp only [us2, ub2, ud2] at n2 w2
  have w2' : st2.writebytecount = 4704 := by rw [w2]; norm_num
  have c2' : st2.sectorcount = 2 := by rw [c2, w2']; norm_num
  have ps2' : st2.processsectors = true := ps2.mpr (Or.inl ps1')
  have hbreak := inner_loop_break t f 1 0 9405 st2 (by rw [n2]; decide) ps2'
    (by rw [c2']; decide)
  have hrun : inner_loop t f 1 0 ((9407 + 1) % 2 ^ 32)
      { (Locals.mk 0 false 0 0 4 stack) with fpos := 4 + 3, num := (9407 + 1) % 2 ^ 32 }
        = Except.ok st2 := by
    have h := e1
    rw [e2, hbreak] at h
    exact h
  have hstep := outer_loop_step t f 1 f.length freshSession (Locals.mk 0 false 0 0 4 stack)
    0 9407 3 st2 (by show (1 : Int) ≥ 0; decide) hhead (by decide) hrun
  have hexit := outer_loop_exit t f 1 f.length
    { freshSession with ecm_savetable := record freshSession.ecm_savetable 0 st2 } st2
    (by rw [c2']; decide)
  have hrec : record freshSession.ecm_savetable 0 st2 = freshSession.ecm_savetable := by
    unfold record
    rw [if_neg]
    intro h
    exact h.1 rfl
  have hloop := hstep.trans hexit
  have hcall := cdread_of_outer t freshSession f stack 1 _ st2 (by
    rw [hpos]
    exact hloop)
  refine ⟨_, hcall, rfl, ?_, hrec, rfl⟩
  show toU32 st2.sectorcount = 2
  rw [c2']
  rfl

theorem toU32_of_nat (n : Nat) (h : (n : Int) ≤ INT_MAX) : toU32 (n : Int) = n := by
  unfold toU32
  unfold INT_MAX at h
  have h1 : ((n : Int) % 2 ^ 32) = (n : Int) := Int.emod_eq_of_lt (by omega) (by norm_num; omega)
  rw [h1]
  rfl

/-- The choice of the entry to resume from, by cases on the table. -/
theorem select_pos_cases (s : Session) (n : Nat) (hmax : (n : Int) ≤ INT_MAX)
    (hle : n ≤ s.len_ecm_savetable) (htbl : TableInv s.ecm_savetable) :
    (∀ j : Nat, 0 < j → j ≤ n → n - j ≤ 50000 → Populated (s.ecm_savetable j) →
      (∀ i : Nat, j < i → i ≤ n → ¬ Populated (s.ecm_savetable i)) →
      select_pos s n = j) ∧
    ((∀ j : Nat, 0 < j → j ≤ n → n - j ≤ 50000 → ¬ Populated (s.ecm_savetable j)) →
      (s.prevsector < n → select_pos s n = s.prevsector) ∧
      (n ≤ s.prevsector → select_pos s n = 0)) := by
  have hu := toU32_of_nat n hmax
  have hn : ((n : Nat) : Int).toNat = n := Int.toNat_natCast n
  have hspec := lut_search_spec s.ecm_savetable n n (le_refl _)
  constructor
  · intro j hj0 hjn hjw hjp hjmax
    rcases hspec with ⟨_, hall⟩ | ⟨h1, h2, h3, h4, h5⟩
    · exact absurd hjp (hall j hj0 hjn hjw)
    · have hpj : lut_search s.ecm_savetable n n = j := by
        by_contra hne
        rcases Nat.lt_or_gt_of_ne hne with hlt | hgt
        · exact h5 j hlt hjn hjp
        · exact hjmax _ hgt h2 h4
      have hf : ¬ ((s.ecm_savetable j).filepos ≤ 4 ∧ n > s.prevsector) := by
        intro hc
        rcases htbl.2 j hj0 with e | ⟨_, hgt⟩
        · rw [e] at hjp
          exact absurd hjp (by unfold Populated ECM_HEADER_SIZE; decide)
        · have := hc.1
          omega
      unfold select_pos
      simp only [hu, hle, if_true, hn, hpj, hf, if_false]
  · intro hnone
    have hp0 : lut_search s.ecm_savetable n n = 0 := by
      rcases hspec with ⟨e, _⟩ | ⟨h1, h2, h3, h4, _⟩
      · exact e
      · exact absurd h4 (hnone _ h1 h2 h3)
    have h4 : (s.ecm_savetable 0).filepos ≤ 4 := by rw [htbl.1]
    constructor
    · intro hlt
      have hc : (s.ecm_savetable 0).filepos ≤ 4 ∧ n > s.prevsector := ⟨h4, hlt⟩
      unfold select_pos
      simp only [hu, hle, if_true, hn, hp0, hc, and_self]
    · intro hge
      have hc : ¬ ((s.ecm_savetable 0).filepos ≤ 4 ∧ n > s.prevsector) := by
        intro h
        have := h.2
        omega
      unfold select_pos
      simp only [hu, hle, if_true, hn, hp0, hc, if_false]

/-! ### The checkpoint lookup -/

/-- C14 fails on the code.  After a read of sector 1 of `metaStream` (one run
of type 0, four sectors) in the fresh session, entry 0 is populated, its index
0 is at most 3 and within 50000 of 3, and no other entry is populated, so it is
the populated checkpoint with the largest index for the target 3; the cursor is
2 and has no checkpoint.  The lookup for sector 3 does not resume from entry
0 = (sector 0, offset 4) but from the table entry at the cursor's index 2,
which is zero: offset 0, inside the magic header. -/
theorem lookup_resumes_from_empty_entry :
    ∃ r0, cdread_ecm_decode (eccedc_init Luts.zero) freshSession metaStream
        (List.replicate 2352 0) 1 = some r0 ∧ r0.ret = 2352 ∧
      (3 : Int) ≤ (r0.session.len_ecm_savetable : Int) ∧
      Populated (r0.session.ecm_savetable 0) ∧
      (∀ k, 0 < k → ¬ Populated (r0.session.ecm_savetable k)) ∧
      r0.session.prevsector = 2 ∧
      select_pos r0.session 3 = 2 ∧
      r0.session.ecm_savetable (select_pos r0.session 3) = { sector := 0, filepos := 0 } ∧
      r0.session.ecm_savetable 0 = { sector := 0, filepos := 4 } := by
  obtain ⟨r0, hcall, hret, hprev, htbl, hlen⟩ :=
    meta_first_read (eccedc_init Luts.zero) (List.replicate 2352 0)
  have hinv : TableInv r0.session.ecm_savetable := by rw [htbl]; exact tableInv_fresh
  have hnone : ∀ k, 0 < k → ¬ Populated (r0.session.ecm_savetable k) := by
    intro k hk
    rw [htbl, isFresh_freshSession.2.1 k hk]
    unfold Populated ECM_HEADER_SIZE
    decide
  have hsel : select_pos r0.session 3 = 2 := by
    have h := ((select_pos_cases r0.session 3 (by decide) (by rw [hlen]; decide) hinv).2
      (fun j hj _ _ => hnone j hj)).1 (by rw [hprev]; decide)
    rw [hprev] at h
    exact h
  refine ⟨r0, hcall, hret, by rw [hlen]; decide, ?_, hnone, hprev, hsel, ?_, ?_⟩
  · rw [htbl]
    exact populated_fresh_zero
  · rw [hsel, htbl]
    rfl
  · rw [htbl]
    rfl

/-- The lookup as the code has it (the probe never looks at entry 0, and the
entry at the cursor's index is taken whether it holds a checkpoint or not).
For every request with target sector `s`, `0 <= s <= len_ecm_savetable`, in a
session whose table has the shape `TableInv`: if some populated checkpoint has
an index `j` with `0 < j <= s` and `s - j <= 50000`, the entry `pos` the decode
resumes from is the populated checkpoint with the largest such `j`; otherwise,
if the cursor `prevsector` precedes `s`, it is the entry at the cursor's index;
otherwise it is entry 0, (sector 0, offset 4). -/
theorem select_pos_lookup (s : Session) (sector : Int) (h0 : 0 ≤ sector)
    (hmax : sector ≤ INT_MAX) (hle : sector ≤ (s.len_ecm_savetable : Int))
    (htbl : TableInv s.ecm_savetable) :
    (∀ j : Nat, 0 < j → (j : Int) ≤ sector → sector - j ≤ 50000 →
      Populated (s.ecm_savetable j) →
      (∀ i : Nat, j < i → (i : Int) ≤ sector → ¬ Populated (s.ecm_savetable i)) →
      select_pos s sector = j) ∧
    ((∀ j : Nat, 0 < j → (j : Int) ≤ sector → sector - j ≤ 50000 →
        ¬ Populated (s.ecm_savetable j)) →
      ((s.prevsector : Int) < sector → select_pos s sector = s.prevsector) ∧
      (sector ≤ (s.prevsector : Int) →
        select_pos s sector = 0 ∧ s.ecm_savetable 0 = { sector := 0, filepos := 4 })) := by
  obtain ⟨n, rfl⟩ := Int.eq_ofNat_of_zero_le h0
  have hc := select_pos_cases s n hmax (by exact_mod_cast hle) htbl
  constructor
  · intro j hj0 hjn hjw hjp hjmax
    exact hc.1 j hj0 (by exact_mod_cast hjn) (by omega) hjp
      (fun i hi1 hi2 => hjmax i hi1 (by exact_mod_cast hi2))
  · intro hnone
    have h2 := hc.2 (fun j hj0 hjn hjw => hnone j hj0 (by exact_mod_cast hjn) (by omega))
    exact ⟨fun hlt => h2.1 (by exact_mod_cast hlt),
      fun hge => ⟨h2.2 (by exact_mod_cast hge), htbl.1⟩⟩

theorem select_pos_lookup_witness :
    (0 : Int) ≤ 3 ∧ (3 : Int) ≤ INT_MAX ∧ (3 : Int) ≤ (freshSession.len_ecm_savetable : Int) ∧
    TableInv freshSession.ecm_savetable ∧
    ((∀ j : Nat, 0 < j → (j : Int) ≤ 3 → (3 : Int) - j ≤ 50000 →
      Populated (freshSession.ecm_savetable j) →
      (∀ i : Nat, j < i → (i : Int) ≤ 3 → ¬ Populated (freshSession.ecm_savetable i)) →
      select_pos freshSession 3 = j) ∧
    ((∀ j : Nat, 0 < j → (j : Int) ≤ 3 → (3 : Int) - j ≤ 50000 →
        ¬ Populated (freshSession.ecm_savetable j)) →
      ((freshSession.prevsector : Int) < 3 → select_pos freshSession 3 = freshSession.prevsector) ∧
      ((3 : Int) ≤ (freshSession.prevsector : Int) →
        select_pos freshSession 3 = 0 ∧
          freshSession.ecm_savetable 0 = { sector := 0, filepos := 4 }))) :=
  ⟨by decide, by decide, by decide, tableInv_fresh,
    select_pos_lookup freshSession 3 (by decide) (by decide) (by decide) tableInv_fresh⟩

/-! ### Chunk headers that do not fit in 32 bits -/

theorem group_lt (c : Nat) : c &&& 0x7F < 128 := by
  rw [and_7F]
  exact Nat.mod_lt _ (by decide)

/-- A header that does not fit is rejected by the parser as corrupt. -/
theorem read_header_overlong (l : List Nat) (h : Overlong l) :
    read_header l = Except.error Err.error := by
  obtain ⟨c0, c1, c2, c3, c4, rest, rfl, h0, h1, h2, h3, h4⟩ := h
  have k1 : ¬ (5 > 31 ∨ (c1 &&& 0x7F) ≥ (0x80000000 >>> (5 - 1))) :=
    check_passes 5 _ (by decide) (by decide) (by have := group_lt c1; norm_num; omega)
  have k2 : ¬ (5 + 7 > 31 ∨ (c2 &&& 0x7F) ≥ (0x80000000 >>> (5 + 7 - 1))) :=
    check_passes 12 _ (by decide) (by decide) (by have := group_lt c2; norm_num; omega)
  have k3 : ¬ (5 + 7 + 7 > 31 ∨ (c3 &&& 0x7F) ≥ (0x80000000 >>> (5 + 7 + 7 - 1))) :=
    check_passes 19 _ (by decide) (by decide) (by have := group_lt c3; norm_num; omega)
  have e64 : 0x80000000 >>> (5 + 7 + 7 + 7 - 1) = 64 := by decide
  rw [read_header, header_loop, if_neg h0]
  simp only [k1, if_false]
  rw [header_loop, if_neg h1]
  simp only [k2, if_false]
  rw [header_loop, if_neg h2]
  simp only [k3, if_false]
  rw [header_loop, if_neg h3]
  by_cases k4 : 5 + 7 + 7 + 7 > 31 ∨ (c4 &&& 0x7F) ≥ (0x80000000 >>> (5 + 7 + 7 + 7 - 1))
  · simp only [k4, if_true]
  · simp only [k4, if_false]
    rcases h4 with hg | ⟨hc, hr⟩
    · exfalso
      apply k4
      right
      rw [e64]
      exact hg
    · cases rest with
      | nil => exact absurd rfl hr
      | cons c5 rest1 =>
        have k5 : 5 + 7 + 7 + 7 + 7 > 31 ∨
            (c5 &&& 0x7F) ≥ (0x80000000 >>> (5 + 7 + 7 + 7 + 7 - 1)) := Or.inl (by decide)
        rw [header_loop, if_neg hc]
        simp only [k5, if_true]

/-- The parser reports a corrupt header only for a header that does not
fit. -/
theorem overlong_of_error (l : List Nat) (h : read_header l = Except.error Err.error) :
    Overlong l := by
  have k : ∀ (bits c : Nat), 1 ≤ bits → bits ≤ 19 →
      ¬ (bits > 31 ∨ (c &&& 0x7F) ≥ (0x80000000 >>> (bits - 1))) := by
    intro bits c hb1 hb
    refine check_passes bits _ hb1 (by omega) ?_
    have h1 := group_lt c
    have h2 : 2 ^ bits ≤ 2 ^ 19 := Nat.pow_le_pow_right (by decide) hb
    calc (c &&& 0x7F) * 2 ^ bits ≤ 127 * 2 ^ 19 := Nat.mul_le_mul (by omega) h2
      _ < 2 ^ 32 := by norm_num
  have e64 : 0x80000000 >>> (5 + 7 + 7 + 7 - 1) = 64 := by decide
  have step : ∀ (rest : List Nat) (c num bits kk : Nat),
      header_loop rest c num bits kk = Except.error Err.error →
      c &&& 0x80 ≠ 0 ∧ ∃ c1 rest1, rest = c1 :: rest1 ∧
        ((bits > 31 ∨ (c1 &&& 0x7F) ≥ (0x80000000 >>> (bits - 1))) ∨
          header_loop rest1 c1 (num ||| (((c1 &&& 0x7F) <<< bits) % 2 ^ 32)) (bits + 7) (kk + 1)
            = Except.error Err.error) := by
    intro rest c num bits kk hh
    by_cases hc : c &&& 0x80 = 0
    · rw [header_loop_done _ _ _ _ _ hc] at hh; cases hh
    · refine ⟨hc, ?_⟩
      cases rest with
      | nil =>
        rw [header_loop, if_neg hc] at hh
        cases hh
      | cons c1 rest1 =>
        rw [header_loop, if_neg hc] at hh
        refine ⟨c1, rest1, rfl, ?_⟩
        by_cases hb : bits > 31 ∨ (c1 &&& 0x7F) ≥ (0x80000000 >>> (bits - 1))
        · exact Or.inl hb
        · simp only [hb, if_false] at hh
          exact Or.inr hh
  cases l with
  | nil => rw [read_header] at h; cases h
  | cons c0 r0 =>
    rw [read_header] at h
    have h5 : header_loop r0 c0 ((c0 >>> 2) &&& 0x1F) 5 1 = Except.error Err.error := by
      cases hh : header_loop r0 c0 ((c0 >>> 2) &&& 0x1F) 5 1 with
      | error e =>
        rw [hh] at h
        injection h with h
        rw [h]
      | ok p => rw [hh] at h; cases h
    obtain ⟨h0, c1, r1, rfl, a1⟩ := step _ _ _ _ _ h5
    rcases a1 with a1 | a1
    · exact absurd a1 (k 5 c1 (by decide) (by decide))
    obtain ⟨h1, c2, r2, rfl, a2⟩ := step _ _ _ _ _ a1
    rcases a2 with a2 | a2
    · exact absurd a2 (k 12 c2 (by decide) (by decide))
    obtain ⟨h2, c3, r3, rfl, a3⟩ := step _ _ _ _ _ a2
    rcases a3 with a3 | a3
    · exact absurd a3 (k 19 c3 (by decide) (by decide))
    obtain ⟨h3, c4, r4, rfl, a4⟩ := step _ _ _ _ _ a3
    refine ⟨c0, c1, c2, c3, c4, r4, rfl, h0, h1, h2, h3, ?_⟩
    rcases a4 with a4 | a4
    · left
      rcases a4 with a4 | a4
      · exact absurd a4 (by decide)
      · rw [e64] at a4
        exact a4
    · obtain ⟨h4, c5, r5, rfl, _⟩ := step _ _ _ _ _ a4
      exact Or.inr ⟨h4, by intro hc; cases hc⟩

/-- The chunk loop fails with the corrupt-stream error when it comes to a
header that does not fit, in whatever iteration. -/
theorem outer_loop_overlong (t : Luts) (f : List Nat) (sector : Int) (s : Session) (st : Locals)
    (p : Nat) (h : ReadsHeaderAt t f sector s st p) (ho : Overlong (f.drop p)) :
    ∀ fuel, f.length ≤ st.fpos + fuel →
      (outer_loop t f sector (fuel + 1) s st).2 = Except.error Err.error := by
  induction h with
  | here s st hs =>
    intro fuel _
    rw [outer_loop, if_pos hs, read_header_overlong _ ho]
  | later s st type num k st1 p hs hh hn hi _ ih =>
    intro fuel hf
    have hpos : st.fpos < f.length := by
      by_contra hc
      rw [List.drop_eq_nil_of_le (by omega), read_header] at hh
      cases hh
    have hk := (read_header_bounds _ _ _ _ hh).2.2
    have hmono := (inner_loop_fields t f sector type _ _ st1 hi).1
    have hm : st.fpos + k ≤ st1.fpos := hmono
    obtain ⟨m, rfl⟩ : ∃ m, fuel = m + 1 := ⟨fuel - 1, by omega⟩
    rw [outer_loop_step t f sector (m + 1) s st type num k st1 hs hh hn hi]
    exact ih ho m (by omega)

/-- A call fails when its chunk loop comes to a header that does not fit. -/
theorem cdread_overlong (t : Luts) (s : Session) (f stack : List Nat) (sector : Int) (p : Nat)
    (h : ReadsHeaderAt t f sector s
      (Locals.mk 0 false (s.ecm_savetable (select_pos s sector)).sector
        (toU32 ((s.ecm_savetable (select_pos s sector)).sector * CD_FRAMESIZE_RAW))
        (s.ecm_savetable (select_pos s sector)).filepos.toNat stack) p)
    (ho : Overlong (f.drop p)) :
    ∃ r, cdread_ecm_decode t s f stack sector = some r ∧ r.ret = -1 ∧ r.dest = none := by
  have h2 := outer_loop_overlong t f sector s _ p h ho f.length (Nat.le_add_left _ _)
  cases hres : outer_loop t f sector (f.length + 1) s
      (Locals.mk 0 false (s.ecm_savetable (select_pos s sector)).sector
        (toU32 ((s.ecm_savetable (select_pos s sector)).sector * CD_FRAMESIZE_RAW))
        (s.ecm_savetable (select_pos s sector)).filepos.toNat stack) with
  | mk s1 res =>
    rw [hres] at h2
    have h3 : res = Except.error Err.error := h2
    subst h3
    exact ⟨_, cdread_of_outer_error t s f stack sector s1 Err.error (by decide) hres, rfl, rfl⟩

/-- A header the parser accepts has the exact run length of its chain. -/
theorem read_header_exact (l : List Nat) (type num k : Nat)
    (h : read_header l = Except.ok (type, num, k)) :
    ∃ c0 cs tail, l = c0 :: (cs ++ tail) ∧ ContinuationChain c0 cs ∧
      num = ((c0 >>> 2) &&& 0x1F) + group_sum 5 cs ∧ num < 2 ^ 32 := by
  cases l with
  | nil => rw [read_header] at h; cases h
  | cons c rest =>
    rw [read_header] at h
    cases hh : header_loop rest c ((c >>> 2) &&& 0x1F) 5 1 with
    | error e1 => rw [hh] at h; cases h
    | ok q =>
      obtain ⟨n1, k1⟩ := q
      rw [hh] at h
      injection h with h
      injection h with h1 h2
      injection h2 with h2 h3
      subst h1 h2 h3
      have hlt : (c >>> 2) &&& 0x1F < 32 := by
        rw [shr2_and_1F]
        exact Nat.mod_lt _ (by decide)
      obtain ⟨cs, tail, e, hchain, hsum, hn, _⟩ :=
        header_loop_ok rest c _ 5 1 _ _ hh (by decide) (by simpa using hlt)
          (lt_trans hlt (by norm_num))
      exact ⟨c, cs, tail, by rw [e], hchain, hsum, hn⟩

theorem wideStream_length : wideStream.length = 2060 := by
  unfold wideStream
  rw [stream_length, List.length_replicate]
  rfl

/-- A read of sector 0 of `wideStream` in the fresh session: the header of raw
run length `2^31` is accepted and the read succeeds. -/
theorem wide_read (t : Luts) (stack : List Nat) :
    read_header (wideStream.drop 4) = Except.ok (1, 2147483648, 5) ∧
    ∃ r, cdread_ecm_decode t freshSession wideStream stack 0 = some r ∧ r.ret = 2352 := by
  have hlen := wideStream_length
  have hhead : read_header (wideStream.drop 4) = Except.ok (1, 2147483648, 5) := by
    have hd : wideStream.drop 4
        = [0x81, 0x80, 0x80, 0x80, 0x20] ++ (List.replicate 0x803 0 ++ []) :=
      stream_drop_header _ _ _
    rw [hd]
    have he : encode_raw 1 2147483648 = [0x81, 0x80, 0x80, 0x80, 0x20] := by decide
    have h := read_header_encode_raw 1 2147483648 (List.replicate 0x803 0 ++ []) (by decide)
      (by norm_num)
    rw [he] at h
    exact h
  refine ⟨hhead, ?_⟩
  have hpos := select_pos_fresh freshSession 0 isFresh_freshSession
  generalize wideStream = f at *
  have us1 : unit_stored 1 2147483649 = 0x803 := by decide
  obtain ⟨st1, e1, p1, n1, w1, c1, ps1, _⟩ :=
    inner_loop_step t f 0 1 2147483648 (Locals.mk 2147483649 false 0 0 9 stack)
      (by show (2147483649 : Nat) ≠ 0; decide)
      (by intro h; exact absurd h.1 (by show ¬ (false = true); decide))
      (by show 9 + unit_stored 1 2147483649 ≤ f.length; rw [hlen, us1])
  have ud1 : unit_decoded 1 2147483649 = 2352 := by decide
  have ub1 : unit_b 1 2147483649 = 1 := by decide
  simp only [us1, ub1, ud1] at p1 n1 w1
  have w1' : st1.writebytecount = 2352 := by rw [w1]; norm_num
  have c1' : st1.sectorcount = 1 := by rw [c1, w1']; norm_num
  have ps1' : st1.processsectors = true := ps1.mpr (Or.inr (by show (0 : Int) ≥ 0 - 1; decide))
  have hbreak := inner_loop_break t f 0 1 2147483647 st1 (by rw [n1]; decide) ps1'
    (by rw [c1']; decide)
  have hrun : inner_loop t f 0 1 ((2147483648 + 1) % 2 ^ 32)
      { (Locals.mk 0 false 0 0 4 stack) with fpos := 4 + 5, num := (2147483648 + 1) % 2 ^ 32 }
        = Except.ok st1 := by
    have h := e1
    rw [hbreak] at h
    exact h
  have hstep := outer_loop_step t f 0 f.length freshSession (Locals.mk 0 false 0 0 4 stack)
    1 2147483648 5 st1 (by show (0 : Int) ≥ 0; decide) hhead (by decide) hrun
  have hexit := outer_loop_exit t f 0 f.length
    { freshSession with ecm_savetable := record freshSession.ecm_savetable 1 st1 } st1
    (by rw [c1']; decide)
  have hloop := hstep.trans hexit
  have hcall := cdread_of_outer t freshSession f stack 0 _ st1 (by
    rw [hpos]
    exact hloop)
  exact ⟨_, hcall, rfl⟩

/-! ### Corruption detection -/

/-- C11 as stated fails on the code: the header `81 80 80 80 20` of
`wideStream` has the raw run length `2^31`, whose chain takes 32 run-length
bits (5 + 7 + 7 + 7 + 6).  The parser accepts it with that value, and the read
of sector 0 returns 2352, not -1. -/
theorem overlong_header_fails_counterexample :
    read_header (wideStream.drop 4) = Except.ok (1, 2147483648, 5) ∧
    2 ^ 31 ≤ 2147483648 ∧
    ∃ r, cdread_ecm_decode (eccedc_init Luts.zero) freshSession wideStream
        (List.replicate 2352 0) 0 = some r ∧ r.ret = 2352 := by
  obtain ⟨h1, h2⟩ := wide_read (eccedc_init Luts.zero) (List.replicate 2352 0)
  exact ⟨h1, by norm_num, h2⟩

/-- C11 (amended: more than 32 bits).  When the chunk loop of a call comes, in
whatever iteration, to a chunk header whose continuation chain does not fit in
32 run-length bits (`Overlong`: a fifth byte with a group of 64 or more, or a
sixth byte), the parser reports the corrupt-stream error and the call returns
-1 without writing `dest`.  The parser reports that error for no other header,
and a header it accepts has the exact run length of its chain, below `2^32`:
nothing is wrapped or truncated. -/
theorem overlong_header_fails (t : Luts) (s : Session) (f stack : List Nat) (sector : Int)
    (p : Nat) (hread : ReadsHeaderAt t f sector s (entryLocals s sector stack) p)
    (hlong : Overlong (f.drop p)) :
    read_header (f.drop p) = Except.error Err.error ∧
    (∃ r, cdread_ecm_decode t s f stack sector = some r ∧ r.ret = -1 ∧ r.dest = none) ∧
    (∀ l, read_header l = Except.error Err.error ↔ Overlong l) ∧
    (∀ l type num k, read_header l = Except.ok (type, num, k) →
      ∃ c0 cs tail, l = c0 :: (cs ++ tail) ∧ ContinuationChain c0 cs ∧
        num = ((c0 >>> 2) &&& 0x1F) + group_sum 5 cs ∧ num < 2 ^ 32) :=
  ⟨read_header_overlong _ hlong, cdread_overlong t s f stack sector p hread hlong,
    fun l => ⟨overlong_of_error l, read_header_overlong l⟩, read_header_exact⟩

theorem overlong_header_fails_witness :
    ReadsHeaderAt (eccedc_init Luts.zero) corruptStream 0 freshSession
      (entryLocals freshSession 0 []) 4 ∧
    Overlong (corruptStream.drop 4) ∧
    (read_header (corruptStream.drop 4) = Except.error Err.error ∧
    (∃ r, cdread_ecm_decode (eccedc_init Luts.zero) freshSession corruptStream [] 0 = some r ∧
      r.ret = -1 ∧ r.dest = none) ∧
    (∀ l, read_header l = Except.error Err.error ↔ Overlong l) ∧
    (∀ l type num k, read_header l = Except.ok (type, num, k) →
      ∃ c0 cs tail, l = c0 :: (cs ++ tail) ∧ ContinuationChain c0 cs ∧
        num = ((c0 >>> 2) &&& 0x1F) + group_sum 5 cs ∧ num < 2 ^ 32)) :=
  ⟨ReadsHeaderAt.here freshSession (entryLocals freshSession 0 []) (by decide),
    ⟨0xFF, 0xFF, 0xFF, 0xFF, 0xFF, [], rfl, by decide, by decide, by decide, by decide,
      Or.inl (by decide)⟩,
    overlong_header_fails (eccedc_init Luts.zero) freshSession corruptStream [] 0 4
      (ReadsHeaderAt.here freshSession (entryLocals freshSession 0 []) (by decide))
      ⟨0xFF, 0xFF, 0xFF, 0xFF, 0xFF, [], rfl, by decide, by decide, by decide, by decide,
        Or.inl (by decide)⟩⟩

/-! ### Runs of every type, decoded to their end -/

theorem unit_arith (type n : Nat) (ht : type < 4) (hn : 1 ≤ n) :
    unit_stored type n ≤ n * stored_unit type ∧
    unit_stored type n + (n - unit_b type n) * stored_unit type = n * stored_unit type ∧
    unit_decoded type n + (n - unit_b type n) * rd ECM_SECTOR_SIZE type
      = n * rd ECM_SECTOR_SIZE type := by
  have e0 : rd ECM_SECTOR_SIZE 0 = 1 := rfl
  have e1 : rd ECM_SECTOR_SIZE 1 = 2352 := rfl
  have e2 : rd ECM_SECTOR_SIZE 2 = 2336 := rfl
  have e3 : rd ECM_SECTOR_SIZE 3 = 2336 := rfl
  unfold unit_stored unit_b unit_decoded stored_unit
  have n10 : ¬ ((1 : Nat) = 0) := by decide
  have n20 : ¬ ((2 : Nat) = 0) := by decide
  have n21 : ¬ ((2 : Nat) = 1) := by decide
  have n30 : ¬ ((3 : Nat) = 0) := by decide
  have n31 : ¬ ((3 : Nat) = 1) := by decide
  have n32 : ¬ ((3 : Nat) = 2) := by decide
  interval_cases type
  · simp only [if_true, e0]
    split_ifs <;> omega
  · simp only [e1, n10, if_true, if_false]
    omega
  · simp only [e2, n20, n21, if_true, if_false]
    omega
  · simp only [e3, n30, n31, n32, if_true, if_false]
    omega

/-- A run whose stored bytes lie inside the stream and whose decoded bytes do
not take the sector count past the target is decoded to its end. -/
theorem run_full (t : Luts) (f : List Nat) (sector : Int) (type : Nat) (ht : type < 4) :
    ∀ (fuel : Nat) (st : Locals), st.num ≤ fuel →
      st.fpos + st.num * stored_unit type ≤ f.length →
      st.writebytecount + st.num * rd ECM_SECTOR_SIZE type < 2 ^ 32 →
      (((st.writebytecount + st.num * rd ECM_SECTOR_SIZE type) / 2352 : Nat) : Int) ≤ sector →
      st.sectorcount = ((st.writebytecount / 2352 : Nat) : Int) →
      ∃ st1, inner_loop t f sector type fuel st = Except.ok st1 ∧
        st1.fpos = st.fpos + st.num * stored_unit type ∧
        st1.writebytecount = st.writebytecount + st.num * rd ECM_SECTOR_SIZE type ∧
        st1.sectorcount = ((st1.writebytecount / 2352 : Nat) : Int) := by
  intro fuel
  induction fuel with
  | zero =>
    intro st hn _ _ _ hsc
    have h0 : st.num = 0 := by omega
    refine ⟨st, inner_loop_done t f sector type 0 st h0, ?_, ?_, hsc⟩
    · rw [h0]; simp
    · rw [h0]; simp
  | succ m ih =>
    intro st hn hav hw hreach hsc
    by_cases h0 : st.num = 0
    · refine ⟨st, inner_loop_done t f sector type _ st h0, ?_, ?_, hsc⟩
      · rw [h0]; simp
      · rw [h0]; simp
    · obtain ⟨a1, a2, a3⟩ := unit_arith type st.num ht (by omega)
      have hb := unit_b_bounds type st.num (by omega)
      have hdiv : st.writebytecount / 2352
          ≤ (st.writebytecount + st.num * rd ECM_SECTOR_SIZE type) / 2352 :=
        Nat.div_le_div_right (Nat.le_add_right _ _)
      have hbr : ¬ (st.processsectors = true ∧ st.sectorcount > sector) := by
        intro hc
        have := hc.2
        rw [hsc] at this
        omega
      obtain ⟨st1, e1, p1, n1, w1, c1, _, _⟩ :=
        inner_loop_step t f sector type m st h0 hbr (by omega)
      have hle : st.writebytecount + unit_decoded type st.num
          ≤ st.writebytecount + st.num * rd ECM_SECTOR_SIZE type := by
        rw [← a3]
        omega
      have w1' : st1.writebytecount = st.writebytecount + unit_decoded type st.num := by
        rw [w1]
        exact Nat.mod_eq_of_lt (by omega)
      have htot : st1.writebytecount + st1.num * rd ECM_SECTOR_SIZE type
          = st.writebytecount + st.num * rd ECM_SECTOR_SIZE type := by
        rw [w1', n1, ← a3]
        omega
      have hpos : st1.fpos + st1.num * stored_unit type
          = st.fpos + st.num * stored_unit type := by
        rw [p1, n1, ← a2]
        omega
      obtain ⟨st2, e2, p2, w2, c2⟩ := ih st1 (by rw [n1]; omega) (by rw [hpos]; exact hav)
        (by rw [htot]; exact hw) (by rw [htot]; exact hreach) c1
      refine ⟨st2, by rw [e1]; exact e2, by rw [p2, hpos], by rw [w2, htot], c2⟩

theorem drop_append_length (f : List Nat) (p : Nat) (a r : List Nat)
    (h : f.drop p = a ++ r) (ha : 1 ≤ a.length) : p + a.length ≤ f.length := by
  have h1 : (f.drop p).length = a.length + r.length := by rw [h, List.length_append]
  rw [List.length_drop] at h1
  omega

theorem chunkBytes_length_ge (cs : List Chunk) : cs.length ≤ (chunkBytes cs).length := by
  induction cs with
  | nil => exact Nat.le_refl _
  | cons c cs ih =>
    have h := encode_raw_length_pos c.type (c.count - 1)
    simp only [chunkBytes, List.length_append, List.length_cons, encode_header]
    omega

/-- The chunk loop on well-formed chunks followed by the end indicator, for a
target the chunks do not reach: every run is decoded to its end, the end
indicator is read, and the two lengths are set from the byte counter. -/
theorem chunks_to_end (t : Luts) (f : List Nat) (sector : Int) (ty : Nat) (tail : List Nat)
    (hty : ty < 4) :
    ∀ (cs : List Chunk) (fuel : Nat) (s : Session) (st : Locals),
      (∀ c, c ∈ cs → c.WellFormed) → cs.length + 1 ≤ fuel →
      f.drop st.fpos = chunkBytes cs ++ (encode_raw ty 0xFFFFFFFF ++ tail) →
      st.writebytecount + decodedLength cs < 2 ^ 32 →
      (((st.writebytecount + decodedLength cs) / 2352 : Nat) : Int) ≤ sector →
      st.sectorcount = ((st.writebytecount / 2352 : Nat) : Int) →
      ∃ s1 st1, outer_loop t f sector fuel s st = (s1, Except.ok st1) ∧
        s1.len_decoded_ecm_buffer = st.writebytecount + decodedLength cs ∧
        s1.len_ecm_savetable = (st.writebytecount + decodedLength cs) / 2352 := by
  intro cs
  induction cs with
  | nil =>
    intro fuel s st _ hfuel hdrop hw hreach hsc
    obtain ⟨m, rfl⟩ : ∃ m, fuel = m + 1 := ⟨fuel - 1, by simp at hfuel; omega⟩
    have hs : sector ≥ st.sectorcount := by
      rw [hsc]
      simp only [decodedLength, Nat.add_zero] at hreach
      exact hreach
    have hh : read_header (f.drop st.fpos)
        = Except.ok (ty, 0xFFFFFFFF, (encode_raw ty 0xFFFFFFFF).length) := by
      rw [hdrop]
      exact read_header_encode_raw ty 0xFFFFFFFF tail hty (by norm_num)
    rw [outer_loop_end t f sector m s st ty _ hs hh]
    exact ⟨_, _, rfl, rfl, rfl⟩
  | cons c cs ih =>
    intro fuel s st hwf hfuel hdrop hw hreach hsc
    obtain ⟨m, rfl⟩ : ∃ m, fuel = m + 1 := ⟨fuel - 1, by simp at hfuel; omega⟩
    obtain ⟨hct, hc1, hc2, hcl⟩ := hwf c (List.mem_cons_self _ _)
    have hdl : decodedLength (c :: cs)
        = c.count * rd ECM_SECTOR_SIZE c.type + decodedLength cs := rfl
    rw [hdl] at hw hreach
    have hdiv1 : st.writebytecount / 2352
        ≤ (st.writebytecount + (c.count * rd ECM_SECTOR_SIZE c.type + decodedLength cs)) / 2352 :=
      Nat.div_le_div_right (Nat.le_add_right _ _)
    have hdiv2 : (st.writebytecount + c.count * rd ECM_SECTOR_SIZE c.type) / 2352
        ≤ (st.writebytecount + (c.count * rd ECM_SECTOR_SIZE c.type + decodedLength cs)) / 2352 :=
      Nat.div_le_div_right (by omega)
    have hs : sector ≥ st.sectorcount := by
      rw [hsc]
      omega
    have hdrop1 : f.drop st.fpos = encode_header c.type c.count
        ++ (c.payload ++ (chunkBytes cs ++ (encode_raw ty 0xFFFFFFFF ++ tail))) := by
      rw [hdrop]
      simp only [chunkBytes, List.append_assoc]
    obtain ⟨hhead, hne, hcount⟩ := read_header_encode_header c.type c.count
      (c.payload ++ (chunkBytes cs ++ (encode_raw ty 0xFFFFFFFF ++ tail))) hct hc1 hc2
    rw [← hdrop1] at hhead
    have hdrop2 := drop_append_of_drop f st.fpos _ _ hdrop1
    have hsu : 1 ≤ stored_unit c.type := by
      unfold stored_unit
      split_ifs <;> omega
    have hpl : 1 ≤ c.payload.length := by
      rw [hcl]
      exact Nat.mul_pos hc1 hsu
    have hav := drop_append_length f _ _ _ hdrop2 hpl
    have hdrop3 := drop_append_of_drop f _ _ _ hdrop2
    obtain ⟨st1, e1, p1, w1, c1⟩ := run_full t f sector c.type hct c.count
      { st with fpos := st.fpos + (encode_header c.type c.count).length, num := c.count }
      (le_refl _)
      (by
        show st.fpos + (encode_header c.type c.count).length + c.count * stored_unit c.type
          ≤ f.length
        rw [← hcl]
        exact hav)
      (by
        show st.writebytecount + c.count * rd ECM_SECTOR_SIZE c.type < 2 ^ 32
        omega)
      (by
        show (((st.writebytecount + c.count * rd ECM_SECTOR_SIZE c.type) / 2352 : Nat) : Int)
          ≤ sector
        omega)
      hsc
    have hi : inner_loop t f sector c.type ((c.count - 1 + 1) % 2 ^ 32)
        { st with fpos := st.fpos + (encode_header c.type c.count).length,
                  num := (c.count - 1 + 1) % 2 ^ 32 } = Except.ok st1 := by
      rw [hcount]
      exact e1
    rw [outer_loop_step t f sector m s st c.type (c.count - 1) _ st1 hs hhead hne hi]
    have p1' : st1.fpos
        = st.fpos + (encode_header c.type c.count).length + c.payload.length := by
      rw [p1, hcl]
    have w1' : st1.writebytecount
        = st.writebytecount + c.count * rd ECM_SECTOR_SIZE c.type := w1
    obtain ⟨s2, st2, e2, l1, l2⟩ := ih m
      { s with ecm_savetable := record s.ecm_savetable c.type st1 } st1
      (fun c' hc' => hwf c' (List.mem_cons_of_mem _ hc'))
      (by simp only [List.length_cons] at hfuel; omega)
      (by rw [p1']; exact hdrop3)
      (by rw [w1']; omega)
      (by rw [w1', Nat.add_assoc]; exact hreach)
      c1
    refine ⟨s2, st2, e2, ?_, ?_⟩
    · rw [l1, w1', Nat.add_assoc, hdl]
    · rw [l2, w1', Nat.add_assoc, hdl]

/-! ### End of stream -/

theorem ecmStream_drop (cs : List Chunk) (ty : Nat) (tail : List Nat) :
    (ecmStream cs ty tail).drop 4 = chunkBytes cs ++ (encode_raw ty 0xFFFFFFFF ++ tail) :=
  stream_drop_header _ _ _

theorem ecmStream_length_ge (cs : List Chunk) (ty : Nat) (tail : List Nat) :
    cs.length ≤ (ecmStream cs ty tail).length := by
  have h := chunkBytes_length_ge cs
  unfold ecmStream
  rw [stream_length]
  omega

/-- A decode that starts from checkpoint entry 0 for a target the chunks do
not reach ends at the end indicator. -/
theorem cdread_to_end (t : Luts) (s : Session) (cs : List Chunk) (ty : Nat)
    (tail stack : List Nat) (sector : Int) (hwf : ∀ c, c ∈ cs → c.WellFormed) (hty : ty < 4)
    (htotal : decodedLength cs < 2 ^ 32)
    (hentry : s.ecm_savetable (select_pos s sector) = { sector := 0, filepos := 4 })
    (hreach : ((decodedLength cs / 2352 : Nat) : Int) ≤ sector) :
    ∃ r, cdread_ecm_decode t s (ecmStream cs ty tail) stack sector = some r ∧ r.ret = 2352 ∧
      r.session.len_decoded_ecm_buffer = decodedLength cs ∧
      r.session.len_ecm_savetable = decodedLength cs / 2352 := by
  have hdrop := ecmStream_drop cs ty tail
  have hlen := ecmStream_length_ge cs ty tail
  generalize ecmStream cs ty tail = f at *
  obtain ⟨s1, st1, hloop, l1, l2⟩ := chunks_to_end t f sector ty tail hty cs (f.length + 1) s
    (Locals.mk 0 false 0 0 4 stack) hwf (by omega) hdrop
    (by show 0 + decodedLength cs < 2 ^ 32; omega)
    (by show (((0 + decodedLength cs) / 2352 : Nat) : Int) ≤ sector; rw [Nat.zero_add]; exact hreach)
    (by show (0 : Int) = ((0 / 2352 : Nat) : Int); simp)
  have hcall := cdread_of_outer t s f stack sector s1 st1 (by
    rw [hentry]
    exact hloop)
  refine ⟨_, hcall, rfl, ?_, ?_⟩
  · show s1.len_decoded_ecm_buffer = decodedLength cs
    rw [l1]
    exact Nat.zero_add _
  · show s1.len_ecm_savetable = decodedLength cs / 2352
    rw [l2]
    show (0 + decodedLength cs) / 2352 = _
    rw [Nat.zero_add]

/-- The scan of `handleecm` on a well-formed stream reports the decoded
length in sectors. -/
theorem handleecm_scan (st0 : EcmState) (isoname : List Nat) (cs : List Chunk) (ty : Nat)
    (tail stack : List Nat) (hdet : st0.ecm_file_detected = false)
    (hname : strncmp_ecm isoname = true) (hwf : ∀ c, c ∈ cs → c.WellFormed) (hty : ty < 4)
    (htotal : decodedLength cs < 2 ^ 32) :
    ∃ d, handleecm st0 isoname (ecmStream cs ty tail) true stack = some d ∧ d.ret = 0 ∧
      d.accurate_length = some ((decodedLength cs / 2352 : Nat) : Int) := by
  have hmagic : (ecmStream cs ty tail)[0]? = some 0x45 ∧ (ecmStream cs ty tail)[1]? = some 0x43 ∧
      (ecmStream cs ty tail)[2]? = some 0x4D ∧ (ecmStream cs ty tail)[3]? = some 0x00 ∧
      strncmp_ecm isoname = true := by
    refine ⟨?_, ?_, ?_, ?_, hname⟩ <;> simp [ecmStream]
  have hd : ¬ st0.ecm_file_detected = true := by rw [hdet]; decide
  have h32 : (2 : Nat) ^ 32 = 4294967296 := by norm_num
  obtain ⟨r, hr, _, _, hl⟩ := cdread_to_end (eccedc_init st0.luts)
    { ecm_savetable := setEntry (fun _ => { sector := 0, filepos := 0 }) 0
        { sector := 0, filepos := ECM_HEADER_SIZE }
      len_ecm_savetable := 0
      len_decoded_ecm_buffer := st0.session.len_decoded_ecm_buffer
      prevsector := 0 } cs ty tail stack INT_MAX hwf hty htotal rfl
    (by unfold INT_MAX; rw [h32] at htotal; omega)
  unfold handleecm
  rw [if_pos hmagic, if_neg hd]
  simp only [if_true]
  rw [hr]
  refine ⟨_, rfl, rfl, ?_⟩
  show some (r.session.len_ecm_savetable : Int) = _
  rw [hl]

theorem sampleChunks_wellFormed : ∀ c, c ∈ sampleChunks → c.WellFormed := by
  intro c hc
  simp only [sampleChunks, List.mem_cons, List.mem_singleton, List.not_mem_nil, or_false] at hc
  rcases hc with h | h
  · subst h
    exact ⟨by decide, by decide, by decide, rfl⟩
  · subst h
    exact ⟨by decide, by decide, by decide, by
      show (List.replicate 0x803 0).length = 1 * stored_unit 1
      rw [List.length_replicate]
      rfl⟩

/-- The lookup for sector 5 in the fresh session reads the entries 5, 4, 3, 2,
1 and the cursor's entry 0. -/
theorem lookup_reads_fresh_five : ∀ k, k ∈ lookup_reads freshSession 5 → k < 75 * 80 * 60 := by
  have e : lookup_reads freshSession 5 = [5, 4, 3, 2, 1, 0] := by decide
  intro k hk
  rw [e] at hk
  simp only [List.mem_cons, List.mem_singleton, List.not_mem_nil, or_false] at hk
  omega

/-- C12: end of stream.  A decode that starts from checkpoint entry 0 on a
stream of well-formed chunks of the types 0..3 followed by a header of raw run
length `0xFFFFFFFF` (with any type bits `ty`, whatever follows it), for a
target the chunks do not reach, so that the header is read: the call returns
2352 (no error), the total decoded length is the sum over the chunks of count
times unit size (1, 2352, 2336, 2336), and the sector count is that length
divided by 2352, rounded down; `handleecm` with a non-null `accurate_length`
on a not yet detected image reports that sector count after its scan.  For
totals below `2^32` and inside the table of `75*80*60` entries: the sector
count of the stream is below the number of entries (the checkpoint statement
of the decode and of the scan uses no index above that count), and so is every
index the lookup of the decode reads. -/
theorem end_of_stream (t : Luts) (s : Session) (cs : List Chunk) (ty : Nat)
    (tail stack : List Nat) (sector : Int) (hwf : ∀ c, c ∈ cs → c.WellFormed) (hty : ty < 4)
    (htotal : decodedLength cs < 2 ^ 32) (_hcap : decodedLength cs / 2352 < 75 * 80 * 60)
    (_hlook : ∀ k, k ∈ lookup_reads s sector → k < 75 * 80 * 60)
    (hentry : s.ecm_savetable (select_pos s sector) = { sector := 0, filepos := 4 })
    (hreach : ((decodedLength cs / 2352 : Nat) : Int) ≤ sector) :
    (∃ r, cdread_ecm_decode t s (ecmStream cs ty tail) stack sector = some r ∧ r.ret = 2352 ∧
      r.session.len_decoded_ecm_buffer = decodedLength cs ∧
      r.session.len_ecm_savetable = decodedLength cs / 2352) ∧
    (∀ (st0 : EcmState) (isoname : List Nat), st0.ecm_file_detected = false →
      strncmp_ecm isoname = true →
      ∃ d, handleecm st0 isoname (ecmStream cs ty tail) true stack = some d ∧ d.ret = 0 ∧
        d.accurate_length = some ((decodedLength cs / 2352 : Nat) : Int)) :=
  ⟨cdread_to_end t s cs ty tail stack sector hwf hty htotal hentry hreach,
    fun st0 isoname hdet hname =>
      handleecm_scan st0 isoname cs ty tail stack hdet hname hwf hty htotal⟩

theorem end_of_stream_witness :
    (∀ c, c ∈ sampleChunks → c.WellFormed) ∧ 3 < 4 ∧ decodedLength sampleChunks < 2 ^ 32 ∧
    decodedLength sampleChunks / 2352 < 75 * 80 * 60 ∧
    (∀ k, k ∈ lookup_reads freshSession 5 → k < 75 * 80 * 60) ∧
    freshSession.ecm_savetable (select_pos freshSession 5) = { sector := 0, filepos := 4 } ∧
    ((decodedLength sampleChunks / 2352 : Nat) : Int) ≤ 5 ∧
    ((∃ r, cdread_ecm_decode (eccedc_init Luts.zero) freshSession (ecmStream sampleChunks 3 [1, 2])
        (List.replicate 2352 0) 5 = some r ∧ r.ret = 2352 ∧
      r.session.len_decoded_ecm_buffer = decodedLength sampleChunks ∧
      r.session.len_ecm_savetable = decodedLength sampleChunks / 2352) ∧
    (∀ (st0 : EcmState) (isoname : List Nat), st0.ecm_file_detected = false →
      strncmp_ecm isoname = true →
      ∃ d, handleecm st0 isoname (ecmStream sampleChunks 3 [1, 2]) true (List.replicate 2352 0)
          = some d ∧ d.ret = 0 ∧
        d.accurate_length = some ((decodedLength sampleChunks / 2352 : Nat) : Int))) :=
  ⟨sampleChunks_wellFormed, by decide, by decide, by decide, lookup_reads_fresh_five,
    select_pos_fresh freshSession 5 isFresh_freshSession, by decide,
    end_of_stream (eccedc_init Luts.zero) freshSession sampleChunks 3 [1, 2]
      (List.replicate 2352 0) 5 sampleChunks_wellFormed (by decide) (by decide) (by decide)
      lookup_reads_fresh_five
      (select_pos_fresh freshSession 5 isFresh_freshSession) (by decide)⟩

/-! ### Checkpoints inside a run -/

theorem magic_of_cons (f x : List Nat) (h : f = 0x45 :: 0x43 :: 0x4D :: 0x00 :: x) :
    f[0]? = some 0x45 ∧ f[1]? = some 0x43 ∧ f[2]? = some 0x4D ∧ f[3]? = some 0x00 := by
  subst h
  exact ⟨by simp, by simp, by simp, by simp⟩

theorem twoUnitStream_magic :
    twoUnitStream[0]? = some 0x45 ∧ twoUnitStream[1]? = some 0x43 ∧
    twoUnitStream[2]? = some 0x4D ∧ twoUnitStream[3]? = some 0x00 :=
  magic_of_cons twoUnitStream (chunksBytes [[unitZero, unitFF]] ++ sentinel) (by
    simp only [twoUnitStream, mode1Stream, List.cons_append, List.nil_append, List.append_assoc])

/-- C16 on the code: in the session that `handleecm` leaves for the example
stream (the magic header, the chunk header `05` at offset 4, one run of two
type 1 units at offsets 5 and 2056, the end indicator at offset 4107), a read
of sector 0 leaves checkpoint entry 1 at offset 2056.  That is the first byte
of the second unit of the run, not the first byte of a chunk header: the bytes
from there on are the unit and the end indicator, and read as a chunk header
they are rejected. -/
theorem checkpoint_inside_run :
    Reachable twoUnitStream detectedState ∧
    ∃ r0, cdread_ecm_decode detectedState.luts detectedState.session twoUnitStream
        (List.replicate 2352 0) 0 = some r0 ∧ r0.ret = 2352 ∧
      Reachable twoUnitStream { detectedState with session := r0.session } ∧
      r0.session.ecm_savetable 1 = { sector := 1, filepos := 2056 } ∧
      twoUnitStream.drop 4 = encode_header 1 2
        ++ (unitZero.addr ++ unitZero.data ++ (unitFF.addr ++ unitFF.data ++ sentinel)) ∧
      (encode_header 1 2).length = 1 ∧ (unitZero.addr ++ unitZero.data).length = 2051 ∧
      twoUnitStream.drop 2056 = unitFF.addr ++ unitFF.data ++ sentinel ∧
      read_header (twoUnitStream.drop 2056) = Except.error Err.error := by
  have hreach : Reachable twoUnitStream detectedState :=
    Reachable.detected initialState nameEcm false [] _ rfl
      (handleecm_example twoUnitStream [] twoUnitStream_magic) rfl
  have hs : detectedState.session = freshSession := by
    unfold detectedState
    rfl
  obtain ⟨r0, h0, hret, htbl, _⟩ :=
    example_first_read detectedState.luts (List.replicate 2352 0) (List.length_replicate _ _)
  rw [← hs] at h0
  refine ⟨hreach, r0, h0, hret,
    Reachable.step _ _ hreach (Step.decode detectedState _ 0 r0 h0), htbl,
    twoUnitStream_drop_header, rfl, ?_, twoUnitStream_drop_unit1, ?_⟩
  · rw [List.length_append, unitZero_lengths.1, unitZero_lengths.2]
  · rw [twoUnitStream_drop_unit1]
    exact read_header_unitFF sentinel

/-! ### Detection -/

/-- A call of `handleecm` whose test fails returns -1 and leaves the statics
as they are. -/
theorem handleecm_rejects (st : EcmState) (isoname cdh : List Nat) (al : Bool) (stack : List Nat)
    (h : ¬ (cdh[0]? = some 0x45 ∧ cdh[1]? = some 0x43 ∧ cdh[2]? = some 0x4D ∧
      cdh[3]? = some 0x00 ∧ strncmp_ecm isoname = true)) :
    handleecm st isoname cdh al stack = some { state := st, accurate_length := none, ret := -1 } := by
  unfold handleecm
  rw [if_neg h]

/-- C20 on the code: the name `a.bin` does not end in `.ecm`, yet `handleecm`
on a stream that starts with `'E','C','M',0` returns 0 and sets the detected
flag, the table and the fallback reader; the name `a.ecmx` is treated the
other way.  The test of the source is the truth value of `strncmp(isoname +
strlen(isoname) - 5, ".ecm", 4)`, which is true when the four characters
before the last one differ from `.ecm`.  A call whose test fails does return
-1 and leaves the statics as they are. -/
theorem handleecm_accepts_other_name :
    nameBin.drop (nameBin.length - 4) ≠ [0x2E, 0x65, 0x63, 0x6D] ∧
    handleecm initialState nameBin emptyStream false []
      = some { state := detectedState, accurate_length := none, ret := 0 } ∧
    detectedState.ecm_file_detected = true ∧ detectedState.cdimg_read_func_normal = true ∧
    handleecm initialState [0x61, 0x2E, 0x65, 0x63, 0x6D, 0x78] emptyStream false []
      = some { state := initialState, accurate_length := none, ret := -1 } ∧
    ∀ (st : EcmState) (isoname cdh : List Nat) (al : Bool) (stack : List Nat),
      ¬ (cdh[0]? = some 0x45 ∧ cdh[1]? = some 0x43 ∧ cdh[2]? = some 0x4D ∧
        cdh[3]? = some 0x00 ∧ strncmp_ecm isoname = true) →
      handleecm st isoname cdh al stack
        = some { state := st, accurate_length := none, ret := -1 } := by
  refine ⟨by decide, ?_, rfl, rfl, ?_, handleecm_rejects⟩
  · have hc : emptyStream[0]? = some 0x45 ∧ emptyStream[1]? = some 0x43 ∧
        emptyStream[2]? = some 0x4D ∧ emptyStream[3]? = some 0x00 ∧
        strncmp_ecm nameBin = true := by decide
    have hd : ¬ initialState.ecm_file_detected = true := by decide
    have hal : ¬ (false = true) := by decide
    unfold handleecm
    rw [if_pos hc, if_neg hd]
    simp only [hal, if_false]
    rfl
  · exact handleecm_rejects _ _ _ _ _ (by decide)

/-! ### Tracing reads on example streams -/

/-- One iteration of the unit loop, with the unit it decodes. -/
theorem inner_loop_unit (t : Luts) (f : List Nat) (sector : Int) (type fuel : Nat) (st : Locals)
    (h0 : st.num ≠ 0) (hb : ¬ (st.processsectors = true ∧ st.sectorcount > sector))
    (hav : st.fpos + unit_stored type st.num ≤ f.length) :
    ∃ st1, inner_loop t f sector type (fuel + 1) st = inner_loop t f sector type fuel st1 ∧
      unit_step t f type
        { st with processsectors :=
            (st.processsectors || decide (st.sectorcount ≥ sector - 1)) } = Except.ok st1 := by
  rw [inner_loop, if_neg h0]
  by_cases c1 : st.processsectors = false ∧ st.sectorcount ≥ sector - 1
  · rw [if_pos c1]
    obtain ⟨st1, hu⟩ := unit_step_ok t f type { st with processsectors := true } hav
    rw [hu]
    refine ⟨st1, rfl, ?_⟩
    have e : (st.processsectors || decide (st.sectorcount ≥ sector - 1)) = true := by
      rw [c1.1, decide_eq_true c1.2]
      rfl
    rw [e]
    exact hu
  · rw [if_neg c1, if_neg hb]
    have e : (st.processsectors || decide (st.sectorcount ≥ sector - 1)) = st.processsectors := by
      cases hp : st.processsectors
      · have : ¬ st.sectorcount ≥ sector - 1 := fun hc => c1 ⟨hp, hc⟩
        rw [decide_eq_false this]
        rfl
      · rfl
    rw [e]
    obtain ⟨st1, hu⟩ := unit_step_ok t f type st hav
    rw [hu]
    exact ⟨st1, rfl, rfl⟩

/-- One iteration of the unit loop, by the values of the locals. -/
theorem inner_step_num (t : Luts) (f : List Nat) (sector : Int) (type fuel : Nat) (st : Locals)
    (num wbc fpos : Nat) (sc : Int) (ps : Bool) (hnum : st.num = num)
    (hw : st.writebytecount = wbc) (hp : st.fpos = fpos) (hsc : st.sectorcount = sc)
    (hps : st.processsectors = ps) (h0 : num ≠ 0) (hb : ¬ (ps = true ∧ sc > sector))
    (hav : fpos + unit_stored type num ≤ f.length) :
    ∃ st1, inner_loop t f sector type (fuel + 1) st = inner_loop t f sector type fuel st1 ∧
      unit_step t f type { st with processsectors := (ps || decide (sc ≥ sector - 1)) }
        = Except.ok st1 ∧
      st1.num = num - unit_b type num ∧
      st1.writebytecount = (wbc + unit_decoded type num) % 2 ^ 32 ∧
      st1.fpos = fpos + unit_stored type num ∧
      st1.sectorcount = ((((wbc + unit_decoded type num) % 2 ^ 32) / 2352 : Nat) : Int) ∧
      st1.processsectors = (ps || decide (sc ≥ sector - 1)) ∧
      (st.sector_buffer.length = 2352 → st1.sector_buffer.length = 2352) := by
  subst hnum hw hp hsc hps
  obtain ⟨st1, e1, hu⟩ := inner_loop_unit t f sector type fuel st h0 hb hav
  obtain ⟨a1, a2, a3, a4, a5⟩ := unit_step_fields t f type _ st1 hu
  have a6 := unit_step_buffer t f type _ st1 hu
  refine ⟨st1, e1, hu, a2, a3, a1, ?_, a4, a6⟩
  rw [a5, a3]

/-- The sector buffer after a type 2 unit that is decoded, not skipped. -/
theorem unit_step_two_buffer (t : Luts) (f : List Nat) (st st1 : Locals)
    (h : unit_step t f 2 st = Except.ok st1) (hps : st.processsectors = true) :
    st1.sector_buffer
      = reconstruct_sector t (store st.sector_buffer 0x014 ((f.drop st.fpos).take 0x804)) 2 := by
  unfold unit_step decode_unit at h
  have e20 : ¬ (2 = 0) := by decide
  have e21 : ¬ (2 = 1) := by decide
  simp only [e20, e21, if_false, if_true, hps, Bool.true_eq_false] at h
  unfold fread at h
  by_cases hc : ((f.drop st.fpos).take 0x804).length = 0x804
  · rw [if_pos hc] at h
    injection h with h
    rw [← h]
  · rw [if_neg hc] at h
    cases h

theorem record_new (tbl : Nat → ECMFILELUT) (type : Nat) (st : Locals) (k : Nat)
    (ht : type ≠ 0) (hsc : st.sectorcount = (k : Int)) (hk : 0 < k)
    (he : (tbl k).filepos ≤ 4) :
    record tbl type st = setEntry tbl k { sector := (k : Int), filepos := (st.fpos : Int) } := by
  have hc : type ≠ 0 ∧ st.sectorcount > 0 ∧
      (tbl st.sectorcount.toNat).filepos ≤ (ECM_HEADER_SIZE : Int) := by
    rw [hsc, Int.toNat_natCast]
    exact ⟨ht, by omega, he⟩
  rw [record, if_pos hc, hsc, Int.toNat_natCast]

theorem record_old (tbl : Nat → ECMFILELUT) (type : Nat) (st : Locals) (k : Nat)
    (hsc : st.sectorcount = (k : Int)) (he : ¬ (tbl k).filepos ≤ 4) :
    record tbl type st = tbl := by
  have hc : ¬ (type ≠ 0 ∧ st.sectorcount > 0 ∧
      (tbl st.sectorcount.toNat).filepos ≤ (ECM_HEADER_SIZE : Int)) := by
    rw [hsc, Int.toNat_natCast]
    intro h
    exact he h.2.2
  rw [record, if_neg hc]

theorem record_meta (tbl : Nat → ECMFILELUT) (st : Locals) : record tbl 0 st = tbl := by
  rw [record, if_neg]
  intro h
  exact h.1 rfl

theorem record_zero (tbl : Nat → ECMFILELUT) (type : Nat) (st : Locals)
    (hsc : st.sectorcount = 0) : record tbl type st = tbl := by
  rw [record, if_neg]
  intro h
  have := h.2.1
  omega

/-- The lookup for sector 0 selects entry 0. -/
theorem select_pos_zero (s : Session) : select_pos s 0 = 0 := by
  have e1 : toU32 0 = 0 := rfl
  have e2 : (0 : Int).toNat = 0 := rfl
  have e3 : ¬ ((s.ecm_savetable 0).filepos ≤ 4 ∧ 0 > s.prevsector) := by
    intro h
    have := h.2
    omega
  unfold select_pos
  simp only [e1, e2, Nat.zero_le, if_true, lut_search, e3, if_false]

/-- The lookup selects the entry of the target itself when it holds an offset
beyond the magic header. -/
theorem select_pos_hit (s : Session) (n : Nat) (hn : 0 < n) (hmax : (n : Int) ≤ INT_MAX)
    (hle : n ≤ s.len_ecm_savetable) (hp : 4 < (s.ecm_savetable n).filepos) :
    select_pos s n = n := by
  have hu := toU32_of_nat n hmax
  have hn2 : ((n : Nat) : Int).toNat = n := Int.toNat_natCast n
  obtain ⟨m, rfl⟩ : ∃ m, n = m + 1 := ⟨n - 1, by omega⟩
  have e3 : ¬ ((s.ecm_savetable (m + 1)).filepos ≤ 4 ∧ m + 1 > s.prevsector) := by
    intro h
    have := h.1
    omega
  have e4 : (m + 1) - (m + 1) ≤ 50000 := by omega
  have e5 : (s.ecm_savetable (m + 1)).filepos ≥ 4 := by omega
  unfold select_pos
  simp only [hu, hle, if_true, hn2, lut_search, e4, e5, e3, if_false]

/-- The layout of a stream at the header of a chunk. -/
theorem chunk_layout (f : List Nat) (p : Nat) (c : Chunk) (cs : List Chunk) (rest : List Nat)
    (hc : c.WellFormed) (h : f.drop p = chunkBytes (c :: cs) ++ rest) :
    read_header (f.drop p)
      = Except.ok (c.type, c.count - 1, (encode_header c.type c.count).length) ∧
    c.count - 1 ≠ 0xFFFFFFFF ∧ (c.count - 1 + 1) % 2 ^ 32 = c.count ∧
    f.drop (p + (encode_header c.type c.count).length) = c.payload ++ (chunkBytes cs ++ rest) ∧
    f.drop (p + (encode_header c.type c.count).length + c.payload.length)
      = chunkBytes cs ++ rest ∧
    p + (encode_header c.type c.count).length + c.payload.length ≤ f.length := by
  obtain ⟨hct, hc1, hc2, hcl⟩ := hc
  have hdrop1 : f.drop p
      = encode_header c.type c.count ++ (c.payload ++ (chunkBytes cs ++ rest)) := by
    rw [h]
    simp only [chunkBytes, List.append_assoc]
  obtain ⟨hhead, hne, hcount⟩ := read_header_encode_header c.type c.count
    (c.payload ++ (chunkBytes cs ++ rest)) hct hc1 hc2
  rw [← hdrop1] at hhead
  have hdrop2 := drop_append_of_drop f p _ _ hdrop1
  have hsu : 1 ≤ stored_unit c.type := by
    unfold stored_unit
    split_ifs <;> omega
  have hpl : 1 ≤ c.payload.length := by
    rw [hcl]
    exact Nat.mul_pos hc1 hsu
  exact ⟨hhead, hne, hcount, hdrop2, drop_append_of_drop f _ _ _ hdrop2,
    drop_append_length f _ _ _ hdrop2 hpl⟩

theorem crossChunk_wellFormed : crossChunk.WellFormed := by
  refine ⟨by decide, by decide, by decide, ?_⟩
  show (List.replicate 2051 0
      ++ ([0xB8, 0x49] ++ List.replicate 2351 0 ++ ([0x01] ++ List.replicate 3799 0))).length
    = 4 * stored_unit 1
  simp only [List.length_append, List.length_replicate, List.length_cons, List.length_nil]
  rfl

/-- The length of `crossStream` and the three places where its reads parse a
chunk header: offset 4 (the header of the run), offset 2056 (the second unit)
and offset 4409 (inside the third unit). -/
theorem crossStream_layout :
    crossStream.length = 8214 ∧
    read_header (crossStream.drop 4) = Except.ok (1, 3, 1) ∧
    read_header (crossStream.drop 2056) = Except.ok (0, 2350, 2) ∧
    read_header (crossStream.drop 4409) = Except.ok (1, 0, 1) := by
  have hd := ecmStream_drop [crossChunk] 0 []
  obtain ⟨h1, _, _, h2, _, h3⟩ := chunk_layout crossStream 4 crossChunk []
    (encode_raw 0 0xFFFFFFFF ++ []) crossChunk_wellFormed hd
  have hl1 : (encode_header crossChunk.type crossChunk.count).length = 1 := by decide
  have hpl : crossChunk.payload.length = 8204 := by
    show (List.replicate 2051 0
        ++ ([0xB8, 0x49] ++ List.replicate 2351 0 ++ ([0x01] ++ List.replicate 3799 0))).length
      = 8204
    simp only [List.length_append, List.length_replicate, List.length_cons, List.length_nil]
  rw [hl1] at h2 h3
  have hlen : crossStream.length = 8214 := by
    unfold crossStream ecmStream
    rw [stream_length]
    have e1 : (chunkBytes [crossChunk]).length = 8205 := by
      simp only [chunkBytes, List.length_append, List.length_nil, hl1, hpl]
    have e2 : (encode_raw 0 0xFFFFFFFF).length = 5 := by decide
    rw [e1, e2]
    rfl
  have hp : crossStream.drop 5 = List.replicate 2051 0
      ++ (encode_header 0 2351 ++ (List.replicate 2351 0
        ++ (encode_header 1 1 ++ (List.replicate 3799 0
          ++ (chunkBytes [] ++ (encode_raw 0 0xFFFFFFFF ++ [])))))) := by
    have e : crossChunk.payload = List.replicate 2051 0
        ++ (encode_header 0 2351 ++ List.replicate 2351 0
          ++ (encode_header 1 1 ++ List.replicate 3799 0)) := rfl
    rw [h2, e]
    simp only [List.append_assoc]
  have hq := drop_append_of_drop crossStream 5 _ _ hp
  rw [List.length_replicate] at hq
  have hr := drop_append_of_drop crossStream (5 + 2051) _ _ hq
  have hs := drop_append_of_drop crossStream _ _ _ hr
  rw [List.length_replicate] at hs
  have hl2 : (encode_header 0 2351).length = 2 := by decide
  rw [hl2] at hs hr
  obtain ⟨r2, hr2⟩ : ∃ r, crossStream.drop 2056 = encode_header 0 2351 ++ r := ⟨_, hq⟩
  obtain ⟨r3, hr3⟩ : ∃ r, crossStream.drop 4409 = encode_header 1 1 ++ r := ⟨_, hs⟩
  refine ⟨hlen, h1, ?_, ?_⟩
  · have h := (read_header_encode_header 0 2351 r2 (by decide) (by decide) (by decide)).1
    rw [← hr2] at h
    exact h
  · have h := (read_header_encode_header 1 1 r3 (by decide) (by decide) (by decide)).1
    rw [← hr3] at h
    exact h

/-- The first read on `crossStream`: sector 2 in a fresh session.  It leaves the
unit loop by `break` after three units and records entry 3 at offset 6158. -/
theorem cross_read_a (t : Luts) (f stack : List Nat) (s : Session) (hlen : f.length = 8214)
    (hh : read_header (f.drop 4) = Except.ok (1, 3, 1)) (hfresh : IsFresh s) :
    ∃ r, cdread_ecm_decode t s f stack 2 = some r ∧ r.ret = 2352 ∧
      r.session.ecm_savetable
        = setEntry s.ecm_savetable 3 { sector := 3, filepos := 6158 } ∧
      r.session.len_ecm_savetable = s.len_ecm_savetable := by
  have hpos := select_pos_fresh s 2 hfresh
  obtain ⟨q1, e1, _, n1, w1, p1, c1, ps1, _⟩ :=
    inner_step_num t f 2 1 3 (Locals.mk 4 false 0 0 5 stack) 4 0 5 0 false rfl rfl rfl rfl rfl
      (by decide) (by decide) (by rw [hlen]; decide)
  have n1' : q1.num = 3 := n1.trans (by decide)
  have w1' : q1.writebytecount = 2352 := w1.trans (by decide)
  have p1' : q1.fpos = 2056 := p1.trans (by decide)
  have c1' : q1.sectorcount = 1 := c1.trans (by decide)
  have ps1' : q1.processsectors = false := ps1.trans (by decide)
  obtain ⟨q2, e2, _, n2, w2, p2, c2, ps2, _⟩ :=
    inner_step_num t f 2 1 2 q1 3 2352 2056 1 false n1' w1' p1' c1' ps1'
      (by decide) (by decide) (by rw [hlen]; decide)
  have n2' : q2.num = 2 := n2.trans (by decide)
  have w2' : q2.writebytecount = 4704 := w2.trans (by decide)
  have p2' : q2.fpos = 4107 := p2.trans (by decide)
  have c2' : q2.sectorcount = 2 := c2.trans (by decide)
  have ps2' : q2.processsectors = true := ps2.trans (by decide)
  obtain ⟨q3, e3, _, n3, w3, p3, c3, ps3, _⟩ :=
    inner_step_num t f 2 1 1 q2 2 4704 4107 2 true n2' w2' p2' c2' ps2'
      (by decide) (by decide) (by rw [hlen]; decide)
  have n3' : q3.num = 1 := n3.trans (by decide)
  have p3' : q3.fpos = 6158 := p3.trans (by decide)
  have c3' : q3.sectorcount = 3 := c3.trans (by decide)
  have ps3' : q3.processsectors = true := ps3.trans (by decide)
  have hbreak := inner_loop_break t f 2 1 0 q3 (by rw [n3']; decide) ps3' (by rw [c3']; decide)
  have hrun : inner_loop t f 2 1 ((3 + 1) % 2 ^ 32)
      { (Locals.mk 0 false 0 0 4 stack) with fpos := 4 + 1, num := (3 + 1) % 2 ^ 32 }
        = Except.ok q3 := by
    have h := e1
    rw [e2, e3, hbreak] at h
    exact h
  have hstep := outer_loop_step t f 2 f.length s (Locals.mk 0 false 0 0 4 stack)
    1 3 1 q3 (by show (2 : Int) ≥ 0; decide) hh (by decide) hrun
  have hrec : record s.ecm_savetable 1 q3
      = setEntry s.ecm_savetable 3 { sector := 3, filepos := 6158 } := by
    rw [record_new s.ecm_savetable 1 q3 3 (by decide) c3' (by decide)
      (by rw [hfresh.2.1 3 (by decide)]; decide), p3']
    rfl
  have hexit := outer_loop_exit t f 2 f.length
    { s with ecm_savetable := record s.ecm_savetable 1 q3 } q3 (by rw [c3']; decide)
  have hloop := hstep.trans hexit
  have hcall := cdread_of_outer t s f stack 2 _ q3 (by
    rw [hpos]
    exact hloop)
  exact ⟨_, hcall, rfl, hrec, rfl⟩

/-- The second read on `crossStream`: sector 0.  It leaves the unit loop by
`break` after one unit and records entry 1 at offset 2056. -/
theorem cross_read_b (t : Luts) (f stack : List Nat) (s : Session) (hlen : f.length = 8214)
    (hh : read_header (f.drop 4) = Except.ok (1, 3, 1))
    (h0 : s.ecm_savetable 0 = { sector := 0, filepos := 4 })
    (h1 : s.ecm_savetable 1 = { sector := 0, filepos := 0 }) :
    ∃ r, cdread_ecm_decode t s f stack 0 = some r ∧ r.ret = 2352 ∧
      r.session.ecm_savetable
        = setEntry s.ecm_savetable 1 { sector := 1, filepos := 2056 } ∧
      r.session.len_ecm_savetable = s.len_ecm_savetable := by
  have hpos : s.ecm_savetable (select_pos s 0) = { sector := 0, filepos := 4 } := by
    rw [select_pos_zero, h0]
  obtain ⟨q1, e1, _, n1, w1, p1, c1, ps1, _⟩ :=
    inner_step_num t f 0 1 3 (Locals.mk 4 false 0 0 5 stack) 4 0 5 0 false rfl rfl rfl rfl rfl
      (by decide) (by decide) (by rw [hlen]; decide)
  have n1' : q1.num = 3 := n1.trans (by decide)
  have p1' : q1.fpos = 2056 := p1.trans (by decide)
  have c1' : q1.sectorcount = 1 := c1.trans (by decide)
  have ps1' : q1.processsectors = true := ps1.trans (by decide)
  have hbreak := inner_loop_break t f 0 1 2 q1 (by rw [n1']; decide) ps1' (by rw [c1']; decide)
  have hrun : inner_loop t f 0 1 ((3 + 1) % 2 ^ 32)
      { (Locals.mk 0 false 0 0 4 stack) with fpos := 4 + 1, num := (3 + 1) % 2 ^ 32 }
        = Except.ok q1 := by
    have h := e1
    rw [hbreak] at h
    exact h
  have hstep := outer_loop_step t f 0 f.length s (Locals.mk 0 false 0 0 4 stack)
    1 3 1 q1 (by show (0 : Int) ≥ 0; decide) hh (by decide) hrun
  have hrec : record s.ecm_savetable 1 q1
      = setEntry s.ecm_savetable 1 { sector := 1, filepos := 2056 } := by
    rw [record_new s.ecm_savetable 1 q1 1 (by decide) c1' (by decide)
      (by rw [h1]; decide), p1']
    rfl
  have hexit := outer_loop_exit t f 0 f.length
    { s with ecm_savetable := record s.ecm_savetable 1 q1 } q1 (by rw [c1']; decide)
  have hloop := hstep.trans hexit
  have hcall := cdread_of_outer t s f stack 0 _ q1 (by
    rw [hpos]
    exact hloop)
  exact ⟨_, hcall, rfl, hrec, rfl⟩

/-- The third read on `crossStream`: sector 1, resumed from entry 1 at offset
2056.  The bytes `B8 49` of the second unit are read as the header of a run of
2351 literal bytes, the byte `01` at offset 4409 as the header of a run of one
type 1 unit, and entry 2 is recorded at offset 6461. -/
theorem cross_read_c (t : Luts) (f stack : List Nat) (s : Session) (hlen : f.length = 8214)
    (hh1 : read_header (f.drop 2056) = Except.ok (0, 2350, 2))
    (hh2 : read_header (f.drop 4409) = Except.ok (1, 0, 1))
    (h1 : s.ecm_savetable 1 = { sector := 1, filepos := 2056 })
    (h2 : s.ecm_savetable 2 = { sector := 0, filepos := 0 })
    (hl : 1 ≤ s.len_ecm_savetable) :
    ∃ r, cdread_ecm_decode t s f stack 1 = some r ∧ r.ret = 2352 ∧
      r.session.ecm_savetable
        = setEntry s.ecm_savetable 2 { sector := 2, filepos := 6461 } := by
  have hsel : select_pos s 1 = 1 :=
    select_pos_hit s 1 (by decide) (by decide) hl (by rw [h1]; decide)
  have hpos : s.ecm_savetable (select_pos s 1) = { sector := 1, filepos := 2056 } := by
    rw [hsel, h1]
  obtain ⟨q1, e1, _, n1, w1, p1, c1, ps1, _⟩ :=
    inner_step_num t f 1 0 2350 (Locals.mk 2351 false 1 2352 2058 stack) 2351 2352 2058 1 false
      rfl rfl rfl rfl rfl (by decide) (by decide) (by rw [hlen]; decide)
  have n1' : q1.num = 0 := n1.trans (by decide)
  have w1' : q1.writebytecount = 4703 := w1.trans (by decide)
  have p1' : q1.fpos = 4409 := p1.trans (by decide)
  have c1' : q1.sectorcount = 1 := c1.trans (by decide)
  have ps1' : q1.processsectors = true := ps1.trans (by decide)
  have hrun1 : inner_loop t f 1 0 ((2350 + 1) % 2 ^ 32)
      { (Locals.mk 0 false 1 2352 2056 stack) with
        fpos := 2056 + 2, num := (2350 + 1) % 2 ^ 32 } = Except.ok q1 := by
    have h := e1
    rw [inner_loop_done t f 1 0 2350 q1 n1'] at h
    exact h
  have hstep1 := outer_loop_step t f 1 f.length s (Locals.mk 0 false 1 2352 2056 stack)
    0 2350 2 q1 (by show (1 : Int) ≥ 1; decide) hh1 (by decide) hrun1
  rw [record_meta] at hstep1
  obtain ⟨q2, e2, _, n2, w2, p2, c2, ps2, _⟩ :=
    inner_step_num t f 1 1 0 { q1 with fpos := q1.fpos + 1, num := (0 + 1) % 2 ^ 32 }
      1 4703 4410 1 true rfl w1' (by show q1.fpos + 1 = 4410; rw [p1']) c1' ps1'
      (by decide) (by decide) (by rw [hlen]; decide)
  have n2' : q2.num = 0 := n2.trans (by decide)
  have p2' : q2.fpos = 6461 := p2.trans (by decide)
  have c2' : q2.sectorcount = 2 := c2.trans (by decide)
  have hrun2 : inner_loop t f 1 1 ((0 + 1) % 2 ^ 32)
      { q1 with fpos := q1.fpos + 1, num := (0 + 1) % 2 ^ 32 } = Except.ok q2 := by
    have h := e2
    rw [inner_loop_done t f 1 1 0 q2 n2'] at h
    exact h
  have hstep2 := outer_loop_step t f 1 8213 { s with ecm_savetable := s.ecm_savetable } q1
    1 0 1 q2 (by rw [c1']) (by rw [p1']; exact hh2) (by decide) hrun2
  have hrec : record s.ecm_savetable 1 q2
      = setEntry s.ecm_savetable 2 { sector := 2, filepos := 6461 } := by
    rw [record_new s.ecm_savetable 1 q2 2 (by decide) c2' (by decide)
      (by rw [h2]; decide), p2']
    rfl
  have hexit := outer_loop_exit t f 1 8213
    { s with ecm_savetable := record s.ecm_savetable 1 q2 } q2 (by rw [c2']; decide)
  have hloop : outer_loop t f 1 (f.length + 1) s (Locals.mk 0 false 1 2352 2056 stack)
      = ({ s with ecm_savetable := record s.ecm_savetable 1 q2 }, Except.ok q2) := by
    rw [hstep1, hlen]
    exact hstep2.trans hexit
  have hcall := cdread_of_outer t s f stack 1 _ q2 (by
    rw [hpos]
    exact hloop)
  exact ⟨_, hcall, rfl, hrec⟩

theorem ecmStream_magic (cs : List Chunk) (ty : Nat) (tail : List Nat) :
    (ecmStream cs ty tail)[0]? = some 0x45 ∧ (ecmStream cs ty tail)[1]? = some 0x43 ∧
    (ecmStream cs ty tail)[2]? = some 0x4D ∧ (ecmStream cs ty tail)[3]? = some 0x00 :=
  magic_of_cons _ (chunkBytes cs ++ (encode_raw ty 0xFFFFFFFF ++ tail)) (by
    simp only [ecmStream, List.cons_append, List.nil_append, List.append_assoc])

theorem detectedState_session : detectedState.session = freshSession := by
  unfold detectedState
  rfl

/-- Decode calls lead from a state of a session to states of the session. -/
theorem reachable_decode (f : List Nat) (st : EcmState) (stack : List Nat) (sector : Int)
    (r : Result) (h : Reachable f st)
    (c : cdread_ecm_decode st.luts st.session f stack sector = some r) :
    Reachable f { st with session := r.session } :=
  Reachable.step _ _ h (Step.decode st stack sector r c)

theorem reachable_decode3 (f : List Nat) (st : EcmState) (stack : List Nat) (a b c : Int)
    (r1 r2 r3 : Result) (h : Reachable f st)
    (c1 : cdread_ecm_decode st.luts st.session f stack a = some r1)
    (c2 : cdread_ecm_decode st.luts r1.session f stack b = some r2)
    (c3 : cdread_ecm_decode st.luts r2.session f stack c = some r3) :
    Reachable f { st with session := r3.session } :=
  reachable_decode f { st with session := r2.session } stack c r3
    (reachable_decode f { st with session := r1.session } stack b r2
      (reachable_decode f st stack a r1 h c1) c2) c3

/-! ### Checkpoint monotonicity -/

/-- C18 on the code: on `crossStream` (one well-formed run of four type 1
units), in the session that `handleecm` leaves, the reads of sector 2, sector 0
and sector 1 all return 2352 and lead to a state of the session in which the
populated entries 2 and 3 hold the offsets 6461 and 6158: the offset goes down
as the sector index goes up.  Entry 3 comes from the first read, entry 1 (offset
2056, inside the run) from the second, and the third read resumes from entry 1
and reads payload bytes as chunk headers. -/
theorem checkpoint_offsets_decrease :
    crossChunk.WellFormed ∧ Reachable crossStream detectedState ∧
    ∃ r1 r2 r3,
      cdread_ecm_decode detectedState.luts detectedState.session crossStream
        (List.replicate 2352 0) 2 = some r1 ∧ r1.ret = 2352 ∧
      cdread_ecm_decode detectedState.luts r1.session crossStream
        (List.replicate 2352 0) 0 = some r2 ∧ r2.ret = 2352 ∧
      cdread_ecm_decode detectedState.luts r2.session crossStream
        (List.replicate 2352 0) 1 = some r3 ∧ r3.ret = 2352 ∧
      Reachable crossStream { detectedState with session := r3.session } ∧
      r3.session.ecm_savetable 1 = { sector := 1, filepos := 2056 } ∧
      r3.session.ecm_savetable 2 = { sector := 2, filepos := 6461 } ∧
      r3.session.ecm_savetable 3 = { sector := 3, filepos := 6158 } ∧
      Populated (r3.session.ecm_savetable 2) ∧ Populated (r3.session.ecm_savetable 3) ∧
      (r3.session.ecm_savetable 3).filepos < (r3.session.ecm_savetable 2).filepos := by
  obtain ⟨hlen, hh4, hh2056, hh4409⟩ := crossStream_layout
  have hreach : Reachable crossStream detectedState :=
    Reachable.detected initialState nameEcm false [] _ rfl
      (handleecm_example crossStream [] (ecmStream_magic _ _ _)) rfl
  have hs := detectedState_session
  have hfresh : IsFresh detectedState.session := by rw [hs]; exact isFresh_freshSession
  obtain ⟨r1, c1, ret1, t1, l1⟩ := cross_read_a detectedState.luts crossStream
    (List.replicate 2352 0) detectedState.session hlen hh4 hfresh
  have t1_0 : r1.session.ecm_savetable 0 = { sector := 0, filepos := 4 } := by
    rw [t1]
    show detectedState.session.ecm_savetable 0 = _
    exact hfresh.1
  have t1_1 : r1.session.ecm_savetable 1 = { sector := 0, filepos := 0 } := by
    rw [t1]
    show detectedState.session.ecm_savetable 1 = _
    exact hfresh.2.1 1 (by decide)
  have t1_2 : r1.session.ecm_savetable 2 = { sector := 0, filepos := 0 } := by
    rw [t1]
    show detectedState.session.ecm_savetable 2 = _
    exact hfresh.2.1 2 (by decide)
  have t1_3 : r1.session.ecm_savetable 3 = { sector := 3, filepos := 6158 } := by
    rw [t1]
    rfl
  obtain ⟨r2, c2, ret2, t2, l2⟩ := cross_read_b detectedState.luts crossStream
    (List.replicate 2352 0) r1.session hlen hh4 t1_0 t1_1
  have t2_1 : r2.session.ecm_savetable 1 = { sector := 1, filepos := 2056 } := by
    rw [t2]
    rfl
  have t2_2 : r2.session.ecm_savetable 2 = { sector := 0, filepos := 0 } := by
    rw [t2]
    show r1.session.ecm_savetable 2 = _
    exact t1_2
  have t2_3 : r2.session.ecm_savetable 3 = { sector := 3, filepos := 6158 } := by
    rw [t2]
    show r1.session.ecm_savetable 3 = _
    exact t1_3
  have l2' : 1 ≤ r2.session.len_ecm_savetable := by
    rw [l2, l1, hs]
    decide
  obtain ⟨r3, c3, ret3, t3⟩ := cross_read_c detectedState.luts crossStream
    (List.replicate 2352 0) r2.session hlen hh2056 hh4409 t2_1 t2_2 l2'
  have t3_1 : r3.session.ecm_savetable 1 = { sector := 1, filepos := 2056 } := by
    rw [t3]
    show r2.session.ecm_savetable 1 = _
    exact t2_1
  have t3_2 : r3.session.ecm_savetable 2 = { sector := 2, filepos := 6461 } := by
    rw [t3]
    rfl
  have t3_3 : r3.session.ecm_savetable 3 = { sector := 3, filepos := 6158 } := by
    rw [t3]
    show r2.session.ecm_savetable 3 = _
    exact t2_3
  have hreach3 := reachable_decode3 crossStream detectedState (List.replicate 2352 0) 2 0 1
    r1 r2 r3 hreach c1 c2 c3
  refine ⟨crossChunk_wellFormed, hreach, r1, r2, r3, c1, ret1, c2, ret2, c3, ret3, hreach3,
    t3_1, t3_2, t3_3, ?_, ?_, ?_⟩
  · rw [t3_2]
    show (6461 : Int) ≥ 4
    decide
  · rw [t3_3]
    show (6158 : Int) ≥ 4
    decide
  · rw [t3_2, t3_3]
    show (6158 : Int) < 6461
    decide

/-! ### Reads on a stream of type 2 units -/

theorem form1Chunk_wellFormed (v : Nat) : (form1Chunk v).WellFormed := by
  refine ⟨by show 2 < 4; decide, by show 1 ≤ 1; decide, by show 1 ≤ 2 ^ 32 - 1; decide, ?_⟩
  show (List.replicate 0x804 v).length = 1 * stored_unit 2
  rw [List.length_replicate]
  rfl

/-- The length of `form1Stream`, its four chunk headers at the offsets 4,
2057, 4110 and 6163, and the stored bytes of its third and fourth unit. -/
theorem form1Stream_layout :
    form1Stream.length = 8221 ∧
    read_header (form1Stream.drop 4) = Except.ok (2, 0, 1) ∧
    read_header (form1Stream.drop 2057) = Except.ok (2, 0, 1) ∧
    read_header (form1Stream.drop 4110) = Except.ok (2, 0, 1) ∧
    read_header (form1Stream.drop 6163) = Except.ok (2, 0, 1) ∧
    (form1Stream.drop 4111).take 0x804 = List.replicate 0x804 3 ∧
    (form1Stream.drop 6164).take 0x804 = List.replicate 0x804 4 := by
  have hd := ecmStream_drop [form1Chunk 1, form1Chunk 2, form1Chunk 3, form1Chunk 4] 0 []
  have hl1 : ∀ v, (encode_header (form1Chunk v).type (form1Chunk v).count).length = 1 :=
    fun _ => rfl
  have hpl : ∀ v, (form1Chunk v).payload.length = 2052 := fun v => List.length_replicate _ _
  obtain ⟨a1, _, _, _, a3, _⟩ := chunk_layout form1Stream 4 (form1Chunk 1) _ _
    (form1Chunk_wellFormed 1) hd
  rw [hl1, hpl] at a3
  obtain ⟨b1, _, _, _, b3, _⟩ := chunk_layout form1Stream _ (form1Chunk 2) _ _
    (form1Chunk_wellFormed 2) a3
  rw [hl1, hpl] at b3
  obtain ⟨c1, _, _, c2, c3, _⟩ := chunk_layout form1Stream _ (form1Chunk 3) _ _
    (form1Chunk_wellFormed 3) b3
  rw [hl1] at c2
  rw [hl1, hpl] at c3
  obtain ⟨d1, _, _, d2, d3, d4⟩ := chunk_layout form1Stream _ (form1Chunk 4) _ _
    (form1Chunk_wellFormed 4) c3
  rw [hl1] at d2
  rw [hl1, hpl] at d3 d4
  have hlen : form1Stream.length = 8221 := by
    have h1 : (form1Stream.drop (4 + 1 + 2052 + 1 + 2052 + 1 + 2052 + 1 + 2052)).length = 5 := by
      rw [d3]
      rfl
    rw [List.length_drop] at h1
    omega
  have e3 : (form1Stream.drop 4111).take 0x804 = List.replicate 0x804 3 := by
    have h : form1Stream.drop 4111 = List.replicate 0x804 3 ++ _ := c2
    rw [h]
    exact List.take_left' (List.length_replicate _ _)
  have e4 : (form1Stream.drop 6164).take 0x804 = List.replicate 0x804 4 := by
    have h : form1Stream.drop 6164 = List.replicate 0x804 4 ++ _ := d2
    rw [h]
    exact List.take_left' (List.length_replicate _ _)
  exact ⟨hlen, a1, b1, c1, d1, e3, e4⟩

/-- Byte `0x018` of a reconstructed type 2 sector is the fifth stored byte. -/
theorem rd_form1 (t : Luts) (buf bytes : List Nat) (hb : buf.length = 2352)
    (hl : bytes.length = 0x804) :
    rd (reconstruct_sector t (store buf 0x014 bytes) 2) 0x18 = rd bytes 4 := by
  have hs : (store buf 0x014 bytes).length = 2352 := by
    rw [length_store _ _ _ (by omega), hb]
  rw [rd_reconstruct_two t _ hs 0x18 (by decide),
    rd_mode23 _ hs 2 (Or.inl rfl) 0x18 (by decide)]
  have e1 : ¬ ((0x18 : Nat) = 0xF) := by decide
  have e2 : ¬ (0x10 ≤ (0x18 : Nat) ∧ (0x18 : Nat) ≤ 0x13) := by decide
  rw [if_neg e1, if_neg e2, rd_store _ _ _ (by omega), if_pos (by omega)]

/-- The first read of sector 1 of `form1Stream`, in a fresh session: it starts
from entry 0, decodes three units, records the entries 1 and 2 at the ends of
the second and third chunk, and delivers the third unit. -/
theorem form1_read_a (t : Luts) (f stack : List Nat) (s : Session)
    (hstack : stack.length = 2352) (hlen : f.length = 8221)
    (hh1 : read_header (f.drop 4) = Except.ok (2, 0, 1))
    (hh2 : read_header (f.drop 2057) = Except.ok (2, 0, 1))
    (hh3 : read_header (f.drop 4110) = Except.ok (2, 0, 1))
    (hp3 : (f.drop 4111).take 0x804 = List.replicate 0x804 3) (hfresh : IsFresh s) :
    ∃ r d, cdread_ecm_decode t s f stack 1 = some r ∧ r.ret = 2352 ∧ r.dest = some d ∧
      rd d 0x18 = 3 ∧
      r.session.ecm_savetable
        = setEntry (setEntry s.ecm_savetable 1 { sector := 1, filepos := 4110 }) 2
            { sector := 2, filepos := 6163 } ∧
      r.session.len_ecm_savetable = s.len_ecm_savetable := by
  have hpos := select_pos_fresh s 1 hfresh
  obtain ⟨q1, e1, _, n1, w1, p1, c1, ps1, b1⟩ :=
    inner_step_num t f 1 2 0 (Locals.mk 1 false 0 0 5 stack) 1 0 5 0 false rfl rfl rfl rfl rfl
      (by decide) (by decide) (by rw [hlen]; decide)
  have n1' : q1.num = 0 := n1.trans (by decide)
  have w1' : q1.writebytecount = 2336 := w1.trans (by decide)
  have p1' : q1.fpos = 2057 := p1.trans (by decide)
  have c1' : q1.sectorcount = 0 := c1.trans (by decide)
  have ps1' : q1.processsectors = true := ps1.trans (by decide)
  have b1' : q1.sector_buffer.length = 2352 := b1 hstack
  have hrun1 : inner_loop t f 1 2 ((0 + 1) % 2 ^ 32)
      { (Locals.mk 0 false 0 0 4 stack) with fpos := 4 + 1, num := (0 + 1) % 2 ^ 32 }
        = Except.ok q1 := by
    have h := e1
    rw [inner_loop_done t f 1 2 0 q1 n1'] at h
    exact h
  have hstep1 := outer_loop_step t f 1 f.length s (Locals.mk 0 false 0 0 4 stack)
    2 0 1 q1 (by show (1 : Int) ≥ 0; decide) hh1 (by decide) hrun1
  rw [record_zero _ _ _ c1'] at hstep1
  obtain ⟨q2, e2, _, n2, w2, p2, c2, ps2, b2⟩ :=
    inner_step_num t f 1 2 0 { q1 with fpos := q1.fpos + 1, num := (0 + 1) % 2 ^ 32 }
      1 2336 2058 0 true rfl w1' (by show q1.fpos + 1 = 2058; rw [p1']) c1' ps1'
      (by decide) (by decide) (by rw [hlen]; decide)
  have n2' : q2.num = 0 := n2.trans (by decide)
  have w2' : q2.writebytecount = 4672 := w2.trans (by decide)
  have p2' : q2.fpos = 4110 := p2.trans (by decide)
  have c2' : q2.sectorcount = 1 := c2.trans (by decide)
  have ps2' : q2.processsectors = true := ps2.trans (by decide)
  have b2' : q2.sector_buffer.length = 2352 := b2 b1'
  have hrun2 : inner_loop t f 1 2 ((0 + 1) % 2 ^ 32)
      { q1 with fpos := q1.fpos + 1, num := (0 + 1) % 2 ^ 32 } = Except.ok q2 := by
    have h := e2
    rw [inner_loop_done t f 1 2 0 q2 n2'] at h
    exact h
  have hstep2 := outer_loop_step t f 1 8220 { s with ecm_savetable := s.ecm_savetable } q1
    2 0 1 q2 (by rw [c1']; decide) (by rw [p1']; exact hh2) (by decide) hrun2
  have hrec2 : record s.ecm_savetable 2 q2
      = setEntry s.ecm_savetable 1 { sector := 1, filepos := 4110 } := by
    rw [record_new s.ecm_savetable 2 q2 1 (by decide) c2' (by decide)
      (by rw [hfresh.2.1 1 (by decide)]; decide), p2']
    rfl
  obtain ⟨q3, e3, u3, n3, w3, p3, c3, ps3, b3⟩ :=
    inner_step_num t f 1 2 0 { q2 with fpos := q2.fpos + 1, num := (0 + 1) % 2 ^ 32 }
      1 4672 4111 1 true rfl w2' (by show q2.fpos + 1 = 4111; rw [p2']) c2' ps2'
      (by decide) (by decide) (by rw [hlen]; decide)
  have n3' : q3.num = 0 := n3.trans (by decide)
  have p3' : q3.fpos = 6163 := p3.trans (by decide)
  have c3' : q3.sectorcount = 2 := c3.trans (by decide)
  have b3' : q3.sector_buffer.length = 2352 := b3 b2'
  have hbuf := unit_step_two_buffer t f _ q3 u3 rfl
  dsimp only at hbuf
  have hbytes : (f.drop (q2.fpos + 1)).take 2052 = List.replicate 0x804 3 := by
    rw [p2']
    exact hp3
  rw [hbytes] at hbuf
  have hrun3 : inner_loop t f 1 2 ((0 + 1) % 2 ^ 32)
      { q2 with fpos := q2.fpos + 1, num := (0 + 1) % 2 ^ 32 } = Except.ok q3 := by
    have h := e3
    rw [inner_loop_done t f 1 2 0 q3 n3'] at h
    exact h
  have hstep3 := outer_loop_step t f 1 8219
    { s with ecm_savetable := record s.ecm_savetable 2 q2 } q2
    2 0 1 q3 (by rw [c2']) (by rw [p2']; exact hh3) (by decide) hrun3
  have hrec3 : record (record s.ecm_savetable 2 q2) 2 q3
      = setEntry (setEntry s.ecm_savetable 1 { sector := 1, filepos := 4110 }) 2
          { sector := 2, filepos := 6163 } := by
    rw [hrec2, record_new _ 2 q3 2 (by decide) c3' (by decide) (by
      have e : ¬ (2 = 1) := by decide
      simp only [setEntry, e, if_false]
      rw [hfresh.2.1 2 (by decide)]
      decide), p3']
    rfl
  have hexit := outer_loop_exit t f 1 8219
    { s with ecm_savetable := record (record s.ecm_savetable 2 q2) 2 q3 } q3
    (by rw [c3']; decide)
  have hloop : outer_loop t f 1 (f.length + 1) s (Locals.mk 0 false 0 0 4 stack)
      = ({ s with ecm_savetable := record (record s.ecm_savetable 2 q2) 2 q3 },
          Except.ok q3) := by
    rw [hstep1, hlen]
    exact hstep2.trans (hstep3.trans hexit)
  have hcall := cdread_of_outer t s f stack 1 _ q3 (by
    rw [hpos]
    exact hloop)
  refine ⟨_, q3.sector_buffer, hcall, rfl, ?_, ?_, hrec3, rfl⟩
  · show some (q3.sector_buffer.take CD_FRAMESIZE_RAW) = some q3.sector_buffer
    rw [List.take_of_length_le (by rw [b3']; decide)]
  · rw [hbuf, rd_form1 t _ _ b2' (List.length_replicate _ _), rd_replicate]
    rfl

/-- The second read of sector 1 of `form1Stream`: it resumes from entry 1 at
offset 4110, counts from 2352 decoded bytes where the first read had 4672, and
delivers the fourth unit. -/
theorem form1_read_b (t : Luts) (f stack : List Nat) (s : Session)
    (hstack : stack.length = 2352) (hlen : f.length = 8221)
    (hh3 : read_header (f.drop 4110) = Except.ok (2, 0, 1))
    (hh4 : read_header (f.drop 6163) = Except.ok (2, 0, 1))
    (hp4 : (f.drop 6164).take 0x804 = List.replicate 0x804 4)
    (h1 : s.ecm_savetable 1 = { sector := 1, filepos := 4110 })
    (h2 : s.ecm_savetable 2 = { sector := 2, filepos := 6163 })
    (hl : 1 ≤ s.len_ecm_savetable) :
    ∃ r d, cdread_ecm_decode t s f stack 1 = some r ∧ r.ret = 2352 ∧ r.dest = some d ∧
      rd d 0x18 = 4 ∧ r.session.ecm_savetable = s.ecm_savetable := by
  have hsel : select_pos s 1 = 1 :=
    select_pos_hit s 1 (by decide) (by decide) hl (by rw [h1]; decide)
  have hpos : s.ecm_savetable (select_pos s 1) = { sector := 1, filepos := 4110 } := by
    rw [hsel, h1]
  obtain ⟨q1, e1, _, n1, w1, p1, c1, ps1, b1⟩ :=
    inner_step_num t f 1 2 0 (Locals.mk 1 false 1 2352 4111 stack) 1 2352 4111 1 false
      rfl rfl rfl rfl rfl (by decide) (by decide) (by rw [hlen]; decide)
  have n1' : q1.num = 0 := n1.trans (by decide)
  have w1' : q1.writebytecount = 4688 := w1.trans (by decide)
  have p1' : q1.fpos = 6163 := p1.trans (by decide)
  have c1' : q1.sectorcount = 1 := c1.trans (by decide)
  have ps1' : q1.processsectors = true := ps1.trans (by decide)
  have b1' : q1.sector_buffer.length = 2352 := b1 hstack
  have hrun1 : inner_loop t f 1 2 ((0 + 1) % 2 ^ 32)
      { (Locals.mk 0 false 1 2352 4110 stack) with
        fpos := 4110 + 1, num := (0 + 1) % 2 ^ 32 } = Except.ok q1 := by
    have h := e1
    rw [inner_loop_done t f 1 2 0 q1 n1'] at h
    exact h
  have hstep1 := outer_loop_step t f 1 f.length s (Locals.mk 0 false 1 2352 4110 stack)
    2 0 1 q1 (by show (1 : Int) ≥ 1; decide) hh3 (by decide) hrun1
  rw [record_old _ 2 q1 1 c1' (by rw [h1]; decide)] at hstep1
  obtain ⟨q2, e2, u2, n2, w2, p2, c2, ps2, b2⟩ :=
    inner_step_num t f 1 2 0 { q1 with fpos := q1.fpos + 1, num := (0 + 1) % 2 ^ 32 }
      1 4688 6164 1 true rfl w1' (by show q1.fpos + 1 = 6164; rw [p1']) c1' ps1'
      (by decide) (by decide) (by rw [hlen]; decide)
  have n2' : q2.num = 0 := n2.trans (by decide)
  have c2' : q2.sectorcount = 2 := c2.trans (by decide)
  have b2' : q2.sector_buffer.length = 2352 := b2 b1'
  have hbuf := unit_step_two_buffer t f _ q2 u2 rfl
  dsimp only at hbuf
  have hbytes : (f.drop (q1.fpos + 1)).take 2052 = List.replicate 0x804 4 := by
    rw [p1']
    exact hp4
  rw [hbytes] at hbuf
  have hrun2 : inner_loop t f 1 2 ((0 + 1) % 2 ^ 32)
      { q1 with fpos := q1.fpos + 1, num := (0 + 1) % 2 ^ 32 } = Except.ok q2 := by
    have h := e2
    rw [inner_loop_done t f 1 2 0 q2 n2'] at h
    exact h
  have hstep2 := outer_loop_step t f 1 8220 { s with ecm_savetable := s.ecm_savetable } q1
    2 0 1 q2 (by rw [c1']) (by rw [p1']; exact hh4) (by decide) hrun2
  rw [record_old _ 2 q2 2 c2' (by rw [h2]; decide)] at hstep2
  have hexit := outer_loop_exit t f 1 8220
    { s with ecm_savetable := s.ecm_savetable } q2 (by rw [c2']; decide)
  have hloop : outer_loop t f 1 (f.length + 1) s (Locals.mk 0 false 1 2352 4110 stack)
      = ({ s with ecm_savetable := s.ecm_savetable }, Except.ok q2) := by
    rw [hstep1, hlen]
    exact hstep2.trans hexit
  have hcall := cdread_of_outer t s f stack 1 _ q2 (by
    rw [hpos]
    exact hloop)
  refine ⟨_, q2.sector_buffer, hcall, rfl, ?_, ?_, rfl⟩
  · show some (q2.sector_buffer.take CD_FRAMESIZE_RAW) = some q2.sector_buffer
    rw [List.take_of_length_le (by rw [b2']; decide)]
  · rw [hbuf, rd_form1 t _ _ b1' (List.length_replicate _ _), rd_replicate]
    rfl

/-! ### Repeated reads -/

/-- C19 on the code: on `form1Stream` (four well-formed chunks of one type 2
unit each, 9344 decoded bytes, so sector 1 is below the sector count 3), in the
session that `handleecm` leaves, two reads of sector 1 in succession both
return 2352 but deliver different bytes: byte `0x018` is 3 (from the third
unit) the first time and 4 (from the fourth unit) the second time.  The first
read starts from entry 0 and records entry 1 at offset 4110, where 4672 bytes
are decoded; the second read resumes there and counts from 1 * 2352.  The
second read leaves the table as the first left it. -/
theorem repeated_read_differs :
    (∀ c, c ∈ [form1Chunk 1, form1Chunk 2, form1Chunk 3, form1Chunk 4] → c.WellFormed) ∧
    decodedLength [form1Chunk 1, form1Chunk 2, form1Chunk 3, form1Chunk 4] / 2352 = 3 ∧
    Reachable form1Stream detectedState ∧
    ∃ r1 r2 d1 d2,
      cdread_ecm_decode detectedState.luts detectedState.session form1Stream
        (List.replicate 2352 0) 1 = some r1 ∧ r1.ret = 2352 ∧ r1.dest = some d1 ∧
      cdread_ecm_decode detectedState.luts r1.session form1Stream
        (List.replicate 2352 0) 1 = some r2 ∧ r2.ret = 2352 ∧ r2.dest = some d2 ∧
      rd d1 0x18 = 3 ∧ rd d2 0x18 = 4 ∧ d1 ≠ d2 ∧
      r1.session.ecm_savetable 1 = { sector := 1, filepos := 4110 } ∧
      r2.session.ecm_savetable = r1.session.ecm_savetable := by
  obtain ⟨hlen, hh1, hh2, hh3, hh4, hp3, hp4⟩ := form1Stream_layout
  have hreach : Reachable form1Stream detectedState :=
    Reachable.detected initialState nameEcm false [] _ rfl
      (handleecm_example form1Stream [] (ecmStream_magic _ _ _)) rfl
  have hs := detectedState_session
  have hfresh : IsFresh detectedState.session := by rw [hs]; exact isFresh_freshSession
  obtain ⟨r1, d1, c1, ret1, dest1, byte1, t1, l1⟩ := form1_read_a detectedState.luts
    form1Stream (List.replicate 2352 0) detectedState.session (List.length_replicate _ _)
    hlen hh1 hh2 hh3 hp3 hfresh
  have t1_1 : r1.session.ecm_savetable 1 = { sector := 1, filepos := 4110 } := by
    rw [t1]
    rfl
  have t1_2 : r1.session.ecm_savetable 2 = { sector := 2, filepos := 6163 } := by
    rw [t1]
    rfl
  have l1' : 1 ≤ r1.session.len_ecm_savetable := by
    rw [l1, hs]
    decide
  obtain ⟨r2, d2, c2, ret2, dest2, byte2, t2⟩ := form1_read_b detectedState.luts
    form1Stream (List.replicate 2352 0) r1.session (List.length_replicate _ _)
    hlen hh3 hh4 hp4 t1_1 t1_2 l1'
  refine ⟨?_, by decide, hreach, r1, r2, d1, d2, c1, ret1, dest1, c2, ret2, dest2, byte1, byte2,
    ?_, t1_1, t2⟩
  · intro c hc
    simp only [List.mem_cons, List.mem_singleton, List.not_mem_nil, or_false] at hc
    rcases hc with h | h | h | h <;> subst h <;> exact form1Chunk_wellFormed _
  · intro h
    rw [h, byte2] at byte1
    exact absurd byte1 (by decide)

/-- A generic sync-field lemma: the first twelve bytes of a reconstructed
sector do not depend on the type. -/
theorem rd_reconstruct_sync (t : Luts) (s : List Nat) (hlen : s.length = 2352) (type : Int)
    (i : Nat) (hi : i < 12) :
    rd (reconstruct_sector t s type) i = rd (write_sync s) i := by
  have l1 : (write_sync s).length = 2352 := by rw [length_write_sync, hlen]
  by_cases h1 : type = 1
  · subst h1
    rw [rd_reconstruct_one t s hlen i (Or.inl (by omega)), rd_write_mode1 _ l1]
    have a1 : i ≠ 0xF := by omega
    have a2 : ¬ (0x814 ≤ i ∧ i ≤ 0x81B) := by omega
    simp only [a1, a2, if_false]
  · by_cases h2 : type = 2
    · subst h2
      rw [rd_reconstruct_two_below t s hlen i (by omega), rd_put32lsb_ne _ _ _ _ (by omega),
        rd_write_mode23 _ l1 2 (Or.inl rfl)]
      have a1 : i ≠ 0xF := by omega
      have a2 : ¬ (0x10 ≤ i ∧ i ≤ 0x13) := by omega
      simp only [a1, a2, if_false]
    · by_cases h3 : type = 3
      · subst h3
        rw [rd_reconstruct_three t s i (Or.inl (by omega)), rd_write_mode23 _ l1 3 (Or.inr rfl)]
        have a1 : i ≠ 0xF := by omega
        have a2 : ¬ (0x10 ≤ i ∧ i ≤ 0x13) := by omega
        simp only [a1, a2, if_false]
      · have h23 : ¬ (type = 2 ∨ type = 3) := by omega
        simp only [reconstruct_sector, write_ecc, write_edc, write_mode, h1, h2, h3,
          or_self, if_false]

/-- C30: for every 2352-byte buffer, every table content and every type value
(0 and values outside 1..3 included), the sector that `reconstruct_sector`
leaves starts with the twelve sync bytes 00 FF FF FF FF FF FF FF FF FF FF 00
at offsets 0x000..0x00B. -/
theorem reconstruct_sector_sync (t : Luts) (s : List Nat) (type : Int)
    (hlen : s.length = 2352) :
    (reconstruct_sector t s type).take 12
      = [0x00, 0xFF, 0xFF, 0xFF, 0xFF, 0xFF, 0xFF, 0xFF, 0xFF, 0xFF, 0xFF, 0x00] := by
  have hl := reconstruct_sector_length t s type hlen
  apply ext_rd
  · rw [List.length_take, hl]; rfl
  · intro i hi
    rw [List.length_take, hl] at hi
    have hi12 : i < 12 := by omega
    rw [rd_take, if_pos hi12, rd_reconstruct_sync t s hlen type i hi12, rd_write_sync s hlen]
    interval_cases i <;> rfl

theorem reconstruct_sector_sync_witness :
    (reconstruct_sector Luts.zero (List.replicate 2352 7) 0).take 12
      = [0x00, 0xFF, 0xFF, 0xFF, 0xFF, 0xFF, 0xFF, 0xFF, 0xFF, 0xFF, 0xFF, 0x00] :=
  reconstruct_sector_sync Luts.zero (List.replicate 2352 7) 0 (List.length_replicate 2352 7)

theorem eccedc_init_step_f (t : Luts) (i : Nat) :
    (eccedc_init_step t i).ecc_f_lut = t.ecc_f_lut.set i (mul2 i) := rfl

theorem eccedc_init_step_b (t : Luts) (i : Nat) :
    (eccedc_init_step t i).ecc_b_lut = t.ecc_b_lut.set (init_slot i) i := rfl

theorem eccedc_init_step_edc (t : Luts) (i : Nat) :
    (eccedc_init_step t i).edc_lut = t.edc_lut.set i (edc_rounds 8 i) := rfl

theorem eccedc_init_loop_length (n : Nat) : ∀ (i : Nat) (t : Luts),
    (eccedc_init_loop n i t).ecc_f_lut.length = t.ecc_f_lut.length
    ∧ (eccedc_init_loop n i t).ecc_b_lut.length = t.ecc_b_lut.length
    ∧ (eccedc_init_loop n i t).edc_lut.length = t.edc_lut.length := by
  induction n with
  | zero => intro i t; exact ⟨rfl, rfl, rfl⟩
  | succ n ih =>
    intro i t
    obtain ⟨a, b, c⟩ := ih (i + 1) (eccedc_init_step t i)
    rw [eccedc_init_step_f, List.length_set] at a
    rw [eccedc_init_step_b, List.length_set] at b
    rw [eccedc_init_step_edc, List.length_set] at c
    exact ⟨a, b, c⟩

theorem sized_eccedc_init (t : Luts) (h : t.Sized) : (eccedc_init t).Sized := by
  obtain ⟨a, b, c⟩ := eccedc_init_loop_length 256 0 t
  exact ⟨a.trans h.1, b.trans h.2.1, c.trans h.2.2⟩

theorem sized_zero : Luts.zero.Sized :=
  ⟨List.length_replicate _ _, List.length_replicate _ _, List.length_replicate _ _⟩

/-- Forward table after the loop has run over the indices `i .. i + n - 1`. -/
theorem eccedc_init_loop_f (n : Nat) : ∀ (i : Nat) (t : Luts) (k : Nat),
    rd (eccedc_init_loop n i t).ecc_f_lut k
      = if i ≤ k ∧ k < i + n ∧ k < t.ecc_f_lut.length then mul2 k else rd t.ecc_f_lut k := by
  induction n with
  | zero =>
    intro i t k
    have h : ¬ (i ≤ k ∧ k < i + 0 ∧ k < t.ecc_f_lut.length) := by omega
    rw [if_neg h]; rfl
  | succ n ih =>
    intro i t k
    show rd (eccedc_init_loop n (i + 1) (eccedc_init_step t i)).ecc_f_lut k = _
    rw [ih, eccedc_init_step_f, List.length_set, rd_set]
    by_cases h1 : i = k
    · subst h1
      by_cases h2 : i < t.ecc_f_lut.length
      · have a : ¬ (i + 1 ≤ i ∧ i < i + 1 + n ∧ i < t.ecc_f_lut.length) := by omega
        have b : i ≤ i ∧ i < i + (n + 1) ∧ i < t.ecc_f_lut.length := ⟨le_refl _, by omega, h2⟩
        rw [if_neg a, if_pos ⟨rfl, h2⟩, if_pos b]
      · have a : ¬ (i + 1 ≤ i ∧ i < i + 1 + n ∧ i < t.ecc_f_lut.length) := by omega
        have b : ¬ (i ≤ i ∧ i < i + (n + 1) ∧ i < t.ecc_f_lut.length) := by omega
        have c : ¬ (i = i ∧ i < t.ecc_f_lut.length) := by omega
        rw [if_neg a, if_neg c, if_neg b]
    · have c : ¬ (i = k ∧ i < t.ecc_f_lut.length) := fun h => h1 h.1
      rw [if_neg c]
      by_cases h3 : i + 1 ≤ k ∧ k < i + 1 + n ∧ k < t.ecc_f_lut.length
      · rw [if_pos h3, if_pos ⟨by omega, by omega, h3.2.2⟩]
      · have b : ¬ (i ≤ k ∧ k < i + (n + 1) ∧ k < t.ecc_f_lut.length) := by omega
        rw [if_neg h3, if_neg b]

/-- EDC table after the loop has run over the indices `i .. i + n - 1`. -/
theorem eccedc_init_loop_edc (n : Nat) : ∀ (i : Nat) (t : Luts) (k : Nat),
    rd (eccedc_init_loop n i t).edc_lut k
      = if i ≤ k ∧ k < i + n ∧ k < t.edc_lut.length then edc_rounds 8 k else rd t.edc_lut k := by
  induction n with
  | zero =>
    intro i t k
    have h : ¬ (i ≤ k ∧ k < i + 0 ∧ k < t.edc_lut.length) := by omega
    rw [if_neg h]; rfl
  | succ n ih =>
    intro i t k
    show rd (eccedc_init_loop n (i + 1) (eccedc_init_step t i)).edc_lut k = _
    rw [ih, eccedc_init_step_edc, List.length_set, rd_set]
    by_cases h1 : i = k
    · subst h1
      by_cases h2 : i < t.edc_lut.length
      · have a : ¬ (i + 1 ≤ i ∧ i < i + 1 + n ∧ i < t.edc_lut.length) := by omega
        have b : i ≤ i ∧ i < i + (n + 1) ∧ i < t.edc_lut.length := ⟨le_refl _, by omega, h2⟩
        rw [if_neg a, if_pos ⟨rfl, h2⟩, if_pos b]
      · have a : ¬ (i + 1 ≤ i ∧ i < i + 1 + n ∧ i < t.edc_lut.length) := by omega
        have b : ¬ (i ≤ i ∧ i < i + (n + 1) ∧ i < t.edc_lut.length) := by omega
        have c : ¬ (i = i ∧ i < t.edc_lut.length) := by omega
        rw [if_neg a, if_neg c, if_neg b]
    · have c : ¬ (i = k ∧ i < t.edc_lut.length) := fun h => h1 h.1
      rw [if_neg c]
      by_cases h3 : i + 1 ≤ k ∧ k < i + 1 + n ∧ k < t.edc_lut.length
      · rw [if_pos h3, if_pos ⟨by omega, by omega, h3.2.2⟩]
      · have b : ¬ (i ≤ k ∧ k < i + (n + 1) ∧ k < t.edc_lut.length) := by omega
        rw [if_neg h3, if_neg b]

/-- A slot of the back table that none of the indices `i .. i + n - 1` maps to
keeps its value. -/
theorem eccedc_init_loop_b_keep (n : Nat) : ∀ (i : Nat) (t : Luts) (k : Nat),
    (∀ x, i ≤ x → x < i + n → init_slot x ≠ k) →
    rd (eccedc_init_loop n i t).ecc_b_lut k = rd t.ecc_b_lut k := by
  induction n with
  | zero => intro i t k _; rfl
  | succ n ih =>
    intro i t k h
    show rd (eccedc_init_loop n (i + 1) (eccedc_init_step t i)).ecc_b_lut k = _
    rw [ih (i + 1) _ k (fun x h1 h2 => h x (by omega) (by omega)), eccedc_init_step_b,
      rd_set_ne _ _ _ _ (h i (le_refl _) (by omega))]

/-- The back table holds `x` at the slot of `x` when no later index of the
loop maps to the same slot. -/
theorem eccedc_init_loop_b (n : Nat) : ∀ (i : Nat) (t : Luts) (x : Nat),
    i ≤ x → x < i + n → init_slot x < t.ecc_b_lut.length →
    (∀ y, x < y → y < i + n → init_slot y ≠ init_slot x) →
    rd (eccedc_init_loop n i t).ecc_b_lut (init_slot x) = x := by
  induction n with
  | zero => intro i t x h1 h2; omega
  | succ n ih =>
    intro i t x h1 h2 h3 h4
    show rd (eccedc_init_loop n (i + 1) (eccedc_init_step t i)).ecc_b_lut (init_slot x) = _
    by_cases hx : x = i
    · subst hx
      rw [eccedc_init_loop_b_keep n (x + 1) _ _ (fun y a b => h4 y (by omega) (by omega)),
        eccedc_init_step_b, rd_set, if_pos ⟨rfl, h3⟩]
    · exact ih (i + 1) _ x (by omega) (by omega)
        (by rw [eccedc_init_step_b, List.length_set]; exact h3)
        (fun y a b => h4 y a (by omega))

set_option maxRecDepth 100000 in
/-- On bytes, `div3` undoes `init_slot` and stays a byte: the index map
`i ↦ i ^ j` of the back table is a bijection of 0..255. -/
theorem init_slot_div3 : ∀ i, i < 256 →
    init_slot i < 256 ∧ div3 (init_slot i) = i ∧ div3 i < 256 ∧ init_slot (div3 i) = i
    ∧ init_j i < 256 := by
  decide

theorem luts_ext (a b : Luts) (h1 : a.ecc_f_lut = b.ecc_f_lut) (h2 : a.ecc_b_lut = b.ecc_b_lut)
    (h3 : a.edc_lut = b.edc_lut) : a = b := by
  cases a; cases b; simp_all

theorem edc_rounds_iterate (n : Nat) : ∀ e, edc_rounds n e = edc_round^[n] e := by
  induction n with
  | zero => intro e; rfl
  | succ n ih =>
    intro e
    rw [Function.iterate_succ_apply, ← ih]
    show edc_rounds n ((e >>> 1) ^^^ (if e &&& 1 ≠ 0 then 0xD8018001 else 0)) = _
    unfold edc_round
    rw [Nat.and_one_is_mod]
    have h : (e % 2 ≠ 0) ↔ (e % 2 = 1) := by omega
    simp only [h]

theorem rd_init_f (t : Luts) (h : t.Sized) (i : Nat) (hi : i < 256) :
    rd (eccedc_init t).ecc_f_lut i = mul2 i := by
  unfold eccedc_init
  rw [eccedc_init_loop_f, if_pos ⟨Nat.zero_le _, by omega, by rw [h.1]; exact hi⟩]

theorem rd_init_edc (t : Luts) (h : t.Sized) (i : Nat) (hi : i < 256) :
    rd (eccedc_init t).edc_lut i = edc_rounds 8 i := by
  unfold eccedc_init
  rw [eccedc_init_loop_edc, if_pos ⟨Nat.zero_le _, by omega, by rw [h.2.2]; exact hi⟩]

theorem init_slot_inj (x y : Nat) (hx : x < 256) (hy : y < 256)
    (h : init_slot y = init_slot x) : y = x := by
  rw [← (init_slot_div3 y hy).2.1, h, (init_slot_div3 x hx).2.1]

theorem rd_init_b (t : Luts) (h : t.Sized) (i : Nat) (hi : i < 256) :
    rd (eccedc_init t).ecc_b_lut (init_slot i) = i := by
  unfold eccedc_init
  apply eccedc_init_loop_b 256 0 t i (Nat.zero_le _) (by omega)
  · rw [h.2.1]; exact (init_slot_div3 i hi).1
  · intro y h1 h2 h3
    have := init_slot_inj i y hi (by omega) h3
    omega

theorem rd_init_b_div3 (t : Luts) (h : t.Sized) (k : Nat) (hk : k < 256) :
    rd (eccedc_init t).ecc_b_lut k = div3 k := by
  obtain ⟨_, _, h3, h4, _⟩ := init_slot_div3 k hk
  have := rd_init_b t h (div3 k) h3
  rw [h4] at this
  exact this

/-- The tables that `eccedc_init` leaves do not depend on what the arrays
held before. -/
theorem eccedc_init_eq (t u : Luts) (ht : t.Sized) (hu : u.Sized) :
    eccedc_init t = eccedc_init u := by
  have st := sized_eccedc_init t ht
  have su := sized_eccedc_init u hu
  apply luts_ext
  · apply ext_rd (st.1.trans su.1.symm)
    intro i hi
    rw [st.1] at hi
    rw [rd_init_f t ht i hi, rd_init_f u hu i hi]
  · apply ext_rd (st.2.1.trans su.2.1.symm)
    intro i hi
    rw [st.2.1] at hi
    rw [rd_init_b_div3 t ht i hi, rd_init_b_div3 u hu i hi]
  · apply ext_rd (st.2.2.trans su.2.2.symm)
    intro i hi
    rw [st.2.2] at hi
    rw [rd_init_edc t ht i hi, rd_init_edc u hu i hi]

set_option maxRecDepth 100000 in
theorem mul2_formula : ∀ i, i < 256 →
    mul2 i = ((2 * i) % 256) ^^^ (if 128 ≤ i then 0x1D else 0) := by
  decide

/-- C26: after `eccedc_init`, whatever the three 256-entry arrays held
before, for every `i` in 0..255 the forward table holds
`((2*i) mod 256) xor (0x1D if i >= 128 else 0)`, the EDC table holds the value
obtained from `i` by eight rounds of `e -> (e >> 1) xor (0xD8018001 if e is
odd else 0)`, and a second run of `eccedc_init` leaves all three tables as
they are. -/
theorem eccedc_init_tables (t : Luts) (ht : t.Sized) :
    (∀ i, i < 256 →
      rd (eccedc_init t).ecc_f_lut i = ((2 * i) % 256) ^^^ (if 128 ≤ i then 0x1D else 0))
    ∧ (∀ i, i < 256 →
      rd (eccedc_init t).edc_lut i
        = (fun e => (e >>> 1) ^^^ (if e % 2 = 1 then 0xD8018001 else 0))^[8] i)
    ∧ eccedc_init (eccedc_init t) = eccedc_init t := by
  refine ⟨fun i hi => ?_, fun i hi => ?_, eccedc_init_eq _ _ (sized_eccedc_init t ht) ht⟩
  · rw [rd_init_f t ht i hi, mul2_formula i hi]
  · rw [rd_init_edc t ht i hi, edc_rounds_iterate]
    rfl

theorem eccedc_init_tables_witness :
    (∀ i, i < 256 →
      rd (eccedc_init Luts.zero).ecc_f_lut i
        = ((2 * i) % 256) ^^^ (if 128 ≤ i then 0x1D else 0))
    ∧ (∀ i, i < 256 →
      rd (eccedc_init Luts.zero).edc_lut i
        = (fun e => (e >>> 1) ^^^ (if e % 2 = 1 then 0xD8018001 else 0))^[8] i)
    ∧ eccedc_init (eccedc_init Luts.zero) = eccedc_init Luts.zero :=
  eccedc_init_tables Luts.zero sized_zero

/-- C27 (as the code has it): after `eccedc_init`, for every byte `i`, the
back table holds `i` at index `i xor ecc_f_lut[i]`: it inverts the map
`i -> i xor ecc_f_lut[i]` (multiplication by 3), not the forward table. -/
theorem ecc_b_lut_inverts_slot (t : Luts) (ht : t.Sized) (i : Nat) (hi : i < 256) :
    rd (eccedc_init t).ecc_b_lut (i ^^^ rd (eccedc_init t).ecc_f_lut i) = i := by
  have h := rd_init_b t ht i hi
  rw [rd_init_f t ht i hi]
  unfold init_slot at h
  unfold mul2
  rw [Nat.mod_eq_of_lt (init_slot_div3 i hi).2.2.2.2]
  exact h

theorem ecc_b_lut_inverts_slot_witness :
    rd (eccedc_init Luts.zero).ecc_b_lut (1 ^^^ rd (eccedc_init Luts.zero).ecc_f_lut 1) = 1 :=
  ecc_b_lut_inverts_slot Luts.zero sized_zero 1 (by decide)

/-- C27, the sentence as written fails at `i = 1`: the forward table gives
`ecc_f_lut[1] = 2` and the back table holds 245 at index 2, not 1. -/
theorem ecc_b_lut_inverts_slot_counterexample :
    rd (eccedc_init Luts.zero).ecc_f_lut 1 = 2
    ∧ rd (eccedc_init Luts.zero).ecc_b_lut (rd (eccedc_init Luts.zero).ecc_f_lut 1) = 245
    ∧ rd (eccedc_init Luts.zero).ecc_b_lut (rd (eccedc_init Luts.zero).ecc_f_lut 1) ≠ 1 := by
  have hf : rd (eccedc_init Luts.zero).ecc_f_lut 1 = 2 := by
    rw [rd_init_f _ sized_zero 1 (by decide)]; decide
  have hb : rd (eccedc_init Luts.zero).ecc_b_lut 2 = 245 := by
    rw [rd_init_b_div3 _ sized_zero 2 (by decide)]; decide
  rw [hf, hb]
  exact ⟨rfl, rfl, by decide⟩

/-- C38: after `eccedc_init`, for every byte `i`, `ecc_b_lut[i xor
ecc_f_lut[i]] = i`; the map `i -> i xor ecc_f_lut[i]` sends 0..255 into
0..255, is injective and reaches every byte, so every entry of the back table
is assigned by exactly one `i`; and `ecc_b_lut[0] = 0`. -/
theorem ecc_b_lut_bijection (t : Luts) (ht : t.Sized) :
    (∀ i, i < 256 → rd (eccedc_init t).ecc_b_lut (i ^^^ rd (eccedc_init t).ecc_f_lut i) = i)
    ∧ (∀ i, i < 256 → i ^^^ rd (eccedc_init t).ecc_f_lut i < 256)
    ∧ (∀ k, k < 256 → ∃ i, i < 256 ∧ i ^^^ rd (eccedc_init t).ecc_f_lut i = k
        ∧ ∀ x, x < 256 → x ^^^ rd (eccedc_init t).ecc_f_lut x = k → x = i)
    ∧ rd (eccedc_init t).ecc_b_lut 0 = 0 := by
  have hs : ∀ i, i < 256 → i ^^^ rd (eccedc_init t).ecc_f_lut i = init_slot i := by
    intro i hi
    rw [rd_init_f t ht i hi]
    unfold init_slot mul2
    rw [Nat.mod_eq_of_lt (init_slot_div3 i hi).2.2.2.2]
  refine ⟨fun i hi => ?_, fun i hi => ?_, fun k hk => ?_, ?_⟩
  · rw [hs i hi]; exact rd_init_b t ht i hi
  · rw [hs i hi]; exact (init_slot_div3 i hi).1
  · obtain ⟨_, _, h3, h4, _⟩ := init_slot_div3 k hk
    refine ⟨div3 k, h3, by rw [hs _ h3]; exact h4, fun x hx hxk => ?_⟩
    rw [hs x hx] at hxk
    rw [← hxk]
    exact ((init_slot_div3 x hx).2.1).symm
  · rw [rd_init_b_div3 t ht 0 (by decide)]; decide

theorem ecc_b_lut_bijection_witness :
    (∀ i, i < 256 →
      rd (eccedc_init Luts.zero).ecc_b_lut (i ^^^ rd (eccedc_init Luts.zero).ecc_f_lut i) = i)
    ∧ (∀ i, i < 256 → i ^^^ rd (eccedc_init Luts.zero).ecc_f_lut i < 256)
    ∧ (∀ k, k < 256 → ∃ i, i < 256 ∧ i ^^^ rd (eccedc_init Luts.zero).ecc_f_lut i = k
        ∧ ∀ x, x < 256 → x ^^^ rd (eccedc_init Luts.zero).ecc_f_lut x = k → x = i)
    ∧ rd (eccedc_init Luts.zero).ecc_b_lut 0 = 0 :=
  ecc_b_lut_bijection Luts.zero sized_zero

theorem and_80_testBit (z : Nat) : (z &&& 0x80 ≠ 0) ↔ z.testBit 7 = true := by
  rw [show (0x80 : Nat) = 2 ^ 7 from rfl, Nat.and_two_pow]
  cases z.testBit 7 <;> simp

theorem mul2_testBit (x i : Nat) :
    (mul2 x).testBit i
      = (decide (i < 8) && ((decide (i ≥ 1) && x.testBit (i - 1))
          ^^ (x.testBit 7 && (0x11D : Nat).testBit i))) := by
  unfold mul2 init_j
  rw [show (256 : Nat) = 2 ^ 8 from rfl, Nat.testBit_mod_two_pow, Nat.testBit_xor,
    Nat.testBit_shiftLeft]
  by_cases h : x.testBit 7 = true
  · rw [if_pos ((and_80_testBit x).2 h), h]; simp
  · rw [if_neg (fun hc => h ((and_80_testBit x).1 hc))]
    simp only [Bool.not_eq_true] at h
    rw [h]; simp

theorem mul2_xor (x y : Nat) : mul2 (x ^^^ y) = mul2 x ^^^ mul2 y := by
  apply Nat.eq_of_testBit_eq
  intro i
  rw [Nat.testBit_xor, mul2_testBit, mul2_testBit, mul2_testBit, Nat.testBit_xor,
    Nat.testBit_xor]
  cases decide (i < 8) <;> cases decide (i ≥ 1) <;> cases x.testBit (i - 1) <;>
    cases y.testBit (i - 1) <;> cases x.testBit 7 <;> cases y.testBit 7 <;>
    cases (0x11D : Nat).testBit i <;> rfl

theorem ecc_minor_loop_inputs (t : Luts) (sector : List Nat) (address : AddrPtr)
    (data size minor_inc : Nat) : ∀ (n index ecc_a ecc_b : Nat),
    ecc_minor_loop t sector address data size minor_inc n index ecc_a ecc_b
      = (((ecc_indices size minor_inc n index).map (ecc_temp sector address data)).foldl
            (fun a x => rd t.ecc_f_lut (a ^^^ x)) ecc_a,
         ((ecc_indices size minor_inc n index).map (ecc_temp sector address data)).foldl
            (fun b x => b ^^^ x) ecc_b) := by
  intro n
  induction n with
  | zero => intro index a b; rfl
  | succ n ih =>
    intro index a b
    show ecc_minor_loop t sector address data size minor_inc n (ecc_next size minor_inc index)
        (rd t.ecc_f_lut (a ^^^ ecc_temp sector address data index))
        (b ^^^ ecc_temp sector address data index) = _
    rw [ih]
    rfl

theorem ecc_pair_inputs (t : Luts) (sector : List Nat) (address : AddrPtr)
    (data mc nc mm mi major : Nat) :
    ecc_pair t sector address data mc nc mm mi major
      = (rd t.ecc_b_lut
          (rd t.ecc_f_lut ((ecc_inputs sector address data mc nc mm mi major).foldl
              (fun a x => rd t.ecc_f_lut (a ^^^ x)) 0)
            ^^^ xorAll (ecc_inputs sector address data mc nc mm mi major)),
         rd t.ecc_b_lut
          (rd t.ecc_f_lut ((ecc_inputs sector address data mc nc mm mi major).foldl
              (fun a x => rd t.ecc_f_lut (a ^^^ x)) 0)
            ^^^ xorAll (ecc_inputs sector address data mc nc mm mi major))
          ^^^ xorAll (ecc_inputs sector address data mc nc mm mi major)) := by
  unfold ecc_pair
  dsimp only
  rw [ecc_minor_loop_inputs]
  rfl

theorem xor_check (x a : Nat) : x ^^^ a ^^^ (a ^^^ x) = 0 := by
  rw [Nat.xor_comm a x, Nat.xor_self]

/-- First check on one pair: the two output bytes and the visited inputs
cancel under exclusive or, whatever the tables hold. -/
theorem ecc_pair_check1 (t : Luts) (sector : List Nat) (address : AddrPtr)
    (data mc nc mm mi major : Nat) :
    xorAll (ecc_inputs sector address data mc nc mm mi major)
      ^^^ (ecc_pair t sector address data mc nc mm mi major).1
      ^^^ (ecc_pair t sector address data mc nc mm mi major).2 = 0 := by
  rw [ecc_pair_inputs]
  exact xor_check _ _

/-- C24: in the sector that `ecc_writesector` leaves (data region at 0x010,
parity at 0x81C, the four address bytes inside the sector or the zero
address), for the P configuration (86, 24, 2, 86) and the Q configuration
(52, 43, 86, 88) and every major index `m`, the exclusive or of the
`minor_count` input bytes visited for `m` and of the two output bytes
`ecc[m]` and `ecc[m + major_count]` is 0. -/
theorem ecc_first_check (t : Luts) (address : AddrPtr)
    (haddr : ∀ off, address = AddrPtr.inSector off → off + 4 ≤ 0x81C) (s : List Nat)
    (hlen : s.length = 2352) :
    (∀ m, m < 86 →
      xorAll (ecc_inputs (ecc_writesector t address 0x10 0x81C s) address 0x10 86 24 2 86 m)
        ^^^ rd (ecc_writesector t address 0x10 0x81C s) (0x81C + m)
        ^^^ rd (ecc_writesector t address 0x10 0x81C s) (0x81C + 86 + m) = 0)
    ∧ (∀ m, m < 52 →
      xorAll (ecc_inputs (ecc_writesector t address 0x10 0x81C s) address 0x10 52 43 86 88 m)
        ^^^ rd (ecc_writesector t address 0x10 0x81C s) (0x8C8 + m)
        ^^^ rd (ecc_writesector t address 0x10 0x81C s) (0x8C8 + 52 + m) = 0) := by
  obtain ⟨hp, hq⟩ := ecc_writesector_parity t address haddr s hlen
  refine ⟨fun m hm => ?_, fun m hm => ?_⟩
  · rw [(hp m hm).1, (hp m hm).2]
    exact ecc_pair_check1 t _ address 0x10 86 24 2 86 m
  · rw [(hq m hm).1, (hq m hm).2]
    exact ecc_pair_check1 t _ address 0x10 52 43 86 88 m

theorem ecc_first_check_witness :
    (∀ m, m < 86 →
      xorAll (ecc_inputs (ecc_writesector Luts.zero AddrPtr.zeros 0x10 0x81C
          (List.replicate 2352 1)) AddrPtr.zeros 0x10 86 24 2 86 m)
        ^^^ rd (ecc_writesector Luts.zero AddrPtr.zeros 0x10 0x81C (List.replicate 2352 1))
          (0x81C + m)
        ^^^ rd (ecc_writesector Luts.zero AddrPtr.zeros 0x10 0x81C (List.replicate 2352 1))
          (0x81C + 86 + m) = 0)
    ∧ (∀ m, m < 52 →
      xorAll (ecc_inputs (ecc_writesector Luts.zero AddrPtr.zeros 0x10 0x81C
          (List.replicate 2352 1)) AddrPtr.zeros 0x10 52 43 86 88 m)
        ^^^ rd (ecc_writesector Luts.zero AddrPtr.zeros 0x10 0x81C (List.replicate 2352 1))
          (0x8C8 + m)
        ^^^ rd (ecc_writesector Luts.zero AddrPtr.zeros 0x10 0x81C (List.replicate 2352 1))
          (0x8C8 + 52 + m) = 0) :=
  ecc_first_check Luts.zero AddrPtr.zeros addr_zeros_below (List.replicate 2352 1)
    (List.length_replicate 2352 1)

theorem mul2_lt (x : Nat) : mul2 x < 256 := Nat.mod_lt _ (by decide)

theorem xor_byte (x y : Nat) (hx : x < 256) (hy : y < 256) : x ^^^ y < 256 :=
  Nat.xor_lt_two_pow (n := 8) hx hy

theorem rd_init_f_all (t : Luts) (h : t.Sized) (x : Nat) :
    rd (eccedc_init t).ecc_f_lut x = if x < 256 then mul2 x else 0 := by
  by_cases hx : x < 256
  · rw [if_pos hx, rd_init_f t h x hx]
  · rw [if_neg hx, rd_of_le _ _ (by rw [(sized_eccedc_init t h).1]; omega)]

theorem rd_init_f_lt (t : Luts) (h : t.Sized) (x : Nat) :
    rd (eccedc_init t).ecc_f_lut x < 256 := by
  rw [rd_init_f_all t h]
  split_ifs
  · exact mul2_lt x
  · decide

theorem rd_init_f_xor (t : Luts) (h : t.Sized) (x y : Nat) (hx : x < 256) (hy : y < 256) :
    rd (eccedc_init t).ecc_f_lut (x ^^^ y)
      = rd (eccedc_init t).ecc_f_lut x ^^^ rd (eccedc_init t).ecc_f_lut y := by
  rw [rd_init_f t h _ (xor_byte x y hx hy), rd_init_f t h x hx, rd_init_f t h y hy, mul2_xor]

theorem rd_init_b_lt (t : Luts) (h : t.Sized) (k : Nat) :
    rd (eccedc_init t).ecc_b_lut k < 256 := by
  by_cases hk : k < 256
  · rw [rd_init_b_div3 t h k hk]; exact (init_slot_div3 k hk).2.2.1
  · rw [rd_of_le _ _ (by rw [(sized_eccedc_init t h).2.1]; omega)]; decide

/-- The back table solves `p xor 2p = k` on bytes. -/
theorem rd_init_b_solves (t : Luts) (h : t.Sized) (k : Nat) (hk : k < 256) :
    rd (eccedc_init t).ecc_b_lut k
      ^^^ rd (eccedc_init t).ecc_f_lut (rd (eccedc_init t).ecc_b_lut k) = k := by
  obtain ⟨_, _, h3, h4, _⟩ := init_slot_div3 k hk
  rw [rd_init_b_div3 t h k hk, rd_init_f t h _ h3]
  unfold init_slot at h4
  unfold mul2
  rw [Nat.mod_eq_of_lt (init_slot_div3 _ h3).2.2.2.2]
  exact h4

theorem iterate_linear (F : Nat → Nat) (hb : ∀ x, F x < 256)
    (hlin : ∀ x y, x < 256 → y < 256 → F (x ^^^ y) = F x ^^^ F y) (k : Nat) :
    ∀ x y, x < 256 → y < 256 →
      F^[k] (x ^^^ y) = F^[k] x ^^^ F^[k] y ∧ F^[k] x < 256 := by
  induction k with
  | zero => intro x y hx hy; exact ⟨rfl, hx⟩
  | succ k ih =>
    intro x y hx hy
    rw [Function.iterate_succ_apply', Function.iterate_succ_apply', Function.iterate_succ_apply',
      (ih x y hx hy).1, hlin _ _ (ih x y hx hy).2 (ih y x hy hx).2]
    exact ⟨rfl, hb _⟩

theorem iterate_zero (F : Nat → Nat) (h0 : F 0 = 0) (k : Nat) : F^[k] 0 = 0 := by
  induction k with
  | zero => rfl
  | succ k ih => rw [Function.iterate_succ_apply', ih, h0]

/-- The accumulator `ecc_a` of the minor loop, doubled once more, is the
weighted sum of the inputs. -/
theorem horner_weighted (F : Nat → Nat) (hb : ∀ x, F x < 256)
    (hlin : ∀ x y, x < 256 → y < 256 → F (x ^^^ y) = F x ^^^ F y) :
    ∀ (ds : List Nat), (∀ d ∈ ds, d < 256) → ∀ a, a < 256 →
      F (ds.foldl (fun a x => F (a ^^^ x)) a) = F^[ds.length + 1] a ^^^ rs_weighted F ds := by
  intro ds
  induction ds with
  | nil =>
    intro _ a _
    show F a = F^[1] a ^^^ 0
    rw [Nat.xor_zero]; rfl
  | cons d ds ih =>
    intro hd a ha
    have hd0 : d < 256 := hd d (List.mem_cons_self _ _)
    show F (ds.foldl (fun a x => F (a ^^^ x)) (F (a ^^^ d))) = _
    rw [ih (fun x hx => hd x (List.mem_cons_of_mem _ hx)) _ (hb _),
      ← Function.iterate_succ_apply, (iterate_linear F hb hlin _ a d ha hd0).1]
    show _ = F^[ds.length + 1 + 1] a ^^^ (F^[ds.length + 2] d ^^^ rs_weighted F ds)
    rw [Nat.xor_assoc]

theorem xorAll_lt : ∀ (ds : List Nat), (∀ d ∈ ds, d < 256) → ∀ b, b < 256 →
    ds.foldl (fun b x => b ^^^ x) b < 256 := by
  intro ds
  induction ds with
  | nil => intro _ b hb; exact hb
  | cons d ds ih =>
    intro hd b hb
    exact ih (fun x hx => hd x (List.mem_cons_of_mem _ hx)) _
      (xor_byte _ _ hb (hd d (List.mem_cons_self _ _)))

theorem ecc_temp_lt (sector : List Nat) (hs : Bytes sector) (address : AddrPtr)
    (data index : Nat) : ecc_temp sector address data index < 256 := by
  unfold ecc_temp
  split_ifs with h
  · cases address with
    | inSector off => exact hs _
    | zeros =>
      show rd zeroaddress index < 256
      interval_cases index <;> decide
  · exact hs _

theorem ecc_inputs_lt (sector : List Nat) (hs : Bytes sector) (address : AddrPtr)
    (data mc nc mm mi major : Nat) :
    ∀ d ∈ ecc_inputs sector address data mc nc mm mi major, d < 256 := by
  intro d hd
  unfold ecc_inputs at hd
  obtain ⟨i, _, rfl⟩ := List.mem_map.1 hd
  exact ecc_temp_lt sector hs address data i

theorem xor_check2 (w f p x : Nat) (h : p ^^^ f = w ^^^ x) : w ^^^ f ^^^ (p ^^^ x) = 0 := by
  apply Nat.eq_of_testBit_eq
  intro i
  have hi := congrArg (fun n => n.testBit i) h
  simp only [Nat.testBit_xor, Nat.zero_testBit] at hi ⊢
  revert hi
  cases w.testBit i <;> cases f.testBit i <;> cases p.testBit i <;> cases x.testBit i <;> simp

/-- Both bytes of a pair are bytes when the buffer holds bytes. -/
theorem ecc_pair_lt (t : Luts) (ht : t.Sized) (sector : List Nat) (hs : Bytes sector)
    (address : AddrPtr) (data mc nc mm mi major : Nat) :
    (ecc_pair (eccedc_init t) sector address data mc nc mm mi major).1 < 256
    ∧ (ecc_pair (eccedc_init t) sector address data mc nc mm mi major).2 < 256 := by
  have hx : xorAll (ecc_inputs sector address data mc nc mm mi major) < 256 :=
    xorAll_lt _ (ecc_inputs_lt sector hs address data mc nc mm mi major) 0 (by decide)
  rw [ecc_pair_inputs]
  dsimp only
  have h1 := rd_init_b_lt t ht
    (rd (eccedc_init t).ecc_f_lut ((ecc_inputs sector address data mc nc mm mi major).foldl
        (fun a x => rd (eccedc_init t).ecc_f_lut (a ^^^ x)) 0)
      ^^^ xorAll (ecc_inputs sector address data mc nc mm mi major))
  exact ⟨h1, xor_byte _ _ h1 hx⟩

/-- Second check on one pair. -/
theorem ecc_pair_check2 (t : Luts) (ht : t.Sized) (sector : List Nat) (hs : Bytes sector)
    (address : AddrPtr) (data mc nc mm mi major : Nat) :
    rs_weighted (fun x => rd (eccedc_init t).ecc_f_lut x)
        (ecc_inputs sector address data mc nc mm mi major)
      ^^^ rd (eccedc_init t).ecc_f_lut
        (ecc_pair (eccedc_init t) sector address data mc nc mm mi major).1
      ^^^ (ecc_pair (eccedc_init t) sector address data mc nc mm mi major).2 = 0 := by
  have hin := ecc_inputs_lt sector hs address data mc nc mm mi major
  have hw := horner_weighted (fun x => rd (eccedc_init t).ecc_f_lut x) (rd_init_f_lt t ht)
    (rd_init_f_xor t ht) _ hin 0 (by decide)
  have h0 : (fun x => rd (eccedc_init t).ecc_f_lut x) 0 = 0 := by
    show rd (eccedc_init t).ecc_f_lut 0 = 0
    rw [rd_init_f t ht 0 (by decide)]; decide
  rw [iterate_zero _ h0, Nat.zero_xor] at hw
  rw [ecc_pair_inputs]
  dsimp only at hw ⊢
  have hx := xorAll_lt _ hin 0 (by decide)
  have hk := rd_init_b_solves t ht _ (xor_byte _ _ (rd_init_f_lt t ht
    ((ecc_inputs sector address data mc nc mm mi major).foldl
      (fun a x => rd (eccedc_init t).ecc_f_lut (a ^^^ x)) 0)) hx)
  rw [hw] at hk ⊢
  exact xor_check2 _ _ _ _ hk

theorem bytes_ecc_writepq {address : AddrPtr} {data mc nc mm mi ecc len : Nat}
    (t : Luts) (ht : t.Sized) (hok : EccOk address data mc nc mm mi ecc len) (s : List Nat)
    (hlen : s.length = len) (hs : Bytes s) :
    Bytes (ecc_writepq (eccedc_init t) address data mc nc mm mi ecc s) := by
  obtain ⟨_, h2, h3⟩ := ecc_writepq_spec (eccedc_init t) hok s hlen
  intro i
  by_cases h : i < ecc ∨ ecc + 2 * mc ≤ i
  · rw [h2 i h]; exact hs i
  · by_cases hm : i < ecc + mc
    · have e : i = ecc + (i - ecc) := by omega
      rw [e, (h3 (i - ecc) (by omega)).1]
      exact (ecc_pair_lt t ht s hs address data mc nc mm mi (i - ecc)).1
    · have e : i = ecc + (i - ecc - mc) + mc := by omega
      rw [e, (h3 (i - ecc - mc) (by omega)).2]
      exact (ecc_pair_lt t ht s hs address data mc nc mm mi (i - ecc - mc)).2

theorem bytes_ecc_writesector (t : Luts) (ht : t.Sized) (address : AddrPtr)
    (haddr : ∀ off, address = AddrPtr.inSector off → off + 4 ≤ 0x81C) (s : List Nat)
    (hlen : s.length = 2352) (hs : Bytes s) :
    Bytes (ecc_writesector (eccedc_init t) address 0x10 0x81C s) := by
  rw [ecc_writesector_eq]
  obtain ⟨l1, _, _⟩ := ecc_writepq_spec (eccedc_init t) (eccOk_P address haddr) s hlen
  exact bytes_ecc_writepq t ht (eccOk_Q address haddr) _ l1
    (bytes_ecc_writepq t ht (eccOk_P address haddr) s hlen hs)

theorem bytes_replicate (n v : Nat) (hv : v < 256) : Bytes (List.replicate n v) := by
  intro i
  rw [rd_replicate]
  split_ifs
  · exact hv
  · decide

/-- C25: with the tables that `eccedc_init` leaves and a buffer of bytes, the
sector that `ecc_writesector` leaves passes the second Reed-Solomon check over
GF(2^8) modulo 0x11D: for the P configuration (86, 24, 2, 86) and the Q
configuration (52, 43, 86, 88) and every major index `m`, with `d_0 ..
d_(n-1)` the `n = minor_count` input bytes visited in order, `p0 = ecc[m]`,
`p1 = ecc[m + major_count]` and `mul2` the forward table,
`mul2^(n+1)(d_0) xor ... xor mul2^2(d_(n-1)) xor mul2(p0) xor p1 = 0`. -/
theorem ecc_second_check (t : Luts) (ht : t.Sized) (address : AddrPtr)
    (haddr : ∀ off, address = AddrPtr.inSector off → off + 4 ≤ 0x81C) (s : List Nat)
    (hlen : s.length = 2352) (hs : Bytes s) :
    (∀ m, m < 86 →
      rs_weighted (fun x => rd (eccedc_init t).ecc_f_lut x)
          (ecc_inputs (ecc_writesector (eccedc_init t) address 0x10 0x81C s) address
            0x10 86 24 2 86 m)
        ^^^ rd (eccedc_init t).ecc_f_lut
          (rd (ecc_writesector (eccedc_init t) address 0x10 0x81C s) (0x81C + m))
        ^^^ rd (ecc_writesector (eccedc_init t) address 0x10 0x81C s) (0x81C + 86 + m) = 0)
    ∧ (∀ m, m < 52 →
      rs_weighted (fun x => rd (eccedc_init t).ecc_f_lut x)
          (ecc_inputs (ecc_writesector (eccedc_init t) address 0x10 0x81C s) address
            0x10 52 43 86 88 m)
        ^^^ rd (eccedc_init t).ecc_f_lut
          (rd (ecc_writesector (eccedc_init t) address 0x10 0x81C s) (0x8C8 + m))
        ^^^ rd (ecc_writesector (eccedc_init t) address 0x10 0x81C s) (0x8C8 + 52 + m) = 0) := by
  obtain ⟨hp, hq⟩ := ecc_writesector_parity (eccedc_init t) address haddr s hlen
  have hb := bytes_ecc_writesector t ht address haddr s hlen hs
  refine ⟨fun m hm => ?_, fun m hm => ?_⟩
  · rw [(hp m hm).1, (hp m hm).2]
    exact ecc_pair_check2 t ht _ hb address 0x10 86 24 2 86 m
  · rw [(hq m hm).1, (hq m hm).2]
    exact ecc_pair_check2 t ht _ hb address 0x10 52 43 86 88 m

theorem ecc_second_check_witness :
    (∀ m, m < 86 →
      rs_weighted (fun x => rd (eccedc_init Luts.zero).ecc_f_lut x)
          (ecc_inputs (ecc_writesector (eccedc_init Luts.zero) AddrPtr.zeros 0x10 0x81C
            (List.replicate 2352 1)) AddrPtr.zeros 0x10 86 24 2 86 m)
        ^^^ rd (eccedc_init Luts.zero).ecc_f_lut
          (rd (ecc_writesector (eccedc_init Luts.zero) AddrPtr.zeros 0x10 0x81C
            (List.replicate 2352 1)) (0x81C + m))
        ^^^ rd (ecc_writesector (eccedc_init Luts.zero) AddrPtr.zeros 0x10 0x81C
            (List.replicate 2352 1)) (0x81C + 86 + m) = 0)
    ∧ (∀ m, m < 52 →
      rs_weighted (fun x => rd (eccedc_init Luts.zero).ecc_f_lut x)
          (ecc_inputs (ecc_writesector (eccedc_init Luts.zero) AddrPtr.zeros 0x10 0x81C
            (List.replicate 2352 1)) AddrPtr.zeros 0x10 52 43 86 88 m)
        ^^^ rd (eccedc_init Luts.zero).ecc_f_lut
          (rd (ecc_writesector (eccedc_init Luts.zero) AddrPtr.zeros 0x10 0x81C
            (List.replicate 2352 1)) (0x8C8 + m))
        ^^^ rd (ecc_writesector (eccedc_init Luts.zero) AddrPtr.zeros 0x10 0x81C
            (List.replicate 2352 1)) (0x8C8 + 52 + m) = 0) :=
  ecc_second_check Luts.zero sized_zero AddrPtr.zeros addr_zeros_below (List.replicate 2352 1)
    (List.length_replicate 2352 1) (bytes_replicate 2352 1 (by decide))

theorem ecc_start_eq (mm m : Nat) : ecc_start mm m = (m / 2) * mm + m % 2 := by
  unfold ecc_start
  rw [Nat.shiftRight_eq_div_pow, Nat.and_one_is_mod]

theorem ecc_next_mod (size mi index : Nat) (hi : index < size) (hm : mi ≤ size) :
    ecc_next size mi index = (index + mi) % size ∧ ecc_next size mi index < size := by
  unfold ecc_next
  dsimp only
  by_cases h : index + mi ≥ size
  · rw [if_pos h]
    have e : (index + mi) % size = index + mi - size := by
      rw [Nat.mod_eq_sub_mod h, Nat.mod_eq_of_lt (by omega)]
    exact ⟨e.symm, by omega⟩
  · rw [if_neg h]
    exact ⟨(Nat.mod_eq_of_lt (by omega)).symm, by omega⟩

theorem ecc_indices_length (size mi : Nat) : ∀ n index,
    (ecc_indices size mi n index).length = n := by
  intro n
  induction n with
  | zero => intro _; rfl
  | succ n ih => intro index; show (ecc_indices size mi n _).length + 1 = n + 1; rw [ih]

theorem ecc_indices_lt (size mi : Nat) (hm : mi ≤ size) : ∀ n index, index < size →
    ∀ i ∈ ecc_indices size mi n index, i < size := by
  intro n
  induction n with
  | zero => intro _ _ i hi; cases hi
  | succ n ih =>
    intro index h i hi
    rcases List.mem_cons.1 hi with rfl | hi
    · exact h
    · exact ih _ (ecc_next_mod size mi index h hm).2 i hi

theorem ecc_temp_sector (s : List Nat) (i : Nat) :
    ecc_temp s (AddrPtr.inSector 0xC) 0x10 i = rd s (0xC + i) := by
  unfold ecc_temp
  split_ifs with h
  · rfl
  · congr 1; omega

theorem ecc_temp_zeros (s : List Nat) (i : Nat) (hi : 4 ≤ i) :
    ecc_temp s AddrPtr.zeros 0x10 i = rd s (0xC + i) := by
  unfold ecc_temp
  rw [if_neg (by omega)]
  congr 1; omega

theorem ecc_indices_lt_P (m : Nat) (hm : m < 86) :
    ∀ i ∈ ecc_indices (86 * 24) 86 24 (ecc_start 2 m), i < 2064 :=
  ecc_indices_lt (86 * 24) 86 (by decide) 24 _ (by rw [ecc_start_eq]; omega)

theorem ecc_indices_lt_Q (m : Nat) (hm : m < 52) :
    ∀ i ∈ ecc_indices (52 * 43) 88 43 (ecc_start 86 m), i < 2236 :=
  ecc_indices_lt (52 * 43) 88 (by decide) 43 _ (by rw [ecc_start_eq]; omega)

/-- C35: the reads of `ecc_writepq` stay inside the sector and below its own
output.  One conditional subtraction keeps the index below `major_count *
minor_count` (2064 for P, 2236 for Q) and every index read is below that
bound; with the address at sector offset 0x00C and the data region at 0x010
the byte read at index `i` is the sector byte at offset `0x00C + i`, so P
reads inside [0x00C, 0x81C) and Q inside [0x00C, 0x8C8) (with the zero address
the first four reads do not touch the sector); the P pass assigns every
offset of [0x81C, 0x8C8) and the Q pass every offset of [0x8C8, 0x930), and
neither changes a byte outside its range. -/
theorem ecc_reads_in_bounds (t : Luts) (address : AddrPtr)
    (haddr : ∀ off, address = AddrPtr.inSector off → off + 4 ≤ 0x81C) (s : List Nat)
    (hlen : s.length = 2352) :
    (∀ index, index < 2064 → ecc_next (86 * 24) 86 index < 2064)
    ∧ (∀ index, index < 2236 → ecc_next (52 * 43) 88 index < 2236)
    ∧ (∀ m, m < 86 → ∀ i ∈ ecc_indices (86 * 24) 86 24 (ecc_start 2 m), i < 2064)
    ∧ (∀ m, m < 52 → ∀ i ∈ ecc_indices (52 * 43) 88 43 (ecc_start 86 m), i < 2236)
    ∧ (∀ i, ecc_temp s (AddrPtr.inSector 0xC) 0x10 i = rd s (0xC + i))
    ∧ (∀ i, 4 ≤ i → ecc_temp s AddrPtr.zeros 0x10 i = rd s (0xC + i))
    ∧ (∀ i, i < 0x81C ∨ 0x8C8 ≤ i →
        rd (ecc_writepq t address 0x10 86 24 2 86 0x81C s) i = rd s i)
    ∧ (∀ m, m < 86 →
        rd (ecc_writepq t address 0x10 86 24 2 86 0x81C s) (0x81C + m)
          = (ecc_pair t s address 0x10 86 24 2 86 m).1
        ∧ rd (ecc_writepq t address 0x10 86 24 2 86 0x81C s) (0x81C + m + 86)
          = (ecc_pair t s address 0x10 86 24 2 86 m).2)
    ∧ (∀ i, i < 0x8C8 ∨ 0x930 ≤ i →
        rd (ecc_writepq t address 0x10 52 43 86 88 0x8C8 s) i = rd s i)
    ∧ (∀ m, m < 52 →
        rd (ecc_writepq t address 0x10 52 43 86 88 0x8C8 s) (0x8C8 + m)
          = (ecc_pair t s address 0x10 52 43 86 88 m).1
        ∧ rd (ecc_writepq t address 0x10 52 43 86 88 0x8C8 s) (0x8C8 + m + 52)
          = (ecc_pair t s address 0x10 52 43 86 88 m).2) := by
  obtain ⟨_, p2, p3⟩ := ecc_writepq_spec t (eccOk_P address haddr) s hlen
  obtain ⟨_, q2, q3⟩ := ecc_writepq_spec t (eccOk_Q address haddr) s hlen
  exact ⟨fun i hi => (ecc_next_mod (86 * 24) 86 i hi (by decide)).2,
    fun i hi => (ecc_next_mod (52 * 43) 88 i hi (by decide)).2,
    ecc_indices_lt_P, ecc_indices_lt_Q, ecc_temp_sector s, ecc_temp_zeros s,
    fun i hi => p2 i (by omega), p3, fun i hi => q2 i (by omega), q3⟩

theorem ecc_reads_in_bounds_witness :
    (∀ index, index < 2064 → ecc_next (86 * 24) 86 index < 2064)
    ∧ (∀ index, index < 2236 → ecc_next (52 * 43) 88 index < 2236)
    ∧ (∀ m, m < 86 → ∀ i ∈ ecc_indices (86 * 24) 86 24 (ecc_start 2 m), i < 2064)
    ∧ (∀ m, m < 52 → ∀ i ∈ ecc_indices (52 * 43) 88 43 (ecc_start 86 m), i < 2236)
    ∧ (∀ i, ecc_temp (List.replicate 2352 1) (AddrPtr.inSector 0xC) 0x10 i
        = rd (List.replicate 2352 1) (0xC + i))
    ∧ (∀ i, 4 ≤ i → ecc_temp (List.replicate 2352 1) AddrPtr.zeros 0x10 i
        = rd (List.replicate 2352 1) (0xC + i))
    ∧ (∀ i, i < 0x81C ∨ 0x8C8 ≤ i →
        rd (ecc_writepq Luts.zero AddrPtr.zeros 0x10 86 24 2 86 0x81C (List.replicate 2352 1)) i
          = rd (List.replicate 2352 1) i)
    ∧ (∀ m, m < 86 →
        rd (ecc_writepq Luts.zero AddrPtr.zeros 0x10 86 24 2 86 0x81C (List.replicate 2352 1))
            (0x81C + m)
          = (ecc_pair Luts.zero (List.replicate 2352 1) AddrPtr.zeros 0x10 86 24 2 86 m).1
        ∧ rd (ecc_writepq Luts.zero AddrPtr.zeros 0x10 86 24 2 86 0x81C (List.replicate 2352 1))
            (0x81C + m + 86)
          = (ecc_pair Luts.zero (List.replicate 2352 1) AddrPtr.zeros 0x10 86 24 2 86 m).2)
    ∧ (∀ i, i < 0x8C8 ∨ 0x930 ≤ i →
        rd (ecc_writepq Luts.zero AddrPtr.zeros 0x10 52 43 86 88 0x8C8 (List.replicate 2352 1)) i
          = rd (List.replicate 2352 1) i)
    ∧ (∀ m, m < 52 →
        rd (ecc_writepq Luts.zero AddrPtr.zeros 0x10 52 43 86 88 0x8C8 (List.replicate 2352 1))
            (0x8C8 + m)
          = (ecc_pair Luts.zero (List.replicate 2352 1) AddrPtr.zeros 0x10 52 43 86 88 m).1
        ∧ rd (ecc_writepq Luts.zero AddrPtr.zeros 0x10 52 43 86 88 0x8C8 (List.replicate 2352 1))
            (0x8C8 + m + 52)
          = (ecc_pair Luts.zero (List.replicate 2352 1) AddrPtr.zeros 0x10 52 43 86 88 m).2) :=
  ecc_reads_in_bounds Luts.zero AddrPtr.zeros addr_zeros_below (List.replicate 2352 1)
    (List.length_replicate 2352 1)

/-- C34: `reconstruct_sector` leaves the stored bytes as they are (type 1:
offsets 0x00C..0x00E and 0x010..0x80F; type 2: 0x014..0x817; type 3:
0x014..0x92B); for types 2 and 3 the address bytes 0x00C..0x00E also stay as
they were in the input buffer; and for a type outside 1..3 every byte from
offset 0x00C on is unchanged. -/
theorem reconstruct_sector_frame (t : Luts) (s : List Nat) (hlen : s.length = 2352) :
    (∀ type i, storedRange type i → rd (reconstruct_sector t s type) i = rd s i)
    ∧ (∀ type : Int, type = 2 ∨ type = 3 → ∀ i, 0x00C ≤ i → i ≤ 0x00E →
        rd (reconstruct_sector t s type) i = rd s i)
    ∧ (∀ type : Int, type ≠ 1 → type ≠ 2 → type ≠ 3 → ∀ i, 0x00C ≤ i →
        rd (reconstruct_sector t s type) i = rd s i) := by
  have l1 : (write_sync s).length = 2352 := by rw [length_write_sync, hlen]
  have h2 : ∀ i, 0xC ≤ i → i < 0x818 → i ≠ 0xF → ¬ (0x10 ≤ i ∧ i ≤ 0x13) →
      rd (reconstruct_sector t s 2) i = rd s i := by
    intro i a b c d
    rw [rd_reconstruct_two_below t s hlen i (by omega), rd_put32lsb_ne _ _ _ _ (by omega),
      rd_mode23 s hlen 2 (Or.inl rfl) i a, if_neg c, if_neg d]
  have h3 : ∀ i, 0xC ≤ i → i < 0x92C → i ≠ 0xF → ¬ (0x10 ≤ i ∧ i ≤ 0x13) →
      rd (reconstruct_sector t s 3) i = rd s i := by
    intro i a b c d
    rw [rd_reconstruct_three t s i (Or.inl b), rd_mode23 s hlen 3 (Or.inr rfl) i a, if_neg c,
      if_neg d]
  refine ⟨?_, ?_, ?_⟩
  · intro type i hi
    unfold storedRange at hi
    by_cases t1 : type = 1
    · subst t1
      rw [if_pos rfl] at hi
      rw [rd_reconstruct_one t s hlen i (by omega), rd_mode1_stored s hlen i (by omega)]
    · rw [if_neg t1] at hi
      by_cases t2 : type = 2
      · subst t2
        rw [if_pos rfl] at hi
        exact h2 i (by omega) (by omega) (by omega) (by omega)
      · rw [if_neg t2] at hi
        by_cases t3 : type = 3
        · subst t3
          rw [if_pos rfl] at hi
          exact h3 i (by omega) (by omega) (by omega) (by omega)
        · rw [if_neg t3] at hi
          exact hi.elim
  · intro type ht i a b
    rcases ht with rfl | rfl
    · exact h2 i a (by omega) (by omega) (by omega)
    · exact h3 i a (by omega) (by omega) (by omega)
  · intro type t1 t2 t3 i hi
    have e : reconstruct_sector t s type = write_sync s := by
      simp only [reconstruct_sector, write_ecc, write_edc, write_mode, t1, t2, t3, or_self,
        if_false]
    rw [e, rd_write_sync s hlen, if_neg (by omega), if_neg (by omega), if_neg (by omega)]

theorem reconstruct_sector_frame_witness :
    (∀ type i, storedRange type i →
      rd (reconstruct_sector Luts.zero (List.replicate 2352 7) type) i
        = rd (List.replicate 2352 7) i)
    ∧ (∀ type : Int, type = 2 ∨ type = 3 → ∀ i, 0x00C ≤ i → i ≤ 0x00E →
        rd (reconstruct_sector Luts.zero (List.replicate 2352 7) type) i
          = rd (List.replicate 2352 7) i)
    ∧ (∀ type : Int, type ≠ 1 → type ≠ 2 → type ≠ 3 → ∀ i, 0x00C ≤ i →
        rd (reconstruct_sector Luts.zero (List.replicate 2352 7) type) i
          = rd (List.replicate 2352 7) i) :=
  reconstruct_sector_frame Luts.zero (List.replicate 2352 7) (List.length_replicate 2352 7)

theorem edc_round_lt (e : Nat) (h : e < 2 ^ 32) :
    (e >>> 1) ^^^ (if e &&& 1 ≠ 0 then 0xD8018001 else 0) < 2 ^ 32 := by
  apply Nat.xor_lt_two_pow
  · rw [Nat.shiftRight_eq_div_pow]
    exact lt_of_le_of_lt (Nat.div_le_self _ _) h
  · split_ifs <;> decide

theorem edc_rounds_lt (n : Nat) : ∀ e, e < 2 ^ 32 → edc_rounds n e < 2 ^ 32 := by
  induction n with
  | zero => intro e h; exact h
  | succ n ih => intro e h; exact ih _ (edc_round_lt e h)

theorem rd_init_edc_lt (t : Luts) (ht : t.Sized) (i : Nat) :
    rd (eccedc_init t).edc_lut i < 2 ^ 32 := by
  by_cases hi : i < 256
  · rw [rd_init_edc t ht i hi]
    exact edc_rounds_lt 8 i (lt_trans hi (by decide))
  · rw [rd_of_le _ _ (by rw [(sized_eccedc_init t ht).2.2]; omega)]; decide

theorem rd_init_edc_zero (t : Luts) (ht : t.Sized) : rd (eccedc_init t).edc_lut 0 = 0 := by
  rw [rd_init_edc t ht 0 (by decide)]; decide

theorem edc_compute_lt (t : Luts) (ht : t.Sized) : ∀ (bs : List Nat) (s : Nat), s < 2 ^ 32 →
    edc_compute (eccedc_init t) s bs < 2 ^ 32 := by
  intro bs
  induction bs with
  | nil => intro s h; exact h
  | cons b bs ih =>
    intro s h
    rw [edc_compute]
    apply ih
    apply Nat.xor_lt_two_pow
    · rw [Nat.shiftRight_eq_div_pow]
      exact lt_of_le_of_lt (Nat.div_le_self _ _) h
    · exact rd_init_edc_lt t ht _

theorem low_byte_cancel (x : Nat) : (x ^^^ (x &&& 0xFF)) &&& 0xFF = 0 := by
  apply Nat.eq_of_testBit_eq
  intro i
  simp only [Nat.testBit_and, Nat.testBit_xor, Nat.zero_testBit]
  cases x.testBit i <;> cases (0xFF : Nat).testBit i <;> rfl

/-- One step of the EDC that is fed the low byte of the running value only
shifts. -/
theorem edc_step_low (t : Luts) (ht : t.Sized) (x : Nat) (rest : List Nat) :
    edc_compute (eccedc_init t) x ((x &&& 0xFF) :: rest)
      = edc_compute (eccedc_init t) (x >>> 8) rest := by
  rw [edc_compute, low_byte_cancel, rd_init_edc_zero t ht, Nat.xor_zero]

theorem edc_residue_bytes (t : Luts) (ht : t.Sized) (e : Nat) (he : e < 2 ^ 32) :
    edc_compute (eccedc_init t) e [e &&& 0xFF, (e >>> 8) &&& 0xFF, (e >>> 16) &&& 0xFF, e >>> 24]
      = 0 := by
  have h24 : e >>> 24 = (e >>> 24) &&& 0xFF := by
    rw [show (0xFF : Nat) = 2 ^ 8 - 1 from rfl, Nat.and_pow_two_sub_one_eq_mod,
      Nat.mod_eq_of_lt]
    rw [Nat.shiftRight_eq_div_pow]
    exact Nat.div_lt_of_lt_mul (lt_of_lt_of_le he (by decide))
  have e16 : e >>> 8 >>> 8 = e >>> 16 := by rw [← Nat.shiftRight_add]
  have e24 : e >>> 16 >>> 8 = e >>> 24 := by rw [← Nat.shiftRight_add]
  have e32 : e >>> 24 >>> 8 = 0 := by
    rw [← Nat.shiftRight_add, Nat.shiftRight_eq_div_pow]
    exact Nat.div_eq_of_lt he
  rw [edc_step_low t ht e]
  rw [edc_step_low t ht (e >>> 8), e16]
  rw [edc_step_low t ht (e >>> 16), e24]
  nth_rewrite 2 [h24]
  rw [edc_step_low t ht (e >>> 24), e32]
  rfl

/-- The layout of a reconstructed Mode 1 sector: mode byte, zero field, EDC
and parity. -/
theorem mode1_layout (t : Luts) (sector : List Nat) (hlen : sector.length = 2352) :
    rd (reconstruct_sector t sector 1) 0x00F = 0x01 ∧
    (∀ i, 0x814 ≤ i → i ≤ 0x81B → rd (reconstruct_sector t sector 1) i = 0x00) ∧
    StoredLsb (reconstruct_sector t sector 1) 0x810
      (edc_compute t 0 ((reconstruct_sector t sector 1).take 0x810)) ∧
    HasParity t (AddrPtr.inSector 0xC) (reconstruct_sector t sector 1) := by
  have l1 : (write_sync sector).length = 2352 := by rw [length_write_sync, hlen]
  have l2 : (write_mode (write_sync sector) 1).length = 2352 := by rw [length_write_mode, l1]
  refine ⟨?_, ?_, ?_, ?_⟩
  · rw [rd_reconstruct_one t sector hlen _ (by decide), rd_write_mode1 _ l1]
    simp
  · intro i h1 h2
    rw [rd_reconstruct_one t sector hlen _ (by omega), rd_write_mode1 _ l1]
    have e1 : i ≠ 0xF := by omega
    simp only [e1, h1, h2, and_self, if_true, if_false]
  · have htake : (reconstruct_sector t sector 1).take 0x810
        = (write_mode (write_sync sector) 1).take 0x810 := by
      apply take_eq_of_rd
      · rw [reconstruct_sector_length t sector 1 hlen, l2]
      · intro i hi
        exact rd_reconstruct_one t sector hlen i (Or.inl hi)
    rw [htake]
    apply storedLsb_congr _ _ _ _ _ rfl _ (storedLsb_put32lsb _ 0x810 _ (by rw [l2]; decide))
    intro i h1 h2
    exact rd_reconstruct_one_below t sector hlen i (by omega)
  · rw [reconstruct_sector_one]
    exact ecc_writesector_parity t _ addr_sector_below _ (by rw [length_put32lsb, l2])

theorem and_FF (x : Nat) : x &&& 0xFF = x % 256 := by
  rw [show (0xFF : Nat) = 2 ^ 8 - 1 from rfl, Nat.and_pow_two_sub_one_eq_mod]

/-- A buffer is its first `n` bytes followed by the four bytes stored at `n`. -/
theorem take_storedLsb (r : List Nat) (n v : Nat) (hlen : n + 4 ≤ r.length) (hv : v < 2 ^ 32)
    (h : StoredLsb r n v) :
    r.take (n + 4) = r.take n ++ [v &&& 0xFF, (v >>> 8) &&& 0xFF, (v >>> 16) &&& 0xFF, v >>> 24] := by
  obtain ⟨h0, h1, h2, h3⟩ := h
  have h24 : (v >>> 24) % 256 = v >>> 24 := by
    apply Nat.mod_eq_of_lt
    rw [Nat.shiftRight_eq_div_pow]
    exact Nat.div_lt_of_lt_mul (lt_of_lt_of_le hv (by decide))
  have ln : (r.take n).length = n := by rw [List.length_take]; omega
  apply ext_rd
  · rw [List.length_take, List.length_append, ln]
    simp only [List.length_cons, List.length_nil]
    omega
  · intro i hi
    rw [List.length_take] at hi
    have hi4 : i < n + 4 := by omega
    rw [rd_take, if_pos hi4, rd_append, ln, rd_take]
    by_cases c : i < n
    · rw [if_pos c, if_pos c]
    · rw [if_neg c]
      have hc : i = n ∨ i = n + 1 ∨ i = n + 2 ∨ i = n + 3 := by omega
      rcases hc with rfl | rfl | rfl | rfl
      · rw [Nat.sub_self, h0]
        show _ = v &&& 0xFF
        rw [and_FF]
      · rw [Nat.add_sub_cancel_left, h1]
        show _ = (v >>> 8) &&& 0xFF
        rw [and_FF]
      · rw [Nat.add_sub_cancel_left, h2]
        show _ = (v >>> 16) &&& 0xFF
        rw [and_FF]
      · rw [Nat.add_sub_cancel_left, h3, h24]
        rfl

/-- C31: with the tables that `eccedc_init` leaves, for every 32-bit seed `s`
and byte sequence `bs`, with `e = edc_compute(s, bs)`, feeding the four
little-endian bytes of `e` after `bs` gives
`edc_compute(e, [e & 0xFF, (e >> 8) & 0xFF, (e >> 16) & 0xFF, e >> 24]) = 0`;
and for every sector that `reconstruct_sector` produces with type 1,
`edc_compute(0, sector[0x000..0x814)) = 0`. -/
theorem edc_residue (t : Luts) (ht : t.Sized) :
    (∀ (s : Nat) (bs : List Nat), s < 2 ^ 32 →
      edc_compute (eccedc_init t) (edc_compute (eccedc_init t) s bs)
        [edc_compute (eccedc_init t) s bs &&& 0xFF,
         (edc_compute (eccedc_init t) s bs >>> 8) &&& 0xFF,
         (edc_compute (eccedc_init t) s bs >>> 16) &&& 0xFF,
         edc_compute (eccedc_init t) s bs >>> 24] = 0)
    ∧ (∀ sector : List Nat, sector.length = 2352 →
      edc_compute (eccedc_init t) 0
        ((reconstruct_sector (eccedc_init t) sector 1).take 0x814) = 0) := by
  refine ⟨fun s bs hs => edc_residue_bytes t ht _ (edc_compute_lt t ht bs s hs), ?_⟩
  intro sector hlen
  obtain ⟨_, _, hst, _⟩ := mode1_layout (eccedc_init t) sector hlen
  have hl := reconstruct_sector_length (eccedc_init t) sector 1 hlen
  have hv := edc_compute_lt t ht ((reconstruct_sector (eccedc_init t) sector 1).take 0x810) 0
    (by decide)
  have ht4 := take_storedLsb _ 0x810 _ (by rw [hl]; decide) hv hst
  rw [show (0x814 : Nat) = 0x810 + 4 from rfl, ht4, edc_compute_append]
  exact edc_residue_bytes t ht _ hv

theorem edc_residue_witness :
    (∀ (s : Nat) (bs : List Nat), s < 2 ^ 32 →
      edc_compute (eccedc_init Luts.zero) (edc_compute (eccedc_init Luts.zero) s bs)
        [edc_compute (eccedc_init Luts.zero) s bs &&& 0xFF,
         (edc_compute (eccedc_init Luts.zero) s bs >>> 8) &&& 0xFF,
         (edc_compute (eccedc_init Luts.zero) s bs >>> 16) &&& 0xFF,
         edc_compute (eccedc_init Luts.zero) s bs >>> 24] = 0)
    ∧ (∀ sector : List Nat, sector.length = 2352 →
      edc_compute (eccedc_init Luts.zero) 0
        ((reconstruct_sector (eccedc_init Luts.zero) sector 1).take 0x814) = 0) :=
  edc_residue Luts.zero sized_zero

/-- C37: `cdread_ecm_decode` returns for every finite stream, every table
content, every session and every target sector.  Each step of the unit loop
lowers the remaining run count by `b`, with `1 <= b <= num` (`b = min(num,
2352)` for type 0 and `b = 1` for the types 1..3); a chunk header that parses
takes at least one byte of the stream, and at the end of the stream the header
read fails and the iteration of the chunk loop ends the call with the error
result. -/
theorem cdread_terminates :
    (∀ (t : Luts) (s : Session) (f stack : List Nat) (sector : Int),
      ∃ r, cdread_ecm_decode t s f stack sector = some r)
    ∧ (∀ (t : Luts) (f : List Nat) (type : Nat) (st st1 : Locals), st.num ≠ 0 →
        unit_step t f type st = Except.ok st1 →
        st1.num = st.num - unit_b type st.num ∧ 1 ≤ unit_b type st.num
        ∧ unit_b type st.num ≤ st.num ∧ st1.num < st.num)
    ∧ (∀ type num, unit_b type num = if type = 0 then min num 2352 else 1)
    ∧ (∀ l type num k, read_header l = Except.ok (type, num, k) → 1 ≤ k)
    ∧ (∀ (t : Luts) (f : List Nat) (sector : Int) (fuel : Nat) (s : Session) (st : Locals),
        sector ≥ st.sectorcount → f.length ≤ st.fpos →
        outer_loop t f sector (fuel + 1) s st = (s, Except.error Err.error_in)) := by
  refine ⟨cdread_total, ?_, ?_, ?_, ?_⟩
  · intro t f type st st1 h0 h
    obtain ⟨_, h2, _⟩ := unit_step_fields t f type st st1 h
    obtain ⟨b1, b2⟩ := unit_b_bounds type st.num (by omega)
    exact ⟨h2, b1, b2, by omega⟩
  · intro type num
    unfold unit_b
    by_cases h0 : type = 0
    · rw [if_pos h0, if_pos h0]
      by_cases h : num > 2352
      · rw [if_pos h, Nat.min_eq_right (by omega)]
      · rw [if_neg h, Nat.min_eq_left (by omega)]
    · rw [if_neg h0, if_neg h0]
  · intro l type num k h
    exact (read_header_bounds l type num k h).2.2
  · intro t f sector fuel s st hs hf
    rw [outer_loop, if_pos hs, List.drop_eq_nil_of_le hf]
    rfl

theorem fread_short (f : List Nat) (p n : Nat) (h : f.length < p + n) (hn : 0 < n) :
    fread f p n = none := by
  unfold fread
  rw [if_neg]
  simp only [List.length_take, List.length_drop, Nat.min_def]
  split_ifs <;> omega

/-- A skip-decoded unit of type 0, 2 or 3 does not touch the stream: the
result is the same for every stream, the unit cannot fail and the sector
buffer stays as it is. -/
theorem unit_step_skip (t : Luts) (f g : List Nat) (type : Nat) (st : Locals)
    (hp : st.processsectors = false) (h1 : type ≠ 1) :
    unit_step t f type st = unit_step t g type st
    ∧ ∃ st1, unit_step t f type st = Except.ok st1 ∧ st1.sector_buffer = st.sector_buffer := by
  unfold unit_step decode_unit
  by_cases h0 : type = 0
  · simp only [h0, hp, if_true]
    exact ⟨trivial, _, rfl, rfl⟩
  · by_cases h2 : type = 2
    · simp only [h0, h1, h2, hp, if_true, if_false]
      exact ⟨rfl, _, rfl, rfl⟩
    · simp only [h0, h1, h2, hp, if_true, if_false]
      exact ⟨trivial, _, rfl, rfl⟩

/-- A skip-decoded unit of type 1 is read from the stream into the sector
buffer. -/
theorem unit_step_skip_one (t : Luts) (f : List Nat) (st : Locals)
    (hp : st.processsectors = false) :
    (st.fpos + 0x803 ≤ f.length →
      ∃ st1, unit_step t f 1 st = Except.ok st1 ∧
        st1.sector_buffer
          = store (store st.sector_buffer 0x00C ((f.drop st.fpos).take 0x003)) 0x010
              ((f.drop (st.fpos + 0x003)).take 0x800))
    ∧ (f.length < st.fpos + 0x803 → unit_step t f 1 st = Except.error Err.error_in) := by
  have e10 : ¬ ((1 : Nat) = 0) := by decide
  constructor
  · intro h
    unfold unit_step decode_unit
    simp only [e10, if_true, if_false, hp]
    rw [fread_of_le f st.fpos 0x003 (by omega), fread_of_le f (st.fpos + 0x003) 0x800 (by omega)]
    exact ⟨_, rfl, rfl⟩
  · intro h
    unfold unit_step decode_unit
    simp only [e10, if_true, if_false, hp]
    by_cases h3 : st.fpos + 0x003 ≤ f.length
    · rw [fread_of_le f st.fpos 0x003 h3, fread_short f (st.fpos + 0x003) 0x800 (by omega) (by decide)]
    · rw [fread_short f st.fpos 0x003 (by omega) (by decide)]

/-- The consumption of a unit as the code has it: a unit of type 1, 2 or 3
moves the source cursor by 0x803, 0x804 or 0x918 bytes, a step of a type 0 run
of remaining
length `r` by `min(r, 2352)` bytes, and the decoded length grows by the unit
size; the advance does not depend on `processsectors`; a type 0 run of count
`n` that is decoded to its end takes `n` source bytes and adds `n` decoded
bytes.  A skip-decoded unit of type 0, 2 or 3 is passed without reading the
stream; a skip-decoded unit of type 1 is read: its 0x803 bytes go to the
sector buffer, and the unit fails when the stream does not hold them. -/
theorem unit_consumption :
    (∀ (t : Luts) (f : List Nat) (type : Nat) (st st1 : Locals),
      unit_step t f type st = Except.ok st1 →
      st1.fpos = st.fpos + unit_stored type st.num
      ∧ st1.writebytecount = (st.writebytecount + unit_decoded type st.num) % 2 ^ 32)
    ∧ (∀ num, unit_stored 1 num = 0x803 ∧ unit_stored 2 num = 0x804 ∧ unit_stored 3 num = 0x918
        ∧ unit_stored 0 num = min num 2352 ∧ unit_decoded 0 num = min num 2352)
    ∧ (∀ (t : Luts) (f : List Nat) (type : Nat) (st a b : Locals),
        unit_step t f type { st with processsectors := false } = Except.ok a →
        unit_step t f type { st with processsectors := true } = Except.ok b →
        a.fpos = b.fpos ∧ a.writebytecount = b.writebytecount ∧ a.num = b.num)
    ∧ (∀ (t : Luts) (f : List Nat) (sector : Int) (fuel : Nat) (st : Locals), st.num ≤ fuel →
        st.fpos + st.num ≤ f.length → st.writebytecount + st.num < 2 ^ 32 →
        (((st.writebytecount + st.num) / 2352 : Nat) : Int) ≤ sector →
        st.sectorcount = ((st.writebytecount / 2352 : Nat) : Int) →
        ∃ st1, inner_loop t f sector 0 fuel st = Except.ok st1
          ∧ st1.fpos = st.fpos + st.num ∧ st1.writebytecount = st.writebytecount + st.num)
    ∧ (∀ (t : Luts) (f g : List Nat) (type : Nat) (st : Locals),
        st.processsectors = false → type ≠ 1 →
        unit_step t f type st = unit_step t g type st
        ∧ ∃ st1, unit_step t f type st = Except.ok st1
          ∧ st1.sector_buffer = st.sector_buffer)
    ∧ (∀ (t : Luts) (f : List Nat) (st : Locals), st.processsectors = false →
        (st.fpos + 0x803 ≤ f.length →
          ∃ st1, unit_step t f 1 st = Except.ok st1 ∧
            st1.sector_buffer
              = store (store st.sector_buffer 0x00C ((f.drop st.fpos).take 0x003)) 0x010
                  ((f.drop (st.fpos + 0x003)).take 0x800))
        ∧ (f.length < st.fpos + 0x803 → unit_step t f 1 st = Except.error Err.error_in)) := by
  refine ⟨?_, ?_, ?_, ?_, unit_step_skip, unit_step_skip_one⟩
  · intro t f type st st1 h
    obtain ⟨h1, _, h3, _⟩ := unit_step_fields t f type st st1 h
    exact ⟨h1, h3⟩
  · intro num
    have hm : (if num > 2352 then 2352 else num) = min num 2352 := by
      by_cases h : num > 2352
      · rw [if_pos h, Nat.min_eq_right (by omega)]
      · rw [if_neg h, Nat.min_eq_left (by omega)]
    refine ⟨rfl, rfl, rfl, ?_, ?_⟩
    · unfold unit_stored; rw [if_pos rfl]; exact hm
    · unfold unit_decoded; rw [if_pos rfl]; exact hm
  · intro t f type st a b ha hb
    obtain ⟨a1, a2, a3, _⟩ := unit_step_fields t f type _ a ha
    obtain ⟨b1, b2, b3, _⟩ := unit_step_fields t f type _ b hb
    exact ⟨a1.trans b1.symm, a3.trans b3.symm, a2.trans b2.symm⟩
  · intro t f sector fuel st hf hav hw hr hsc
    have e0 : rd ECM_SECTOR_SIZE 0 = 1 := rfl
    have s0 : stored_unit 0 = 1 := rfl
    obtain ⟨st1, h1, h2, h3, _⟩ := run_full t f sector 0 (by decide) fuel st hf
      (by rw [s0, Nat.mul_one]; exact hav) (by rw [e0, Nat.mul_one]; exact hw)
      (by rw [e0, Nat.mul_one]; exact hr) hsc
    rw [s0, Nat.mul_one] at h2
    rw [e0, Nat.mul_one] at h3
    exact ⟨st1, h1, h2, h3⟩

/-- C28 fails on the code for type 1, whose `case 1` calls `fread` twice
before it tests `processsectors`, where the cases 0, 2 and 3 test the flag
first and `fseek`: with `processsectors` clear, a type 1 unit on a stream that
holds none of its bytes ends in `error_in`, and on a stream of 0x803 bytes of
value 9 it stores the bytes in the sector buffer (offset 0x00C then holds 9):
the payload bytes of the skip-decoded unit are read. -/
theorem skip_reads_type1_unit :
    unit_step Luts.zero [] 1 (Locals.mk 1 false 0 0 0 (List.replicate 2352 0))
      = Except.error Err.error_in
    ∧ ∃ st1, unit_step Luts.zero (List.replicate 0x803 9) 1
          (Locals.mk 1 false 0 0 0 (List.replicate 2352 0)) = Except.ok st1
        ∧ rd st1.sector_buffer 0x00C = 9
        ∧ rd (Locals.mk 1 false 0 0 0 (List.replicate 2352 0)).sector_buffer 0x00C = 0 := by
  constructor
  · exact (unit_step_skip_one Luts.zero [] _ rfl).2 (by decide)
  · obtain ⟨st1, h1, h2⟩ := (unit_step_skip_one Luts.zero (List.replicate 0x803 9)
      (Locals.mk 1 false 0 0 0 (List.replicate 2352 0)) rfl).1
      (by rw [List.length_replicate])
    refine ⟨st1, h1, ?_, rfl⟩
    rw [h2]
    decide

theorem lut_probes_head (tbl : Nat → ECMFILELUT) (n : Nat) (hn : 0 < n) :
    (lut_probes tbl n n).head? = some n := by
  obtain ⟨m, rfl⟩ : ∃ m, n = m + 1 := ⟨n - 1, by omega⟩
  rw [lut_probes, if_pos (by omega)]
  rfl

/-- C33 fails on the code: the guard of the lookup is `sector <=
len_ecm_savetable`, and `handleecm` without a scan sets `len_ecm_savetable`
to the number of entries it allocates, `75*80*60 = 360000`.  After such a
detection of any image with the magic header, a request for sector 360000
passes the guard and the first entry the probe loop reads has index 360000,
which is not below the number of allocated entries. -/
theorem table_read_out_of_bounds (st0 : EcmState) (isoname cdh stack : List Nat)
    (hdet : st0.ecm_file_detected = false)
    (hmagic : cdh[0]? = some 0x45 ∧ cdh[1]? = some 0x43 ∧ cdh[2]? = some 0x4D ∧
      cdh[3]? = some 0x00 ∧ strncmp_ecm isoname = true) :
    ∃ d, handleecm st0 isoname cdh false stack = some d ∧ d.ret = 0 ∧
      d.state.session.len_ecm_savetable = 75 * 80 * 60 ∧
      (0 : Int) ≤ 360000 ∧ (360000 : Int) ≤ (d.state.session.len_ecm_savetable : Int) ∧
      (lookup_reads d.state.session 360000).head? = some 360000 ∧
      ¬ (360000 < 75 * 80 * 60) := by
  have hd : ¬ st0.ecm_file_detected = true := by rw [hdet]; decide
  have hal : ¬ (false = true) := by decide
  unfold handleecm
  rw [if_pos hmagic, if_neg hd]
  simp only [hal, if_false]
  refine ⟨_, rfl, rfl, rfl, by decide, by show (360000 : Int) ≤ ((75 * 80 * 60 : Nat) : Int); decide, ?_, by decide⟩
  unfold lookup_reads
  dsimp only
  have hu : toU32 360000 = 360000 := by decide
  have hn : (360000 : Int).toNat = 360000 := by decide
  rw [hu, hn, if_pos (by decide)]
  have h := lut_probes_head (setEntry (fun _ => { sector := 0, filepos := 0 }) 0
      { sector := 0, filepos := ECM_HEADER_SIZE }) 360000 (by decide)
  cases hp : lut_probes (setEntry (fun _ => { sector := 0, filepos := 0 }) 0
      { sector := 0, filepos := ECM_HEADER_SIZE }) 360000 360000 with
  | nil => rw [hp] at h; cases h
  | cons a l =>
    rw [hp] at h
    exact h

theorem table_read_out_of_bounds_witness :
    ∃ d, handleecm initialState nameEcm emptyStream false [] = some d ∧ d.ret = 0 ∧
      d.state.session.len_ecm_savetable = 75 * 80 * 60 ∧
      (0 : Int) ≤ 360000 ∧ (360000 : Int) ≤ (d.state.session.len_ecm_savetable : Int) ∧
      (lookup_reads d.state.session 360000).head? = some 360000 ∧
      ¬ (360000 < 75 * 80 * 60) :=
  table_read_out_of_bounds initialState nameEcm emptyStream [] rfl (by decide)

/-- The sector buffer after a type 1 unit that is decoded, not skipped: a
reconstructed sector. -/
theorem unit_step_one_buffer (t : Luts) (f : List Nat) (st st1 : Locals)
    (h : unit_step t f 1 st = Except.ok st1) (hps : st.processsectors = true)
    (hlen : st.sector_buffer.length = 2352) :
    ∃ buf, buf.length = 2352 ∧ st1.sector_buffer = reconstruct_sector t buf 1 := by
  unfold unit_step decode_unit at h
  have e10 : ¬ ((1 : Nat) = 0) := by decide
  simp only [e10, if_false, if_true, hps, Bool.true_eq_false] at h
  cases h3 : fread f st.fpos 0x003 with
  | none => rw [h3] at h; cases h
  | some addr =>
    rw [h3] at h
    cases h8 : fread f (st.fpos + 0x003) 0x800 with
    | none => simp only [h8] at h; cases h
    | some data =>
      simp only [h8] at h
      injection h with h
      rw [← h]
      have la : addr.length = 3 := by
        rcases fread_length f _ _ _ h3 with ⟨a, _⟩ | ⟨a, _⟩
        · exact a
        · exact absurd a (by decide)
      have ld : data.length = 0x800 := by
        rcases fread_length f _ _ _ h8 with ⟨a, _⟩ | ⟨a, _⟩
        · exact a
        · exact absurd a (by decide)
      have l1 : (store st.sector_buffer 0x00C addr).length = 2352 := by
        rw [length_store _ _ _ (by rw [la, hlen]; decide), hlen]
      have l2 : (store (store st.sector_buffer 0x00C addr) 0x010 data).length = 2352 := by
        rw [length_store _ _ _ (by rw [ld, l1]; decide), l1]
      dsimp only
      exact ⟨_, l2, rfl⟩

/-- A read of sector 3 that resumes from the zero entry 2 on a stream of 9420
bytes whose first byte parses as the header of a type 1 run of 18 units: the
call decodes four units from offset 1 on, returns 2352 with a reconstructed
Mode 1 sector and records entry 4 at offset 8205. -/
theorem meta_second_read (t : Luts) (f stack : List Nat) (s : Session) (hlen : f.length = 9420)
    (hstack : stack.length = 2352)
    (hh : read_header (f.drop 0) = Except.ok (1, 17, 1)) (hsel : select_pos s 3 = 2)
    (h2 : s.ecm_savetable 2 = { sector := 0, filepos := 0 })
    (h4 : s.ecm_savetable 4 = { sector := 0, filepos := 0 }) :
    ∃ r sec, cdread_ecm_decode t s f stack 3 = some r ∧ r.ret = 2352 ∧
      r.session.ecm_savetable = setEntry s.ecm_savetable 4 { sector := 4, filepos := 8205 } ∧
      r.dest = some sec ∧ rd sec 0x00F = 0x01 := by
  have hpos : s.ecm_savetable (select_pos s 3) = { sector := 0, filepos := 0 } := by
    rw [hsel, h2]
  obtain ⟨q1, e1, _, n1, w1, p1, c1, ps1, b1⟩ :=
    inner_step_num t f 3 1 17 (Locals.mk 18 false 0 0 1 stack) 18 0 1 0 false rfl rfl rfl rfl rfl
      (by decide) (by decide) (by rw [hlen]; decide)
  have n1' : q1.num = 17 := n1.trans (by decide)
  have w1' : q1.writebytecount = 2352 := w1.trans (by decide)
  have p1' : q1.fpos = 2052 := p1.trans (by decide)
  have c1' : q1.sectorcount = 1 := c1.trans (by decide)
  have ps1' : q1.processsectors = false := ps1.trans (by decide)
  have b1' := b1 hstack
  obtain ⟨q2, e2, _, n2, w2, p2, c2, ps2, b2⟩ :=
    inner_step_num t f 3 1 16 q1 17 2352 2052 1 false n1' w1' p1' c1' ps1'
      (by decide) (by decide) (by rw [hlen]; decide)
  have n2' : q2.num = 16 := n2.trans (by decide)
  have w2' : q2.writebytecount = 4704 := w2.trans (by decide)
  have p2' : q2.fpos = 4103 := p2.trans (by decide)
  have c2' : q2.sectorcount = 2 := c2.trans (by decide)
  have ps2' : q2.processsectors = false := ps2.trans (by decide)
  have b2' := b2 b1'
  obtain ⟨q3, e3, _, n3, w3, p3, c3, ps3, b3⟩ :=
    inner_step_num t f 3 1 15 q2 16 4704 4103 2 false n2' w2' p2' c2' ps2'
      (by decide) (by decide) (by rw [hlen]; decide)
  have n3' : q3.num = 15 := n3.trans (by decide)
  have w3' : q3.writebytecount = 7056 := w3.trans (by decide)
  have p3' : q3.fpos = 6154 := p3.trans (by decide)
  have c3' : q3.sectorcount = 3 := c3.trans (by decide)
  have ps3' : q3.processsectors = true := ps3.trans (by decide)
  have b3' := b3 b2'
  obtain ⟨q4, e4, u4, n4, w4, p4, c4, ps4, _⟩ :=
    inner_step_num t f 3 1 14 q3 15 7056 6154 3 true n3' w3' p3' c3' ps3'
      (by decide) (by decide) (by rw [hlen]; decide)
  have n4' : q4.num = 14 := n4.trans (by decide)
  have p4' : q4.fpos = 8205 := p4.trans (by decide)
  have c4' : q4.sectorcount = 4 := c4.trans (by decide)
  have ps4' : q4.processsectors = true := ps4.trans (by decide)
  have hbreak := inner_loop_break t f 3 1 13 q4 (by rw [n4']; decide) ps4' (by rw [c4']; decide)
  have hrun : inner_loop t f 3 1 ((17 + 1) % 2 ^ 32)
      { (Locals.mk 0 false 0 0 0 stack) with fpos := 0 + 1, num := (17 + 1) % 2 ^ 32 }
        = Except.ok q4 := by
    have h := e1
    rw [e2, e3, e4, hbreak] at h
    exact h
  have hstep := outer_loop_step t f 3 f.length s (Locals.mk 0 false 0 0 0 stack)
    1 17 1 q4 (by show (3 : Int) ≥ 0; decide) hh (by decide) hrun
  have hrec : record s.ecm_savetable 1 q4
      = setEntry s.ecm_savetable 4 { sector := 4, filepos := 8205 } := by
    rw [record_new s.ecm_savetable 1 q4 4 (by decide) c4' (by decide)
      (by rw [h4]; decide), p4']
    rfl
  have hexit := outer_loop_exit t f 3 f.length
    { s with ecm_savetable := record s.ecm_savetable 1 q4 } q4 (by rw [c4']; decide)
  have hloop := hstep.trans hexit
  have hcall := cdread_of_outer t s f stack 3 _ q4 (by
    rw [hpos]
    exact hloop)
  obtain ⟨buf, lb, hb⟩ := unit_step_one_buffer t f _ q4 u4 rfl b3'
  refine ⟨_, _, hcall, rfl, hrec, rfl, ?_⟩
  show rd (q4.sector_buffer.take CD_FRAMESIZE_RAW) 0x00F = 0x01
  rw [rd_take, if_pos (by decide), hb]
  exact (mode1_layout t buf lb).1

theorem metaStream_cons : metaStream
    = 0x45 :: 0x43 :: 0x4D :: 0x00
        :: (encode_header 0 9408 ++ (List.replicate 9408 0 ++ sentinel)) := by
  simp only [metaStream, List.cons_append, List.nil_append, List.append_assoc]

theorem metaStream_wellFormed :
    metaStream
      = ecmStream [{ type := 0, count := 9408, payload := List.replicate 9408 0 }] 0 []
    ∧ ∀ c, c ∈ [({ type := 0, count := 9408, payload := List.replicate 9408 0 } : Chunk)] →
        c.WellFormed := by
  constructor
  · simp only [metaStream, ecmStream, chunkBytes, sentinel, List.append_nil, List.append_assoc]
  · intro c hc
    rw [List.mem_singleton] at hc
    subst hc
    exact ⟨by decide, by decide, by decide, by
      show (List.replicate 9408 0).length = 9408 * stored_unit 0
      rw [List.length_replicate]
      rfl⟩

/-- C32 fails on the code.  `metaStream` is a well-formed stream of one type 0
run of four sectors.  In the session that `handleecm` leaves, a read of sector
1 succeeds and leaves the cursor `prevsector` at 2, while entry 2 of the table
is still zero (a type 0 run records no checkpoint).  The state after it is a
state of the session, and in it the lookup for sector 3 falls back to the
cursor: it selects entry 2, which is not populated, so the decode seeks to
offset 0, inside the magic header, and parses the magic byte `'E'` as the
header of a type 1 run of 18 units.  That second read returns 2352 with a
reconstructed Mode 1 sector (mode byte 0x01 at 0x00F) and records entry 4 at
offset 8205. -/
theorem cursor_selects_unpopulated :
    Reachable metaStream detectedState ∧
    ∃ r0 r1 sec, cdread_ecm_decode detectedState.luts detectedState.session metaStream
        (List.replicate 2352 0) 1 = some r0 ∧ r0.ret = 2352 ∧
      Reachable metaStream { detectedState with session := r0.session } ∧
      r0.session.prevsector = 2 ∧
      select_pos r0.session 3 = 2 ∧
      r0.session.ecm_savetable (select_pos r0.session 3) = { sector := 0, filepos := 0 } ∧
      ¬ Populated (r0.session.ecm_savetable (select_pos r0.session 3)) ∧
      read_header (metaStream.drop 0) = Except.ok (1, 17, 1) ∧
      cdread_ecm_decode detectedState.luts r0.session metaStream (List.replicate 2352 0) 3
        = some r1 ∧ r1.ret = 2352 ∧ r1.dest = some sec ∧ rd sec 0x00F = 0x01 ∧
      r1.session.ecm_savetable 4 = { sector := 4, filepos := 8205 } := by
  have hreach : Reachable metaStream detectedState :=
    Reachable.detected initialState nameEcm false [] _ rfl
      (handleecm_example metaStream [] (magic_of_cons _ _ metaStream_cons)) rfl
  obtain ⟨r0, hcall, hret, hprev, htbl, hlen⟩ :=
    meta_first_read detectedState.luts (List.replicate 2352 0)
  rw [← detectedState_session] at hcall
  have hinv : TableInv r0.session.ecm_savetable := by rw [htbl]; exact tableInv_fresh
  have hnone : ∀ k, 0 < k → ¬ Populated (r0.session.ecm_savetable k) := by
    intro k hk
    rw [htbl, isFresh_freshSession.2.1 k hk]
    unfold Populated ECM_HEADER_SIZE
    decide
  have hsel : select_pos r0.session 3 = 2 := by
    have h := ((select_pos_cases r0.session 3 (by decide) (by rw [hlen]; decide) hinv).2
      (fun j hj _ _ => hnone j hj)).1 (by rw [hprev]; decide)
    rw [hprev] at h
    exact h
  have h2 : r0.session.ecm_savetable 2 = { sector := 0, filepos := 0 } := by
    rw [htbl]; exact isFresh_freshSession.2.1 2 (by decide)
  have h4 : r0.session.ecm_savetable 4 = { sector := 0, filepos := 0 } := by
    rw [htbl]; exact isFresh_freshSession.2.1 4 (by decide)
  have hh : read_header (metaStream.drop 0) = Except.ok (1, 17, 1) := by
    rw [List.drop_zero, metaStream_cons, read_header, header_loop_done _ _ _ _ _ (by decide)]
    rfl
  obtain ⟨r1, sec, c1, ret1, tbl1, d1, b1⟩ :=
    meta_second_read detectedState.luts metaStream (List.replicate 2352 0) r0.session
      metaStream_length (List.length_replicate _ _) hh hsel h2 h4
  refine ⟨hreach, r0, r1, sec, hcall, hret, reachable_decode _ _ _ _ _ hreach hcall, hprev, hsel,
    by rw [hsel, h2], by rw [hsel]; exact hnone 2 (by decide), hh, c1, ret1, d1, b1, ?_⟩
  rw [tbl1]
  rfl

theorem record_eq_scan (tbl : Nat → ECMFILELUT) (type : Nat) (st : Locals) (k : Nat)
    (hsc : st.sectorcount = (k : Int)) :
    record tbl type st = scan_record tbl type k st.fpos := by
  unfold record scan_record
  rw [hsc, Int.toNat_natCast]
  have e : ((k : Int) > 0) ↔ 0 < k := by omega
  simp only [e]
  rfl

/-- The chunk loop on well-formed chunks followed by the end indicator, for a
target the chunks do not reach: the table it leaves is `scanTable`, the sector
count at the end is that of the whole stream. -/
theorem chunks_scan (t : Luts) (f : List Nat) (sector : Int) (ty : Nat) (tail : List Nat)
    (hty : ty < 4) :
    ∀ (cs : List Chunk) (fuel : Nat) (s : Session) (st : Locals),
      (∀ c, c ∈ cs → c.WellFormed) → cs.length + 1 ≤ fuel →
      f.drop st.fpos = chunkBytes cs ++ (encode_raw ty 0xFFFFFFFF ++ tail) →
      st.writebytecount + decodedLength cs < 2 ^ 32 →
      (((st.writebytecount + decodedLength cs) / 2352 : Nat) : Int) ≤ sector →
      st.sectorcount = ((st.writebytecount / 2352 : Nat) : Int) →
      ∃ s1 st1, outer_loop t f sector fuel s st = (s1, Except.ok st1) ∧
        s1.ecm_savetable = scanTable s.ecm_savetable st.fpos st.writebytecount cs ∧
        s1.len_ecm_savetable = (st.writebytecount + decodedLength cs) / 2352 ∧
        st1.sectorcount = (((st.writebytecount + decodedLength cs) / 2352 : Nat) : Int) := by
  intro cs
  induction cs with
  | nil =>
    intro fuel s st _ hfuel hdrop hw hreach hsc
    obtain ⟨m, rfl⟩ : ∃ m, fuel = m + 1 := ⟨fuel - 1, by simp at hfuel; omega⟩
    have hs : sector ≥ st.sectorcount := by
      rw [hsc]
      simp only [decodedLength, Nat.add_zero] at hreach
      exact hreach
    have hh : read_header (f.drop st.fpos)
        = Except.ok (ty, 0xFFFFFFFF, (encode_raw ty 0xFFFFFFFF).length) := by
      rw [hdrop]
      exact read_header_encode_raw ty 0xFFFFFFFF tail hty (by norm_num)
    rw [outer_loop_end t f sector m s st ty _ hs hh]
    exact ⟨_, _, rfl, rfl, rfl, hsc⟩
  | cons c cs ih =>
    intro fuel s st hwf hfuel hdrop hw hreach hsc
    obtain ⟨m, rfl⟩ : ∃ m, fuel = m + 1 := ⟨fuel - 1, by simp at hfuel; omega⟩
    obtain ⟨hct, hc1, hc2, hcl⟩ := hwf c (List.mem_cons_self _ _)
    have hdl : decodedLength (c :: cs)
        = c.count * rd ECM_SECTOR_SIZE c.type + decodedLength cs := rfl
    rw [hdl] at hw hreach
    have hdiv1 : st.writebytecount / 2352
        ≤ (st.writebytecount + (c.count * rd ECM_SECTOR_SIZE c.type + decodedLength cs)) / 2352 :=
      Nat.div_le_div_right (Nat.le_add_right _ _)
    have hdiv2 : (st.writebytecount + c.count * rd ECM_SECTOR_SIZE c.type) / 2352
        ≤ (st.writebytecount + (c.count * rd ECM_SECTOR_SIZE c.type + decodedLength cs)) / 2352 :=
      Nat.div_le_div_right (by omega)
    have hs : sector ≥ st.sectorcount := by
      rw [hsc]
      omega
    have hdrop1 : f.drop st.fpos = encode_header c.type c.count
        ++ (c.payload ++ (chunkBytes cs ++ (encode_raw ty 0xFFFFFFFF ++ tail))) := by
      rw [hdrop]
      simp only [chunkBytes, List.append_assoc]
    obtain ⟨hhead, hne, hcount⟩ := read_header_encode_header c.type c.count
      (c.payload ++ (chunkBytes cs ++ (encode_raw ty 0xFFFFFFFF ++ tail))) hct hc1 hc2
    rw [← hdrop1] at hhead
    have hdrop2 := drop_append_of_drop f st.fpos _ _ hdrop1
    have hsu : 1 ≤ stored_unit c.type := by
      unfold stored_unit
      split_ifs <;> omega
    have hpl : 1 ≤ c.payload.length := by
      rw [hcl]
      exact Nat.mul_pos hc1 hsu
    have hav := drop_append_length f _ _ _ hdrop2 hpl
    have hdrop3 := drop_append_of_drop f _ _ _ hdrop2
    obtain ⟨st1, e1, p1, w1, c1⟩ := run_full t f sector c.type hct c.count
      { st with fpos := st.fpos + (encode_header c.type c.count).length, num := c.count }
      (le_refl _)
      (by
        show st.fpos + (encode_header c.type c.count).length + c.count * stored_unit c.type
          ≤ f.length
        rw [← hcl]
        exact hav)
      (by
        show st.writebytecount + c.count * rd ECM_SECTOR_SIZE c.type < 2 ^ 32
        omega)
      (by
        show (((st.writebytecount + c.count * rd ECM_SECTOR_SIZE c.type) / 2352 : Nat) : Int)
          ≤ sector
        omega)
      hsc
    have hi : inner_loop t f sector c.type ((c.count - 1 + 1) % 2 ^ 32)
        { st with fpos := st.fpos + (encode_header c.type c.count).length,
                  num := (c.count - 1 + 1) % 2 ^ 32 } = Except.ok st1 := by
      rw [hcount]
      exact e1
    rw [outer_loop_step t f sector m s st c.type (c.count - 1) _ st1 hs hhead hne hi]
    have p1' : st1.fpos
        = st.fpos + (encode_header c.type c.count).length + c.payload.length := by
      rw [p1, hcl]
    have w1' : st1.writebytecount
        = st.writebytecount + c.count * rd ECM_SECTOR_SIZE c.type := w1
    obtain ⟨s2, st2, e2, l0, l2, l3⟩ := ih m
      { s with ecm_savetable := record s.ecm_savetable c.type st1 } st1
      (fun c' hc' => hwf c' (List.mem_cons_of_mem _ hc'))
      (by simp only [List.length_cons] at hfuel; omega)
      (by rw [p1']; exact hdrop3)
      (by rw [w1']; omega)
      (by rw [w1', Nat.add_assoc]; exact hreach)
      c1
    refine ⟨s2, st2, e2, ?_, ?_, ?_⟩
    · rw [l0]
      show scanTable (record s.ecm_savetable c.type st1) st1.fpos st1.writebytecount cs = _
      rw [record_eq_scan _ _ _ _ c1, w1', p1']
      rfl
    · rw [l2, w1', Nat.add_assoc, hdl]
    · rw [l3, w1', Nat.add_assoc, hdl]

theorem scan_record_zero (tbl : Nat → ECMFILELUT) (type k pos : Nat) :
    scan_record tbl type k pos 0 = tbl 0 := by
  unfold scan_record
  split_ifs with h
  · have : ¬ (0 = k) := by omega
    simp only [setEntry, this, if_false]
  · rfl

theorem scan_record_keep (tbl : Nat → ECMFILELUT) (type k pos x : Nat)
    (h : 4 < (tbl x).filepos ∨ ¬ (type ≠ 0 ∧ k = x)) :
    scan_record tbl type k pos x = tbl x := by
  unfold scan_record
  split_ifs with hc
  · have : ¬ (x = k) := by
      intro e
      subst e
      rcases h with h | h
      · omega
      · exact h ⟨hc.1, rfl⟩
    simp only [setEntry, this, if_false]
  · rfl

theorem scan_record_new (tbl : Nat → ECMFILELUT) (type k pos : Nat) (ht : type ≠ 0)
    (hk : 0 < k) (he : (tbl k).filepos ≤ 4) :
    scan_record tbl type k pos k = { sector := (k : Int), filepos := (pos : Int) } := by
  unfold scan_record
  rw [if_pos ⟨ht, hk, he⟩]
  simp only [setEntry, if_true]

theorem scanTable_zero : ∀ (cs : List Chunk) (tbl : Nat → ECMFILELUT) (pos wbc : Nat),
    scanTable tbl pos wbc cs 0 = tbl 0 := by
  intro cs
  induction cs with
  | nil => intro tbl pos wbc; rfl
  | cons c cs ih =>
    intro tbl pos wbc
    rw [scanTable, ih, scan_record_zero]

/-- A populated entry is not written again. -/
theorem scanTable_populated : ∀ (cs : List Chunk) (tbl : Nat → ECMFILELUT) (pos wbc k : Nat),
    4 < (tbl k).filepos → scanTable tbl pos wbc cs k = tbl k := by
  intro cs
  induction cs with
  | nil => intro tbl pos wbc k _; rfl
  | cons c cs ih =>
    intro tbl pos wbc k h
    have e := scan_record_keep tbl c.type
      ((wbc + c.count * rd ECM_SECTOR_SIZE c.type) / 2352)
      (pos + (encode_header c.type c.count).length + c.payload.length) k (Or.inl h)
    rw [scanTable, ih _ _ _ k (by rw [e]; exact h), e]

theorem decodedLength_take_succ (c : Chunk) (cs : List Chunk) (i : Nat) :
    decodedLength ((c :: cs).take (i + 1 + 1))
      = c.count * rd ECM_SECTOR_SIZE c.type + decodedLength (cs.take (i + 1)) := rfl

theorem decodedLength_take_one (c : Chunk) (cs : List Chunk) :
    decodedLength ((c :: cs).take (0 + 1)) = c.count * rd ECM_SECTOR_SIZE c.type := by
  show c.count * rd ECM_SECTOR_SIZE c.type + 0 = _
  rw [Nat.add_zero]

/-- An entry at which no run of a type other than 0 ends stays as it is. -/
theorem scanTable_untouched : ∀ (cs : List Chunk) (tbl : Nat → ECMFILELUT) (pos wbc k : Nat),
    (∀ i c, cs[i]? = some c →
      ¬ (c.type ≠ 0 ∧ (wbc + decodedLength (cs.take (i + 1))) / 2352 = k)) →
    scanTable tbl pos wbc cs k = tbl k := by
  intro cs
  induction cs with
  | nil => intro tbl pos wbc k _; rfl
  | cons c cs ih =>
    intro tbl pos wbc k h
    have h0 := h 0 c List.getElem?_cons_zero
    rw [decodedLength_take_one] at h0
    have e := scan_record_keep tbl c.type
      ((wbc + c.count * rd ECM_SECTOR_SIZE c.type) / 2352)
      (pos + (encode_header c.type c.count).length + c.payload.length) k (Or.inr h0)
    rw [scanTable, ih _ _ _ k, e]
    intro i c' hi
    have := h (i + 1) c' (by rw [List.getElem?_cons_succ]; exact hi)
    rw [decodedLength_take_succ, ← Nat.add_assoc] at this
    exact this

/-- The first run of a type other than 0 that ends at the sector count `k`
writes entry `k`, and the entry keeps that value. -/
theorem scanTable_first : ∀ (cs : List Chunk) (tbl : Nat → ECMFILELUT) (pos wbc k i : Nat)
    (c : Chunk), 4 ≤ pos → cs[i]? = some c → c.type ≠ 0 →
    (wbc + decodedLength (cs.take (i + 1))) / 2352 = k → 0 < k → (tbl k).filepos ≤ 4 →
    (∀ j c', j < i → cs[j]? = some c' →
      ¬ (c'.type ≠ 0 ∧ (wbc + decodedLength (cs.take (j + 1))) / 2352 = k)) →
    scanTable tbl pos wbc cs k
      = { sector := (k : Int), filepos := ((pos + (chunkBytes (cs.take (i + 1))).length : Nat) : Int) } := by
  intro cs
  induction cs with
  | nil => intro tbl pos wbc k i c _ hi; cases hi
  | cons c0 cs ih =>
    intro tbl pos wbc k i c hpos hi hc hk hk0 he hfirst
    have hh := encode_raw_length_pos c0.type (c0.count - 1)
    cases i with
    | zero =>
      have hcc : c0 = c := by
        rw [List.getElem?_cons_zero] at hi
        exact Option.some.inj hi
      subst hcc
      rw [decodedLength_take_one] at hk
      have e := scan_record_new tbl c0.type k
        (pos + (encode_header c0.type c0.count).length + c0.payload.length) hc hk0 he
      rw [scanTable, hk, scanTable_populated cs _ _ _ k (by
        rw [e]
        show (4 : Int) < ((pos + (encode_header c0.type c0.count).length + c0.payload.length : Nat) : Int)
        unfold encode_header
        omega), e]
      congr 2
      show _ = pos + (encode_header c0.type c0.count ++ c0.payload ++ []).length
      simp only [List.length_append, List.length_nil]
      omega
    | succ i =>
      have h0 := hfirst 0 c0 (by omega) List.getElem?_cons_zero
      rw [List.getElem?_cons_succ] at hi
      rw [decodedLength_take_one] at h0
      have e := scan_record_keep tbl c0.type
        ((wbc + c0.count * rd ECM_SECTOR_SIZE c0.type) / 2352)
        (pos + (encode_header c0.type c0.count).length + c0.payload.length) k (Or.inr h0)
      rw [decodedLength_take_succ, ← Nat.add_assoc] at hk
      rw [scanTable, ih _ _ _ k i c (by omega) hi hc hk hk0 (by rw [e]; exact he)
        (by
          intro j c' hj hcj
          have := hfirst (j + 1) c' (by omega) (by rw [List.getElem?_cons_succ]; exact hcj)
          rw [decodedLength_take_succ, ← Nat.add_assoc] at this
          exact this)]
      congr 2
      show _ = pos + (encode_header c0.type c0.count ++ c0.payload
        ++ chunkBytes (cs.take (i + 1))).length
      simp only [List.length_append]
      omega

/-- The scan of `handleecm` on a well-formed stream: the table, the length and
the cursor it leaves. -/
theorem handleecm_scan_table (st0 : EcmState) (isoname : List Nat) (cs : List Chunk) (ty : Nat)
    (tail stack : List Nat) (hdet : st0.ecm_file_detected = false)
    (hname : strncmp_ecm isoname = true) (hwf : ∀ c, c ∈ cs → c.WellFormed) (hty : ty < 4)
    (htotal : decodedLength cs < 2 ^ 32) :
    ∃ d, handleecm st0 isoname (ecmStream cs ty tail) true stack = some d ∧ d.ret = 0 ∧
      d.state.session.ecm_savetable = scanTable freshTable 4 0 cs ∧
      d.state.session.len_ecm_savetable = decodedLength cs / 2352 ∧
      d.state.session.prevsector = decodedLength cs / 2352 ∧
      Reachable (ecmStream cs ty tail) d.state := by
  have hmagic : (ecmStream cs ty tail)[0]? = some 0x45 ∧ (ecmStream cs ty tail)[1]? = some 0x43 ∧
      (ecmStream cs ty tail)[2]? = some 0x4D ∧ (ecmStream cs ty tail)[3]? = some 0x00 ∧
      strncmp_ecm isoname = true := by
    obtain ⟨a, b, c, d⟩ := ecmStream_magic cs ty tail
    exact ⟨a, b, c, d, hname⟩
  have hd : ¬ st0.ecm_file_detected = true := by rw [hdet]; decide
  have h32 : (2 : Nat) ^ 32 = 4294967296 := by norm_num
  have hdrop := ecmStream_drop cs ty tail
  have hlen := ecmStream_length_ge cs ty tail
  have hN : ((decodedLength cs / 2352 : Nat) : Int) ≤ INT_MAX := by
    unfold INT_MAX; rw [h32] at htotal; omega
  obtain ⟨s1, st1, hloop, l0, l1, l2⟩ := chunks_scan (eccedc_init st0.luts)
    (ecmStream cs ty tail) INT_MAX ty tail hty cs ((ecmStream cs ty tail).length + 1)
    { ecm_savetable := freshTable
      len_ecm_savetable := 0
      len_decoded_ecm_buffer := st0.session.len_decoded_ecm_buffer
      prevsector := 0 }
    (Locals.mk 0 false 0 0 4 stack) hwf (by omega) hdrop
    (by show 0 + decodedLength cs < 2 ^ 32; omega)
    (by show (((0 + decodedLength cs) / 2352 : Nat) : Int) ≤ INT_MAX; rw [Nat.zero_add]; exact hN)
    (by show (0 : Int) = ((0 / 2352 : Nat) : Int); simp)
  have hcall := cdread_of_outer (eccedc_init st0.luts)
    { ecm_savetable := freshTable
      len_ecm_savetable := 0
      len_decoded_ecm_buffer := st0.session.len_decoded_ecm_buffer
      prevsector := 0 } (ecmStream cs ty tail) stack INT_MAX s1 st1 hloop
  have hh : handleecm st0 isoname (ecmStream cs ty tail) true stack
      = some { state := { session := { s1 with prevsector := toU32 st1.sectorcount },
                          luts := eccedc_init st0.luts, ecm_file_detected := true,
                          cdimg_read_func_normal := true }
               accurate_length := some ((s1.len_ecm_savetable : Nat) : Int)
               ret := 0 } := by
    unfold handleecm
    rw [if_pos hmagic, if_neg hd]
    simp only [if_true]
    unfold freshTable at hcall
    rw [hcall]
  refine ⟨_, hh, rfl, l0, ?_, ?_, Reachable.detected st0 isoname true stack _ hdet hh rfl⟩
  · show s1.len_ecm_savetable = _
    rw [l1, Nat.zero_add]
  · show toU32 st1.sectorcount = _
    rw [l2]
    show toU32 (((0 + decodedLength cs) / 2352 : Nat) : Int) = _
    rw [Nat.zero_add, toU32_of_nat _ hN]

theorem freshTable_zero : freshTable 0 = { sector := 0, filepos := 4 } := rfl

theorem freshTable_pos (k : Nat) (hk : 0 < k) : freshTable k = { sector := 0, filepos := 0 } := by
  have : ¬ k = 0 := by omega
  simp only [freshTable, setEntry, this, if_false]

/-- Entry `k` of the table after a scan, for the first run of a type other than
0 that ends at sector count `k > 0`. -/
theorem scan_entry (cs : List Chunk) (i : Nat) (c : Chunk) (hi : cs[i]? = some c)
    (hc : c.type ≠ 0) (hk0 : 0 < endCount cs i)
    (hfirst : ∀ j c', j < i → cs[j]? = some c' →
      ¬ (c'.type ≠ 0 ∧ endCount cs j = endCount cs i)) :
    scanTable freshTable 4 0 cs (endCount cs i)
      = { sector := (endCount cs i : Int), filepos := (endOffset cs i : Int) } := by
  have h := scanTable_first cs freshTable 4 0 (endCount cs i) i c (le_refl _) hi hc
    (by rw [Nat.zero_add]; rfl) hk0 (by rw [freshTable_pos _ hk0]; decide)
    (by
      intro j c' hj hcj
      have := hfirst j c' hj hcj
      rw [Nat.zero_add]
      exact this)
  rw [h]
  rfl

/-- An entry above 0 that the scan leaves populated is the end of a run of a
type other than 0. -/
theorem scan_populated (cs : List Chunk) (k : Nat) (hk : 0 < k)
    (hp : Populated (scanTable freshTable 4 0 cs k)) :
    ∃ i c, cs[i]? = some c ∧ c.type ≠ 0 ∧ endCount cs i = k := by
  by_contra hno
  have h := scanTable_untouched cs freshTable 4 0 k (by
    intro i c hi hc
    rw [Nat.zero_add] at hc
    exact hno ⟨i, c, hi, hc.1, hc.2⟩)
  rw [h, freshTable_pos k hk] at hp
  unfold Populated ECM_HEADER_SIZE at hp
  exact absurd hp (by decide)

/-- C29: after the priming scan that `handleecm` performs on a well-formed
stream (chunks of the types 0..3, then the end indicator) whose sector count
fits the table of 360000 entries, entry 0 is (0, 4); for every chunk of type
1, 2 or 3 that ends at a decoded sector count `k > 0` and is the first such
chunk, entry `k` is populated with sector `k` and as offset the source offset
of the byte after the last stored byte of that chunk; and every populated
entry above 0 is the end of such a chunk. -/
theorem scan_checkpoints (st0 : EcmState) (isoname : List Nat) (cs : List Chunk) (ty : Nat)
    (tail stack : List Nat) (hdet : st0.ecm_file_detected = false)
    (hname : strncmp_ecm isoname = true) (hwf : ∀ c, c ∈ cs → c.WellFormed) (hty : ty < 4)
    (htotal : decodedLength cs < 2 ^ 32) (_hcap : decodedLength cs / 2352 < 75 * 80 * 60) :
    ∃ d, handleecm st0 isoname (ecmStream cs ty tail) true stack = some d ∧ d.ret = 0 ∧
      d.state.session.ecm_savetable 0 = { sector := 0, filepos := 4 } ∧
      (∀ i c, cs[i]? = some c → c.type ≠ 0 → 0 < endCount cs i →
        (∀ j c', j < i → cs[j]? = some c' →
          ¬ (c'.type ≠ 0 ∧ endCount cs j = endCount cs i)) →
        d.state.session.ecm_savetable (endCount cs i)
          = { sector := (endCount cs i : Int), filepos := (endOffset cs i : Int) }
        ∧ Populated (d.state.session.ecm_savetable (endCount cs i))) ∧
      (∀ k, 0 < k → Populated (d.state.session.ecm_savetable k) →
        ∃ i c, cs[i]? = some c ∧ c.type ≠ 0 ∧ endCount cs i = k) := by
  obtain ⟨d, hd, hret, htbl, _, _, _⟩ :=
    handleecm_scan_table st0 isoname cs ty tail stack hdet hname hwf hty htotal
  refine ⟨d, hd, hret, ?_, ?_, ?_⟩
  · rw [htbl, scanTable_zero]
    rfl
  · intro i c hi hc hk0 hfirst
    have e := scan_entry cs i c hi hc hk0 hfirst
    rw [htbl, e]
    refine ⟨rfl, ?_⟩
    show ((endOffset cs i : Nat) : Int) ≥ ((4 : Nat) : Int)
    unfold endOffset
    omega
  · intro k hk hp
    rw [htbl] at hp
    exact scan_populated cs k hk hp

theorem scan_checkpoints_witness :
    ∃ d, handleecm initialState nameEcm (ecmStream sampleChunks 0 []) true [] = some d ∧
      d.ret = 0 ∧
      d.state.session.ecm_savetable 0 = { sector := 0, filepos := 4 } ∧
      (∀ i c, sampleChunks[i]? = some c → c.type ≠ 0 → 0 < endCount sampleChunks i →
        (∀ j c', j < i → sampleChunks[j]? = some c' →
          ¬ (c'.type ≠ 0 ∧ endCount sampleChunks j = endCount sampleChunks i)) →
        d.state.session.ecm_savetable (endCount sampleChunks i)
          = { sector := (endCount sampleChunks i : Int),
              filepos := (endOffset sampleChunks i : Int) }
        ∧ Populated (d.state.session.ecm_savetable (endCount sampleChunks i))) ∧
      (∀ k, 0 < k → Populated (d.state.session.ecm_savetable k) →
        ∃ i c, sampleChunks[i]? = some c ∧ c.type ≠ 0 ∧ endCount sampleChunks i = k) :=
  scan_checkpoints initialState nameEcm sampleChunks 0 [] [] rfl (by decide)
    sampleChunks_wellFormed (by decide) (by decide) (by decide)

theorem truncStream_layout :
    truncStream.length = 8221 ∧
    read_header (truncStream.drop 4) = Except.ok (2, 0, 1) ∧
    read_header (truncStream.drop 2057) = Except.ok (2, 0, 1) ∧
    read_header (truncStream.drop 4110) = Except.ok (2, 0, 1) ∧
    read_header (truncStream.drop 6163) = Except.ok (2, 0, 1) ∧
    read_header (truncStream.drop 8216) = Except.ok (2, 0, 1) ∧
    (truncStream.drop 4111).take 0x804 = List.replicate 0x804 3 ∧
    (truncStream.drop 6164).take 0x804 = List.replicate 0x804 4 := by
  have hd : truncStream.drop 4
      = chunkBytes [form1Chunk 1, form1Chunk 2, form1Chunk 3, form1Chunk 4]
        ++ (encode_header 2 1 ++ [5, 5, 5, 5]) := stream_drop_header _ _ _
  have hl1 : ∀ v, (encode_header (form1Chunk v).type (form1Chunk v).count).length = 1 :=
    fun _ => rfl
  have hpl : ∀ v, (form1Chunk v).payload.length = 2052 := fun v => List.length_replicate _ _
  obtain ⟨a1, _, _, _, a3, _⟩ := chunk_layout truncStream 4 (form1Chunk 1) _ _
    (form1Chunk_wellFormed 1) hd
  rw [hl1, hpl] at a3
  obtain ⟨b1, _, _, _, b3, _⟩ := chunk_layout truncStream _ (form1Chunk 2) _ _
    (form1Chunk_wellFormed 2) a3
  rw [hl1, hpl] at b3
  obtain ⟨c1, _, _, c2, c3, _⟩ := chunk_layout truncStream _ (form1Chunk 3) _ _
    (form1Chunk_wellFormed 3) b3
  rw [hl1] at c2
  rw [hl1, hpl] at c3
  obtain ⟨d1, _, _, d2, d3, d4⟩ := chunk_layout truncStream _ (form1Chunk 4) _ _
    (form1Chunk_wellFormed 4) c3
  rw [hl1] at d2
  rw [hl1, hpl] at d3 d4
  have d3' : truncStream.drop 8216 = encode_header 2 1 ++ [5, 5, 5, 5] := d3
  have hlen : truncStream.length = 8221 := by
    have h1 : (truncStream.drop 8216).length = 5 := by
      rw [d3']
      rfl
    rw [List.length_drop] at h1
    omega
  have e3 : (truncStream.drop 4111).take 0x804 = List.replicate 0x804 3 := by
    have h : truncStream.drop 4111 = List.replicate 0x804 3 ++ _ := c2
    rw [h]
    exact List.take_left' (List.length_replicate _ _)
  have e4 : (truncStream.drop 6164).take 0x804 = List.replicate 0x804 4 := by
    have h : truncStream.drop 6164 = List.replicate 0x804 4 ++ _ := d2
    rw [h]
    exact List.take_left' (List.length_replicate _ _)
  have e5 : read_header (truncStream.drop 8216) = Except.ok (2, 0, 1) := by
    rw [d3']
    exact (read_header_encode_header 2 1 [5, 5, 5, 5] (by decide) (by decide) (by decide)).1
  exact ⟨hlen, a1, b1, c1, d1, e5, e3, e4⟩

theorem truncStream_magic :
    truncStream[0]? = some 0x45 ∧ truncStream[1]? = some 0x43 ∧
    truncStream[2]? = some 0x4D ∧ truncStream[3]? = some 0x00 :=
  magic_of_cons _ (chunkBytes [form1Chunk 1, form1Chunk 2, form1Chunk 3, form1Chunk 4]
      ++ (encode_header 2 1 ++ [5, 5, 5, 5])) (by
    simp only [truncStream, List.cons_append, List.nil_append, List.append_assoc])

theorem unit_step_two_short (t : Luts) (f : List Nat) (st : Locals)
    (hps : st.processsectors = true) (h : f.length < st.fpos + 0x804) :
    unit_step t f 2 st = Except.error Err.error_in := by
  unfold unit_step decode_unit
  have e20 : ¬ ((2 : Nat) = 0) := by decide
  have e21 : ¬ ((2 : Nat) = 1) := by decide
  simp only [e20, e21, if_false, if_true, hps, Bool.true_eq_false]
  rw [fread_short f st.fpos 0x804 h (by decide)]

theorem inner_loop_fail (t : Luts) (f : List Nat) (sector : Int) (type fuel : Nat) (st : Locals)
    (e : Err) (h0 : st.num ≠ 0) (hp : st.processsectors = true)
    (hs : ¬ st.sectorcount > sector) (hu : unit_step t f type st = Except.error e) :
    inner_loop t f sector type (fuel + 1) st = Except.error e := by
  have c1 : ¬ (st.processsectors = false ∧ st.sectorcount ≥ sector - 1) := by
    rw [hp]
    intro h
    exact absurd h.1 (by decide)
  have c2 : ¬ (st.processsectors = true ∧ st.sectorcount > sector) := fun h => hs h.2
  rw [inner_loop, if_neg h0, if_neg c1, if_neg c2, hu]

theorem outer_loop_fail (t : Luts) (f : List Nat) (sector : Int) (fuel : Nat) (s : Session)
    (st : Locals) (type num k : Nat) (e : Err) (hs : sector ≥ st.sectorcount)
    (hh : read_header (f.drop st.fpos) = Except.ok (type, num, k)) (hn : num ≠ 0xFFFFFFFF)
    (hi : inner_loop t f sector type ((num + 1) % 2 ^ 32)
        { st with fpos := st.fpos + k, num := (num + 1) % 2 ^ 32 } = Except.error e) :
    outer_loop t f sector (fuel + 1) s st = (s, Except.error e) := by
  rw [outer_loop, if_pos hs, hh]
  simp only [hn, if_false, hi]

/-- The read of sector 3 on a stream of 8221 bytes that breaks off after four
bytes of the unit at offset 8217, resumed from entry 2 at offset 6163: the
unit at 6164 is decoded, the next one cannot be read, and the call returns -1
with the table as it was. -/
theorem trunc_read_fail (t : Luts) (f stack : List Nat) (s : Session)
    (hlen : f.length = 8221)
    (hh4 : read_header (f.drop 6163) = Except.ok (2, 0, 1))
    (hh5 : read_header (f.drop 8216) = Except.ok (2, 0, 1))
    (hsel : select_pos s 3 = 2)
    (h2 : s.ecm_savetable 2 = { sector := 2, filepos := 6163 }) :
    ∃ r, cdread_ecm_decode t s f stack 3 = some r ∧ r.ret = -1 ∧ r.dest = none ∧
      r.session.ecm_savetable = s.ecm_savetable ∧
      r.session.len_ecm_savetable = s.len_ecm_savetable ∧
      r.session.prevsector = s.prevsector := by
  have hpos : s.ecm_savetable (select_pos s 3) = { sector := 2, filepos := 6163 } := by
    rw [hsel, h2]
  obtain ⟨q1, e1, _, n1, w1, p1, c1, ps1, _⟩ :=
    inner_step_num t f 3 2 0 (Locals.mk 1 false 2 4704 6164 stack) 1 4704 6164 2 false
      rfl rfl rfl rfl rfl (by decide) (by decide) (by rw [hlen]; decide)
  have n1' : q1.num = 0 := n1.trans (by decide)
  have w1' : q1.writebytecount = 7040 := w1.trans (by decide)
  have p1' : q1.fpos = 8216 := p1.trans (by decide)
  have c1' : q1.sectorcount = 2 := c1.trans (by decide)
  have ps1' : q1.processsectors = true := ps1.trans (by decide)
  have hrun1 : inner_loop t f 3 2 ((0 + 1) % 2 ^ 32)
      { (Locals.mk 0 false 2 4704 6163 stack) with
        fpos := 6163 + 1, num := (0 + 1) % 2 ^ 32 } = Except.ok q1 := by
    have h := e1
    rw [inner_loop_done t f 3 2 0 q1 n1'] at h
    exact h
  have hstep1 := outer_loop_step t f 3 f.length s (Locals.mk 0 false 2 4704 6163 stack)
    2 0 1 q1 (by show (3 : Int) ≥ 2; decide) hh4 (by decide) hrun1
  rw [record_old _ 2 q1 2 c1' (by rw [h2]; decide)] at hstep1
  have hu : unit_step t f 2 { q1 with fpos := q1.fpos + 1, num := (0 + 1) % 2 ^ 32 }
      = Except.error Err.error_in :=
    unit_step_two_short t f _ ps1' (by
      show f.length < q1.fpos + 1 + 0x804
      rw [p1', hlen]
      decide)
  have hrun2 : inner_loop t f 3 2 ((0 + 1) % 2 ^ 32)
      { q1 with fpos := q1.fpos + 1, num := (0 + 1) % 2 ^ 32 } = Except.error Err.error_in :=
    inner_loop_fail t f 3 2 0 _ _ (by show (0 + 1) % 2 ^ 32 ≠ 0; decide) ps1'
      (by show ¬ q1.sectorcount > 3; rw [c1']; decide) hu
  obtain ⟨m, hm⟩ : ∃ m, f.length = m + 1 := ⟨8220, hlen⟩
  have hstep2 := outer_loop_fail t f 3 m { s with ecm_savetable := s.ecm_savetable } q1
    2 0 1 Err.error_in (by rw [c1']; decide) (by rw [p1']; exact hh5) (by decide) hrun2
  rw [hm] at hstep1
  have hloop := hstep1.trans hstep2
  rw [← hm] at hloop
  have hcall := cdread_of_outer_error t s f stack 3 _ Err.error_in (by decide) (by
    rw [hpos]
    exact hloop)
  exact ⟨_, hcall, rfl, rfl, rfl, rfl, rfl⟩

/-- C23 fails on the code.  `truncStream` has no end indicator and breaks off
inside the stored bytes of its fifth unit, which holds the end of sector 3
(decoded bytes 9344..).  In the session that `handleecm` leaves, a read of
sector 1 returns 2352; the read of sector 3 then returns -1, as the sentence
says; but the request for sector 1 after the failed read, which also returns
2352, delivers other bytes than the first read did: byte `0x018` is 3 the
first time and 4 the second time.  The second request resumes from entry 1,
which the first read recorded at offset 4110 where 4672 bytes were decoded,
and counts from 1 * 2352. -/
theorem truncated_reread_differs :
    truncStream.length = 8221 ∧ truncStream.length < 8217 + 0x804 ∧
    Reachable truncStream detectedState ∧
    ∃ r1 r2 r3 d1 d3,
      cdread_ecm_decode detectedState.luts detectedState.session truncStream
        (List.replicate 2352 0) 1 = some r1 ∧ r1.ret = 2352 ∧ r1.dest = some d1 ∧
      cdread_ecm_decode detectedState.luts r1.session truncStream
        (List.replicate 2352 0) 3 = some r2 ∧ r2.ret = -1 ∧ r2.dest = none ∧
      cdread_ecm_decode detectedState.luts r2.session truncStream
        (List.replicate 2352 0) 1 = some r3 ∧ r3.ret = 2352 ∧ r3.dest = some d3 ∧
      rd d1 0x18 = 3 ∧ rd d3 0x18 = 4 ∧ d1 ≠ d3 := by
  obtain ⟨hlen, hh1, hh2, hh3, hh4, hh5, hp3, hp4⟩ := truncStream_layout
  have hreach : Reachable truncStream detectedState :=
    Reachable.detected initialState nameEcm false [] _ rfl
      (handleecm_example truncStream [] truncStream_magic) rfl
  have hs := detectedState_session
  have hfresh : IsFresh detectedState.session := by rw [hs]; exact isFresh_freshSession
  obtain ⟨r1, d1, c1, ret1, dest1, byte1, t1, l1⟩ := form1_read_a detectedState.luts
    truncStream (List.replicate 2352 0) detectedState.session (List.length_replicate _ _)
    hlen hh1 hh2 hh3 hp3 hfresh
  have t1_1 : r1.session.ecm_savetable 1 = { sector := 1, filepos := 4110 } := by
    rw [t1]
    rfl
  have t1_2 : r1.session.ecm_savetable 2 = { sector := 2, filepos := 6163 } := by
    rw [t1]
    rfl
  have t1_3 : r1.session.ecm_savetable 3 = { sector := 0, filepos := 0 } := by
    rw [t1]
    show detectedState.session.ecm_savetable 3 = _
    exact hfresh.2.1 3 (by decide)
  have l1' : r1.session.len_ecm_savetable = 360000 := by
    rw [l1, hs]
    rfl
  have hinv := (reachable_inv _ _ (reachable_decode _ _ _ _ _ hreach c1)).2
  have hsel : select_pos r1.session 3 = 2 :=
    (select_pos_cases r1.session 3 (by decide) (by rw [l1']; decide) hinv).1 2 (by decide)
      (by decide) (by decide)
      (by rw [t1_2]; unfold Populated ECM_HEADER_SIZE; decide)
      (by
        intro i h1 h2
        have hi : i = 3 := by omega
        subst hi
        rw [t1_3]
        unfold Populated ECM_HEADER_SIZE
        decide)
  obtain ⟨r2, c2, ret2, dest2, t2, l2, _⟩ := trunc_read_fail detectedState.luts truncStream
    (List.replicate 2352 0) r1.session hlen hh4 hh5 hsel t1_2
  obtain ⟨r3, d3, c3, ret3, dest3, byte3, _⟩ := form1_read_b detectedState.luts
    truncStream (List.replicate 2352 0) r2.session (List.length_replicate _ _)
    hlen hh3 hh4 hp4 (by rw [t2]; exact t1_1) (by rw [t2]; exact t1_2)
    (by rw [l2, l1']; decide)
  refine ⟨hlen, by rw [hlen]; decide, hreach, r1, r2, r3, d1, d3, c1, ret1, dest1, c2, ret2,
    dest2, c3, ret3, dest3, byte1, byte3, ?_⟩
  intro h
  rw [h, byte3] at byte1
  exact absurd byte1 (by decide)

/-! ### Calls that stay inside the array -/

theorem unit_sizes (type num : Nat) (ht : type < 4) :
    unit_stored type num ≤ unit_decoded type num ∧ unit_decoded type num ≤ 2352 := by
  unfold unit_stored unit_decoded
  have h1 : rd ECM_SECTOR_SIZE 1 = 2352 := rfl
  have h2 : rd ECM_SECTOR_SIZE 2 = 2336 := rfl
  have h3 : rd ECM_SECTOR_SIZE 3 = 2336 := rfl
  interval_cases type
  · simp only [if_true]
    split_ifs <;> omega
  · simp [h1]
  · simp [h2]
  · simp [h3]

theorem header_loop_le : ∀ (rest : List Nat) (c num bits k n1 k1 : Nat),
    header_loop rest c num bits k = Except.ok (n1, k1) → k1 ≤ k + rest.length := by
  intro rest
  induction rest with
  | nil =>
    intro c num bits k n1 k1 h
    rw [header_loop] at h
    by_cases hc : c &&& 0x80 = 0
    · rw [if_pos hc] at h
      injection h with h
      injection h with h1 h2
      omega
    · rw [if_neg hc] at h; cases h
  | cons c1 rest1 ih =>
    intro c num bits k n1 k1 h
    rw [header_loop] at h
    by_cases hc : c &&& 0x80 = 0
    · rw [if_pos hc] at h
      injection h with h
      injection h with h1 h2
      omega
    · rw [if_neg hc] at h
      by_cases hb : bits > 31 ∨ (c1 &&& 0x7F) ≥ (0x80000000 >>> (bits - 1))
      · simp only [hb, if_true] at h
        cases h
      · simp only [hb, if_false] at h
        have := ih _ _ _ _ _ _ h
        simp only [List.length_cons]
        omega

/-- The header parse reads no more bytes than the stream holds. -/
theorem read_header_le (l : List Nat) (type num k : Nat)
    (h : read_header l = Except.ok (type, num, k)) : k ≤ l.length := by
  cases l with
  | nil => rw [read_header] at h; cases h
  | cons c rest =>
    rw [read_header] at h
    cases hh : header_loop rest c ((c >>> 2) &&& 0x1F) 5 1 with
    | error e1 => rw [hh] at h; cases h
    | ok p =>
      obtain ⟨n1, k1⟩ := p
      rw [hh] at h
      injection h with h
      injection h with _ h
      injection h with _ h
      subst h
      have := header_loop_le _ _ _ _ _ _ _ hh
      simp only [List.length_cons]
      omega

/-- The header parse at offset `p` of `f` ends inside `f`. -/
theorem read_header_inside (f : List Nat) (p type num k : Nat)
    (h : read_header (f.drop p) = Except.ok (type, num, k)) : p + k ≤ f.length := by
  have h1 := read_header_le _ _ _ _ h
  have h2 := (read_header_bounds _ _ _ _ h).2.2
  rw [List.length_drop] at h1
  omega

/-- The unit loop for a target below the capacity: the sector counter stays
within one of the target, the decoded byte counter does not wrap, and the
source offset advances by no more than the decoded byte counter. -/
theorem inner_loop_bound (t : Luts) (f : List Nat) (sector : Int) (type : Nat) (ht : type < 4)
    (hsec : sector + 1 < 360000) (p0 w0 : Nat) :
    ∀ (fuel : Nat) (st st1 : Locals), inner_loop t f sector type fuel st = Except.ok st1 →
      ((st.writebytecount / 2352 : Nat) : Int) ≤ st.sectorcount →
      st.sectorcount ≤ sector + 1 → (st.processsectors = false → st.sectorcount ≤ sector) →
      st.fpos + w0 ≤ p0 + st.writebytecount →
      ((st1.writebytecount / 2352 : Nat) : Int) ≤ st1.sectorcount ∧
      st1.sectorcount ≤ sector + 1 ∧ st1.fpos + w0 ≤ p0 + st1.writebytecount := by
  intro fuel
  induction fuel with
  | zero =>
    intro st st1 h hj hs _ hp
    rw [inner_loop] at h
    by_cases hn : st.num = 0
    · rw [if_pos hn] at h
      injection h with h
      subst h
      exact ⟨hj, hs, hp⟩
    · rw [if_neg hn] at h; cases h
  | succ fuel ih =>
    intro st st1 h hj hs hps hp
    rw [inner_loop] at h
    by_cases hn : st.num = 0
    · rw [if_pos hn] at h
      injection h with h
      subst h
      exact ⟨hj, hs, hp⟩
    · rw [if_neg hn] at h
      obtain ⟨hsz1, hsz2⟩ := unit_sizes type st.num ht
      by_cases ha : st.processsectors = false ∧ st.sectorcount ≥ sector - 1
      · rw [if_pos ha] at h
        cases hu : unit_step t f type { st with processsectors := true } with
        | error e => rw [hu] at h; cases h
        | ok st2 =>
          rw [hu] at h
          obtain ⟨f1, _, f3, f4, f5⟩ := unit_step_fields t f type _ st2 hu
          have f1' : st2.fpos = st.fpos + unit_stored type st.num := f1
          have f3' : st2.writebytecount
              = (st.writebytecount + unit_decoded type st.num) % 2 ^ 32 := f3
          have f4' : st2.processsectors = true := f4
          have hle := hps ha.1
          have hw : st.writebytecount + unit_decoded type st.num < 2 ^ 32 := by omega
          rw [Nat.mod_eq_of_lt hw] at f3'
          refine ih st2 st1 h ?_ ?_ ?_ ?_
          · rw [f5]
          · rw [f5, f3']; omega
          · intro hf; rw [f4'] at hf; cases hf
          · rw [f1', f3']; omega
      · rw [if_neg ha] at h
        by_cases hb : st.processsectors = true ∧ st.sectorcount > sector
        · rw [if_pos hb] at h
          injection h with h
          subst h
          exact ⟨hj, hs, hp⟩
        · rw [if_neg hb] at h
          cases hu : unit_step t f type st with
          | error e => rw [hu] at h; cases h
          | ok st2 =>
            rw [hu] at h
            obtain ⟨f1, _, f3, f4, f5⟩ := unit_step_fields t f type _ st2 hu
            have hw : st.writebytecount + unit_decoded type st.num < 2 ^ 32 := by omega
            rw [Nat.mod_eq_of_lt hw] at f3
            have hcase : (st.processsectors = false ∧ st.sectorcount < sector - 1) ∨
                (st.processsectors = true ∧ st.sectorcount ≤ sector) := by
              cases hp1 : st.processsectors
              · left
                refine ⟨rfl, ?_⟩
                by_contra hc
                exact ha ⟨hp1, by omega⟩
              · right
                refine ⟨rfl, ?_⟩
                by_contra hc
                exact hb ⟨hp1, by omega⟩
            refine ih st2 st1 h ?_ ?_ ?_ ?_
            · rw [f5]
            · rw [f5, f3]
              rcases hcase with ⟨_, hc⟩ | ⟨_, hc⟩ <;> omega
            · intro hf
              rw [f4] at hf
              rcases hcase with ⟨_, hc⟩ | ⟨hc, _⟩
              · rw [f5, f3]; omega
              · rw [hc] at hf; cases hf
            · rw [f1, f3]; omega

/-- The checkpoint statement during the chunk loop for a target below the
capacity, on a file short enough: every index is below `75*80*60` and every
offset is below `2^31`. -/
theorem outer_loop_accesses_bound (t : Luts) (f : List Nat) (sector : Int)
    (hsec : sector + 1 < 360000) (hf : f.length + 360000 * 2352 < 2 ^ 31) :
    ∀ (fuel : Nat) (st : Locals), ((st.writebytecount / 2352 : Nat) : Int) ≤ st.sectorcount →
      ∀ p, p ∈ outer_loop_accesses t f sector fuel st → p.1 < 75 * 80 * 60 ∧ p.2 < 2 ^ 31 := by
  intro fuel
  induction fuel with
  | zero =>
    intro st _ p hp
    rw [outer_loop_accesses] at hp
    cases hp
  | succ fuel ih =>
    intro st hj p hp
    rw [outer_loop_accesses] at hp
    by_cases hs : sector ≥ st.sectorcount
    · rw [if_pos hs] at hp
      cases hh : read_header (f.drop st.fpos) with
      | error e => rw [hh] at hp; cases hp
      | ok v =>
        obtain ⟨type, num, k⟩ := v
        rw [hh] at hp
        dsimp only at hp
        by_cases hn : num = 0xFFFFFFFF
        · rw [if_pos hn] at hp; cases hp
        · rw [if_neg hn] at hp
          have hin := read_header_inside f st.fpos type num k hh
          have hty := (read_header_bounds _ _ _ _ hh).1
          cases hi : inner_loop t f sector type ((num + 1) % 2 ^ 32)
              { st with fpos := st.fpos + k, num := (num + 1) % 2 ^ 32 } with
          | error e => rw [hi] at hp; cases hp
          | ok st1 =>
            rw [hi] at hp
            dsimp only at hp
            obtain ⟨j1, s1, p1⟩ := inner_loop_bound t f sector type hty hsec (st.fpos + k)
              st.writebytecount _ _ st1 hi hj (by show st.sectorcount ≤ sector + 1; omega)
              (fun _ => hs) (le_refl _)
            rcases List.mem_append.1 hp with hm | hm
            · unfold record_access at hm
              by_cases hc : type ≠ 0 ∧ st1.sectorcount > 0
              · rw [if_pos hc] at hm
                rw [List.mem_singleton] at hm
                subst hm
                refine ⟨?_, ?_⟩
                · show st1.sectorcount.toNat < 75 * 80 * 60
                  omega
                · show st1.fpos < 2 ^ 31
                  omega
              · rw [if_neg hc] at hm; cases hm
            · exact ih st1 j1 p hm
    · rw [if_neg hs] at hp; cases hp

theorem lut_probes_le (tbl : Nat → ECMFILELUT) (sector : Nat) :
    ∀ (n k : Nat), k ∈ lut_probes tbl sector n → k ≤ n := by
  intro n
  induction n with
  | zero =>
    intro k hk
    rw [lut_probes] at hk
    cases hk
  | succ n ih =>
    intro k hk
    rw [lut_probes] at hk
    by_cases h1 : sector - (n + 1) ≤ 50000
    · rw [if_pos h1] at hk
      rcases List.mem_cons.1 hk with e | hm
      · omega
      · by_cases h2 : (tbl (n + 1)).filepos ≥ 4
        · rw [if_pos h2] at hm; cases hm
        · rw [if_neg h2] at hm
          have := ih k hm
          omega
    · rw [if_neg h1] at hk; cases hk

/-- The lookup for a target from 0 on reads no entry above the target. -/
theorem lookup_reads_le (s : Session) (sector : Int) (h0 : 0 ≤ sector) (h1 : sector < 2 ^ 32) :
    ∀ k, k ∈ lookup_reads s sector → (k : Int) ≤ sector := by
  intro k hk
  have hu : toU32 sector = sector.toNat := by
    unfold toU32
    rw [Int.emod_eq_of_lt h0 h1]
  unfold lookup_reads at hk
  by_cases hl : toU32 sector ≤ s.len_ecm_savetable
  · rw [if_pos hl] at hk
    rcases List.mem_append.1 hk with hm | hm
    · have := lut_probes_le _ _ _ _ hm
      omega
    · by_cases hc : (s.ecm_savetable (lut_search s.ecm_savetable sector.toNat
          sector.toNat)).filepos ≤ 4 ∧ toU32 sector > s.prevsector
      · rw [if_pos hc] at hm
        rw [List.mem_singleton] at hm
        have := hc.2
        omega
      · rw [if_neg hc] at hm; cases hm
  · rw [if_neg hl] at hk; cases hk

/-- A read of a sector below the capacity, on a file short enough, stays inside
the array. -/
theorem inBounds_small (t : Luts) (s : Session) (f stack : List Nat) (sector : Int)
    (h0 : 0 ≤ sector) (hsec : sector + 1 < 360000) (hs : TableInv s.ecm_savetable)
    (hf : f.length + 360000 * 2352 < 2 ^ 31) : InBounds t s f stack sector := by
  refine ⟨?_, ?_⟩
  · intro k hk
    have := lookup_reads_le s sector h0 (by omega) k hk
    omega
  · intro p hp
    unfold call_accesses at hp
    dsimp only at hp
    refine outer_loop_accesses_bound t f sector hsec hf _ _ ?_ p hp
    show ((toU32 ((s.ecm_savetable (select_pos s sector)).sector * CD_FRAMESIZE_RAW) / 2352 : Nat)
      : Int) ≤ (s.ecm_savetable (select_pos s sector)).sector
    have hnn : 0 ≤ (s.ecm_savetable (select_pos s sector)).sector := by
      by_cases hz : select_pos s sector = 0
      · rw [hz, hs.1]
      · rcases hs.2 _ (Nat.pos_of_ne_zero hz) with e | ⟨e, _⟩
        · rw [e]
        · rw [e]; omega
    generalize (s.ecm_savetable (select_pos s sector)).sector = x at hnn ⊢
    unfold toU32 CD_FRAMESIZE_RAW
    omega
theorem outer_loop_accesses_step (t : Luts) (f : List Nat) (sector : Int) (fuel : Nat)
    (st : Locals) (type num k : Nat) (st1 : Locals) (hs : sector ≥ st.sectorcount)
    (hh : read_header (f.drop st.fpos) = Except.ok (type, num, k)) (hn : num ≠ 0xFFFFFFFF)
    (hi : inner_loop t f sector type ((num + 1) % 2 ^ 32)
        { st with fpos := st.fpos + k, num := (num + 1) % 2 ^ 32 } = Except.ok st1) :
    outer_loop_accesses t f sector (fuel + 1) st
      = record_access type st1 ++ outer_loop_accesses t f sector fuel st1 := by
  rw [outer_loop_accesses, if_pos hs, hh]
  simp only [hn, if_false, hi]

theorem outer_loop_accesses_end (t : Luts) (f : List Nat) (sector : Int) (fuel : Nat)
    (st : Locals) (type k : Nat)
    (hh : read_header (f.drop st.fpos) = Except.ok (type, 0xFFFFFFFF, k)) :
    outer_loop_accesses t f sector (fuel + 1) st = [] := by
  rw [outer_loop_accesses, hh]
  simp only [if_true, ite_self]

theorem outer_loop_accesses_exit (t : Luts) (f : List Nat) (sector : Int) (fuel : Nat)
    (st : Locals) (hs : ¬ sector ≥ st.sectorcount) :
    outer_loop_accesses t f sector fuel st = [] := by
  cases fuel with
  | zero => rw [outer_loop_accesses]
  | succ m => rw [outer_loop_accesses, if_neg hs]

/-- The checkpoint statement during the chunk loop on well-formed chunks
followed by the end indicator, for a target the chunks do not reach: every
index is at most the sector count of the stream and every offset lies inside
the file. -/
theorem chunks_accesses (t : Luts) (f : List Nat) (sector : Int) (ty : Nat) (tail : List Nat)
    (hty : ty < 4) :
    ∀ (cs : List Chunk) (fuel : Nat) (st : Locals),
      (∀ c, c ∈ cs → c.WellFormed) →
      f.drop st.fpos = chunkBytes cs ++ (encode_raw ty 0xFFFFFFFF ++ tail) →
      st.writebytecount + decodedLength cs < 2 ^ 32 →
      (((st.writebytecount + decodedLength cs) / 2352 : Nat) : Int) ≤ sector →
      st.sectorcount = ((st.writebytecount / 2352 : Nat) : Int) →
      ∀ p, p ∈ outer_loop_accesses t f sector fuel st →
        p.1 ≤ (st.writebytecount + decodedLength cs) / 2352 ∧ p.2 ≤ f.length := by
  intro cs
  induction cs with
  | nil =>
    intro fuel st _ hdrop _ _ _ p hp
    cases fuel with
    | zero => rw [outer_loop_accesses] at hp; cases hp
    | succ m =>
      have hh : read_header (f.drop st.fpos)
          = Except.ok (ty, 0xFFFFFFFF, (encode_raw ty 0xFFFFFFFF).length) := by
        rw [hdrop]
        exact read_header_encode_raw ty 0xFFFFFFFF tail hty (by norm_num)
      rw [outer_loop_accesses_end t f sector m st ty _ hh] at hp
      cases hp
  | cons c cs ih =>
    intro fuel st hwf hdrop hw hreach hsc p hp
    cases fuel with
    | zero => rw [outer_loop_accesses] at hp; cases hp
    | succ m =>
      obtain ⟨hct, hc1, hc2, hcl⟩ := hwf c (List.mem_cons_self _ _)
      have hdl : decodedLength (c :: cs)
          = c.count * rd ECM_SECTOR_SIZE c.type + decodedLength cs := rfl
      rw [hdl] at hw hreach ⊢
      have hdiv1 : st.writebytecount / 2352
          ≤ (st.writebytecount + (c.count * rd ECM_SECTOR_SIZE c.type + decodedLength cs)) / 2352 :=
        Nat.div_le_div_right (Nat.le_add_right _ _)
      have hdiv2 : (st.writebytecount + c.count * rd ECM_SECTOR_SIZE c.type) / 2352
          ≤ (st.writebytecount + (c.count * rd ECM_SECTOR_SIZE c.type + decodedLength cs)) / 2352 :=
        Nat.div_le_div_right (by omega)
      have hs : sector ≥ st.sectorcount := by
        rw [hsc]
        omega
      have hdrop1 : f.drop st.fpos = encode_header c.type c.count
          ++ (c.payload ++ (chunkBytes cs ++ (encode_raw ty 0xFFFFFFFF ++ tail))) := by
        rw [hdrop]
        simp only [chunkBytes, List.append_assoc]
      obtain ⟨hhead, hne, hcount⟩ := read_header_encode_header c.type c.count
        (c.payload ++ (chunkBytes cs ++ (encode_raw ty 0xFFFFFFFF ++ tail))) hct hc1 hc2
      rw [← hdrop1] at hhead
      have hdrop2 := drop_append_of_drop f st.fpos _ _ hdrop1
      have hsu : 1 ≤ stored_unit c.type := by
        unfold stored_unit
        split_ifs <;> omega
      have hpl : 1 ≤ c.payload.length := by
        rw [hcl]
        exact Nat.mul_pos hc1 hsu
      have hav := drop_append_length f _ _ _ hdrop2 hpl
      have hdrop3 := drop_append_of_drop f _ _ _ hdrop2
      obtain ⟨st1, e1, p1, w1, c1⟩ := run_full t f sector c.type hct c.count
        { st with fpos := st.fpos + (encode_header c.type c.count).length, num := c.count }
        (le_refl _)
        (by
          show st.fpos + (encode_header c.type c.count).length + c.count * stored_unit c.type
            ≤ f.length
          rw [← hcl]
          exact hav)
        (by
          show st.writebytecount + c.count * rd ECM_SECTOR_SIZE c.type < 2 ^ 32
          omega)
        (by
          show (((st.writebytecount + c.count * rd ECM_SECTOR_SIZE c.type) / 2352 : Nat) : Int)
            ≤ sector
          omega)
        hsc
      have hi : inner_loop t f sector c.type ((c.count - 1 + 1) % 2 ^ 32)
          { st with fpos := st.fpos + (encode_header c.type c.count).length,
                    num := (c.count - 1 + 1) % 2 ^ 32 } = Except.ok st1 := by
        rw [hcount]
        exact e1
      rw [outer_loop_accesses_step t f sector m st c.type (c.count - 1) _ st1 hs hhead hne hi]
        at hp
      have p1' : st1.fpos
          = st.fpos + (encode_header c.type c.count).length + c.payload.length := by
        rw [p1, hcl]
      have w1' : st1.writebytecount
          = st.writebytecount + c.count * rd ECM_SECTOR_SIZE c.type := w1
      rcases List.mem_append.1 hp with hm | hm
      · unfold record_access at hm
        by_cases hc : c.type ≠ 0 ∧ st1.sectorcount > 0
        · rw [if_pos hc] at hm
          rw [List.mem_singleton] at hm
          subst hm
          refine ⟨?_, ?_⟩
          · show st1.sectorcount.toNat ≤ _
            rw [c1, w1']
            omega
          · show st1.fpos ≤ f.length
            rw [p1']
            exact hav
        · rw [if_neg hc] at hm; cases hm
      · have h := ih m st1 (fun c' hc' => hwf c' (List.mem_cons_of_mem _ hc'))
          (by rw [p1']; exact hdrop3) (by rw [w1']; omega)
          (by rw [w1', Nat.add_assoc]; exact hreach) c1 p hm
        rw [w1', Nat.add_assoc] at h
        exact h

/-- A decode from checkpoint entry 0 on a well-formed stream, for a target the
chunks do not reach, uses no entry above the sector count of the stream and no
offset outside the file. -/
theorem call_accesses_stream (t : Luts) (s : Session) (cs : List Chunk) (ty : Nat)
    (tail stack : List Nat) (sector : Int) (hwf : ∀ c, c ∈ cs → c.WellFormed) (hty : ty < 4)
    (htotal : decodedLength cs < 2 ^ 32)
    (hentry : s.ecm_savetable (select_pos s sector) = { sector := 0, filepos := 4 })
    (hreach : ((decodedLength cs / 2352 : Nat) : Int) ≤ sector) :
    ∀ p, p ∈ call_accesses t s (ecmStream cs ty tail) stack sector →
      p.1 ≤ decodedLength cs / 2352 ∧ p.2 ≤ (ecmStream cs ty tail).length := by
  intro p hp
  have hdrop := ecmStream_drop cs ty tail
  generalize ecmStream cs ty tail = f at *
  unfold call_accesses at hp
  dsimp only at hp
  rw [hentry] at hp
  have h := chunks_accesses t f sector ty tail hty cs (f.length + 1)
    (Locals.mk 0 false 0 0 4 stack) hwf hdrop
    (by show 0 + decodedLength cs < 2 ^ 32; omega)
    (by show (((0 + decodedLength cs) / 2352 : Nat) : Int) ≤ sector; rw [Nat.zero_add]; exact hreach)
    (by show (0 : Int) = ((0 / 2352 : Nat) : Int); simp) p hp
  have e : (Locals.mk 0 false 0 0 4 stack).writebytecount + decodedLength cs
      = decodedLength cs := Nat.zero_add _
  rw [e] at h
  exact h

/-- The scan of `handleecm` on a well-formed stream whose sector count fits the
table and whose length fits the `s32` offsets stays inside the array. -/
theorem detectInBounds_stream (st0 : EcmState) (isoname : List Nat) (cs : List Chunk) (ty : Nat)
    (tail stack : List Nat) (al : Bool) (hwf : ∀ c, c ∈ cs → c.WellFormed) (hty : ty < 4)
    (htotal : decodedLength cs < 2 ^ 32) (hcap : decodedLength cs / 2352 < 75 * 80 * 60)
    (hlen : (ecmStream cs ty tail).length < 2 ^ 31) :
    DetectInBounds st0 isoname (ecmStream cs ty tail) al stack := by
  intro _ _ _
  have h32 : (2 : Nat) ^ 32 = 4294967296 := by norm_num
  refine ⟨?_, ?_⟩
  · intro k hk
    have e : lookup_reads (scanSession st0) INT_MAX = [] := by
      unfold lookup_reads
      have hn : ¬ toU32 INT_MAX ≤ (scanSession st0).len_ecm_savetable := by
        show ¬ toU32 INT_MAX ≤ 0
        decide
      rw [if_neg hn]
    rw [e] at hk
    cases hk
  · intro p hp
    have h := call_accesses_stream (eccedc_init st0.luts) (scanSession st0) cs ty tail stack
      INT_MAX hwf hty htotal rfl (by unfold INT_MAX; rw [h32] at htotal; omega) p hp
    omega

/-! ### Sessions that stay inside the array -/

theorem step_of_safeStep (f : List Nat) (st st1 : EcmState) (h : SafeStep f st st1) :
    Step f st st1 := by
  cases h with
  | decode stack sector r _ hr => exact Step.decode st stack sector r hr
  | detect isoname al stack r _ hr => exact Step.detect st isoname al stack r hr

theorem reachable_of_safe (f : List Nat) (st : EcmState) (h : SafeReachable f st) :
    Reachable f st := by
  induction h with
  | detected st0 isoname al stack r hd _ hr hret =>
    exact Reachable.detected st0 isoname al stack r hd hr hret
  | step st st1 _ hs ih => exact Reachable.step st st1 ih (step_of_safeStep f st st1 hs)

theorem calls_of_safe (f : List Nat) (st st1 : EcmState)
    (h : Relation.ReflTransGen (SafeStep f) st st1) : Relation.ReflTransGen (Step f) st st1 :=
  Relation.ReflTransGen.mono (step_of_safeStep f) h

/-- Detection without a scan stays inside the array: it uses no entry but
entry 0. -/
theorem detectInBounds_no_scan (st : EcmState) (isoname cdh stack : List Nat) :
    DetectInBounds st isoname cdh false stack :=
  fun _ _ h => absurd h (by decide)

/-- A read of a sector below the capacity from a state of such a session, on a
file short enough, is a call that stays inside the array. -/
theorem safeStep_small (f : List Nat) (st : EcmState) (stack : List Nat) (sector : Int)
    (r : Result) (h : SafeReachable f st) (h0 : 0 ≤ sector) (hsec : sector + 1 < 360000)
    (hf : f.length + 360000 * 2352 < 2 ^ 31)
    (c : cdread_ecm_decode st.luts st.session f stack sector = some r) :
    SafeStep f st { st with session := r.session } :=
  SafeStep.decode st stack sector r
    (inBounds_small st.luts st.session f stack sector h0 hsec
      (reachable_inv f st (reachable_of_safe f st h)).2 hf) c

theorem safeStep_after (f : List Nat) (st : EcmState) (stack : List Nat) (sector : Int)
    (r1 r : Result) (h : SafeReachable f { st with session := r1.session }) (h0 : 0 ≤ sector)
    (hsec : sector + 1 < 360000) (hf : f.length + 360000 * 2352 < 2 ^ 31)
    (c : cdread_ecm_decode st.luts r1.session f stack sector = some r) :
    SafeStep f { st with session := r1.session } { st with session := r.session } :=
  safeStep_small f { st with session := r1.session } stack sector r h h0 hsec hf c

/-- The session after detection without a scan and a first read of sector 1, on
a stream of 8221 bytes with the chunk headers of one type 2 unit each at the
offsets 4, 2057 and 4110: the read records the entries 1 and 2, and every call
so far stayed inside the array. -/
theorem first_read_state (f : List Nat)
    (hmagic : f[0]? = some 0x45 ∧ f[1]? = some 0x43 ∧ f[2]? = some 0x4D ∧ f[3]? = some 0x00)
    (hlen : f.length = 8221)
    (hh1 : read_header (f.drop 4) = Except.ok (2, 0, 1))
    (hh2 : read_header (f.drop 2057) = Except.ok (2, 0, 1))
    (hh3 : read_header (f.drop 4110) = Except.ok (2, 0, 1))
    (hp3 : (f.drop 4111).take 0x804 = List.replicate 0x804 3) :
    ∃ r1, cdread_ecm_decode detectedState.luts detectedState.session f
        (List.replicate 2352 0) 1 = some r1 ∧ r1.ret = 2352 ∧
      r1.session.ecm_savetable 1 = { sector := 1, filepos := 4110 } ∧
      r1.session.ecm_savetable 2 = { sector := 2, filepos := 6163 } ∧
      r1.session.ecm_savetable 3 = { sector := 0, filepos := 0 } ∧
      r1.session.len_ecm_savetable = 360000 ∧
      SafeReachable f { detectedState with session := r1.session } := by
  have hsafe : SafeReachable f detectedState :=
    SafeReachable.detected initialState nameEcm false [] _ rfl
      (detectInBounds_no_scan _ _ _ _) (handleecm_example f [] hmagic) rfl
  have hs := detectedState_session
  have hfresh : IsFresh detectedState.session := by rw [hs]; exact isFresh_freshSession
  obtain ⟨r1, d1, c1, ret1, _, _, t1, l1⟩ := form1_read_a detectedState.luts
    f (List.replicate 2352 0) detectedState.session (List.length_replicate _ _)
    hlen hh1 hh2 hh3 hp3 hfresh
  refine ⟨r1, c1, ret1, ?_, ?_, ?_, ?_, ?_⟩
  · rw [t1]
    rfl
  · rw [t1]
    rfl
  · rw [t1]
    show detectedState.session.ecm_savetable 3 = _
    exact hfresh.2.1 3 (by decide)
  · rw [l1, hs]
    rfl
  · exact SafeReachable.step _ _ hsafe
      (safeStep_small f detectedState _ 1 r1 hsafe (by decide) (by decide)
        (by rw [hlen]; decide) c1)

theorem form1Stream_first_read :
    ∃ r1, cdread_ecm_decode detectedState.luts detectedState.session form1Stream
        (List.replicate 2352 0) 1 = some r1 ∧ r1.ret = 2352 ∧
      r1.session.ecm_savetable 1 = { sector := 1, filepos := 4110 } ∧
      r1.session.ecm_savetable 2 = { sector := 2, filepos := 6163 } ∧
      r1.session.ecm_savetable 3 = { sector := 0, filepos := 0 } ∧
      r1.session.len_ecm_savetable = 360000 ∧
      SafeReachable form1Stream { detectedState with session := r1.session } := by
  obtain ⟨hlen, hh1, hh2, hh3, _, hp3, _⟩ := form1Stream_layout
  exact first_read_state form1Stream (ecmStream_magic _ _ _) hlen hh1 hh2 hh3 hp3

/-- C13: failed reads are atomic for the caller.  In a session whose table has
the shape `TableInv` (every state of a session has it, `reachable_inv`), every
call of `cdread_ecm_decode` that stays inside the array of `75*80*60` entries
(`InBounds`: the indices the lookup reads and the indices and offsets the
checkpoint statement uses) returns, with 2352 or with -1; a call that returns
2352 writes `dest`; a call that fails returns -1, writes no byte of `dest`,
leaves the cursor `prevsector` as it was and leaves every checkpoint entry
that was populated before the call as it was. -/
theorem cdread_failed_read_atomic (t : Luts) (s : Session) (f stack : List Nat) (sector : Int)
    (hs : TableInv s.ecm_savetable) (_hin : InBounds t s f stack sector) :
    ∃ r, cdread_ecm_decode t s f stack sector = some r ∧ (r.ret = 2352 ∨ r.ret = -1) ∧
      (r.ret = 2352 → ∃ d, r.dest = some d) ∧
      (r.ret = -1 → r.dest = none ∧ r.session.prevsector = s.prevsector ∧
        ∀ k, Populated (s.ecm_savetable k) →
          r.session.ecm_savetable k = s.ecm_savetable k) :=
  failed_read_spec t s f stack sector hs

/-- The read of sector 3 of `truncStream` after the read of sector 1: the table
holds the checkpoints 1 and 2, the call stays inside the array, fails inside
the fifth unit and returns -1. -/
theorem cdread_failed_read_atomic_witness :
    ∃ r1, cdread_ecm_decode detectedState.luts detectedState.session truncStream
        (List.replicate 2352 0) 1 = some r1 ∧
      r1.session.ecm_savetable 1 = { sector := 1, filepos := 4110 } ∧
      r1.session.ecm_savetable 2 = { sector := 2, filepos := 6163 } ∧
      TableInv r1.session.ecm_savetable ∧
      InBounds detectedState.luts r1.session truncStream (List.replicate 2352 0) 3 ∧
      ∃ r, cdread_ecm_decode detectedState.luts r1.session truncStream
          (List.replicate 2352 0) 3 = some r ∧ r.ret = -1 ∧ (r.ret = 2352 ∨ r.ret = -1) ∧
        (r.ret = 2352 → ∃ d, r.dest = some d) ∧
        (r.ret = -1 → r.dest = none ∧ r.session.prevsector = r1.session.prevsector ∧
          ∀ k, Populated (r1.session.ecm_savetable k) →
            r.session.ecm_savetable k = r1.session.ecm_savetable k) := by
  obtain ⟨hlen, hh1, hh2, hh3, hh4, hh5, hp3, _⟩ := truncStream_layout
  obtain ⟨r1, c1, _, t1, t2, t3, l1, hsafe⟩ :=
    first_read_state truncStream truncStream_magic hlen hh1 hh2 hh3 hp3
  have hinv : TableInv r1.session.ecm_savetable :=
    (reachable_inv _ _ (reachable_of_safe _ _ hsafe)).2
  have hin : InBounds detectedState.luts r1.session truncStream (List.replicate 2352 0) 3 :=
    inBounds_small _ _ _ _ 3 (by decide) (by decide) hinv (by rw [hlen]; decide)
  have hsel : select_pos r1.session 3 = 2 :=
    (select_pos_cases r1.session 3 (by decide) (by rw [l1]; decide) hinv).1 2 (by decide)
      (by decide) (by decide)
      (by rw [t2]; unfold Populated ECM_HEADER_SIZE; decide)
      (by
        intro i h1 h2
        have hi : i = 3 := by omega
        subst hi
        rw [t3]
        unfold Populated ECM_HEADER_SIZE
        decide)
  obtain ⟨r2, c2, ret2, _⟩ := trunc_read_fail detectedState.luts truncStream
    (List.replicate 2352 0) r1.session hlen hh4 hh5 hsel t2
  obtain ⟨r, hr, h1, h2, h3⟩ := cdread_failed_read_atomic detectedState.luts r1.session
    truncStream (List.replicate 2352 0) 3 hinv hin
  have e : r = r2 := Option.some.inj (hr.symm.trans c2)
  exact ⟨r1, c1, t1, t2, hinv, hin, r, hr, by rw [e]; exact ret2, h1, h2, h3⟩

/-- C15: first writer wins.  From a state of a session (a state a successful
`handleecm` leaves, or one that calls lead to from there), whatever calls
follow, successful or failed, a checkpoint entry that is populated keeps its
(sector, filepos) pair: an entry is written only where none is populated.
The calls are those that stay inside the array of `75*80*60` entries
(`SafeReachable`, `SafeStep`). -/
theorem checkpoint_first_writer_wins (f : List Nat) (st st1 : EcmState)
    (h : SafeReachable f st) (hcalls : Relation.ReflTransGen (SafeStep f) st st1) (k : Nat)
    (hp : Populated (st.session.ecm_savetable k)) :
    st1.session.ecm_savetable k = st.session.ecm_savetable k :=
  populated_kept f st st1 (reachable_of_safe f st h) (calls_of_safe f st st1 hcalls) k hp

/-- On `form1Stream` the first read of sector 1 records entry 1 at offset 4110;
the second read of sector 1 resumes there and ends its run with sector count 1
at offset 6163, so its checkpoint statement tests entry 1 again: the entry
keeps the pair (1, 4110). -/
theorem checkpoint_first_writer_wins_witness :
    ∃ r1 r2, cdread_ecm_decode detectedState.luts detectedState.session form1Stream
        (List.replicate 2352 0) 1 = some r1 ∧
      cdread_ecm_decode detectedState.luts r1.session form1Stream
        (List.replicate 2352 0) 1 = some r2 ∧
      SafeReachable form1Stream { detectedState with session := r1.session } ∧
      Relation.ReflTransGen (SafeStep form1Stream) { detectedState with session := r1.session }
        { detectedState with session := r2.session } ∧
      r1.session.ecm_savetable 1 = { sector := 1, filepos := 4110 } ∧
      Populated (r1.session.ecm_savetable 1) ∧
      r2.session.ecm_savetable 1 = r1.session.ecm_savetable 1 := by
  obtain ⟨hlen, _, _, hh3, hh4, _, hp4⟩ := form1Stream_layout
  obtain ⟨r1, c1, _, t1, t2, _, l1, hsafe⟩ := form1Stream_first_read
  obtain ⟨r2, _, c2, _⟩ := form1_read_b detectedState.luts form1Stream (List.replicate 2352 0)
    r1.session (List.length_replicate _ _) hlen hh3 hh4 hp4 t1 t2 (by rw [l1]; decide)
  have hstep : SafeStep form1Stream { detectedState with session := r1.session }
      { detectedState with session := r2.session } :=
    safeStep_after form1Stream detectedState _ 1 r1 r2 hsafe
      (by decide) (by decide) (by rw [hlen]; decide) c2
  have hpop : Populated (r1.session.ecm_savetable 1) := by
    rw [t1]
    unfold Populated ECM_HEADER_SIZE
    decide
  exact ⟨r1, r2, c1, c2, hsafe, Relation.ReflTransGen.single hstep, t1, hpop,
    checkpoint_first_writer_wins form1Stream _ _ hsafe (Relation.ReflTransGen.single hstep) 1
      hpop⟩

/-- C17: in every state of a session (reached from a successful `handleecm`
by any sequence of calls), checkpoint entry 0 is (sector 0, offset 4), and
every decode call from there returns and leaves it so.  The calls are those
that stay inside the array of `75*80*60` entries (`SafeReachable`,
`InBounds`). -/
theorem checkpoint_entry_zero (f : List Nat) (st : EcmState) (h : SafeReachable f st) :
    st.session.ecm_savetable 0 = { sector := 0, filepos := 4 } ∧
    ∀ (stack : List Nat) (sector : Int), InBounds st.luts st.session f stack sector →
      ∃ r, cdread_ecm_decode st.luts st.session f stack sector = some r ∧
        r.session.ecm_savetable 0 = { sector := 0, filepos := 4 } :=
  ⟨(entry_zero_kept f st (reachable_of_safe f st h)).1,
    fun stack sector _ => (entry_zero_kept f st (reachable_of_safe f st h)).2 stack sector⟩

/-- On `form1Stream`, in the state after the read of sector 1 that recorded the
entries 1 and 2: entry 0 is (0, 4), and the read of sector 3, which stays
inside the array and records entry 3, leaves it so. -/
theorem checkpoint_entry_zero_witness :
    ∃ r1, cdread_ecm_decode detectedState.luts detectedState.session form1Stream
        (List.replicate 2352 0) 1 = some r1 ∧
      r1.session.ecm_savetable 1 = { sector := 1, filepos := 4110 } ∧
      r1.session.ecm_savetable 2 = { sector := 2, filepos := 6163 } ∧
      SafeReachable form1Stream { detectedState with session := r1.session } ∧
      InBounds detectedState.luts r1.session form1Stream (List.replicate 2352 0) 3 ∧
      (r1.session.ecm_savetable 0 = { sector := 0, filepos := 4 } ∧
        ∀ (stack : List Nat) (sector : Int),
          InBounds detectedState.luts r1.session form1Stream stack sector →
          ∃ r, cdread_ecm_decode detectedState.luts r1.session form1Stream stack sector
              = some r ∧
            r.session.ecm_savetable 0 = { sector := 0, filepos := 4 }) := by
  obtain ⟨hlen, _⟩ := form1Stream_layout
  obtain ⟨r1, c1, _, t1, t2, _, _, hsafe⟩ := form1Stream_first_read
  have hinv : TableInv r1.session.ecm_savetable :=
    (reachable_inv _ _ (reachable_of_safe _ _ hsafe)).2
  have key := checkpoint_entry_zero form1Stream { detectedState with session := r1.session } hsafe
  dsimp only at key
  exact ⟨r1, c1, t1, t2, hsafe,
    inBounds_small _ _ _ _ 3 (by decide) (by decide) hinv (by rw [hlen]; decide), key⟩

end Cdrecm
